import Mathlib

/-!
# Energy-trading ledger (`charan1.c`): ordered index, registry, pricing

A shallow embedding of the C program.  Memory is explicit:

* every tree owns a node store (`Heap`), a `node *` is an index into the store of the tree
  it belongs to, and `malloc` appends a node to that store;
* `void *` slots are `Ptr`: `NULL`, a child node, or a record reference;
* the arrays `keys` (`ORDER - 1` ints) and `pointers` (`ORDER + 1` slots) keep their fixed
  size; slots at and above `num_keys` keep whatever was written there before;
* every array access and every dereference is checked: an operation yields `none` when the C
  code would index outside an array, dereference `NULL` or a record as a node, or loop forever
  (the recursion and the pointer-chasing loops carry a fuel bound taken from the store size);
* `float` amounts are exact rationals, `int` ids are integers.
-/

namespace Ledger

/-! ## Constants -/

def ORDER : Nat := 6
def MAX_TRANSACTIONS : Nat := 1000
def MAX_BUYERS : Nat := 100
def MAX_SELLERS : Nat := 100
def ENERGY_THRESHOLD : ℚ := 300

/-! ## Structures -/

structure Transaction where
  transaction_id : Int
  buyer_id : Int
  seller_id : Int
  energy_kwh : ℚ
  price_per_kwh : ℚ
  total_price : ℚ
  datetime : String
  rate_below_300 : ℚ
  rate_above_300 : ℚ
deriving DecidableEq, Repr

/-- A `void *` slot of a node: `NULL`, a pointer to a child node of the same tree, or a
pointer to a record (a `Transaction`, `SellerKey` or `BuyerKey`). -/
inductive Ptr (V : Type) where
  | null : Ptr V
  | child (a : Nat) : Ptr V
  | val (v : V) : Ptr V
deriving DecidableEq, Repr

/-- The C `struct node`. -/
structure node (V : Type) where
  pointers : List (Ptr V)
  keys : List Int
  parent : Option Nat
  is_leaf : Bool
  num_keys : Nat
  next : Option Nat
deriving DecidableEq, Repr

/-- The node store of one tree; the address of a node is its position. -/
abbrev Heap (V : Type) := List (node V)

/-- A tree variable (`node *root`) together with the store its nodes live in. -/
structure Index (V : Type) where
  heap : Heap V
  root : Option Nat
deriving DecidableEq, Repr

/-- The empty index: `root == NULL`, nothing allocated. -/
def Index.empty {V : Type} : Index V := ⟨[], none⟩

/-! ## Checked array access -/

/-- Array write `a[i] = v`, defined only inside the array. -/
def wr {α : Type} (l : List α) (i : Nat) (v : α) : Option (List α) :=
  if i < l.length then some (l.set i v) else none

/-- The cast `(node *) p` followed by a dereference needs `p` to point to a node. -/
def asChild {V : Type} : Ptr V → Option Nat
  | Ptr.child a => some a
  | _ => none

/-- The cast of a leaf slot to a record pointer followed by a dereference. -/
def asRec {V : Type} : Ptr V → Option V
  | Ptr.val v => some v
  | _ => none

/-! ## B+ tree helpers -/

/-- Source `create_node`: allocates a node with `ORDER + 1` pointer slots and `ORDER - 1`
key slots, no parent, no keys, no next leaf.  Returns the new store and the address. -/
def create_node {V : Type} (h : Heap V) (is_leaf : Bool) : Heap V × Nat :=
  (h ++ [{ pointers := List.replicate (ORDER + 1) Ptr.null,
           keys := List.replicate (ORDER - 1) 0,
           parent := none, is_leaf := is_leaf, num_keys := 0, next := none }],
   h.length)

/-- The copy loop of `split_child`:
`for (i = from; i < stop; i++) { z->keys[j] = y->keys[i]; z->pointers[j] = y->pointers[i]; j++; }`
run for `cnt = stop - from` rounds.  Returns `z`'s arrays and the final `j`. -/
def copy_loop {V : Type} (yk : List Int) (yp : List (Ptr V)) :
    Nat → Nat → Nat → List Int → List (Ptr V) → Option (List Int × List (Ptr V) × Nat)
  | 0, _, j, zk, zp => some (zk, zp, j)
  | cnt + 1, i, j, zk, zp => do
    let k ← yk[i]?
    let zk1 ← wr zk j k
    let p ← yp[i]?
    let zp1 ← wr zp j p
    copy_loop yk yp cnt (i + 1) (j + 1) zk1 zp1

/-- The shift loops of `split_child`: `for (i = top; i > stop; i--) a[i] = a[i - 1];`
run for `cnt = top - stop` rounds. -/
def shift_right {α : Type} : Nat → Nat → List α → Option (List α)
  | 0, _, a => some a
  | cnt + 1, i, a => do
    let v ← a[i - 1]?
    let a1 ← wr a i v
    shift_right cnt (i - 1) a1

/-- Source `split_child(x, index)`.  `y = x->pointers[index]` is the child being split and `z`
the new sibling.  The nodes are written back in the order `y`, `z`, `x`. -/
def split_child {V : Type} (h : Heap V) (x : Nat) (index : Nat) : Option (Heap V) := do
  let nx ← h[x]?
  let y ← (nx.pointers[index]?).bind asChild
  let ny ← h[y]?
  let (h1, z) := create_node h ny.is_leaf
  let nz0 ← h1[z]?
  let nz := { nz0 with parent := some x }
  let mid := ORDER / 2
  if ny.is_leaf then
    let (zk, zp, _) ← copy_loop ny.keys ny.pointers (ny.num_keys - mid) mid 0 nz.keys nz.pointers
    let nz1 := { nz with keys := zk, pointers := zp, num_keys := ny.num_keys - mid,
                         next := ny.next }
    let ny1 := { ny with num_keys := mid, next := some z }
    let xp ← shift_right (nx.num_keys + 1 - (index + 1)) (nx.num_keys + 1) nx.pointers
    let xk ← shift_right (nx.num_keys - index) nx.num_keys nx.keys
    let k0 ← zk[0]?
    let xk1 ← wr xk index k0
    let xp1 ← wr xp (index + 1) (Ptr.child z)
    let nx1 := { nx with keys := xk1, pointers := xp1, num_keys := nx.num_keys + 1 }
    let h2 ← wr h1 y ny1
    let h3 ← wr h2 z nz1
    wr h3 x nx1
  else
    let (zk, zp, j) ← copy_loop ny.keys ny.pointers (ny.num_keys - (mid + 1)) (mid + 1) 0
      nz.keys nz.pointers
    let plast ← ny.pointers[ny.num_keys]?
    let zp1 ← wr zp j plast
    let nz1 := { nz with keys := zk, pointers := zp1, num_keys := ny.num_keys - mid - 1 }
    let ny1 := { ny with num_keys := mid }
    let xp ← shift_right (nx.num_keys + 1 - (index + 1)) (nx.num_keys + 1) nx.pointers
    let xk ← shift_right (nx.num_keys - index) nx.num_keys nx.keys
    let km ← ny.keys[mid]?
    let xk1 ← wr xk index km
    let xp1 ← wr xp (index + 1) (Ptr.child z)
    let nx1 := { nx with keys := xk1, pointers := xp1, num_keys := nx.num_keys + 1 }
    let h2 ← wr h1 y ny1
    let h3 ← wr h2 z nz1
    wr h3 x nx1

/-- The leaf loop of `insert_non_full`:
`while (i >= 0 && key < x->keys[i]) { keys[i+1] = keys[i]; pointers[i+1] = pointers[i]; i--; }`.
The counter is `j = i + 1`; the result is the final `i + 1` and the shifted arrays. -/
def leaf_shift {V : Type} (key : Int) :
    Nat → List Int → List (Ptr V) → Option (Nat × List Int × List (Ptr V))
  | 0, ks, ps => some (0, ks, ps)
  | j + 1, ks, ps => do
    let kj ← ks[j]?
    if key < kj then
      let ks1 ← wr ks (j + 1) kj
      let pj ← ps[j]?
      let ps1 ← wr ps (j + 1) pj
      leaf_shift key j ks1 ps1
    else some (j + 1, ks, ps)

/-- The descent loop of `insert_non_full`:
`while (i >= 0 && key < x->keys[i]) i--;  i = i + 1;` with counter `j = i + 1`. -/
def descend (key : Int) : Nat → List Int → Option Nat
  | 0, _ => some 0
  | j + 1, ks => do
    let kj ← ks[j]?
    if key < kj then descend key j ks else some (j + 1)

/-- Source `insert_non_full(x, t)`, with `key = t->transaction_id`.  One unit of fuel is used
per recursive call. -/
def insert_non_full {V : Type} : Nat → Heap V → Nat → Int → V → Option (Heap V)
  | 0, _, _, _, _ => none
  | fuel + 1, h, x, key, t => do
    let nx ← h[x]?
    if nx.is_leaf then
      let (j, ks, ps) ← leaf_shift key nx.num_keys nx.keys nx.pointers
      let ks1 ← wr ks j key
      let ps1 ← wr ps j (Ptr.val t)
      wr h x { nx with keys := ks1, pointers := ps1, num_keys := nx.num_keys + 1 }
    else
      let i ← descend key nx.num_keys nx.keys
      let c ← (nx.pointers[i]?).bind asChild
      let nc ← h[c]?
      if nc.num_keys = ORDER - 1 then
        let h1 ← split_child h x i
        let nx1 ← h1[x]?
        let ki ← nx1.keys[i]?
        let i1 := if key > ki then i + 1 else i
        let c1 ← (nx1.pointers[i1]?).bind asChild
        insert_non_full fuel h1 c1 key t
      else
        let c1 ← (nx.pointers[i]?).bind asChild
        insert_non_full fuel h c1 key t

/-- Source `insert_transaction(root, t)`, with `key = t->transaction_id`.  The recursion of
`insert_non_full` gets as much fuel as the store has nodes. -/
def insert_transaction {V : Type} (idx : Index V) (key : Int) (t : V) : Option (Index V) := do
  let (h, root) := match idx.root with
    | none => create_node idx.heap true
    | some r => (idx.heap, r)
  let nr ← h[root]?
  if nr.num_keys = ORDER - 1 then
    let (h1, new_root) := create_node h false
    let nn ← h1[new_root]?
    let np ← wr nn.pointers 0 (Ptr.child root)
    let h2 ← wr h1 new_root { nn with pointers := np }
    let h3 ← wr h2 root { nr with parent := some new_root }
    let h4 ← split_child h3 new_root 0
    let h5 ← insert_non_full h4.length h4 new_root key t
    some ⟨h5, some new_root⟩
  else
    let h1 ← insert_non_full h.length h root key t
    some ⟨h1, some root⟩

/-- Source `find_leftmost_leaf(root)`:
`while (root != NULL && root->is_leaf == false) root = root->pointers[0];`. -/
def find_leftmost_leaf {V : Type} : Nat → Heap V → Option Nat → Option (Option Nat)
  | _, _, none => some none
  | 0, _, some _ => none
  | fuel + 1, h, some r => do
    let n ← h[r]?
    if n.is_leaf then some (some r)
    else
      match n.pointers[0]? with
      | some (Ptr.child c) => find_leftmost_leaf fuel h (some c)
      | some Ptr.null => some none
      | _ => none

/-- The inner loop of every scan: `for (i = 0; i < leaf->num_keys; i++)` reading slot `i`
of one leaf, here from slot `i` for `cnt` rounds. -/
def leaf_entries {V : Type} (n : node V) : Nat → Nat → Option (List (Int × V))
  | 0, _ => some []
  | cnt + 1, i => do
    let k ← n.keys[i]?
    let v ← (n.pointers[i]?).bind asRec
    let rest ← leaf_entries n cnt (i + 1)
    some ((k, v) :: rest)

/-- The outer loop of every scan: `while (leaf) { ...; leaf = leaf->next; }`. -/
def leaf_chain {V : Type} : Nat → Heap V → Option Nat → Option (List (Int × V))
  | _, _, none => some []
  | 0, _, some _ => none
  | fuel + 1, h, some a => do
    let n ← h[a]?
    let es ← leaf_entries n n.num_keys 0
    let rest ← leaf_chain fuel h n.next
    some (es ++ rest)

/-- The ordered traversal used by every lookup and report:
`leaf = find_leftmost_leaf(root); while (leaf) { for (i...) ...; leaf = leaf->next; }`.
Yields the (key, record) pairs in visiting order. -/
def traverse {V : Type} (idx : Index V) : Option (List (Int × V)) := do
  let leaf ← find_leftmost_leaf idx.heap.length idx.heap idx.root
  leaf_chain idx.heap.length idx.heap leaf

/-- Inserting a list of (key, record) pairs one at a time, left to right. -/
def insert_all {V : Type} : Index V → List (Int × V) → Option (Index V)
  | idx, [] => some idx
  | idx, (k, v) :: rest => (insert_transaction idx k v).bind fun idx1 => insert_all idx1 rest

/-- Whether the root of an index is an internal node (the tree has depth > 1). -/
def root_is_internal {V : Type} (idx : Index V) : Bool :=
  match idx.root with
  | none => false
  | some r =>
    match idx.heap[r]? with
    | some n => !n.is_leaf
    | none => false

end Ledger

namespace Ledger

/-! ## The shape invariant of a tree in a store -/

/-- What a subtree stored at `addr` stands for: its leftmost leaf `first`, the `next` link
leaving its rightmost leaf, the addresses `fp` of its nodes, and the entries `es` its leaves
hold, left to right. -/
structure Sub (V : Type) where
  addr : Nat
  first : Nat
  nxt : Option Nat
  fp : List Nat
  es : List (Int × V)

/-- The key of the first entry of a list of entries (0 for the empty list). -/
def headKey {V : Type} : List (Int × V) → Int
  | [] => 0
  | e :: _ => e.1

/-- The smallest key below a subtree: the key of its first entry. -/
def Sub.hk {V : Type} (s : Sub V) : Int := headKey s.es

/-- The leaf chains of consecutive subtrees are linked: the chain enters at `start`, the link
leaving each subtree enters the following one, and the last link is `stop`. -/
def seg {V : Type} : List (Sub V) → Option Nat → Option Nat → Prop
  | [], start, stop => start = stop
  | s :: rest, start, stop => start = some s.first ∧ seg rest s.nxt stop

/-- The node arrays have the sizes `create_node` gives them. -/
def node.sized {V : Type} (n : node V) : Prop :=
  n.keys.length = ORDER - 1 ∧ n.pointers.length = ORDER + 1

/-- A leaf node holding exactly the entries `es` in its first `num_keys` slots. -/
def leaf_holds {V : Type} (n : node V) (es : List (Int × V)) : Prop :=
  n.is_leaf = true ∧ n.sized ∧ n.num_keys ≤ ORDER - 1 ∧
  n.keys.take n.num_keys = es.map Prod.fst ∧
  n.pointers.take n.num_keys = es.map (fun e => Ptr.val e.2)

/-- An internal node whose children are the roots of `subs`, with `num_keys + 1` children and
each separator equal to the smallest key below the child to its right. -/
def inner_holds {V : Type} (n : node V) (subs : List (Sub V)) : Prop :=
  n.is_leaf = false ∧ n.sized ∧ n.num_keys ≤ ORDER - 1 ∧
  n.pointers.take (n.num_keys + 1) = subs.map (fun s => Ptr.child s.addr) ∧
  (subs.map Sub.hk).tail = n.keys.take n.num_keys

/-- The store `h` holds, at `S.addr`, a tree of height `d` (all leaves at depth `d`) that
stands for `S`: every node has between 1 and `ORDER - 1` keys, an internal node with `n` keys
has `n + 1` children, the leaves are chained left to right by `next`, and no node is reached
twice. -/
def Rep {V : Type} (h : Heap V) : Nat → Sub V → Prop
  | 0, S => ∃ n, h[S.addr]? = some n ∧ leaf_holds n S.es ∧ 1 ≤ n.num_keys ∧
      S.first = S.addr ∧ n.next = S.nxt ∧ S.fp = [S.addr]
  | d + 1, S => ∃ n subs, h[S.addr]? = some n ∧ inner_holds n subs ∧ 1 ≤ n.num_keys ∧
      seg subs (some S.first) S.nxt ∧
      S.es = (subs.map Sub.es).flatten ∧
      S.fp = S.addr :: (subs.map Sub.fp).flatten ∧ S.fp.Nodup ∧
      ∀ s ∈ subs, Rep h d s

/-- Keys in non-decreasing order. -/
def ascending {V : Type} (es : List (Int × V)) : Prop :=
  (es.map Prod.fst).Sorted (· ≤ ·)

/-- The index is well formed and its leaves hold the entries `es`, left to right: either it is
empty, or its root is the root of a tree of some height whose chain ends in `NULL`, with the
keys in non-decreasing order. -/
def WF {V : Type} (idx : Index V) (es : List (Int × V)) : Prop :=
  (idx.root = none ∧ es = []) ∨
  ∃ d S, idx.root = some S.addr ∧ Rep idx.heap d S ∧ S.nxt = none ∧ S.es = es ∧ ascending es

/-- Where a new entry lands: `es1` is `es` with `(key, t)` put in at a place where everything
before it has a key `≤ key` and everything after it a key `≥ key`. -/
def placed {V : Type} (key : Int) (t : V) (es es1 : List (Int × V)) : Prop :=
  ∃ l r, es = l ++ r ∧ es1 = l ++ (key, t) :: r ∧ (∀ e ∈ l, e.1 ≤ key) ∧ (∀ e ∈ r, key ≤ e.1)

/-- How an operation on the subtree `S` of the store `h` may change the store: the subtree
keeps its root, its leftmost leaf and its outgoing link, the store only grows, nodes outside
the subtree are untouched, and the nodes of the new subtree are old ones or newly allocated. -/
def grows {V : Type} (h h1 : Heap V) (S S1 : Sub V) : Prop :=
  S1.addr = S.addr ∧ S1.first = S.first ∧ S1.nxt = S.nxt ∧ h.length ≤ h1.length ∧
  (∀ b, b < h.length → b ∉ S.fp → h1[b]? = h[b]?) ∧
  (∀ b ∈ S1.fp, b ∈ S.fp ∨ h.length ≤ b)

/-- What `split_child` does to an internal node `n` at `S.addr` with children `A ++ s :: C`
whose child `s` is full: the children become `A ++ sy :: sz :: C`, where `sy` is what is left
at the address of `s`, `sz` is the new sibling at the end of the store, and together they hold
the entries of `s`. -/
def split_post {V : Type} (h h1 : Heap V) (d : Nat) (S : Sub V) (n1 : node V)
    (A C : List (Sub V)) (s sy sz : Sub V) : Prop :=
  h1.length = h.length + 1 ∧ h1[S.addr]? = some n1 ∧
  inner_holds n1 (A ++ sy :: sz :: C) ∧
  seg (A ++ sy :: sz :: C) (some S.first) S.nxt ∧
  (∀ c ∈ A ++ sy :: sz :: C, Rep h1 d c) ∧
  sy.es ++ sz.es = s.es ∧ sy.hk = s.hk ∧
  (∀ b ∈ sy.fp ++ sz.fp, b ∈ s.fp ∨ b = h.length) ∧ (sy.fp ++ sz.fp).Nodup ∧
  (∀ b, b < h.length → b ≠ S.addr → b ∉ s.fp → h1[b]? = h[b]?) ∧
  (∀ nc, h1[sy.addr]? = some nc → nc.num_keys < ORDER - 1) ∧
  (∀ nc, h1[sz.addr]? = some nc → nc.num_keys < ORDER - 1)

/-- What `insert_non_full` does on a tree of height `d` whose root is not full: it succeeds
with enough fuel, the result is again a tree of height `d` at the same root, and the new entry
is placed in key order. -/
def InsSpec (V : Type) (d : Nat) : Prop :=
  ∀ (fuel : Nat) (h : Heap V) (S : Sub V) (key : Int) (t : V),
    Rep h d S → ascending S.es →
    (∀ n, h[S.addr]? = some n → n.num_keys < ORDER - 1) → d + 1 ≤ fuel →
    ∃ h1 S1, insert_non_full fuel h S.addr key t = some h1 ∧ Rep h1 d S1 ∧
      grows h h1 S S1 ∧ placed key t S.es S1.es

end Ledger

namespace Ledger

/-! ## Registry records and the program state -/

/-- The C `struct SellerKey`.  `regular_buyers` is the array `int[MAX_BUYERS]`, of which the
first `regular_buyer_count` slots are in use; `transaction_tree` is the seller's own index. -/
structure SellerKey where
  seller_id : Int
  rate_below_300 : ℚ
  rate_above_300 : ℚ
  regular_buyers : List Int
  regular_buyer_count : Nat
  transaction_tree : Index Transaction
  transaction_count : Nat
deriving DecidableEq, Repr

/-- The C `struct BuyerKey`. -/
structure BuyerKey where
  buyer_id : Int
  total_energy_purchased : ℚ
  transaction_tree : Index Transaction
  transaction_count : Nat
deriving DecidableEq, Repr

/-- The globals of the program, with the `malloc`ed `SellerKey` and `BuyerKey` objects in two
stores (`seller_mem`, `buyer_mem`): a `SellerKey *` is a position in `seller_mem`.  The
directory trees hold such positions; the transaction trees hold the (immutable) records.
`all_transactions` starts as `MAX_TRANSACTIONS` null slots. -/
structure State where
  seller_tree : Index Nat
  buyer_tree : Index Nat
  global_transaction_tree : Index Transaction
  all_transactions : List (Option Transaction)
  transaction_index : Nat
  seller_mem : List SellerKey
  buyer_mem : List BuyerKey
deriving DecidableEq, Repr

/-- The state at program start, before anything is loaded. -/
def State.init : State :=
  { seller_tree := Index.empty, buyer_tree := Index.empty,
    global_transaction_tree := Index.empty,
    all_transactions := List.replicate MAX_TRANSACTIONS none,
    transaction_index := 0, seller_mem := [], buyer_mem := [] }

/-- The write `all_transactions[i] = t`.  The array has `MAX_TRANSACTIONS` slots and the
source does not test the index: a write at or past the end of the array is outside the
array, which is undefined behaviour in C, and has no result here. -/
def store_slot (a : List (Option Transaction)) (i : Nat) (t : Transaction) :
    Option (List (Option Transaction)) :=
  wr a i (some t)

/-- The lookup loop of `get_or_create_seller` and `get_or_create_buyer` over the entries of
the directory in traversal order: the first record whose id field equals `id`, as a position
in the record store. -/
def scan_for_id {R : Type} (idf : R → Int) (mem : List R) (id : Int) :
    List (Int × Nat) → Option (Option Nat)
  | [] => some none
  | (_, a) :: rest => do
    let s ← mem[a]?
    if idf s = id then some (some a) else scan_for_id idf mem id rest

/-- The rate update of `get_or_create_seller` on a seller that exists:
`if (rate_below_300 > 0) s->rate_below_300 = ...; if (rate_above_300 > 0) ...`. -/
def update_rates (s : SellerKey) (rate_below_300 rate_above_300 : ℚ) : SellerKey :=
  let s1 := if rate_below_300 > 0 then { s with rate_below_300 := rate_below_300 } else s
  if rate_above_300 > 0 then { s1 with rate_above_300 := rate_above_300 } else s1

/-- The `SellerKey` that `get_or_create_seller` allocates for a new seller. -/
def new_seller (seller_id : Int) (rate_below_300 rate_above_300 : ℚ) : SellerKey :=
  { seller_id := seller_id, rate_below_300 := rate_below_300,
    rate_above_300 := rate_above_300, regular_buyers := List.replicate MAX_BUYERS 0,
    regular_buyer_count := 0, transaction_tree := Index.empty, transaction_count := 0 }

/-- The `BuyerKey` that `get_or_create_buyer` allocates for a new buyer. -/
def new_buyer (buyer_id : Int) : BuyerKey :=
  { buyer_id := buyer_id, total_energy_purchased := 0, transaction_tree := Index.empty,
    transaction_count := 0 }

/-- Source `get_or_create_seller`.  Returns the new state and the `SellerKey *`. -/
def get_or_create_seller (st : State) (seller_id : Int) (rate_below_300 rate_above_300 : ℚ) :
    Option (State × Nat) := do
  let es ← traverse st.seller_tree
  let found ← scan_for_id SellerKey.seller_id st.seller_mem seller_id es
  match found with
  | some a =>
    let s ← st.seller_mem[a]?
    let mem ← wr st.seller_mem a (update_rates s rate_below_300 rate_above_300)
    some ({ st with seller_mem := mem }, a)
  | none =>
    let tree ← insert_transaction st.seller_tree seller_id st.seller_mem.length
    some ({ st with seller_mem := st.seller_mem ++
                      [new_seller seller_id rate_below_300 rate_above_300],
                    seller_tree := tree }, st.seller_mem.length)

/-- Source `get_or_create_buyer`.  Returns the new state and the `BuyerKey *`. -/
def get_or_create_buyer (st : State) (buyer_id : Int) : Option (State × Nat) := do
  let es ← traverse st.buyer_tree
  let found ← scan_for_id BuyerKey.buyer_id st.buyer_mem buyer_id es
  match found with
  | some a => some (st, a)
  | none =>
    let tree ← insert_transaction st.buyer_tree buyer_id st.buyer_mem.length
    some ({ st with buyer_mem := st.buyer_mem ++ [new_buyer buyer_id],
                    buyer_tree := tree }, st.buyer_mem.length)

/-- The loop `for (i = 0; i < count; i++) if (regular_buyers[i] == buyer_id) { found; break; }`
of `calculate_price` and `add_transaction`, from slot `i` for `cnt` rounds. -/
def regular_loop (regular_buyers : List Int) (buyer_id : Int) : Nat → Nat → Option Bool
  | 0, _ => some false
  | cnt + 1, i => do
    let b ← regular_buyers[i]?
    if b = buyer_id then some true else regular_loop regular_buyers buyer_id cnt (i + 1)

/-- The tiered price before any discount. -/
def tiered_price (s : SellerKey) (energy_kwh : ℚ) : ℚ :=
  if energy_kwh ≤ ENERGY_THRESHOLD then energy_kwh * s.rate_below_300
  else ENERGY_THRESHOLD * s.rate_below_300 + (energy_kwh - ENERGY_THRESHOLD) * s.rate_above_300

/-- Source `calculate_price`. -/
def calculate_price (s : SellerKey) (energy_kwh : ℚ) (buyer_id : Int) : Option ℚ := do
  let is_regular ← regular_loop s.regular_buyers buyer_id s.regular_buyer_count 0
  let total_price := tiered_price s energy_kwh
  if is_regular then some (total_price * (95 / 100)) else some total_price

/-- The duplicate check of `add_transaction` over the entries of the global index. -/
def has_id (es : List (Int × Transaction)) (id : Int) : Bool :=
  es.any fun e => e.2.transaction_id == id

/-- The loyalty block at the end of `add_transaction`, for the seller at `sa` and the buyer
record `b` (already counted). -/
def promote (st : State) (sa : Nat) (b : BuyerKey) : Option State :=
  if b.transaction_count > 5 then do
    let s ← st.seller_mem[sa]?
    let already_added ← regular_loop s.regular_buyers b.buyer_id s.regular_buyer_count 0
    if !already_added && s.regular_buyer_count < MAX_BUYERS then
      let rb ← wr s.regular_buyers s.regular_buyer_count b.buyer_id
      let mem ← wr st.seller_mem sa
        { s with regular_buyers := rb, regular_buyer_count := s.regular_buyer_count + 1 }
      some { st with seller_mem := mem }
    else some st
  else some st

/-- Source `add_transaction`.  Returns the C return value and the new state. -/
def add_transaction (st : State) (t : Transaction) : Option (Bool × State) := do
  let es ← traverse st.global_transaction_tree
  if has_id es t.transaction_id then some (false, st)
  else
    let a ← store_slot st.all_transactions st.transaction_index t
    let g ← insert_transaction st.global_transaction_tree t.transaction_id t
    let st1 := { st with all_transactions := a,
                         transaction_index := st.transaction_index + 1,
                         global_transaction_tree := g }
    let (st2, sa) ← get_or_create_seller st1 t.seller_id t.rate_below_300 t.rate_above_300
    let s ← st2.seller_mem[sa]?
    let stree ← insert_transaction s.transaction_tree t.transaction_id t
    let smem ← wr st2.seller_mem sa
      { s with transaction_tree := stree, transaction_count := s.transaction_count + 1 }
    let st3 := { st2 with seller_mem := smem }
    let (st4, ba) ← get_or_create_buyer st3 t.buyer_id
    let b ← st4.buyer_mem[ba]?
    let btree ← insert_transaction b.transaction_tree t.transaction_id t
    let b1 := { b with transaction_tree := btree,
                       total_energy_purchased := b.total_energy_purchased + t.energy_kwh,
                       transaction_count := b.transaction_count + 1 }
    let bmem ← wr st4.buyer_mem ba b1
    let st5 ← promote { st4 with buyer_mem := bmem } sa b1
    some (true, st5)

end Ledger

namespace Ledger

/-! ## Invariants of the registry -/

/-- A directory tree over a record store: the tree is well formed, its entries point to every
record of the store exactly once, each under the record's id as key, and the ids of the
records are pairwise distinct. -/
def DirOK {R : Type} (idf : R → Int) (tree : Index Nat) (mem : List R) : Prop :=
  ∃ es, WF tree es ∧ (es.map Prod.snd).Perm (List.range mem.length) ∧
    (∀ e ∈ es, (mem[e.2]?).map idf = some e.1) ∧ (mem.map idf).Nodup

/-- The regular-buyer set of a seller: the slots of `regular_buyers` in use. -/
def regulars (s : SellerKey) : List Int := s.regular_buyers.take s.regular_buyer_count

/-- A seller record is sound: its own index is well formed and its regular-buyer count is
within the array. -/
def SellerOK (s : SellerKey) : Prop :=
  (∃ ts, WF s.transaction_tree ts) ∧ s.regular_buyers.length = MAX_BUYERS ∧
  s.regular_buyer_count ≤ MAX_BUYERS

/-- A buyer record is sound: its own index is well formed. -/
def BuyerOK (b : BuyerKey) : Prop := ∃ ts, WF b.transaction_tree ts

/-- The number of recorded transactions of a buyer, counted in the global index. -/
def recorded (G : List (Int × Transaction)) (buyer_id : Int) : Nat :=
  (G.filter fun e => e.2.buyer_id = buyer_id).length

/-- The invariant of the program state, with `G` the entries of the global index. -/
structure Inv (st : State) (G : List (Int × Transaction)) : Prop where
  global : WF st.global_transaction_tree G
  keyed : ∀ e ∈ G, e.1 = e.2.transaction_id
  distinct : (G.map Prod.fst).Nodup
  index : st.transaction_index = G.length
  store : st.all_transactions.length = MAX_TRANSACTIONS
  sellers : DirOK SellerKey.seller_id st.seller_tree st.seller_mem
  buyers : DirOK BuyerKey.buyer_id st.buyer_tree st.buyer_mem
  seller_ok : ∀ s ∈ st.seller_mem, SellerOK s
  buyer_ok : ∀ b ∈ st.buyer_mem, BuyerOK b
  counted : ∀ b ∈ st.buyer_mem, b.transaction_count = recorded G b.buyer_id
  known : ∀ e ∈ G, e.2.buyer_id ∈ st.buyer_mem.map BuyerKey.buyer_id
  loyal : ∀ s ∈ st.seller_mem, ∀ x ∈ regulars s, 5 < recorded G x

end Ledger

namespace Ledger

/-! ## Describing one call -/

/-- The store `M1` is `M` with slot `a` set to `r` (a slot that existed, or the next free
one); every other slot is as before. -/
def slot_update {R : Type} (M M1 : List R) (a : Nat) (r : R) : Prop :=
  M1[a]? = some r ∧ ∀ i, i ≠ a → M1[i]? = M[i]?

/-- The lookup loop of `get_or_create_seller` and `get_or_create_buyer` run on a directory:
the record it finds for an id, `none` inside when the directory has no record with that id. -/
def lookup_in {R : Type} (idf : R → Int) (tree : Index Nat) (mem : List R) (id : Int) :
    Option (Option R) := do
  let es ← traverse tree
  let found ← scan_for_id idf mem id es
  match found with
  | some a => (mem[a]?).map some
  | none => some none

/-- The seller entry that the lookup loop of `get_or_create_seller` finds for an id. -/
def lookup_seller (st : State) (seller_id : Int) : Option (Option SellerKey) :=
  lookup_in SellerKey.seller_id st.seller_tree st.seller_mem seller_id

/-- The buyer entry that the lookup loop of `get_or_create_buyer` finds for an id. -/
def lookup_buyer (st : State) (buyer_id : Int) : Option (Option BuyerKey) :=
  lookup_in BuyerKey.buyer_id st.buyer_tree st.buyer_mem buyer_id

/-- The states the program can be in: the initial state and every state that a successful
call of `add_transaction`, `get_or_create_seller` or `get_or_create_buyer` leaves. -/
inductive Reach : State → Prop where
  | init : Reach State.init
  | add (st st1 : State) (t : Transaction) (ok : Bool) :
      Reach st → add_transaction st t = some (ok, st1) → Reach st1
  | seller (st st1 : State) (id : Int) (rb ra : ℚ) (a : Nat) :
      Reach st → get_or_create_seller st id rb ra = some (st1, a) → Reach st1
  | buyer (st st1 : State) (id : Int) (a : Nat) :
      Reach st → get_or_create_buyer st id = some (st1, a) → Reach st1

/-- A sequence of `add_transaction` calls: the return values and the last state. -/
def run_adds : State → List Transaction → Option (List Bool × State)
  | st, [] => some ([], st)
  | st, t :: ts => do
    let (ok, st1) ← add_transaction st t
    let (oks, st2) ← run_adds st1 ts
    some (ok :: oks, st2)

/-- The number of calls in a sequence of `add_transaction` calls that carry a new id: an id
that is not in `seen` and not the id of an earlier call of the sequence.  These are the calls
that take a slot of the store. -/
def new_ids : List Int → List Transaction → Nat
  | _, [] => 0
  | seen, t :: ts =>
    if t.transaction_id ∈ seen then new_ids seen ts
    else new_ids (t.transaction_id :: seen) ts + 1

/-- What a successful `add_transaction st t` leaves, with `G` and `G1` the entries of the
global index before and after: the seller slot `sa` holds `sf`, made from `sc` (the found
record after the rate update, or a new record), and the buyer slot `ba` holds `bf`, made from
`bc` (the found record, or a new one). -/
structure AddPost (st st1 : State) (t : Transaction) (G G1 : List (Int × Transaction))
    (sa : Nat) (sc sf : SellerKey) (ba : Nat) (bc bf : BuyerKey) : Prop where
  global_placed : placed t.transaction_id t G G1
  inv : Inv st1 G1
  store : st1.all_transactions = st.all_transactions.set st.transaction_index (some t)
  s_slot : slot_update st.seller_mem st1.seller_mem sa sf
  s_found : ∀ s, st.seller_mem[sa]? = some s →
    s.seller_id = t.seller_id ∧ sc = update_rates s t.rate_below_300 t.rate_above_300
  s_new : st.seller_mem[sa]? = none →
    sc = new_seller t.seller_id t.rate_below_300 t.rate_above_300 ∧
    ∀ s ∈ st.seller_mem, s.seller_id ≠ t.seller_id
  s_id : sf.seller_id = t.seller_id
  s_rates : sf.rate_below_300 = sc.rate_below_300 ∧ sf.rate_above_300 = sc.rate_above_300
  s_count : sf.transaction_count = sc.transaction_count + 1
  s_tree : ∃ ts ts1, WF sc.transaction_tree ts ∧ WF sf.transaction_tree ts1 ∧
    placed t.transaction_id t ts ts1
  s_regulars : regulars sf =
    if 5 < bf.transaction_count ∧ t.buyer_id ∉ regulars sc ∧
        sc.regular_buyer_count < MAX_BUYERS
    then regulars sc ++ [t.buyer_id] else regulars sc
  b_slot : slot_update st.buyer_mem st1.buyer_mem ba bf
  b_found : ∀ b, st.buyer_mem[ba]? = some b → b.buyer_id = t.buyer_id ∧ bc = b
  b_new : st.buyer_mem[ba]? = none →
    bc = new_buyer t.buyer_id ∧ ∀ b ∈ st.buyer_mem, b.buyer_id ≠ t.buyer_id
  b_id : bf.buyer_id = t.buyer_id
  b_count : bf.transaction_count = bc.transaction_count + 1
  b_energy : bf.total_energy_purchased = bc.total_energy_purchased + t.energy_kwh
  b_tree : ∃ ts ts1, WF bc.transaction_tree ts ∧ WF bf.transaction_tree ts1 ∧
    placed t.transaction_id t ts ts1

end Ledger

namespace Ledger

/-! ## Sequences of calls -/

/-- One call of `add_transaction`, `get_or_create_seller` or `get_or_create_buyer`, whatever
it returns: the state before and the state after. -/
inductive Step : State → State → Prop where
  | add (st st1 : State) (t : Transaction) (ok : Bool) :
      add_transaction st t = some (ok, st1) → Step st st1
  | seller (st st1 : State) (id : Int) (rb ra : ℚ) (a : Nat) :
      get_or_create_seller st id rb ra = some (st1, a) → Step st st1
  | buyer (st st1 : State) (id : Int) (a : Nat) :
      get_or_create_buyer st id = some (st1, a) → Step st st1

/-- Every seller record of `st` is still at its place in `st1`, under the same id, and its
regular-buyer list in `st` is a prefix of its regular-buyer list in `st1`. -/
def regulars_kept (st st1 : State) : Prop :=
  ∀ (a : Nat) (s : SellerKey), st.seller_mem[a]? = some s →
    ∃ s1, st1.seller_mem[a]? = some s1 ∧ s1.seller_id = s.seller_id ∧
      regulars s <+: regulars s1

/-- The tiered price for the rates `r1` (up to the threshold) and `r2` (above it). -/
def tiered (r1 r2 energy_kwh : ℚ) : ℚ :=
  if energy_kwh ≤ 300 then energy_kwh * r1 else 300 * r1 + (energy_kwh - 300) * r2

end Ledger

namespace Ledger

/-! ## Sequences of lookup-or-create calls -/

/-- One call of `get_or_create_seller` or of `get_or_create_buyer`, with its arguments. -/
inductive Call where
  | seller (seller_id : Int) (rate_below_300 rate_above_300 : ℚ) : Call
  | buyer (buyer_id : Int) : Call
deriving DecidableEq, Repr

/-- A sequence of lookup-or-create calls, left to right: the last state. -/
def run_calls : State → List Call → Option State
  | st, [] => some st
  | st, Call.seller id rb ra :: rest => do
    let (st1, _) ← get_or_create_seller st id rb ra
    run_calls st1 rest
  | st, Call.buyer id :: rest => do
    let (st1, _) ← get_or_create_buyer st id
    run_calls st1 rest

/-! ## Timestamps

A C string is the list of its `char`s before the terminating NUL.  A `char` is a signed byte:
converted to `int`, the bytes 0..127 are the values 0..127 and the bytes 128..255 are the
values -128..-1.  The text of a record (a Lean `String`, without the character NUL) is held
by the C string of the bytes of its UTF-8 encoding. -/

/-- The bytes of the UTF-8 encoding of a character. -/
def utf8 (c : Char) : List Nat :=
  if c.toNat < 128 then [c.toNat]
  else if c.toNat < 2048 then [192 + c.toNat / 64, 128 + c.toNat % 64]
  else if c.toNat < 65536 then
    [224 + c.toNat / 4096, 128 + c.toNat / 64 % 64, 128 + c.toNat % 64]
  else [240 + c.toNat / 262144, 128 + c.toNat / 4096 % 64, 128 + c.toNat / 64 % 64,
    128 + c.toNat % 64]

/-- The value of a byte as a `char`, which is signed. -/
def to_char (b : Nat) : Int := if b < 128 then (b : Int) else (b : Int) - 256

/-- The C string that holds a text: its UTF-8 bytes, as `char`s. -/
def c_str (s : String) : List Int := (s.data.flatMap utf8).map to_char

/-- Source `is_leap_year`.  The tests compare a remainder with 0, which does not depend on the
rounding of `%`. -/
def is_leap_year (year : Int) : Bool :=
  (year % 4 == 0 && year % 100 != 0) || (year % 400 == 0)

/-- The loop of `extract_int`: `value = value * 10 + (str[start + i] - '0')`, here from
position `i` for `cnt` rounds; `'0'` is 48. -/
def extract_loop (str : List Int) : Nat → Nat → Int → Option Int
  | 0, _, value => some value
  | cnt + 1, i, value => do
    let c ← str[i]?
    extract_loop str cnt (i + 1) (value * 10 + (c - 48))

/-- Source `extract_int(str, start, len)`. -/
def extract_int (str : List Int) (start len : Nat) : Option Int :=
  extract_loop str len start 0

/-- The table `days_in_month` of `validate_datetime`. -/
def days_in_month : List Int := [31, 28, 31, 30, 31, 30, 31, 31, 30, 31, 30, 31]

/-- Source `validate_datetime`, on the `char`s of the string: `strlen` is their number, `'-'`
is 45, `' '` is 32 and `':'` is 58. -/
def validate_datetime (datetime : List Int) : Option Bool :=
  if datetime.length ≠ 16 then some false
  else if datetime[4]? ≠ some 45 ∨ datetime[7]? ≠ some 45 ∨ datetime[10]? ≠ some 32 ∨
      datetime[13]? ≠ some 58 then
    some false
  else do
    let year ← extract_int datetime 0 4
    let month ← extract_int datetime 5 2
    let day ← extract_int datetime 8 2
    let hour ← extract_int datetime 11 2
    let minute ← extract_int datetime 14 2
    if year < 1 then some false
    else if month < 1 ∨ month > 12 then some false
    else if hour < 0 ∨ hour > 23 then some false
    else if minute < 0 ∨ minute > 59 then some false
    else
      let table := if is_leap_year year then days_in_month.set 1 29 else days_in_month
      let last ← table[(month - 1).toNat]?
      if day < 1 ∨ day > last then some false else some true

/-- The five numbers `validate_datetime` reads from the `char`s of a string: year, month,
day, hour, minute. -/
def instant (datetime : List Int) : Option (Int × Int × Int × Int × Int) := do
  let year ← extract_int datetime 0 4
  let month ← extract_int datetime 5 2
  let day ← extract_int datetime 8 2
  let hour ← extract_int datetime 11 2
  let minute ← extract_int datetime 14 2
  some (year, month, day, hour, minute)

/-- The C library `strcmp`, on the characters of two texts: the difference of the first two
characters that differ, the end of a text counting as 0.  The UTF-8 encoding keeps the order of
the characters, so the sign of the result is the sign of the byte-wise comparison (as
`unsigned char`) of the two C strings; on ASCII text the result is the same number. -/
def strcmp : List Char → List Char → Int
  | [], [] => 0
  | [], b :: _ => - (b.toNat : Int)
  | a :: _, [] => (a.toNat : Int)
  | a :: as, b :: bs =>
    if a.toNat = b.toNat then strcmp as bs else (a.toNat : Int) - (b.toNat : Int)

/-! ### What the claims about timestamps speak of -/

/-- The character of a decimal digit. -/
def digit_char (d : Nat) : Char := "0123456789".data.getD d '0'

/-- The text `DDDD-DD-DD DD:DD` with the given twelve digits. -/
def stamp (y0 y1 y2 y3 m0 m1 d0 d1 h0 h1 n0 n1 : Nat) : String :=
  ⟨[digit_char y0, digit_char y1, digit_char y2, digit_char y3, '-', digit_char m0,
    digit_char m1, '-', digit_char d0, digit_char d1, ' ', digit_char h0, digit_char h1, ':',
    digit_char n0, digit_char n1]⟩

/-- A Gregorian leap year: divisible by 4 and not by 100, or divisible by 400. -/
def leap_year (year : Int) : Prop := (4 ∣ year ∧ ¬ 100 ∣ year) ∨ 400 ∣ year

instance (year : Int) : Decidable (leap_year year) := by unfold leap_year; infer_instance

/-- The number of days of a month (1 to 12) in a year. -/
def month_days (year month : Int) : Int :=
  if month = 2 then (if leap_year year then 29 else 28)
  else if month = 4 ∨ month = 6 ∨ month = 9 ∨ month = 11 then 30
  else 31

/-- The twelve characters of a string at the places of the digits of `DDDD-DD-DD DD:DD` are
decimal digits. -/
def digit_fields (s : String) : Prop :=
  ∀ i ∈ [0, 1, 2, 3, 5, 6, 8, 9, 11, 12, 14, 15], ∃ c, s.data[i]? = some c ∧ c.isDigit = true

/-- The number `extract_int` reads from two `char`s: each counts as its value minus the
value 48 of `'0'`. -/
def field2 (a b : Int) : Int := (a - 48) * 10 + (b - 48)

/-- The number `extract_int` reads from four `char`s. -/
def field4 (a b c d : Int) : Int := (((a - 48) * 10 + (b - 48)) * 10 + (c - 48)) * 10 + (d - 48)

/-- The range check of a timestamp: the year is at least 1, the month in 1..12, the hour in
0..23, the minute in 0..59 and the day in 1..(days of that month in that year). -/
def in_range (year month day hour minute : Int) : Prop :=
  1 ≤ year ∧ (1 ≤ month ∧ month ≤ 12) ∧ (0 ≤ hour ∧ hour ≤ 23) ∧
  (0 ≤ minute ∧ minute ≤ 59) ∧ 1 ≤ day ∧ day ≤ month_days year month

instance (year month day hour minute : Int) : Decidable (in_range year month day hour minute) := by
  unfold in_range; infer_instance

/-- One instant is not later than another: the tuples (year, month, day, hour, minute)
compared lexicographically. -/
def not_later (a b : Int × Int × Int × Int × Int) : Prop :=
  a.1 < b.1 ∨ (a.1 = b.1 ∧ (a.2.1 < b.2.1 ∨ (a.2.1 = b.2.1 ∧
    (a.2.2.1 < b.2.2.1 ∨ (a.2.2.1 = b.2.2.1 ∧ (a.2.2.2.1 < b.2.2.2.1 ∨
      (a.2.2.2.1 = b.2.2.2.1 ∧ a.2.2.2.2 ≤ b.2.2.2.2)))))))

instance (a b : Int × Int × Int × Int × Int) : Decidable (not_later a b) := by
  unfold not_later; infer_instance

/-! ## Reports

A report is modelled by the list of the rows it prints, in printing order. -/

/-- Source `energy_range_transactions(min_kwh, max_kwh)`: the transactions printed. -/
def energy_range_transactions (st : State) (min_kwh max_kwh : ℚ) :
    Option (List Transaction) := do
  let es ← traverse st.global_transaction_tree
  some ((es.map Prod.snd).filter fun t => t.energy_kwh ≥ min_kwh ∧ t.energy_kwh ≤ max_kwh)

/-- Source `transactions_in_time_range(start_str, end_str)`: the transactions printed. -/
def transactions_in_time_range (st : State) (start_str end_str : String) :
    Option (List Transaction) := do
  let es ← traverse st.global_transaction_tree
  some ((es.map Prod.snd).filter fun t =>
    strcmp t.datetime.data start_str.data ≥ 0 ∧ strcmp t.datetime.data end_str.data ≤ 0)

/-! ## The sub-indexes and the global index -/

/-- The entries of the global index `G` for one seller id. -/
def of_seller (G : List (Int × Transaction)) (seller_id : Int) : List (Int × Transaction) :=
  G.filter fun e => e.2.seller_id = seller_id

/-- The entries of the global index `G` for one buyer id. -/
def of_buyer (G : List (Int × Transaction)) (buyer_id : Int) : List (Int × Transaction) :=
  G.filter fun e => e.2.buyer_id = buyer_id

/-- The books agree, with `G` the entries of the global index: the index of every seller
(buyer) record holds exactly the entries of `G` for its id, in the same order; the count of a
seller is the number of its entries; the cumulative energy of a buyer is the sum over its
entries; and every seller id in `G` has a record. -/
structure Books (st : State) (G : List (Int × Transaction)) : Prop where
  seller_index : ∀ s ∈ st.seller_mem, WF s.transaction_tree (of_seller G s.seller_id)
  seller_count : ∀ s ∈ st.seller_mem, s.transaction_count = (of_seller G s.seller_id).length
  seller_known : ∀ e ∈ G, e.2.seller_id ∈ st.seller_mem.map SellerKey.seller_id
  buyer_index : ∀ b ∈ st.buyer_mem, WF b.transaction_tree (of_buyer G b.buyer_id)
  buyer_energy : ∀ b ∈ st.buyer_mem, b.total_energy_purchased =
    ((of_buyer G b.buyer_id).map fun e => e.2.energy_kwh).sum

/-! ## Loops over a leaf chain -/

/-- The loop `while (leaf != NULL && go) { body; leaf = leaf->next; }` over a leaf chain.
The state `s` stands for the variables the loop updates, `go` for the extra loop condition
(constantly true when the loop has none) and `body` for the loop body, which gets the address
of the leaf and the leaf. -/
def scan_leaves {V σ : Type} (go : σ → Bool) (body : σ → Nat → node V → Option σ) :
    Nat → Heap V → Option Nat → σ → Option σ
  | 0, _, leaf, s =>
    match leaf with
    | none => some s
    | some _ => if go s then none else some s
  | fuel + 1, h, leaf, s =>
    match leaf with
    | none => some s
    | some a =>
      if go s then do
        let n ← h[a]?
        let s1 ← body s a n
        scan_leaves go body fuel h n.next s1
      else some s

/-- A scan of a whole index: `leaf = find_leftmost_leaf(root); while (leaf && go) ...`. -/
def scan {V σ : Type} (idx : Index V) (go : σ → Bool) (body : σ → Nat → node V → Option σ)
    (s : σ) : Option σ := do
  let leaf ← find_leftmost_leaf idx.heap.length idx.heap idx.root
  scan_leaves go body idx.heap.length idx.heap leaf s

/-- The loop `for (i = 0; i < leaf->num_keys; i++) { r = leaf->pointers[i]; step; if (stop)
break; }` over the slots of one leaf, here from slot `i` for `cnt` rounds. -/
def leaf_loop {V σ : Type} (step : σ → V → Option σ) (stop : σ → Bool) (n : node V) :
    Nat → Nat → σ → Option σ
  | 0, _, s => some s
  | cnt + 1, i, s => do
    let r ← (n.pointers[i]?).bind asRec
    let s1 ← step s r
    if stop s1 then some s1 else leaf_loop step stop n cnt (i + 1) s1

/-- The loop of `scan_leaves` run over a given list of leaves (address and node). -/
def scan_list {V σ : Type} (go : σ → Bool) (body : σ → Nat → node V → Option σ) :
    List (Nat × node V) → σ → Option σ
  | [], s => some s
  | (a, n) :: rest, s =>
    if go s then (body s a n).bind fun s1 => scan_list go body rest s1 else some s

/-- A list of leaves of the store `h`, each with its address, its node and the entries it
holds. -/
def leaves_hold {V : Type} (h : Heap V) (L : List (Nat × node V × List (Int × V))) : Prop :=
  ∀ x ∈ L, h[x.1]? = some x.2.1 ∧ leaf_holds x.2.1 x.2.2 ∧ 1 ≤ x.2.1.num_keys

/-- The addresses of the leaves of the tree of height `d` at `a`, left to right: the leaves
below the children `pointers[0..num_keys]` of every internal node. -/
def leaf_list {V : Type} (h : Heap V) : Nat → Nat → List Nat
  | 0, a => [a]
  | d + 1, a =>
    match h[a]? with
    | none => []
    | some n => ((n.pointers.take (n.num_keys + 1)).map fun p =>
        match p with
        | Ptr.child c => leaf_list h d c
        | _ => []).flatten

/-- The node invariant for the tree of height `d` at `a`: every node has between 1 and
`ORDER - 1` keys, a node at depth `d` is a leaf with its keys in ascending order, a node above
is internal and its slots `0..num_keys` hold children that satisfy the invariant at the next
depth (so all leaves are at depth `d`). -/
def node_inv {V : Type} (h : Heap V) : Nat → Nat → Prop
  | 0, a => ∃ n, h[a]? = some n ∧ n.is_leaf = true ∧ 1 ≤ n.num_keys ∧
      n.num_keys ≤ ORDER - 1 ∧ (n.keys.take n.num_keys).Sorted (fun x y => x ≤ y)
  | d + 1, a => ∃ n, h[a]? = some n ∧ n.is_leaf = false ∧ 1 ≤ n.num_keys ∧
      n.num_keys ≤ ORDER - 1 ∧
      ∀ i, i ≤ n.num_keys → ∃ c, n.pointers[i]? = some (Ptr.child c) ∧ node_inv h d c

/-- The addresses visited by `while (leaf) leaf = leaf->next;` from the leftmost leaf. -/
def leaf_addrs {V : Type} (idx : Index V) : Option (List Nat) :=
  scan idx (fun _ => true) (fun s a _ => some (s ++ [a])) []

/-! ## Bubble sort -/

/-- The inner loop `for (j = 0; j < m; j++) if (sw(a[j], a[j+1])) swap(a[j], a[j+1]);`, here
from `j` for `cnt` rounds. -/
def bubble_inner {α : Type} (sw : α → α → Bool) : Nat → Nat → List α → Option (List α)
  | 0, _, a => some a
  | cnt + 1, j, a => do
    let x ← a[j]?
    let y ← a[j + 1]?
    if sw x y then
      let a1 ← wr a j y
      let a2 ← wr a1 (j + 1) x
      bubble_inner sw cnt (j + 1) a2
    else bubble_inner sw cnt (j + 1) a

/-- The outer loop `for (i = 0; i < n - 1; i++) <inner loop with m = n - i - 1>`, here from
`i` for `cnt` rounds. -/
def bubble_outer {α : Type} (sw : α → α → Bool) (n : Nat) : Nat → Nat → List α → Option (List α)
  | 0, _, a => some a
  | cnt + 1, i, a => do
    let a1 ← bubble_inner sw (n - i - 1) 0 a
    bubble_outer sw n cnt (i + 1) a1

/-- The bubble sort of the reports on an array of `a.length` elements; `sw x y` is the test
that makes two neighbours `x`, `y` change places. -/
def bubble_sort {α : Type} (sw : α → α → Bool) (a : List α) : Option (List α) :=
  bubble_outer sw a.length (a.length - 1) 0 a

end Ledger

namespace Ledger

/-- The loop of `leaf_loop` run over a given list of records. -/
def loop_list {V σ : Type} (step : σ → V → Option σ) (stop : σ → Bool) : List V → σ → Option σ
  | [], s => some s
  | v :: vs, s =>
    (step s v).bind fun s1 => if stop s1 then some s1 else loop_list step stop vs s1

/-- One pass of the bubble sort over `x :: ys`: `x` is carried to the right for as long as
it has to change places with its neighbour. -/
def bubble_up {α : Type} (sw : α → α → Bool) : α → List α → List α
  | x, [] => [x]
  | x, y :: ys => if sw x y then y :: bubble_up sw x ys else x :: bubble_up sw y ys

/-- The records behind a list of record pointers. -/
def deref {R : Type} (mem : List R) : List Nat → Option (List R)
  | [] => some []
  | a :: rest => do
    let r ← mem[a]?
    let rs ← deref mem rest
    some (r :: rs)

/-! ## Buyers by energy -/

/-- The collecting loop of `sort_buyers_by_energy`:
`while (leaf != NULL && buyer_count < MAX_BUYERS) { for (...) { buyers[buyer_count++] = ...;
if (buyer_count >= MAX_BUYERS) break; } leaf = leaf->next; }`.  The array `buyers` is the list
of the pointers stored so far, `buyer_count` its length. -/
def collect_buyers (st : State) : Option (List Nat) :=
  scan st.buyer_tree (fun buyers => decide (buyers.length < MAX_BUYERS))
    (fun buyers _ leaf =>
      leaf_loop (fun bs a => some (bs ++ [a])) (fun bs => decide (bs.length ≥ MAX_BUYERS))
        leaf leaf.num_keys 0 buyers)
    []

/-- Source `sort_buyers_by_energy`: the buyer records in the order of the rows printed (a row
shows the id, the cumulative energy and the transaction count of its record). -/
def sort_buyers_by_energy (st : State) : Option (List BuyerKey) := do
  let ptrs ← collect_buyers st
  let buyers ← deref st.buyer_mem ptrs
  bubble_sort (fun x y => decide (x.total_energy_purchased > y.total_energy_purchased)) buyers

/-- The buyer records of the directory in scan order. -/
def buyers_in_order (st : State) : Option (List BuyerKey) := do
  let es ← traverse st.buyer_tree
  deref st.buyer_mem (es.map Prod.snd)

end Ledger

namespace Ledger

/-! ## Buyer/seller pairs by number of transactions -/

/-- The local `struct Pair` of `sort_pairs_by_transaction_count`. -/
structure Pair where
  buyer_id : Int
  seller_id : Int
  transaction_count : Nat
deriving DecidableEq, Repr

/-- The (buyer id, seller id) of a row. -/
def Pair.key (p : Pair) : Int × Int := (p.buyer_id, p.seller_id)

/-- The search loop `for (p = 0; p < pair_count; p++) if (pairs[p] is the pair) {
pairs[p].transaction_count++; found = true; break; }`: the array after the loop when the pair
was found, `none` when `found` stays false. -/
def bump (buyer_id seller_id : Int) : List Pair → Option (List Pair)
  | [] => none
  | p :: ps =>
    if p.buyer_id = buyer_id ∧ p.seller_id = seller_id then
      some ({ p with transaction_count := p.transaction_count + 1 } :: ps)
    else (bump buyer_id seller_id ps).map fun ps1 => p :: ps1

/-- The body of the innermost loop of `sort_pairs_by_transaction_count` for one transaction of
the buyer `buyer_id`: the search, then `if (!found && pair_count < MAX_BUYERS * MAX_SELLERS)`
the new pair with count 1. -/
def pair_step (buyer_id : Int) (pairs : List Pair) (trans : Transaction) : List Pair :=
  match bump buyer_id trans.seller_id pairs with
  | some ps => ps
  | none =>
    if pairs.length < MAX_BUYERS * MAX_SELLERS then pairs ++ [⟨buyer_id, trans.seller_id, 1⟩]
    else pairs

/-- The loop over the index of one buyer:
`while (trans_leaf != NULL && pair_count < MAX_BUYERS * MAX_SELLERS) { for (...) ...; }`. -/
def buyer_pairs (buyer : BuyerKey) (pairs : List Pair) : Option (List Pair) :=
  scan buyer.transaction_tree (fun ps => decide (ps.length < MAX_BUYERS * MAX_SELLERS))
    (fun ps _ leaf =>
      leaf_loop (fun ps1 trans => some (pair_step buyer.buyer_id ps1 trans)) (fun _ => false)
        leaf leaf.num_keys 0 ps)
    pairs

/-- The collecting loops of `sort_pairs_by_transaction_count`: the array `pairs` (`pair_count`
is its length) after the loop over the buyer directory. -/
def collect_pairs (st : State) : Option (List Pair) :=
  scan st.buyer_tree (fun pairs => decide (pairs.length < MAX_BUYERS * MAX_SELLERS))
    (fun pairs _ leaf =>
      leaf_loop (fun ps a => (st.buyer_mem[a]?).bind fun buyer => buyer_pairs buyer ps)
        (fun _ => false) leaf leaf.num_keys 0 pairs)
    []

/-- Source `sort_pairs_by_transaction_count`: the rows printed. -/
def sort_pairs_by_transaction_count (st : State) : Option (List Pair) := do
  let pairs ← collect_pairs st
  bubble_sort (fun x y => decide (x.transaction_count < y.transaction_count)) pairs

/-- The (buyer id, seller id) of the transactions in the order in which the collecting loops
visit them: buyer after buyer in the order `B`, the transactions of a buyer in the order of
the global index `G`. -/
def pair_scan (B : List BuyerKey) (G : List (Int × Transaction)) : List (Int × Int) :=
  B.flatMap fun b => (of_buyer G b.buyer_id).map fun e => (b.buyer_id, e.2.seller_id)

/-- The position of the first occurrence of `k` in `ks` (the length of `ks` when there is
none). -/
def first_index (k : Int × Int) : List (Int × Int) → Nat
  | [] => 0
  | x :: xs => if x = k then 0 else first_index k xs + 1

/-- The array `pairs` is the tally of the visited (buyer id, seller id) list `ks`: one row
per pair that occurs in `ks`, with the number of its occurrences as count, the rows in the
order of the first occurrences; so the counts add up to the length of `ks`. -/
structure Tally (P : List Pair) (ks : List (Int × Int)) : Prop where
  nodup : (P.map Pair.key).Nodup
  count : ∀ p ∈ P, p.transaction_count = ks.count p.key
  mem : ∀ k, k ∈ P.map Pair.key ↔ k ∈ ks
  order : (P.map Pair.key).Pairwise fun k1 k2 => first_index k1 ks < first_index k2 ks
  total : (P.map Pair.transaction_count).sum = ks.length

/-! ## Revenue by seller -/

/-- A row of `total_revenue_by_seller`. -/
structure RevenueRow where
  seller_id : Int
  revenue : ℚ
  total_energy : ℚ
  transaction_count : Nat
deriving DecidableEq, Repr

/-- The inner loops of `total_revenue_by_seller` for one seller: `revenue` and `total_energy`
after the walk over the seller's index. -/
def seller_totals (s : SellerKey) : Option (ℚ × ℚ) :=
  scan s.transaction_tree (fun _ => true)
    (fun acc _ leaf =>
      leaf_loop (fun (a : ℚ × ℚ) (t : Transaction) => some (a.1 + t.total_price, a.2 + t.energy_kwh))
        (fun _ => false) leaf leaf.num_keys 0 acc)
    (0, 0)

/-- Source `total_revenue_by_seller`: the rows printed. -/
def total_revenue_by_seller (st : State) : Option (List RevenueRow) :=
  scan st.seller_tree (fun _ => true)
    (fun rows _ leaf =>
      leaf_loop (fun rs a => (st.seller_mem[a]?).bind fun s =>
          (seller_totals s).bind fun tot =>
            some (rs ++ [⟨s.seller_id, tot.1, tot.2, s.transaction_count⟩]))
        (fun _ => false) leaf leaf.num_keys 0 rows)
    []

/-- The row `total_revenue_by_seller` prints for the seller record `s`, with `G` the entries
of the global index. -/
def revenue_row (G : List (Int × Transaction)) (s : SellerKey) : RevenueRow :=
  ⟨s.seller_id, ((of_seller G s.seller_id).map fun e => e.2.total_price).sum,
    ((of_seller G s.seller_id).map fun e => e.2.energy_kwh).sum,
    (of_seller G s.seller_id).length⟩

/-! ## Export -/

/-- The number that `%.2f` prints for `q`: the multiple of 1/100 nearest to `q`, and of the
two nearest ones the one with an even last digit when `q` is halfway between them.  (The
amounts are exact rationals here; the source prints a `float`.) -/
def round2 (q : ℚ) : ℚ :=
  let f := Rat.floor (q * 100)
  let r := q * 100 - f
  let n : Int := if r < 1 / 2 then f else if 1 / 2 < r then f + 1
    else if f % 2 = 0 then f else f + 1
  (n : ℚ) / 100

/-- A line of `transactions.txt`: the seven fields of the format
`"%d,%d,%d,%.2f,%.2f,%.2f,%s"`, the three amounts as the numbers the line shows. -/
structure ExportRow where
  transaction_id : Int
  buyer_id : Int
  seller_id : Int
  energy_kwh : ℚ
  rate_below_300 : ℚ
  rate_above_300 : ℚ
  datetime : String
deriving DecidableEq, Repr

/-- The `fprintf` of `save_transactions_to_file` for the transaction `t`: the energy and the
two rates are written with two decimals. -/
def export_row (t : Transaction) : ExportRow :=
  ⟨t.transaction_id, t.buyer_id, t.seller_id, round2 t.energy_kwh, round2 t.rate_below_300,
    round2 t.rate_above_300, t.datetime⟩

/-- The loop of `save_transactions_to_file` over the slots of one leaf, from slot `i` for
`cnt` rounds: `if (leaf->pointers[i] == NULL) continue;`, otherwise a line is written. -/
def save_leaf (n : node Transaction) : Nat → Nat → List ExportRow → Option (List ExportRow)
  | 0, _, rows => some rows
  | cnt + 1, i, rows =>
    match n.pointers[i]? with
    | some Ptr.null => save_leaf n cnt (i + 1) rows
    | some (Ptr.val t) => save_leaf n cnt (i + 1) (rows ++ [export_row t])
    | _ => none

/-- Source `save_transactions_to_file`: the lines written after the header. -/
def save_transactions_to_file (st : State) : Option (List ExportRow) :=
  scan st.global_transaction_tree (fun _ => true)
    (fun rows _ leaf => save_leaf leaf leaf.num_keys 0 rows) []

end Ledger

namespace Ledger

/-! ## Separators -/

/-- The keys in use of the node at `b`: `keys[0..num_keys - 1]`. -/
def keys_at {V : Type} (h : Heap V) (b : Nat) : List Int :=
  match h[b]? with
  | some n => n.keys.take n.num_keys
  | none => []

/-- The keys in use of the leaves below the node at `a`, the root of a tree of height `d`,
left to right. -/
def leaf_keys {V : Type} (h : Heap V) (d a : Nat) : List Int :=
  (leaf_list h d a).flatMap (keys_at h)

/-- The separators of the tree of height `d` at `a` bound the keys below: in every internal
node, every key in the leaves below the child in slot `i` is at least the separator
`keys[i - 1]` (when `i > 0`) and less than the separator `keys[i]` (when `i < num_keys`). -/
def sep_inv {V : Type} (h : Heap V) : Nat → Nat → Prop
  | 0, _ => True
  | d + 1, a => ∃ n, h[a]? = some n ∧
      ∀ i, i ≤ n.num_keys → ∃ c, n.pointers[i]? = some (Ptr.child c) ∧
        (∀ k ∈ leaf_keys h d c,
          (∀ s, 0 < i → n.keys[i - 1]? = some s → s ≤ k) ∧
          (∀ s, i < n.num_keys → n.keys[i]? = some s → k < s)) ∧
        sep_inv h d c

/-- The descent of `insert_non_full` without the splits and the insertion: from the node at
`a` down to a leaf, at every internal node through the child that the loop
`while (i >= 0 && key < x->keys[i]) i--; i = i + 1;` chooses.  Returns the leaf reached. -/
def key_descent {V : Type} (h : Heap V) (key : Int) : Nat → Nat → Option Nat
  | 0, _ => none
  | fuel + 1, a => do
    let n ← h[a]?
    if n.is_leaf then some a
    else
      let i ← descend key n.num_keys n.keys
      let c ← (n.pointers[i]?).bind asChild
      key_descent h key fuel c

/-! ## Insertion with a log of its accesses

The functions below are `copy_loop`, `shift_right`, `split_child`, `leaf_shift`, `descend`,
`insert_non_full` and `insert_transaction` once more, statement by statement, with one
addition: they append to a log every index at which `keys[]` or `pointers[]` is read or
written, every entry into `insert_non_full` and every call of `split_child`. -/

/-- An entry of the log. -/
inductive Access where
  | key (i : Nat)
  | ptr (i : Nat)
  | enter (num_keys : Nat)
  | split (parent_keys child_keys index : Nat)
deriving DecidableEq, Repr

/-- What the log entries must satisfy: a `keys[]` index is in `0..ORDER - 2`, a `pointers[]`
index in `0..ORDER - 1`, `insert_non_full` is entered on a node with fewer than `ORDER - 1`
keys, and `split_child` is called with a parent with fewer than `ORDER - 1` keys, a child
with exactly `ORDER - 1` keys and an index `≤ parent.num_keys`. -/
def Access.ok : Access → Bool
  | Access.key i => decide (i < ORDER - 1)
  | Access.ptr i => decide (i < ORDER)
  | Access.enter num_keys => decide (num_keys < ORDER - 1)
  | Access.split parent_keys child_keys index =>
    decide (parent_keys < ORDER - 1 ∧ child_keys = ORDER - 1 ∧ index ≤ parent_keys)

/-- Whether a log entry is an entry into `insert_non_full`. -/
def Access.is_enter : Access → Bool
  | Access.enter _ => true
  | _ => false

/-- The number of calls of `insert_non_full` in a log. -/
def calls (L : List Access) : Nat := (L.filter Access.is_enter).length

/-- The function `copy_loop` with the log: round `i`, `j` reads `y->keys[i]`, writes
`z->keys[j]`, reads `y->pointers[i]` and writes `z->pointers[j]`. -/
def copy_loop_t {V : Type} (yk : List Int) (yp : List (Ptr V)) :
    Nat → Nat → Nat → List Int → List (Ptr V) → List Access →
      Option (List Int × List (Ptr V) × Nat × List Access)
  | 0, _, j, zk, zp, L => some (zk, zp, j, L)
  | cnt + 1, i, j, zk, zp, L => do
    let k ← yk[i]?
    let zk1 ← wr zk j k
    let p ← yp[i]?
    let zp1 ← wr zp j p
    copy_loop_t yk yp cnt (i + 1) (j + 1) zk1 zp1
      (L ++ [Access.key i, Access.key j, Access.ptr i, Access.ptr j])

/-- The function `shift_right` with the log: round `i` reads `a[i - 1]` and writes `a[i]`;
`mk` says which array `a` is. -/
def shift_right_t {α : Type} (mk : Nat → Access) :
    Nat → Nat → List α → List Access → Option (List α × List Access)
  | 0, _, a, L => some (a, L)
  | cnt + 1, i, a, L => do
    let v ← a[i - 1]?
    let a1 ← wr a i v
    shift_right_t mk cnt (i - 1) a1 (L ++ [mk (i - 1), mk i])

/-- The function `split_child` with the log. -/
def split_child_t {V : Type} (h : Heap V) (x : Nat) (index : Nat) (L : List Access) :
    Option (Heap V × List Access) := do
  let nx ← h[x]?
  let y ← (nx.pointers[index]?).bind asChild
  let ny ← h[y]?
  let L0 := L ++ [Access.ptr index, Access.split nx.num_keys ny.num_keys index]
  let (h1, z) := create_node h ny.is_leaf
  let nz0 ← h1[z]?
  let nz := { nz0 with parent := some x }
  let mid := ORDER / 2
  if ny.is_leaf then
    let (zk, zp, _, L1) ← copy_loop_t ny.keys ny.pointers (ny.num_keys - mid) mid 0 nz.keys
      nz.pointers L0
    let nz1 := { nz with keys := zk, pointers := zp, num_keys := ny.num_keys - mid,
                         next := ny.next }
    let ny1 := { ny with num_keys := mid, next := some z }
    let (xp, L2) ← shift_right_t Access.ptr (nx.num_keys + 1 - (index + 1)) (nx.num_keys + 1)
      nx.pointers L1
    let (xk, L3) ← shift_right_t Access.key (nx.num_keys - index) nx.num_keys nx.keys L2
    let k0 ← zk[0]?
    let xk1 ← wr xk index k0
    let xp1 ← wr xp (index + 1) (Ptr.child z)
    let nx1 := { nx with keys := xk1, pointers := xp1, num_keys := nx.num_keys + 1 }
    let h2 ← wr h1 y ny1
    let h3 ← wr h2 z nz1
    let h4 ← wr h3 x nx1
    some (h4, L3 ++ [Access.key 0, Access.key index, Access.ptr (index + 1)])
  else
    let (zk, zp, j, L1) ← copy_loop_t ny.keys ny.pointers (ny.num_keys - (mid + 1)) (mid + 1) 0
      nz.keys nz.pointers L0
    let plast ← ny.pointers[ny.num_keys]?
    let zp1 ← wr zp j plast
    let nz1 := { nz with keys := zk, pointers := zp1, num_keys := ny.num_keys - mid - 1 }
    let ny1 := { ny with num_keys := mid }
    let (xp, L2) ← shift_right_t Access.ptr (nx.num_keys + 1 - (index + 1)) (nx.num_keys + 1)
      nx.pointers (L1 ++ [Access.ptr ny.num_keys, Access.ptr j])
    let (xk, L3) ← shift_right_t Access.key (nx.num_keys - index) nx.num_keys nx.keys L2
    let km ← ny.keys[mid]?
    let xk1 ← wr xk index km
    let xp1 ← wr xp (index + 1) (Ptr.child z)
    let nx1 := { nx with keys := xk1, pointers := xp1, num_keys := nx.num_keys + 1 }
    let h2 ← wr h1 y ny1
    let h3 ← wr h2 z nz1
    let h4 ← wr h3 x nx1
    some (h4, L3 ++ [Access.key mid, Access.key index, Access.ptr (index + 1)])

/-- The function `leaf_shift` with the log: a round with counter `j + 1` reads `keys[j]`
and, when it shifts, writes `keys[j + 1]`, reads `pointers[j]` and writes
`pointers[j + 1]`. -/
def leaf_shift_t {V : Type} (key : Int) :
    Nat → List Int → List (Ptr V) → List Access →
      Option (Nat × List Int × List (Ptr V) × List Access)
  | 0, ks, ps, L => some (0, ks, ps, L)
  | j + 1, ks, ps, L => do
    let kj ← ks[j]?
    if key < kj then
      let ks1 ← wr ks (j + 1) kj
      let pj ← ps[j]?
      let ps1 ← wr ps (j + 1) pj
      leaf_shift_t key j ks1 ps1
        (L ++ [Access.key j, Access.key (j + 1), Access.ptr j, Access.ptr (j + 1)])
    else some (j + 1, ks, ps, L ++ [Access.key j])

/-- The function `descend` with the log: a round with counter `j + 1` reads `keys[j]`. -/
def descend_t (key : Int) : Nat → List Int → List Access → Option (Nat × List Access)
  | 0, _, L => some (0, L)
  | j + 1, ks, L => do
    let kj ← ks[j]?
    if key < kj then descend_t key j ks (L ++ [Access.key j])
    else some (j + 1, L ++ [Access.key j])

/-- The function `insert_non_full` with the log. -/
def insert_non_full_t {V : Type} :
    Nat → Heap V → Nat → Int → V → List Access → Option (Heap V × List Access)
  | 0, _, _, _, _, _ => none
  | fuel + 1, h, x, key, t, L => do
    let nx ← h[x]?
    let L0 := L ++ [Access.enter nx.num_keys]
    if nx.is_leaf then
      let (j, ks, ps, L1) ← leaf_shift_t key nx.num_keys nx.keys nx.pointers L0
      let ks1 ← wr ks j key
      let ps1 ← wr ps j (Ptr.val t)
      let h1 ← wr h x { nx with keys := ks1, pointers := ps1, num_keys := nx.num_keys + 1 }
      some (h1, L1 ++ [Access.key j, Access.ptr j])
    else
      let (i, L1) ← descend_t key nx.num_keys nx.keys L0
      let c ← (nx.pointers[i]?).bind asChild
      let nc ← h[c]?
      if nc.num_keys = ORDER - 1 then
        let (h1, L2) ← split_child_t h x i (L1 ++ [Access.ptr i])
        let nx1 ← h1[x]?
        let ki ← nx1.keys[i]?
        let i1 := if key > ki then i + 1 else i
        let c1 ← (nx1.pointers[i1]?).bind asChild
        insert_non_full_t fuel h1 c1 key t (L2 ++ [Access.key i, Access.ptr i1])
      else
        let c1 ← (nx.pointers[i]?).bind asChild
        insert_non_full_t fuel h c1 key t (L1 ++ [Access.ptr i, Access.ptr i])

/-- The function `insert_transaction` with the log. -/
def insert_transaction_t {V : Type} (idx : Index V) (key : Int) (t : V) :
    Option (Index V × List Access) := do
  let (h, root) := match idx.root with
    | none => create_node idx.heap true
    | some r => (idx.heap, r)
  let nr ← h[root]?
  if nr.num_keys = ORDER - 1 then
    let (h1, new_root) := create_node h false
    let nn ← h1[new_root]?
    let np ← wr nn.pointers 0 (Ptr.child root)
    let h2 ← wr h1 new_root { nn with pointers := np }
    let h3 ← wr h2 root { nr with parent := some new_root }
    let (h4, L1) ← split_child_t h3 new_root 0 [Access.ptr 0]
    let (h5, L2) ← insert_non_full_t h4.length h4 new_root key t L1
    some (⟨h5, some new_root⟩, L2)
  else
    let (h1, L1) ← insert_non_full_t h.length h root key t []
    some (⟨h1, some root⟩, L1)

/-! ## Import -/

/-- One round of the loop of `load_transactions_from_file` for a transaction line (a line
before any `# Sellers` line) that `sscanf` has parsed into the seven fields `r`: the line is
skipped when `validate_datetime` rejects the datetime or the id is in the global index;
otherwise `get_or_create_seller`, the price fields, the write to the store (which has no
test of the index, as in `add_transaction`), the three indexes and the counts, in the order
of the source.  No statement of the round writes `regular_buyers` or `regular_buyer_count`.
Returns the record that was built, if any, and the new state. -/
def load_record (st : State) (r : ExportRow) : Option (Option Transaction × State) := do
  let valid ← validate_datetime (c_str r.datetime)
  if !valid then some (none, st)
  else
    let es ← traverse st.global_transaction_tree
    if has_id es r.transaction_id then some (none, st)
    else
      let (st1, sa) ← get_or_create_seller st r.seller_id r.rate_below_300 r.rate_above_300
      let s ← st1.seller_mem[sa]?
      let price_per_kwh :=
        if r.energy_kwh ≤ ENERGY_THRESHOLD then s.rate_below_300
        else (ENERGY_THRESHOLD * s.rate_below_300 +
          (r.energy_kwh - ENERGY_THRESHOLD) * s.rate_above_300) / r.energy_kwh
      let total_price ← calculate_price s r.energy_kwh r.buyer_id
      let t : Transaction :=
        { transaction_id := r.transaction_id, buyer_id := r.buyer_id, seller_id := r.seller_id,
          energy_kwh := r.energy_kwh, price_per_kwh := price_per_kwh,
          total_price := total_price, datetime := r.datetime,
          rate_below_300 := r.rate_below_300, rate_above_300 := r.rate_above_300 }
      let a ← store_slot st1.all_transactions st1.transaction_index t
      let g ← insert_transaction st1.global_transaction_tree t.transaction_id t
      let stree ← insert_transaction s.transaction_tree t.transaction_id t
      let smem ← wr st1.seller_mem sa
        { s with transaction_tree := stree, transaction_count := s.transaction_count + 1 }
      let st2 := { st1 with
        all_transactions := a,
        transaction_index := st1.transaction_index + 1,
        global_transaction_tree := g, seller_mem := smem }
      let (st3, ba) ← get_or_create_buyer st2 r.buyer_id
      let b ← st3.buyer_mem[ba]?
      let btree ← insert_transaction b.transaction_tree t.transaction_id t
      let bmem ← wr st3.buyer_mem ba
        { b with transaction_tree := btree,
                 total_energy_purchased := b.total_energy_purchased + t.energy_kwh,
                 transaction_count := b.transaction_count + 1 }
      some (some t, { st3 with buyer_mem := bmem })

/-- Source `load_transactions_from_file` on a file without a `# Sellers` line, given as the
list of its parsed transaction lines: the records that were built, in order, and the last
state. -/
def load_transactions_from_file : State → List ExportRow → Option (List Transaction × State)
  | st, [] => some ([], st)
  | st, r :: rest => do
    let (t, st1) ← load_record st r
    let (ts, st2) ← load_transactions_from_file st1 rest
    some (t.toList ++ ts, st2)

/-- The state after an import that built the records `ts`: the global index holds them under
their ids, which are distinct, the store has its `MAX_TRANSACTIONS` slots and
`transaction_index` is the number of records, the directories and the indexes of the entries
are well formed, no seller has a regular buyer, and the total price of every record is its
energy times its price per kWh, without a discount. -/
structure Loaded (st : State) (ts : List Transaction) : Prop where
  global : ∃ G, WF st.global_transaction_tree G ∧
    G.Perm (ts.map fun t => (t.transaction_id, t))
  distinct : (ts.map Transaction.transaction_id).Nodup
  index : st.transaction_index = ts.length
  store : st.all_transactions.length = MAX_TRANSACTIONS
  sellers : DirOK SellerKey.seller_id st.seller_tree st.seller_mem
  buyers : DirOK BuyerKey.buyer_id st.buyer_tree st.buyer_mem
  seller_ok : ∀ s ∈ st.seller_mem, SellerOK s ∧ s.regular_buyer_count = 0
  buyer_ok : ∀ b ∈ st.buyer_mem, BuyerOK b
  undiscounted : ∀ t ∈ ts, t.total_price = t.energy_kwh * t.price_per_kwh

/-- The seven fields of a record that the import has read from its line. -/
def line_fields (t : Transaction) : ExportRow :=
  ⟨t.transaction_id, t.buyer_id, t.seller_id, t.energy_kwh, t.rate_below_300,
    t.rate_above_300, t.datetime⟩

/-- The lines of a file that the import accepts, stated without the import loop: those with a
datetime that `validate_datetime` accepts and with an id that is not in `seen` and not the id
of an earlier such line, in the order of the file. -/
def accepted_rows : List Int → List ExportRow → List ExportRow
  | _, [] => []
  | seen, r :: rest =>
    if validate_datetime (c_str r.datetime) = some true ∧ r.transaction_id ∉ seen then
      r :: accepted_rows (r.transaction_id :: seen) rest
    else accepted_rows seen rest

/-- The number of records of a buyer in a list of records. -/
def bought (ts : List Transaction) (buyer_id : Int) : Nat :=
  (ts.filter fun t => t.buyer_id = buyer_id).length

/-- A file of 606 transaction lines with the ids 0 to 605, all with seller 1: six lines for
each of the buyers 0 to 100, buyer by buyer. -/
def cap_rows : List ExportRow :=
  (List.range 606).map fun (i : Nat) =>
    ⟨(i : Int), ((i / 6 : Nat) : Int), 1, 1, 1, 1, "2024-01-01 00:00"⟩

/-- The transactions with the ids 0 to `n - 1`, all with seller 0, five for each of the buyers
0, 1, 2 and so on: the transaction with id `i` is of buyer `i / 5`. -/
def fill (n : Nat) : List Transaction :=
  (List.range n).map fun (i : Nat) => ⟨(i : Int), ((i / 5 : Nat) : Int), 0, 0, 0, 0, "", 0, 0⟩

/-- The lines of a small file: six lines of 400 kWh for buyer 7 with seller 3 at the rates
0.10 / 0.08, with a line with the datetime of a 13th month after the second and a line that
repeats the id 1 after the fourth. -/
def six_rows : List ExportRow :=
  [⟨1, 7, 3, 400, 1 / 10, 8 / 100, "2024-01-01 10:00"⟩,
    ⟨2, 7, 3, 400, 1 / 10, 8 / 100, "2024-01-02 10:00"⟩,
    ⟨9, 7, 3, 400, 1 / 10, 8 / 100, "2024-13-02 10:00"⟩,
    ⟨3, 7, 3, 400, 1 / 10, 8 / 100, "2024-01-03 10:00"⟩,
    ⟨4, 7, 3, 400, 1 / 10, 8 / 100, "2024-01-04 10:00"⟩,
    ⟨1, 8, 3, 400, 1 / 10, 8 / 100, "2024-01-04 11:00"⟩,
    ⟨5, 7, 3, 400, 1 / 10, 8 / 100, "2024-01-05 10:00"⟩,
    ⟨6, 7, 3, 400, 1 / 10, 8 / 100, "2024-01-06 10:00"⟩]

end Ledger

namespace Ledger

/-! ## Arrays of fixed size -/

theorem list_len5 {α : Type} (l : List α) (hl : l.length = 5) :
    ∃ a b c d e, l = [a, b, c, d, e] := by
  match l, hl with
  | [a, b, c, d, e], _ => exact ⟨a, b, c, d, e, rfl⟩

theorem list_len7 {α : Type} (l : List α) (hl : l.length = 7) :
    ∃ a b c d e f g, l = [a, b, c, d, e, f, g] := by
  match l, hl with
  | [a, b, c, d, e, f, g], _ => exact ⟨a, b, c, d, e, f, g, rfl⟩

theorem lt5_cases (n : Nat) (h : n < 5) : n = 0 ∨ n = 1 ∨ n = 2 ∨ n = 3 ∨ n = 4 := by omega

/-- The key shift of `split_child` followed by the write of the separator. -/
theorem shift_keys_spec (keys : List Int) (hl : keys.length = 5) (nk idx : Nat) (hnk : nk < 5)
    (hi : idx ≤ nk) (k : Int) :
    ∃ r1 r, shift_right (nk - idx) nk keys = some r1 ∧ wr r1 idx k = some r ∧ r.length = 5 ∧
      r.take (nk + 1) = keys.take idx ++ k :: (keys.take nk).drop idx := by
  obtain ⟨a, b, c, d, e, rfl⟩ := list_len5 keys hl
  rcases lt5_cases nk hnk with rfl | rfl | rfl | rfl | rfl <;>
  · have : idx = 0 ∨ idx = 1 ∨ idx = 2 ∨ idx = 3 ∨ idx = 4 := by omega
    rcases this with rfl | rfl | rfl | rfl | rfl <;>
      first
      | omega
      | simp [shift_right, wr]

/-- The pointer shift of `split_child` followed by the write of the new sibling. -/
theorem shift_ptrs_spec {V : Type} (ptrs : List (Ptr V)) (hl : ptrs.length = 7) (nk idx : Nat)
    (hnk : nk < 5) (hi : idx ≤ nk) (p : Ptr V) :
    ∃ r1 r, shift_right (nk + 1 - (idx + 1)) (nk + 1) ptrs = some r1 ∧
      wr r1 (idx + 1) p = some r ∧ r.length = 7 ∧
      r.take (nk + 2) = ptrs.take (idx + 1) ++ p :: (ptrs.take (nk + 1)).drop (idx + 1) := by
  obtain ⟨a, b, c, d, e, f, g, rfl⟩ := list_len7 ptrs hl
  rcases lt5_cases nk hnk with rfl | rfl | rfl | rfl | rfl <;>
  · have : idx = 0 ∨ idx = 1 ∨ idx = 2 ∨ idx = 3 ∨ idx = 4 := by omega
    rcases this with rfl | rfl | rfl | rfl | rfl <;>
      first
      | omega
      | simp [shift_right, wr]

/-- The copy loop of a leaf split moves slots 3 and 4 into slots 0 and 1 of the sibling. -/
theorem copy_leaf_spec {V : Type} (yk zk : List Int) (yp zp : List (Ptr V))
    (hyk : yk.length = 5) (hyp : yp.length = 7) (hzk : zk.length = 5) (hzp : zp.length = 7) :
    ∃ zk1 zp1 j, copy_loop yk yp (5 - 3) 3 0 zk zp = some (zk1, zp1, j) ∧
      zk1.length = 5 ∧ zp1.length = 7 ∧
      zk1.take 2 = (yk.take 5).drop 3 ∧ zp1.take 2 = (yp.take 5).drop 3 ∧
      zk1[0]? = yk[3]? := by
  obtain ⟨a, b, c, d, e, rfl⟩ := list_len5 yk hyk
  obtain ⟨a1, b1, c1, d1, e1, rfl⟩ := list_len5 zk hzk
  obtain ⟨p0, p1, p2, p3, p4, p5, p6, rfl⟩ := list_len7 yp hyp
  obtain ⟨q0, q1, q2, q3, q4, q5, q6, rfl⟩ := list_len7 zp hzp
  refine ⟨[d, e, c1, d1, e1], [p3, p4, q2, q3, q4, q5, q6], 2, ?_⟩
  simp [copy_loop, wr]

/-- The copy loop of an internal split moves key 4 and children 4, 5 into the sibling. -/
theorem copy_inner_spec {V : Type} (yk zk : List Int) (yp zp : List (Ptr V))
    (hyk : yk.length = 5) (hyp : yp.length = 7) (hzk : zk.length = 5) (hzp : zp.length = 7) :
    ∃ zk1 zp0 j zp1 plast, copy_loop yk yp (5 - (3 + 1)) (3 + 1) 0 zk zp = some (zk1, zp0, j) ∧
      yp[5]? = some plast ∧ wr zp0 j plast = some zp1 ∧
      zk1.length = 5 ∧ zp1.length = 7 ∧
      zk1.take 1 = (yk.take 5).drop 4 ∧ zp1.take 2 = (yp.take 6).drop 4 := by
  obtain ⟨a, b, c, d, e, rfl⟩ := list_len5 yk hyk
  obtain ⟨a1, b1, c1, d1, e1, rfl⟩ := list_len5 zk hzk
  obtain ⟨p0, p1, p2, p3, p4, p5, p6, rfl⟩ := list_len7 yp hyp
  obtain ⟨q0, q1, q2, q3, q4, q5, q6, rfl⟩ := list_len7 zp hzp
  refine ⟨[e, b1, c1, d1, e1], [p4, q1, q2, q3, q4, q5, q6], 1, [p4, p5, q2, q3, q4, q5, q6],
    p5, ?_⟩
  simp [copy_loop, wr]

/-- The descent loop picks child `i`: every separator from `i` on is greater than the key and
the separator before `i`, if any, is not. -/
theorem descend_spec (key : Int) (keys : List Int) :
    ∀ nk, nk ≤ keys.length →
    ∃ i, descend key nk keys = some i ∧ i ≤ nk ∧
      (∀ k ∈ (keys.take nk).drop i, key < k) ∧
      (∀ k, 0 < i → keys[i - 1]? = some k → k ≤ key) := by
  intro nk
  induction nk with
  | zero => intro _; exact ⟨0, rfl, le_refl _, by simp, by simp⟩
  | succ j ih =>
    intro hj
    have hlt : j < keys.length := hj
    obtain ⟨i, hi, hle, hgt, hlo⟩ := ih (by omega)
    by_cases hk : key < keys[j]
    · refine ⟨i, by simp [descend, List.getElem?_eq_getElem hlt, hk, hi], by omega, ?_, hlo⟩
      intro k hkm
      rw [List.take_succ, List.getElem?_eq_getElem hlt] at hkm
      simp only [Option.toList_some] at hkm
      rw [List.drop_append_of_le_length (by simp; omega)] at hkm
      rcases List.mem_append.mp hkm with h1 | h1
      · exact hgt k h1
      · simp at h1; rw [h1]; exact hk
    · refine ⟨j + 1, by simp [descend, List.getElem?_eq_getElem hlt, hk], le_refl _, ?_, ?_⟩
      · intro k hkm
        rw [List.drop_eq_nil_of_le (by simp)] at hkm
        simp at hkm
      intro k _ hkj
      simp [List.getElem?_eq_getElem hlt] at hkj
      rw [← hkj]; exact not_lt.mp hk

end Ledger

namespace Ledger

theorem get_mid {α : Type} (A : List α) (x : α) (C : List α) :
    (A ++ x :: C)[A.length]? = some x := by
  rw [List.getElem?_append_right (le_refl _)]
  simp

theorem wr_mid {α : Type} (A : List α) (x y : α) (C : List α) :
    wr (A ++ x :: C) A.length y = some (A ++ y :: C) := by
  simp [wr]

/-- The leaf loop of `insert_non_full` on arrays whose first slots hold `LL`: it stops at a
slot `j`, the entries from `j` on have moved one slot right and have keys greater than `key`,
and the entry before `j`, if any, has not. -/
theorem leaf_shift_gen {V : Type} (key : Int) (LL : List (Int × Ptr V)) :
    ∀ (x : Int) (xp : Ptr V) (C : List Int) (Cp : List (Ptr V)),
    ∃ j y yp, leaf_shift key LL.length (LL.map Prod.fst ++ x :: C) (LL.map Prod.snd ++ xp :: Cp)
        = some (j, (LL.take j).map Prod.fst ++ y :: ((LL.drop j).map Prod.fst ++ C),
                   (LL.take j).map Prod.snd ++ yp :: ((LL.drop j).map Prod.snd ++ Cp)) ∧
      j ≤ LL.length ∧ (∀ e ∈ LL.drop j, key < e.1) ∧ (∀ e ∈ (LL.take j).getLast?, e.1 ≤ key) := by
  induction LL using List.reverseRecOn with
  | nil =>
    intro x xp C Cp
    exact ⟨0, x, xp, by simp [leaf_shift], le_refl _, by simp, by simp⟩
  | append_singleton L e ih =>
    intro x xp C Cp
    have hk : (List.map Prod.fst (L ++ [e]) ++ x :: C)[L.length]? = some e.1 := by
      have := get_mid (L.map Prod.fst) e.1 (x :: C)
      simpa using this
    have hp : (List.map Prod.snd (L ++ [e]) ++ xp :: Cp)[L.length]? = some e.2 := by
      have := get_mid (L.map Prod.snd) e.2 (xp :: Cp)
      simpa using this
    by_cases hlt : key < e.1
    · obtain ⟨j, y, yp, hj, hle, hgt, hlo⟩ := ih e.1 e.2 (e.1 :: C) (e.2 :: Cp)
      have hw1 : wr (List.map Prod.fst (L ++ [e]) ++ x :: C) (L.length + 1) e.1
          = some (L.map Prod.fst ++ e.1 :: e.1 :: C) := by
        have := wr_mid (L.map Prod.fst ++ [e.1]) x e.1 C
        simpa using this
      have hw2 : wr (List.map Prod.snd (L ++ [e]) ++ xp :: Cp) (L.length + 1) e.2
          = some (L.map Prod.snd ++ e.2 :: e.2 :: Cp) := by
        have := wr_mid (L.map Prod.snd ++ [e.2]) xp e.2 Cp
        simpa using this
      refine ⟨j, y, yp, ?_, by simp; omega, ?_, ?_⟩
      · rw [List.length_append, List.length_singleton, leaf_shift]
        simp only [hk, hp, hlt, hw1, hw2, Option.bind_eq_bind, Option.some_bind, if_true]
        rw [hj, List.take_append_of_le_length hle, List.drop_append_of_le_length hle]
        simp
      · intro e1 he1
        rw [List.drop_append_of_le_length hle] at he1
        rcases List.mem_append.mp he1 with h1 | h1
        · exact hgt e1 h1
        · simp at h1; rw [h1]; exact hlt
      · rw [List.take_append_of_le_length hle]; exact hlo
    · have ht : List.take (L.length + 1) (L ++ [e]) = L ++ [e] := by
        apply List.take_of_length_le; simp
      have hd : List.drop (L.length + 1) (L ++ [e]) = [] := by
        apply List.drop_eq_nil_of_le; simp
      refine ⟨L.length + 1, x, xp, ?_, by simp, by simp, ?_⟩
      · rw [List.length_append, List.length_singleton, leaf_shift]
        simp only [hk, hlt, Option.bind_eq_bind, Option.some_bind, if_false, ht, hd]
        simp
      · intro e1 he1
        rw [ht] at he1
        simp at he1
        rw [← he1]; exact not_lt.mp hlt

/-- The leaf branch of `insert_non_full` on a leaf that is not full: the loop and the two
writes succeed and the leaf then holds the old entries with the new one put in at slot `j`. -/
theorem leaf_insert {V : Type} (key : Int) (t : V) (n : node V) (es : List (Int × V))
    (hn : leaf_holds n es) (hlt : n.num_keys < ORDER - 1) :
    ∃ j ks ps ks1 ps1, leaf_shift key n.num_keys n.keys n.pointers = some (j, ks, ps) ∧
      wr ks j key = some ks1 ∧ wr ps j (Ptr.val t) = some ps1 ∧
      leaf_holds { n with keys := ks1, pointers := ps1, num_keys := n.num_keys + 1 }
        (es.take j ++ (key, t) :: es.drop j) ∧
      (∀ e ∈ es.drop j, key < e.1) ∧ (∀ e ∈ (es.take j).getLast?, e.1 ≤ key) := by
  obtain ⟨hleaf, ⟨hkl, hpl⟩, hnk, hks, hps⟩ := hn
  simp only [ORDER] at hkl hpl hnk hlt
  have hlen : es.length = n.num_keys := by
    have := congrArg List.length hks
    simp at this; omega
  set LL : List (Int × Ptr V) := es.map (fun e => (e.1, Ptr.val e.2)) with hLL
  have hLLlen : LL.length = n.num_keys := by simp [hLL, hlen]
  have hk1 : LL.map Prod.fst = n.keys.take n.num_keys := by
    rw [hks, hLL, List.map_map]; rfl
  have hp1 : LL.map Prod.snd = n.pointers.take n.num_keys := by
    rw [hps, hLL, List.map_map]; rfl
  have hkd : ∃ x C, n.keys.drop n.num_keys = x :: C := by
    cases hd : n.keys.drop n.num_keys with
    | nil => have := congrArg List.length hd; simp at this; omega
    | cons x C => exact ⟨x, C, rfl⟩
  have hpd : ∃ xp Cp, n.pointers.drop n.num_keys = xp :: Cp := by
    cases hd : n.pointers.drop n.num_keys with
    | nil => have := congrArg List.length hd; simp at this; omega
    | cons x C => exact ⟨x, C, rfl⟩
  obtain ⟨x, C, hxC⟩ := hkd
  obtain ⟨xp, Cp, hxCp⟩ := hpd
  have hkeys : n.keys = LL.map Prod.fst ++ x :: C := by
    rw [hk1, ← hxC, List.take_append_drop]
  have hptrs : n.pointers = LL.map Prod.snd ++ xp :: Cp := by
    rw [hp1, ← hxCp, List.take_append_drop]
  have hClen : C.length = 4 - n.num_keys := by
    have := congrArg List.length hkeys
    simp [hLLlen] at this; omega
  have hCplen : Cp.length = 6 - n.num_keys := by
    have := congrArg List.length hptrs
    simp [hLLlen] at this; omega
  obtain ⟨j, y, yp, hj, hle, hgt, hlo⟩ := leaf_shift_gen key LL x xp C Cp
  rw [hLLlen, ← hkeys, ← hptrs] at hj
  have hjl1 : ((LL.take j).map Prod.fst).length = j := by simp; omega
  have hjl2 : ((LL.take j).map Prod.snd).length = j := by simp; omega
  have hw1 := wr_mid ((LL.take j).map Prod.fst) y key ((LL.drop j).map Prod.fst ++ C)
  have hw2 := wr_mid ((LL.take j).map Prod.snd) yp (Ptr.val t) ((LL.drop j).map Prod.snd ++ Cp)
  rw [hjl1] at hw1
  rw [hjl2] at hw2
  have hdl : (LL.drop j).length = n.num_keys - j := by simp [hLLlen]
  refine ⟨j, _, _, _, _, hj, hw1, hw2, ⟨hleaf, ⟨?_, ?_⟩, ?_, ?_, ?_⟩, ?_, ?_⟩
  · simp [ORDER, hdl, hClen]; omega
  · simp [ORDER, hdl, hCplen]; omega
  · simp [ORDER]; omega
  · show List.take (n.num_keys + 1) _ = _
    have : List.take (n.num_keys + 1)
        ((LL.take j).map Prod.fst ++ key :: ((LL.drop j).map Prod.fst ++ C))
        = (LL.take j).map Prod.fst ++ key :: (LL.drop j).map Prod.fst := by
      rw [show (LL.take j).map Prod.fst ++ key :: ((LL.drop j).map Prod.fst ++ C)
            = ((LL.take j).map Prod.fst ++ key :: (LL.drop j).map Prod.fst) ++ C by simp]
      apply List.take_left'
      simp [hLLlen]; omega
    rw [this, hLL]
    simp [List.map_take, List.map_drop, Function.comp_def]
  · show List.take (n.num_keys + 1) _ = _
    have : List.take (n.num_keys + 1)
        ((LL.take j).map Prod.snd ++ Ptr.val t :: ((LL.drop j).map Prod.snd ++ Cp))
        = (LL.take j).map Prod.snd ++ Ptr.val t :: (LL.drop j).map Prod.snd := by
      rw [show (LL.take j).map Prod.snd ++ Ptr.val t :: ((LL.drop j).map Prod.snd ++ Cp)
            = ((LL.take j).map Prod.snd ++ Ptr.val t :: (LL.drop j).map Prod.snd) ++ Cp by simp]
      apply List.take_left'
      simp [hLLlen]; omega
    rw [this, hLL]
    simp [List.map_take, List.map_drop, Function.comp_def]
  · intro e he
    have : (e.1, Ptr.val e.2) ∈ LL.drop j := by
      rw [hLL, ← List.map_drop]
      exact List.mem_map_of_mem _ he
    exact hgt _ this
  · intro e he
    have : (e.1, Ptr.val e.2) ∈ (LL.take j).getLast? := by
      rw [hLL, ← List.map_take, List.getLast?_map]
      simp only [Option.mem_def] at he ⊢
      rw [he]; rfl
    exact hlo _ this

end Ledger

namespace Ledger

/-! ## Stores -/

theorem lookup_lt {α : Type} {l : List α} {i : Nat} {a : α} (h : l[i]? = some a) :
    i < l.length := by
  rcases Nat.lt_or_ge i l.length with h1 | h1
  · exact h1
  · rw [List.getElem?_eq_none h1] at h; cases h

theorem wr_append_left {α : Type} (l r : List α) (i : Nat) (v : α) (hi : i < l.length) :
    wr (l ++ r) i v = some (l.set i v ++ r) := by
  have : i < (l ++ r).length := by rw [List.length_append]; omega
  simp only [wr, this, if_true, List.set_append_left _ _ hi]

theorem wr_append_last {α : Type} (l : List α) (a v : α) (n : Nat) (hn : n = l.length) :
    wr (l ++ [a]) n v = some (l ++ [v]) := by
  rw [hn]; exact wr_mid l a v []

theorem wr_some {α : Type} (l : List α) (i : Nat) (v : α) (hi : i < l.length) :
    wr l i v = some (l.set i v) := by
  simp [wr, hi]

/-- The store after `split_child` wrote the child `y`, the new sibling and the parent `x`. -/
theorem store_after_split {α : Type} (h : List α) (x y : Nat) (vx vy vz : α)
    (hx : x < h.length) (hy : y < h.length) (hxy : x ≠ y) :
    ((h.set y vy).set x vx ++ [vz]).length = h.length + 1 ∧
    ((h.set y vy).set x vx ++ [vz])[x]? = some vx ∧
    ((h.set y vy).set x vx ++ [vz])[y]? = some vy ∧
    ((h.set y vy).set x vx ++ [vz])[h.length]? = some vz ∧
    (∀ b, b ≠ x → b ≠ y → b ≠ h.length → ((h.set y vy).set x vx ++ [vz])[b]? = h[b]?) := by
  have hl : ((h.set y vy).set x vx).length = h.length := by simp
  refine ⟨by simp, ?_, ?_, ?_, ?_⟩
  · rw [List.getElem?_append_left (by rw [hl]; exact hx)]
    exact List.getElem?_set_self (by simpa using hx)
  · rw [List.getElem?_append_left (by rw [hl]; exact hy), List.getElem?_set_ne hxy]
    exact List.getElem?_set_self hy
  · rw [List.getElem?_append_right (by rw [hl]), hl]; simp
  · intro b hbx hby hbl
    rcases Nat.lt_or_ge b h.length with h1 | h1
    · rw [List.getElem?_append_left (by rw [hl]; exact h1),
        List.getElem?_set_ne (Ne.symm hbx), List.getElem?_set_ne (Ne.symm hby)]
    · rw [List.getElem?_eq_none h1, List.getElem?_eq_none (by simp; omega)]

/-- A leaf split on the store: the child keeps its first three entries, the new sibling at
the end of the store takes entries 3 and 4 and the child's old `next`, the child's `next` is
the sibling, and the parent gets the sibling's first key as separator at `i` and the sibling
as child `i + 1`. -/
theorem split_leaf_heap {V : Type} (h : Heap V) (x i y : Nat) (nx ny : node V)
    (hx : h[x]? = some nx) (hsx : nx.sized) (hnk : nx.num_keys < ORDER - 1)
    (hi : i ≤ nx.num_keys) (hy : nx.pointers[i]? = some (Ptr.child y))
    (hny : h[y]? = some ny) (hsy : ny.sized) (hfull : ny.num_keys = ORDER - 1)
    (hleaf : ny.is_leaf = true) (hxy : x ≠ y) :
    ∃ h1 nx1 nz k3, split_child h x i = some h1 ∧ h1.length = h.length + 1 ∧
      h1[x]? = some nx1 ∧
      h1[y]? = some { ny with num_keys := 3, next := some h.length } ∧
      h1[h.length]? = some nz ∧
      (∀ b, b ≠ x → b ≠ y → b ≠ h.length → h1[b]? = h[b]?) ∧
      nx1.is_leaf = nx.is_leaf ∧ nx1.sized ∧ nx1.num_keys = nx.num_keys + 1 ∧
      ny.keys[3]? = some k3 ∧
      nx1.keys.take (nx.num_keys + 1)
        = nx.keys.take i ++ k3 :: (nx.keys.take nx.num_keys).drop i ∧
      nx1.pointers.take (nx.num_keys + 2)
        = nx.pointers.take (i + 1) ++
            Ptr.child h.length :: (nx.pointers.take (nx.num_keys + 1)).drop (i + 1) ∧
      nz.is_leaf = true ∧ nz.sized ∧ nz.num_keys = 2 ∧ nz.next = ny.next ∧
      nz.parent = some x ∧
      nz.keys.take 2 = (ny.keys.take 5).drop 3 ∧
      nz.pointers.take 2 = (ny.pointers.take 5).drop 3 := by
  have hfull0 := hfull
  obtain ⟨hkx, hpx⟩ := hsx
  obtain ⟨hky, hpy⟩ := hsy
  simp only [ORDER, Nat.reduceAdd, Nat.reduceSub] at hkx hpx hky hpy hnk hfull
  have hxlt : x < h.length := lookup_lt hx
  have hylt : y < h.length := lookup_lt hny
  obtain ⟨zk1, zp1, j, hcopy, hzk1, hzp1, hzkt, hzpt, hz0⟩ :=
    copy_leaf_spec ny.keys (List.replicate 5 (0 : Int)) ny.pointers
      (List.replicate 7 (Ptr.null : Ptr V)) hky hpy (by simp) (by simp)
  have hk3 : ny.keys[3]? = some ny.keys[3] := by simp [List.getElem?_eq_getElem, hky]
  obtain ⟨xk0, xk1, hsk, hwk, hxk1, hxkt⟩ :=
    shift_keys_spec nx.keys hkx nx.num_keys i hnk hi ny.keys[3]
  obtain ⟨xp0, xp1, hsp, hwp, hxp1, hxpt⟩ :=
    shift_ptrs_spec nx.pointers hpx nx.num_keys i hnk hi (Ptr.child h.length)
  rw [hk3] at hz0
  have hcopy1 : copy_loop ny.keys ny.pointers (ORDER - 1 - ORDER / 2) (ORDER / 2) 0
      (List.replicate (ORDER - 1) 0) (List.replicate (ORDER + 1) Ptr.null)
      = some (zk1, zp1, j) := hcopy
  have hl1 : ∀ v : node V, (h.set y v).length = h.length := fun v => by simp
  obtain ⟨s1, s2, s3, s4, s5⟩ := store_after_split h x y
    { nx with keys := xk1, pointers := xp1, num_keys := nx.num_keys + 1 }
    { ny with num_keys := ORDER / 2, next := some h.length }
    { pointers := zp1, keys := zk1, parent := some x, is_leaf := ny.is_leaf,
      num_keys := ORDER - 1 - ORDER / 2, next := ny.next } hxlt hylt hxy
  have hsplit : split_child h x i = some ((h.set y
      { ny with num_keys := ORDER / 2, next := some h.length }).set x
      { nx with keys := xk1, pointers := xp1, num_keys := nx.num_keys + 1 } ++
      [{ pointers := zp1, keys := zk1, parent := some x, is_leaf := ny.is_leaf,
         num_keys := ORDER - 1 - ORDER / 2, next := ny.next }]) := by
    unfold split_child
    rw [hx]; dsimp only [bind, Option.bind]
    rw [hy]; dsimp only [asChild]
    rw [hny]; dsimp only [create_node]
    rw [List.getElem?_concat_length]; dsimp only
    rw [if_pos hleaf, hfull0, hcopy1]; dsimp only
    rw [hsp]; dsimp only
    rw [hsk]; dsimp only
    rw [hz0]; dsimp only
    rw [hwk]; dsimp only
    rw [hwp]; dsimp only
    rw [wr_append_left _ _ _ _ hylt]; dsimp only
    rw [wr_append_last _ _ _ _ (hl1 _).symm]; dsimp only
    rw [wr_append_left _ _ _ _ (by rw [hl1]; exact hxlt)]
  refine ⟨_, _, _, ny.keys[3], hsplit, s1, s2, s3, s4, s5, rfl, ⟨by simp [ORDER, hxk1],
    by simp [ORDER, hxp1]⟩, rfl, hk3, hxkt, hxpt, hleaf, ⟨by simp [ORDER, hzk1],
    by simp [ORDER, hzp1]⟩, rfl, rfl, rfl, hzkt, hzpt⟩

/-- An internal split on the store: the child keeps keys 0..2 and children 0..3, the new
sibling at the end of the store takes key 4 and children 4, 5, and the parent gets the middle
key 3 as separator at `i` and the sibling as child `i + 1`. -/
theorem split_inner_heap {V : Type} (h : Heap V) (x i y : Nat) (nx ny : node V)
    (hx : h[x]? = some nx) (hsx : nx.sized) (hnk : nx.num_keys < ORDER - 1)
    (hi : i ≤ nx.num_keys) (hy : nx.pointers[i]? = some (Ptr.child y))
    (hny : h[y]? = some ny) (hsy : ny.sized) (hfull : ny.num_keys = ORDER - 1)
    (hleaf : ny.is_leaf = false) (hxy : x ≠ y) :
    ∃ h1 nx1 nz k3, split_child h x i = some h1 ∧ h1.length = h.length + 1 ∧
      h1[x]? = some nx1 ∧
      h1[y]? = some { ny with num_keys := 3 } ∧
      h1[h.length]? = some nz ∧
      (∀ b, b ≠ x → b ≠ y → b ≠ h.length → h1[b]? = h[b]?) ∧
      nx1.is_leaf = nx.is_leaf ∧ nx1.sized ∧ nx1.num_keys = nx.num_keys + 1 ∧
      ny.keys[3]? = some k3 ∧
      nx1.keys.take (nx.num_keys + 1)
        = nx.keys.take i ++ k3 :: (nx.keys.take nx.num_keys).drop i ∧
      nx1.pointers.take (nx.num_keys + 2)
        = nx.pointers.take (i + 1) ++
            Ptr.child h.length :: (nx.pointers.take (nx.num_keys + 1)).drop (i + 1) ∧
      nz.is_leaf = false ∧ nz.sized ∧ nz.num_keys = 1 ∧ nz.next = none ∧
      nz.parent = some x ∧
      nz.keys.take 1 = (ny.keys.take 5).drop 4 ∧
      nz.pointers.take 2 = (ny.pointers.take 6).drop 4 := by
  have hfull0 := hfull
  obtain ⟨hkx, hpx⟩ := hsx
  obtain ⟨hky, hpy⟩ := hsy
  simp only [ORDER, Nat.reduceAdd, Nat.reduceSub] at hkx hpx hky hpy hnk hfull
  have hxlt : x < h.length := lookup_lt hx
  have hylt : y < h.length := lookup_lt hny
  obtain ⟨zk1, zp0, j, zp1, plast, hcopy, hplast, hwz, hzk1, hzp1, hzkt, hzpt⟩ :=
    copy_inner_spec ny.keys (List.replicate 5 (0 : Int)) ny.pointers
      (List.replicate 7 (Ptr.null : Ptr V)) hky hpy (by simp) (by simp)
  have hk3 : ny.keys[3]? = some ny.keys[3] := by simp [List.getElem?_eq_getElem, hky]
  obtain ⟨xk0, xk1, hsk, hwk, hxk1, hxkt⟩ :=
    shift_keys_spec nx.keys hkx nx.num_keys i hnk hi ny.keys[3]
  obtain ⟨xp0, xp1, hsp, hwp, hxp1, hxpt⟩ :=
    shift_ptrs_spec nx.pointers hpx nx.num_keys i hnk hi (Ptr.child h.length)
  have hcopy1 : copy_loop ny.keys ny.pointers (ORDER - 1 - (ORDER / 2 + 1)) (ORDER / 2 + 1) 0
      (List.replicate (ORDER - 1) 0) (List.replicate (ORDER + 1) Ptr.null)
      = some (zk1, zp0, j) := hcopy
  have hplast1 : ny.pointers[ORDER - 1]? = some plast := hplast
  have hk3a : ny.keys[ORDER / 2]? = some ny.keys[3] := hk3
  have hl1 : ∀ v : node V, (h.set y v).length = h.length := fun v => by simp
  have hnf : ¬ (ny.is_leaf = true) := by rw [hleaf]; exact Bool.false_ne_true
  obtain ⟨s1, s2, s3, s4, s5⟩ := store_after_split h x y
    { nx with keys := xk1, pointers := xp1, num_keys := nx.num_keys + 1 }
    { ny with num_keys := ORDER / 2 }
    { pointers := zp1, keys := zk1, parent := some x, is_leaf := ny.is_leaf,
      num_keys := ORDER - 1 - ORDER / 2 - 1, next := none } hxlt hylt hxy
  have hsplit : split_child h x i = some ((h.set y
      { ny with num_keys := ORDER / 2 }).set x
      { nx with keys := xk1, pointers := xp1, num_keys := nx.num_keys + 1 } ++
      [{ pointers := zp1, keys := zk1, parent := some x, is_leaf := ny.is_leaf,
         num_keys := ORDER - 1 - ORDER / 2 - 1, next := none }]) := by
    unfold split_child
    rw [hx]; dsimp only [bind, Option.bind]
    rw [hy]; dsimp only [asChild]
    rw [hny]; dsimp only [create_node]
    rw [List.getElem?_concat_length]; dsimp only
    rw [if_neg hnf, hfull0, hcopy1]; dsimp only
    rw [hplast1]; dsimp only
    rw [hwz]; dsimp only
    rw [hsp]; dsimp only
    rw [hsk]; dsimp only
    rw [hk3a]; dsimp only
    rw [hwk]; dsimp only
    rw [hwp]; dsimp only
    rw [wr_append_left _ _ _ _ hylt]; dsimp only
    rw [wr_append_last _ _ _ _ (hl1 _).symm]; dsimp only
    rw [wr_append_left _ _ _ _ (by rw [hl1]; exact hxlt)]
  refine ⟨_, _, _, ny.keys[3], hsplit, s1, s2, s3, s4, s5, rfl, ⟨by simp [ORDER, hxk1],
    by simp [ORDER, hxp1]⟩, rfl, hk3, hxkt, hxpt, hleaf, ⟨by simp [ORDER, hzk1],
    by simp [ORDER, hzp1]⟩, rfl, rfl, rfl, hzkt, hzpt⟩

end Ledger

namespace Ledger

/-! ## Basic facts about `Rep` -/

theorem seg_append {V : Type} (A B : List (Sub V)) (a c : Option Nat) :
    seg (A ++ B) a c ↔ ∃ b, seg A a b ∧ seg B b c := by
  induction A generalizing a with
  | nil => simp [seg]
  | cons s A ih =>
    rw [List.cons_append]
    simp only [seg]
    rw [ih]
    constructor
    · rintro ⟨h1, b, h2, h3⟩; exact ⟨b, ⟨h1, h2⟩, h3⟩
    · rintro ⟨b, ⟨h1, h2⟩, h3⟩; exact ⟨h1, b, h2, h3⟩

theorem leaf_holds.entry_count {V : Type} {n : node V} {es : List (Int × V)}
    (hn : leaf_holds n es) : es.length = n.num_keys := by
  obtain ⟨_, ⟨hkl, _⟩, hle, hks, _⟩ := hn
  have h1 := congrArg List.length hks
  rw [List.length_take, List.length_map, hkl] at h1
  rw [← h1]; exact Nat.min_eq_left hle

theorem inner_holds.child_count {V : Type} {n : node V} {subs : List (Sub V)}
    (hn : inner_holds n subs) : subs.length = n.num_keys + 1 := by
  obtain ⟨_, ⟨_, hpl⟩, hle, hps, _⟩ := hn
  have h1 := congrArg List.length hps
  rw [List.length_take, List.length_map, hpl] at h1
  rw [← h1]
  apply Nat.min_eq_left
  have : ORDER - 1 + 1 ≤ ORDER + 1 := by decide
  omega

/-- The root node of a represented tree. -/
theorem Rep.root_node {V : Type} {h : Heap V} {d : Nat} {S : Sub V} (hr : Rep h d S) :
    ∃ n, h[S.addr]? = some n ∧ n.sized ∧ 1 ≤ n.num_keys ∧ n.num_keys ≤ ORDER - 1 ∧
      n.is_leaf = decide (d = 0) := by
  cases d with
  | zero =>
    obtain ⟨n, hn, ⟨hl, hs, hle, _, _⟩, h1, _⟩ := hr
    exact ⟨n, hn, hs, h1, hle, by simp [hl]⟩
  | succ d =>
    obtain ⟨n, subs, hn, ⟨hl, hs, hle, _, _⟩, h1, _⟩ := hr
    exact ⟨n, hn, hs, h1, hle, by simp [hl]⟩

theorem Rep.addr_mem {V : Type} {h : Heap V} {d : Nat} {S : Sub V} (hr : Rep h d S) :
    S.addr ∈ S.fp := by
  cases d with
  | zero =>
    obtain ⟨n, _, _, _, _, _, hfp⟩ := hr
    rw [hfp]; simp
  | succ d =>
    obtain ⟨n, subs, _, _, _, _, _, hfp, _⟩ := hr
    rw [hfp]; simp

theorem Rep.nodup {V : Type} {h : Heap V} {d : Nat} {S : Sub V} (hr : Rep h d S) :
    S.fp.Nodup := by
  cases d with
  | zero =>
    obtain ⟨n, _, _, _, _, _, hfp⟩ := hr
    rw [hfp]; simp
  | succ d =>
    obtain ⟨n, subs, _, _, _, _, _, _, hnd, _⟩ := hr
    exact hnd

theorem mem_flatten_fp {V : Type} {subs : List (Sub V)} {s : Sub V} (hs : s ∈ subs)
    {b : Nat} (hb : b ∈ s.fp) : b ∈ (subs.map Sub.fp).flatten := by
  rw [List.mem_flatten]
  exact ⟨s.fp, List.mem_map_of_mem _ hs, hb⟩

theorem Rep.fp_lt {V : Type} {h : Heap V} : ∀ {d : Nat} {S : Sub V}, Rep h d S →
    ∀ b ∈ S.fp, b < h.length := by
  intro d
  induction d with
  | zero =>
    intro S hr b hb
    obtain ⟨n, hn, _, _, _, _, hfp⟩ := hr
    rw [hfp] at hb
    simp at hb
    rw [hb]; exact lookup_lt hn
  | succ d ih =>
    intro S hr b hb
    obtain ⟨n, subs, hn, _, _, _, _, hfp, _, hk⟩ := hr
    rw [hfp] at hb
    rcases List.mem_cons.mp hb with h1 | h1
    · rw [h1]; exact lookup_lt hn
    · rw [List.mem_flatten] at h1
      obtain ⟨l, hl, hbl⟩ := h1
      obtain ⟨s, hs, rfl⟩ := List.mem_map.mp hl
      exact ih (hk s hs) b hbl

/-- A represented tree only depends on the nodes at its own addresses. -/
theorem Rep.frame {V : Type} {h h1 : Heap V} : ∀ {d : Nat} {S : Sub V}, Rep h d S →
    (∀ b ∈ S.fp, h1[b]? = h[b]?) → Rep h1 d S := by
  intro d
  induction d with
  | zero =>
    intro S hr hf
    obtain ⟨n, hn, h1, h2, h3, h4, hfp⟩ := hr
    refine ⟨n, ?_, h1, h2, h3, h4, hfp⟩
    rw [hf S.addr (by rw [hfp]; simp)]; exact hn
  | succ d ih =>
    intro S hr hf
    obtain ⟨n, subs, hn, h1, h0, h2, h3, hfp, h4, hk⟩ := hr
    refine ⟨n, subs, ?_, h1, h0, h2, h3, hfp, h4, ?_⟩
    · rw [hf S.addr (by rw [hfp]; simp)]; exact hn
    · intro s hs
      apply ih (hk s hs)
      intro b hb
      apply hf
      rw [hfp]
      exact List.mem_cons_of_mem _ (mem_flatten_fp hs hb)

theorem Rep.es_ne {V : Type} {h : Heap V} : ∀ {d : Nat} {S : Sub V}, Rep h d S →
    S.es ≠ [] := by
  intro d
  induction d with
  | zero =>
    intro S hr he
    obtain ⟨n, hn, hl, h1, _⟩ := hr
    have := hl.entry_count
    rw [he] at this
    simp at this
    omega
  | succ d ih =>
    intro S hr he
    obtain ⟨n, subs, hn, hin, _, _, hes, _, _, hk⟩ := hr
    cases subs with
    | nil =>
      have := hin.child_count
      simp at this
    | cons s rest =>
      rw [hes] at he
      simp at he
      exact ih (hk s (by simp)) (he.1)

/-- A tree of height `d` has more than `d` nodes. -/
theorem Rep.depth_lt {V : Type} {h : Heap V} : ∀ {d : Nat} {S : Sub V}, Rep h d S →
    d + 1 ≤ S.fp.length := by
  intro d
  induction d with
  | zero =>
    intro S hr
    obtain ⟨n, _, _, _, _, _, hfp⟩ := hr
    rw [hfp]; simp
  | succ d ih =>
    intro S hr
    obtain ⟨n, subs, hn, hin, _, _, _, hfp, _, hk⟩ := hr
    cases subs with
    | nil =>
      have := hin.child_count
      simp at this
    | cons s rest =>
      have := ih (hk s (by simp))
      rw [hfp]
      simp
      omega

theorem nodup_lt_length {l : List Nat} {N : Nat} (hn : l.Nodup) (hl : ∀ b ∈ l, b < N) :
    l.length ≤ N := by
  have h1 : l.toFinset ⊆ Finset.range N := by
    intro b hb
    rw [List.mem_toFinset] at hb
    exact Finset.mem_range.mpr (hl b hb)
  have h2 := Finset.card_le_card h1
  rw [List.toFinset_card_of_nodup hn, Finset.card_range] at h2
  exact h2

theorem Rep.depth_lt_store {V : Type} {h : Heap V} {d : Nat} {S : Sub V} (hr : Rep h d S) :
    d + 1 ≤ h.length :=
  le_trans hr.depth_lt (nodup_lt_length hr.nodup hr.fp_lt)

end Ledger

namespace Ledger

/-! ## Key order -/

theorem ascending_iff {V : Type} (es : List (Int × V)) :
    ascending es ↔ es.Pairwise (fun a b => a.1 ≤ b.1) := by
  unfold ascending List.Sorted
  rw [List.pairwise_map]

theorem ascending.infix {V : Type} {A B C : List (Int × V)} (h : ascending (A ++ B ++ C)) :
    ascending B := by
  rw [ascending_iff] at h ⊢
  exact ((List.pairwise_append.mp (List.pairwise_append.mp h).1).2).1

theorem ascending.head_le {V : Type} {es : List (Int × V)} (h : ascending es)
    {e : Int × V} (he : e ∈ es) : headKey es ≤ e.1 := by
  rw [ascending_iff] at h
  cases es with
  | nil => cases he
  | cons a rest =>
    rcases List.mem_cons.mp he with h1 | h1
    · rw [h1]; exact le_refl _
    · exact (List.pairwise_cons.mp h).1 e h1

theorem ascending.le_last {V : Type} {es : List (Int × V)} (h : ascending es)
    {e x : Int × V} (he : e ∈ es) (hx : x ∈ es.getLast?) : e.1 ≤ x.1 := by
  rw [ascending_iff] at h
  rcases List.eq_nil_or_concat es with h1 | ⟨l, y, h1⟩
  · rw [h1] at he; cases he
  · rw [h1, List.concat_eq_append] at he hx h
    simp at hx
    rw [hx] at he h
    rcases List.mem_append.mp he with h2 | h2
    · exact (List.pairwise_append.mp h).2.2 e h2 x (by simp)
    · simp at h2; rw [h2]

theorem placed.perm {V : Type} {key : Int} {t : V} {es es1 : List (Int × V)}
    (h : placed key t es es1) : es1.Perm ((key, t) :: es) := by
  obtain ⟨l, r, h1, h2, _, _⟩ := h
  rw [h1, h2]
  exact List.perm_middle

theorem placed.asc_of {V : Type} {key : Int} {t : V} {es es1 : List (Int × V)}
    (h : placed key t es es1) (ha : ascending es) : ascending es1 := by
  obtain ⟨l, r, h1, h2, hl, hr⟩ := h
  rw [ascending_iff] at ha ⊢
  rw [h1] at ha
  rw [h2]
  obtain ⟨p1, p2, p3⟩ := List.pairwise_append.mp ha
  refine List.pairwise_append.mpr ⟨p1, List.pairwise_cons.mpr ⟨fun b hb => hr b hb, p2⟩, ?_⟩
  intro a ha1 b hb
  rcases List.mem_cons.mp hb with h3 | h3
  · rw [h3]; exact hl a ha1
  · exact p3 a ha1 b h3

theorem placed.head_key {V : Type} {key : Int} {t : V} {es es1 : List (Int × V)}
    (h : placed key t es es1) (hne : es ≠ []) (hk : headKey es ≤ key) :
    headKey es1 = headKey es := by
  obtain ⟨l, r, h1, h2, hl, hr⟩ := h
  cases l with
  | nil =>
    cases r with
    | nil => simp at h1; exact absurd h1 hne
    | cons e r =>
      rw [h1, h2]
      rw [h1] at hk
      simp only [List.nil_append, headKey] at hk ⊢
      exact le_antisymm (hr e (by simp)) hk
  | cons a l => rw [h1, h2]; rfl

theorem placed.ne_nil {V : Type} {key : Int} {t : V} {es es1 : List (Int × V)}
    (h : placed key t es es1) : es1 ≠ [] := by
  obtain ⟨l, r, _, h2, _, _⟩ := h
  rw [h2]; simp

/-! ## Insertion into a leaf -/

/-- `insert_non_full` on a leaf that is not full writes the leaf back with the new entry
placed in key order; nothing else in the store changes. -/
theorem insert_leaf_store {V : Type} (fuel : Nat) (h : Heap V) (a : Nat) (n : node V)
    (es : List (Int × V)) (key : Int) (t : V)
    (hn : h[a]? = some n) (hl : leaf_holds n es) (hlt : n.num_keys < ORDER - 1)
    (hasc : ascending es) :
    ∃ n1 es1, insert_non_full (fuel + 1) h a key t = some (h.set a n1) ∧
      leaf_holds n1 es1 ∧ n1.num_keys = n.num_keys + 1 ∧ n1.next = n.next ∧
      placed key t es es1 := by
  obtain ⟨j, ks, ps, ks1, ps1, hsh, hw1, hw2, hl1, hgt, hlo⟩ := leaf_insert key t n es hl hlt
  refine ⟨_, _, ?_, hl1, rfl, rfl, es.take j, es.drop j, (List.take_append_drop j es).symm, rfl,
    ?_, ?_⟩
  · unfold insert_non_full
    rw [hn]; dsimp only [bind, Option.bind]
    rw [if_pos hl.1, hsh]; dsimp only
    rw [hw1]; dsimp only
    rw [hw2]; dsimp only
    rw [wr_some _ _ _ (lookup_lt hn)]
  · intro e he
    have hs : ascending (es.take j) := by
      have := hasc
      rw [← List.take_append_drop j es] at this
      rw [ascending_iff] at this ⊢
      exact (List.pairwise_append.mp this).1
    cases hg : (es.take j).getLast? with
    | none =>
      rw [List.getLast?_eq_none_iff] at hg
      rw [hg] at he; cases he
    | some x => exact le_trans (hs.le_last he (by rw [hg]; rfl)) (hlo x (by rw [hg]; rfl))
  · intro e he
    exact le_of_lt (hgt e he)

end Ledger

namespace Ledger

/-! ## Insertion below an internal node -/

theorem nodup_swap (a : Nat) (FA fs fs1 FC : List Nat) (N : Nat)
    (h1 : (a :: (FA ++ (fs ++ FC))).Nodup) (h2 : fs1.Nodup)
    (h3 : ∀ b ∈ fs1, b ∈ fs ∨ N ≤ b) (h4 : a < N) (h5 : ∀ b ∈ FA, b < N)
    (h6 : ∀ b ∈ FC, b < N) : (a :: (FA ++ (fs1 ++ FC))).Nodup := by
  rw [List.nodup_cons, List.nodup_append, List.nodup_append] at h1 ⊢
  obtain ⟨ha, hA, ⟨hs, hC, hsC⟩, hAsC⟩ := h1
  simp only [List.mem_append, not_or] at ha
  refine ⟨?_, hA, ⟨h2, hC, ?_⟩, ?_⟩
  · simp only [List.mem_append, not_or]
    refine ⟨ha.1, ?_, ha.2.2⟩
    intro hm
    rcases h3 a hm with h7 | h7
    · exact ha.2.1 h7
    · omega
  · intro b hb hbC
    rcases h3 b hb with h7 | h7
    · exact hsC h7 hbC
    · have := h6 b hbC; omega
  · intro b hb hbs
    rcases List.mem_append.mp hbs with h7 | h7
    · rcases h3 b h7 with h8 | h8
      · exact hAsC hb (List.mem_append.mpr (Or.inl h8))
      · have := h5 b hb; omega
    · exact hAsC hb (List.mem_append.mpr (Or.inr h7))

theorem flatten_fp_lt {V : Type} {h : Heap V} {d : Nat} {L : List (Sub V)}
    (hk : ∀ c ∈ L, Rep h d c) : ∀ b ∈ (L.map Sub.fp).flatten, b < h.length := by
  intro b hb
  rw [List.mem_flatten] at hb
  obtain ⟨l, hl, hbl⟩ := hb
  obtain ⟨c, hc, rfl⟩ := List.mem_map.mp hl
  exact (hk c hc).fp_lt b hbl

theorem mem_flatten_es {V : Type} {L : List (Sub V)} {e : Int × V}
    (he : e ∈ (L.map Sub.es).flatten) : ∃ c ∈ L, e ∈ c.es := by
  rw [List.mem_flatten] at he
  obtain ⟨l, hl, hel⟩ := he
  obtain ⟨c, hc, rfl⟩ := List.mem_map.mp hl
  exact ⟨c, hc, hel⟩

theorem ascending.flatten_mem {V : Type} {L : List (Sub V)}
    (h : ascending ((L.map Sub.es).flatten)) {c : Sub V} (hc : c ∈ L) : ascending c.es := by
  obtain ⟨L1, L2, rfl⟩ := List.append_of_mem hc
  simp only [List.map_append, List.map_cons, List.flatten_append, List.flatten_cons] at h
  rw [← List.append_assoc] at h
  exact h.infix

/-- Inserting into child `s` of an internal node whose children are `A ++ s :: C`, when the
key is not below the smallest key of `s` (unless `s` is the first child) and not above the
smallest keys of the children after `s`, and `s` is not full. -/
theorem kid_insert {V : Type} {d : Nat} (ih : InsSpec V d) (fuel : Nat) (h : Heap V)
    (S : Sub V) (n : node V) (A C : List (Sub V)) (s : Sub V) (key : Int) (t : V)
    (hn : h[S.addr]? = some n) (hin : inner_holds n (A ++ s :: C)) (h1k : 1 ≤ n.num_keys)
    (hseg : seg (A ++ s :: C) (some S.first) S.nxt)
    (hes : S.es = ((A ++ s :: C).map Sub.es).flatten)
    (hfp : S.fp = S.addr :: ((A ++ s :: C).map Sub.fp).flatten) (hnd : S.fp.Nodup)
    (hk : ∀ c ∈ A ++ s :: C, Rep h d c) (hasc : ascending S.es)
    (hlo : A ≠ [] → s.hk ≤ key) (hhi : ∀ c ∈ C, key ≤ c.hk)
    (hnf : ∀ nc, h[s.addr]? = some nc → nc.num_keys < ORDER - 1) (hfuel : d + 1 ≤ fuel) :
    ∃ h1 S1, insert_non_full fuel h s.addr key t = some h1 ∧ Rep h1 (d + 1) S1 ∧
      grows h h1 S S1 ∧ placed key t S.es S1.es := by
  have hsrep : Rep h d s := hk s (by simp)
  have hkA : ∀ c ∈ A, Rep h d c := fun c hc => hk c (by simp [hc])
  have hkC : ∀ c ∈ C, Rep h d c := fun c hc => hk c (by simp [hc])
  rw [hes] at hasc
  have hascs : ascending s.es := hasc.flatten_mem (by simp)
  obtain ⟨h1, s1, hins, hrep1, ⟨ga, gf, gn, gl, gfr, gfp⟩, hpl⟩ :=
    ih fuel h s key t hsrep hascs hnf hfuel
  simp only [List.map_append, List.map_cons, List.flatten_append, List.flatten_cons]
    at hes hfp hasc
  rw [hfp] at hnd
  have hnd0 := hnd
  rw [List.nodup_cons, List.nodup_append, List.nodup_append] at hnd
  obtain ⟨hna, hA, ⟨hs, hC, hsC⟩, hAsC⟩ := hnd
  simp only [List.mem_append, not_or] at hna
  have haddr : S.addr < h.length := lookup_lt hn
  have hframe : ∀ c, c ∈ A ∨ c ∈ C → ∀ b ∈ c.fp, h1[b]? = h[b]? := by
    intro c hc b hb
    have hrc : Rep h d c := by
      rcases hc with h2 | h2
      · exact hkA c h2
      · exact hkC c h2
    apply gfr b (hrc.fp_lt b hb)
    intro hbs
    rcases hc with h2 | h2
    · exact hAsC (mem_flatten_fp h2 hb) (List.mem_append.mpr (Or.inl hbs))
    · exact hsC hbs (mem_flatten_fp h2 hb)
  have hhk : A ≠ [] → s1.hk = s.hk := fun hA =>
    hpl.head_key hsrep.es_ne (hlo hA)
  refine ⟨h1, { addr := S.addr, first := S.first, nxt := S.nxt,
                fp := S.addr :: ((A ++ s1 :: C).map Sub.fp).flatten,
                es := ((A ++ s1 :: C).map Sub.es).flatten }, hins,
    ⟨n, A ++ s1 :: C, ?_, ?_, h1k, ?_, rfl, rfl, ?_, ?_⟩, ⟨rfl, rfl, rfl, gl, ?_, ?_⟩, ?_⟩
  · show h1[S.addr]? = some n
    rw [gfr S.addr haddr hna.2.1]; exact hn
  · obtain ⟨i1, i2, i4, i5, i6⟩ := hin
    refine ⟨i1, i2, i4, ?_, ?_⟩
    · rw [i5]; simp [ga]
    · rw [← i6]
      cases A with
      | nil => simp
      | cons a A => simp [hhk (by simp)]
  · rw [seg_append] at hseg ⊢
    obtain ⟨b, hb1, hb2⟩ := hseg
    refine ⟨b, hb1, ?_⟩
    simp only [seg] at hb2 ⊢
    rw [gf, gn]; exact hb2
  · show (S.addr :: ((A ++ s1 :: C).map Sub.fp).flatten).Nodup
    simp only [List.map_append, List.map_cons, List.flatten_append, List.flatten_cons]
    exact nodup_swap _ _ _ _ _ h.length hnd0 hrep1.nodup gfp haddr (flatten_fp_lt hkA)
      (flatten_fp_lt hkC)
  · intro c hc
    rcases List.mem_append.mp hc with h2 | h2
    · exact (hkA c h2).frame (hframe c (Or.inl h2))
    · rcases List.mem_cons.mp h2 with h3 | h3
      · rw [h3]; exact hrep1
      · exact (hkC c h3).frame (hframe c (Or.inr h3))
  · intro b hb hbn
    apply gfr b hb
    intro hbs
    apply hbn
    rw [hfp]
    simp [hbs]
  · intro b hb
    simp only [List.map_append, List.map_cons, List.flatten_append, List.flatten_cons,
      List.mem_cons, List.mem_append] at hb
    rw [hfp]
    simp only [List.mem_cons, List.mem_append]
    rcases hb with h2 | h2 | h2 | h2
    · exact Or.inl (Or.inl h2)
    · exact Or.inl (Or.inr (Or.inl h2))
    · rcases gfp b h2 with h3 | h3
      · exact Or.inl (Or.inr (Or.inr (Or.inl h3)))
      · exact Or.inr h3
    · exact Or.inl (Or.inr (Or.inr (Or.inr h2)))
  · obtain ⟨l, r, hl1, hl2, hll, hlr⟩ := hpl
    refine ⟨(A.map Sub.es).flatten ++ l, r ++ (C.map Sub.es).flatten, ?_, ?_, ?_, ?_⟩
    · rw [hes, hl1]; simp
    · show ((A ++ s1 :: C).map Sub.es).flatten = _
      simp only [List.map_append, List.map_cons, List.flatten_append, List.flatten_cons]
      rw [hl2]; simp
    · intro e he
      rcases List.mem_append.mp he with h2 | h2
      · have hAne : A ≠ [] := by
          intro h3; rw [h3] at h2; simp at h2
        have h4 : headKey s.es ≤ key := hlo hAne
        rw [ascending_iff] at hasc
        obtain ⟨e0, rest, he0⟩ := List.exists_cons_of_ne_nil hsrep.es_ne
        have h5 := (List.pairwise_append.mp hasc).2.2 e h2 e0 (by rw [he0]; simp)
        rw [he0] at h4
        exact le_trans h5 h4
      · exact hll e h2
    · intro e he
      rcases List.mem_append.mp he with h2 | h2
      · exact hlr e h2
      · obtain ⟨c, hc, hec⟩ := mem_flatten_es h2
        have h3 : ascending c.es := by
          have : ascending ((C.map Sub.es).flatten) := by
            rw [ascending_iff] at hasc ⊢
            exact (List.pairwise_append.mp (List.pairwise_append.mp hasc).2.1).2.1
          exact this.flatten_mem hc
        exact le_trans (hhi c hc) (h3.head_le hec)

end Ledger

namespace Ledger

/-! ## Children and separators of an internal node -/

theorem getElem?_of_take_eq {α : Type} {l m : List α} {k i : Nat} (h : l.take k = m)
    (hi : i < m.length) : l[i]? = m[i]? := by
  rw [← h, List.getElem?_take_of_lt]
  rw [← h, List.length_take] at hi
  omega

theorem take_at {α : Type} (X Y : List α) (k : Nat) (hk : k = X.length) :
    (X ++ Y).take k = X := by
  rw [hk]; exact List.take_left' rfl

theorem drop_at {α : Type} (X Y : List α) (k : Nat) (hk : k = X.length) :
    (X ++ Y).drop k = Y := by
  rw [hk]; exact List.drop_left' rfl

theorem getElem?_at {α : Type} (X Y : List α) (x : α) (k : Nat) (hk : k = X.length) :
    (X ++ x :: Y)[k]? = some x := by
  rw [hk]; exact get_mid X x Y

theorem inner_holds.ptr {V : Type} {n : node V} {A C : List (Sub V)} {s : Sub V}
    (hin : inner_holds n (A ++ s :: C)) : n.pointers[A.length]? = some (Ptr.child s.addr) := by
  obtain ⟨_, _, _, hps, _⟩ := hin
  rw [getElem?_of_take_eq hps (by simp)]
  rw [List.map_append, List.map_cons]
  exact getElem?_at _ _ _ _ (by simp)

theorem inner_holds.key {V : Type} {n : node V} {A C : List (Sub V)} {s s2 : Sub V}
    (hin : inner_holds n (A ++ s :: s2 :: C)) : n.keys[A.length]? = some s2.hk := by
  obtain ⟨_, _, _, _, hks⟩ := hin
  rw [getElem?_of_take_eq hks.symm (by simp)]
  cases A with
  | nil => simp
  | cons a A =>
    simp only [List.cons_append, List.map_cons, List.tail_cons, List.length_cons, List.map_append]
    rw [show List.map Sub.hk A ++ s.hk :: s2.hk :: List.map Sub.hk C
          = (List.map Sub.hk A ++ [s.hk]) ++ s2.hk :: List.map Sub.hk C by simp]
    exact getElem?_at _ _ _ _ (by simp)

theorem inner_holds.idx_le {V : Type} {n : node V} {A C : List (Sub V)} {s : Sub V}
    (hin : inner_holds n (A ++ s :: C)) : A.length ≤ n.num_keys := by
  have := hin.child_count
  simp at this
  omega

/-- The parent after `split_child`: the separator and the sibling go in right after the
child that was split. -/
theorem parent_after_split {V : Type} {n n1 : node V} {A C : List (Sub V)} {s sy sz : Sub V}
    {k3 : Int} {z : Nat}
    (hin : inner_holds n (A ++ s :: C)) (hnk : n.num_keys < ORDER - 1)
    (hl : n1.is_leaf = n.is_leaf) (hs : n1.sized) (hk1 : n1.num_keys = n.num_keys + 1)
    (hks : n1.keys.take (n.num_keys + 1)
        = n.keys.take A.length ++ k3 :: (n.keys.take n.num_keys).drop A.length)
    (hps : n1.pointers.take (n.num_keys + 2)
        = n.pointers.take (A.length + 1) ++
            Ptr.child z :: (n.pointers.take (n.num_keys + 1)).drop (A.length + 1))
    (hya : sy.addr = s.addr) (hyk : sy.hk = s.hk) (hzk : sz.hk = k3) (hza : sz.addr = z) :
    inner_holds n1 (A ++ sy :: sz :: C) := by
  have hle := hin.idx_le
  obtain ⟨i1, i2, i4, i5, i6⟩ := hin
  refine ⟨by rw [hl, i1], hs, by omega, ?_, ?_⟩
  · rw [hk1, hps]
    have h1 : n.pointers.take (A.length + 1)
        = (n.pointers.take (n.num_keys + 1)).take (A.length + 1) := by
      rw [List.take_take, Nat.min_eq_left (by omega)]
    rw [h1, i5]
    simp only [List.map_append, List.map_cons]
    rw [show List.map (fun s => Ptr.child s.addr) A ++
            Ptr.child s.addr :: List.map (fun s => Ptr.child s.addr) C
          = (List.map (fun s => Ptr.child s.addr) A ++ [Ptr.child s.addr]) ++
            List.map (fun s => Ptr.child s.addr) C by simp,
      take_at _ _ _ (by simp), drop_at _ _ _ (by simp), hya, hza]
    simp
  · rw [hk1, hks]
    have h1 : n.keys.take A.length = (n.keys.take n.num_keys).take A.length := by
      rw [List.take_take, Nat.min_eq_left hle]
    rw [h1, ← i6]
    cases A with
    | nil => simp [hzk]
    | cons a A =>
      simp only [List.cons_append, List.map_cons, List.tail_cons, List.length_cons,
        List.map_append]
      rw [show List.map Sub.hk A ++ s.hk :: List.map Sub.hk C
            = (List.map Sub.hk A ++ [s.hk]) ++ List.map Sub.hk C by simp,
        take_at _ _ _ (by simp), drop_at _ _ _ (by simp), hyk, hzk]
      simp

end Ledger

namespace Ledger

/-! ## `split_child` on a represented tree -/

theorem headKey_append {V : Type} {l : List (Int × V)} (r : List (Int × V)) (hl : l ≠ []) :
    headKey (l ++ r) = headKey l := by
  cases l with
  | nil => exact absurd rfl hl
  | cons a l => rfl

/-- Splitting a full leaf child. -/
theorem split_rep_leaf {V : Type} (h : Heap V) (S : Sub V) (n : node V)
    (A C : List (Sub V)) (s : Sub V)
    (hn : h[S.addr]? = some n) (hin : inner_holds n (A ++ s :: C))
    (hnk : n.num_keys < ORDER - 1)
    (hseg : seg (A ++ s :: C) (some S.first) S.nxt)
    (hfp : S.fp = S.addr :: ((A ++ s :: C).map Sub.fp).flatten) (hnd : S.fp.Nodup)
    (hk : ∀ c ∈ A ++ s :: C, Rep h 0 c)
    (hfull : ∀ nc, h[s.addr]? = some nc → nc.num_keys = ORDER - 1) :
    ∃ h1 n1 sy sz, split_child h S.addr A.length = some h1 ∧
      split_post h h1 0 S n1 A C s sy sz := by
  have hsr : Rep h 0 s := hk s (by simp)
  obtain ⟨ny, hny, hly, h1y, hfirst, hnext, hfps⟩ := hsr
  have hnk5 : ny.num_keys = 5 := hfull ny hny
  simp only [List.map_append, List.map_cons, List.flatten_append, List.flatten_cons] at hfp
  rw [hfp, List.nodup_cons, List.nodup_append, List.nodup_append] at hnd
  obtain ⟨hna, hA, ⟨hs, hC, hsC⟩, hAsC⟩ := hnd
  simp only [List.mem_append, not_or] at hna
  have hxy : S.addr ≠ s.addr := by
    intro he; apply hna.2.1; rw [hfps, he]; simp
  obtain ⟨h1, nx1, nz, k3, hsplit, hlen, hx1, hy1, hz1, hfr, x1, x2, x3, hk3, x4, x5, z1, z2, z3,
    z4, _, z5, z6⟩ := split_leaf_heap h S.addr A.length s.addr n ny hn hin.2.1 hnk hin.idx_le
      hin.ptr hny hly.2.1 (hfull ny hny) hly.1 hxy
  obtain ⟨e0, e1, e2, e3, e4, hes5⟩ := list_len5 s.es (by rw [hly.entry_count, hnk5])
  obtain ⟨l1, l2, l3, l4, l5⟩ := hly
  rw [hnk5, hes5] at l4 l5
  simp only [List.map_cons, List.map_nil] at l4 l5
  have hk3e : k3 = e3.1 := by
    have := getElem?_of_take_eq (i := 3) l4 (by simp)
    rw [hk3] at this
    simpa using this
  rw [l4] at z5
  rw [l5] at z6
  simp only [List.drop_succ_cons, List.drop_zero] at z5 z6
  have hA_lt : ∀ c, c ∈ A ∨ c ∈ C → ∀ b ∈ c.fp, h1[b]? = h[b]? := by
    intro c hc b hb
    have hrc : Rep h 0 c := by
      rcases hc with h2 | h2
      · exact hk c (by simp [h2])
      · exact hk c (by simp [h2])
    have hbl := hrc.fp_lt b hb
    apply hfr b
    · intro he
      rcases hc with h2 | h2
      · exact hna.1 (he ▸ mem_flatten_fp h2 hb)
      · exact hna.2.2 (he ▸ mem_flatten_fp h2 hb)
    · intro he
      have hbs : b ∈ s.fp := by rw [hfps, he]; simp
      rcases hc with h2 | h2
      · exact hAsC (mem_flatten_fp h2 hb) (List.mem_append.mpr (Or.inl hbs))
      · exact hsC hbs (mem_flatten_fp h2 hb)
    · omega
  refine ⟨h1, nx1, { addr := s.addr, first := s.addr, nxt := some h.length, fp := [s.addr],
                     es := [e0, e1, e2] },
    { addr := h.length, first := h.length, nxt := s.nxt, fp := [h.length], es := [e3, e4] },
    hsplit, hlen, hx1, ?_, ?_, ?_, ?_, ?_, ?_, ?_, ?_, ?_, ?_⟩
  · exact parent_after_split hin hnk x1 x2 x3 x4 x5 rfl (by rw [Sub.hk, Sub.hk, hes5]; rfl)
      (by rw [hk3e]; rfl) rfl
  · rw [seg_append] at hseg ⊢
    obtain ⟨b, hb1, hb2⟩ := hseg
    refine ⟨b, hb1, ?_⟩
    simp only [seg] at hb2 ⊢
    rw [← hfirst]
    exact ⟨hb2.1, trivial, hb2.2⟩
  · intro c hc
    rcases List.mem_append.mp hc with h2 | h2
    · exact (hk c (by simp [h2])).frame (hA_lt c (Or.inl h2))
    · rcases List.mem_cons.mp h2 with h3 | h3
      · rw [h3]
        refine ⟨_, hy1, ⟨l1, l2, by show 3 ≤ ORDER - 1; decide, ?_, ?_⟩,
          by show 1 ≤ 3; decide, rfl, rfl, rfl⟩
        · have := congrArg (List.take 3) l4
          rw [List.take_take] at this
          simpa using this
        · have := congrArg (List.take 3) l5
          rw [List.take_take] at this
          simpa using this
      · rcases List.mem_cons.mp h3 with h4 | h4
        · rw [h4]
          refine ⟨nz, hz1, ⟨z1, z2, by rw [z3]; decide, ?_, ?_⟩, by rw [z3]; decide, rfl,
            by rw [z4, hnext], rfl⟩
          · rw [z3, z5]; rfl
          · rw [z3, z6]; rfl
        · exact (hk c (by simp [h4])).frame (hA_lt c (Or.inr h4))
  · show [e0, e1, e2] ++ [e3, e4] = s.es
    rw [hes5]; rfl
  · rw [Sub.hk, Sub.hk, hes5]; rfl
  · intro b hb
    simp only [List.mem_append, List.mem_singleton] at hb
    rcases hb with h2 | h2
    · left; rw [hfps, h2]; simp
    · right; exact h2
  · show [s.addr, h.length].Nodup
    have := lookup_lt hny
    simp; omega
  · intro b hb hbx hbs
    apply hfr b hbx _ (by omega)
    intro he; apply hbs; rw [hfps, he]; simp
  · intro nc hnc
    rw [hy1] at hnc
    cases hnc
    show 3 < ORDER - 1
    decide
  · intro nc hnc
    change h1[h.length]? = some nc at hnc
    rw [hz1] at hnc
    cases hnc
    rw [z3]; decide

end Ledger

namespace Ledger

theorem list_len6 {α : Type} (l : List α) (hl : l.length = 6) :
    ∃ a b c d e f, l = [a, b, c, d, e, f] := by
  match l, hl with
  | [a, b, c, d, e, f], _ => exact ⟨a, b, c, d, e, f, rfl⟩

set_option maxHeartbeats 1000000 in
/-- Splitting a full internal child. -/
theorem split_rep_inner {V : Type} (d : Nat) (h : Heap V) (S : Sub V) (n : node V)
    (A C : List (Sub V)) (s : Sub V)
    (hn : h[S.addr]? = some n) (hin : inner_holds n (A ++ s :: C))
    (hnk : n.num_keys < ORDER - 1)
    (hseg : seg (A ++ s :: C) (some S.first) S.nxt)
    (hfp : S.fp = S.addr :: ((A ++ s :: C).map Sub.fp).flatten) (hnd : S.fp.Nodup)
    (hk : ∀ c ∈ A ++ s :: C, Rep h (d + 1) c)
    (hfull : ∀ nc, h[s.addr]? = some nc → nc.num_keys = ORDER - 1) :
    ∃ h1 n1 sy sz, split_child h S.addr A.length = some h1 ∧
      split_post h h1 (d + 1) S n1 A C s sy sz := by
  have hsr : Rep h (d + 1) s := hk s (by simp)
  have hsr0 := hsr
  obtain ⟨ny, ys, hny, hiny, h1ky, hsegy, hesy, hfpy, hndy, hky⟩ := hsr
  have hnk5 : ny.num_keys = 5 := hfull ny hny
  simp only [List.map_append, List.map_cons, List.flatten_append, List.flatten_cons] at hfp
  rw [hfp, List.nodup_cons, List.nodup_append, List.nodup_append] at hnd
  obtain ⟨hna, hA, ⟨hs, hC, hsC⟩, hAsC⟩ := hnd
  simp only [List.mem_append, not_or] at hna
  have hxy : S.addr ≠ s.addr := by
    intro he; apply hna.2.1; rw [he]; exact hsr0.addr_mem
  obtain ⟨h1, nx1, nz, k3, hsplit, hlen, hx1, hy1, hz1, hfr, x1, x2, x3, hk3, x4, x5, z1, z2, z3,
    z4, _, z5, z6⟩ := split_inner_heap h S.addr A.length s.addr n ny hn hin.2.1 hnk hin.idx_le
      hin.ptr hny hiny.2.1 (hfull ny hny) hiny.1 hxy
  obtain ⟨c0, c1, c2, c3, c4, c5, hys⟩ := list_len6 ys (by rw [hiny.child_count, hnk5])
  obtain ⟨l1, l2, l4, l5, l6⟩ := hiny
  rw [hnk5, hys] at l5 l6
  simp only [List.map_cons, List.map_nil, List.tail_cons] at l5 l6
  have hk3e : k3 = c4.hk := by
    have := getElem?_of_take_eq (i := 3) l6.symm (by simp)
    rw [hk3] at this
    simpa using this
  rw [← l6] at z5
  rw [l5] at z6
  simp only [List.drop_succ_cons, List.drop_zero] at z5 z6
  rw [hys] at hsegy hesy hfpy hky
  simp only [seg] at hsegy
  obtain ⟨g0, g1, g2, g3, g4, g5, g6⟩ := hsegy
  simp only [List.map_cons, List.map_nil, List.flatten_cons, List.flatten_nil,
    List.append_nil] at hesy hfpy
  have hc0 : c0.es ≠ [] := (hky c0 (by simp)).es_ne
  have hc4 : c4.es ≠ [] := (hky c4 (by simp)).es_ne
  have hslt : ∀ b ∈ s.fp, b < h.length := hsr0.fp_lt
  rw [hfpy] at hndy
  have hndy0 := hndy
  rw [List.nodup_cons] at hndy
  -- nodes outside the parent, the child and the new sibling are untouched
  have hA_lt : ∀ c, c ∈ A ∨ c ∈ C → ∀ b ∈ c.fp, h1[b]? = h[b]? := by
    intro c hc b hb
    have hrc : Rep h (d + 1) c := by
      rcases hc with h2 | h2
      · exact hk c (by simp [h2])
      · exact hk c (by simp [h2])
    have hbl := hrc.fp_lt b hb
    apply hfr b
    · intro he
      rcases hc with h2 | h2
      · exact hna.1 (he ▸ mem_flatten_fp h2 hb)
      · exact hna.2.2 (he ▸ mem_flatten_fp h2 hb)
    · intro he
      have hbs : b ∈ s.fp := by rw [he]; exact hsr0.addr_mem
      rcases hc with h2 | h2
      · exact hAsC (mem_flatten_fp h2 hb) (List.mem_append.mpr (Or.inl hbs))
      · exact hsC hbs (mem_flatten_fp h2 hb)
    · omega
  have hkid : ∀ c ∈ [c0, c1, c2, c3, c4, c5], Rep h1 d c := by
    intro c hc
    apply (hky c hc).frame
    intro b hb
    have hbf : b ∈ c0.fp ++ (c1.fp ++ (c2.fp ++ (c3.fp ++ (c4.fp ++ c5.fp)))) := by
      simp only [List.mem_cons, List.mem_singleton, List.not_mem_nil, or_false] at hc
      simp only [List.mem_append]
      rcases hc with h2 | h2 | h2 | h2 | h2 | h2 <;> rw [h2] at hb <;> simp [hb]
    have hbs : b ∈ s.fp := by rw [hfpy]; exact List.mem_cons_of_mem _ hbf
    apply hfr b
    · intro he; exact hna.2.1 (he ▸ hbs)
    · intro he; exact hndy.1 (he ▸ hbf)
    · have := hslt b hbs; omega
  refine ⟨h1, nx1,
    { addr := s.addr, first := s.first, nxt := c3.nxt,
      fp := s.addr :: ([c0, c1, c2, c3].map Sub.fp).flatten,
      es := ([c0, c1, c2, c3].map Sub.es).flatten },
    { addr := h.length, first := c4.first, nxt := s.nxt,
      fp := h.length :: ([c4, c5].map Sub.fp).flatten,
      es := ([c4, c5].map Sub.es).flatten },
    hsplit, hlen, hx1, ?_, ?_, ?_, ?_, ?_, ?_, ?_, ?_, ?_, ?_⟩
  · refine parent_after_split hin hnk x1 x2 x3 x4 x5 rfl ?_ ?_ rfl
    · show headKey (([c0, c1, c2, c3].map Sub.es).flatten) = headKey s.es
      rw [hesy]
      simp only [List.map_cons, List.map_nil, List.flatten_cons, List.flatten_nil]
      rw [headKey_append _ hc0, headKey_append _ hc0]
    · show headKey (([c4, c5].map Sub.es).flatten) = k3
      simp only [List.map_cons, List.map_nil, List.flatten_cons, List.flatten_nil]
      rw [headKey_append _ hc4, hk3e]; rfl
  · rw [seg_append] at hseg ⊢
    obtain ⟨b, hb1, hb2⟩ := hseg
    refine ⟨b, hb1, ?_⟩
    simp only [seg] at hb2 ⊢
    exact ⟨hb2.1, g4, hb2.2⟩
  · intro c hc
    rcases List.mem_append.mp hc with h2 | h2
    · exact (hk c (by simp [h2])).frame (hA_lt c (Or.inl h2))
    · rcases List.mem_cons.mp h2 with h3 | h3
      · rw [h3]
        refine ⟨_, [c0, c1, c2, c3], hy1, ⟨l1, l2,
          by show 3 ≤ ORDER - 1; decide, ?_, ?_⟩, by show 1 ≤ 3; decide, ?_, rfl, rfl, ?_, ?_⟩
        · have := congrArg (List.take 4) l5
          rw [List.take_take] at this
          simpa using this
        · have := congrArg (List.take 3) l6
          rw [List.take_take] at this
          simpa using this
        · simp only [seg]
          exact ⟨g0, g1, g2, g3, trivial⟩
        · show (s.addr :: ([c0, c1, c2, c3].map Sub.fp).flatten).Nodup
          simp only [List.map_cons, List.map_nil, List.flatten_cons, List.flatten_nil,
            List.append_nil]
          refine List.Nodup.sublist ?_ hndy0
          refine List.Sublist.cons₂ _ ?_
          simp only [← List.append_assoc]
          exact (List.sublist_append_left _ c4.fp).trans (List.sublist_append_left _ c5.fp)
        · intro c hc; exact hkid c (by simp at hc ⊢; tauto)
      · rcases List.mem_cons.mp h3 with h4 | h4
        · rw [h4]
          refine ⟨nz, [c4, c5], hz1, ⟨z1, z2, by simp [z3, ORDER], ?_, ?_⟩, by rw [z3], ?_,
            rfl, rfl, ?_, ?_⟩
          · rw [z3, z6]; rfl
          · rw [z3, z5]; rfl
          · simp only [seg]
            exact ⟨trivial, g5, g6⟩
          · show (h.length :: ([c4, c5].map Sub.fp).flatten).Nodup
            simp only [List.map_cons, List.map_nil, List.flatten_cons, List.flatten_nil,
              List.append_nil]
            rw [List.nodup_cons]
            constructor
            · intro hm
              have : h.length ∈ s.fp := by
                rw [hfpy]; simp only [List.mem_cons, List.mem_append] at hm ⊢; tauto
              have := hslt _ this; omega
            · refine List.Nodup.sublist ?_ hndy.2
              simp only [← List.append_assoc]
              rw [List.append_assoc]
              exact List.sublist_append_right _ _
          · intro c hc; exact hkid c (by simp at hc ⊢; tauto)
        · exact (hk c (by simp [h4])).frame (hA_lt c (Or.inr h4))
  · show ([c0, c1, c2, c3].map Sub.es).flatten ++ ([c4, c5].map Sub.es).flatten = s.es
    rw [hesy]; simp
  · show headKey (([c0, c1, c2, c3].map Sub.es).flatten) = headKey s.es
    rw [hesy]
    simp only [List.map_cons, List.map_nil, List.flatten_cons, List.flatten_nil]
    rw [headKey_append _ hc0, headKey_append _ hc0]
  · intro b hb
    rw [hfpy]
    simp only [List.map_cons, List.map_nil, List.flatten_cons, List.flatten_nil,
      List.append_nil, List.mem_append, List.mem_cons] at hb ⊢
    tauto
  · show ((s.addr :: ([c0, c1, c2, c3].map Sub.fp).flatten) ++
        (h.length :: ([c4, c5].map Sub.fp).flatten)).Nodup
    simp only [List.map_cons, List.map_nil, List.flatten_cons, List.flatten_nil,
      List.append_nil]
    have hperm : (s.addr :: (c0.fp ++ (c1.fp ++ (c2.fp ++ c3.fp))) ++
        h.length :: (c4.fp ++ c5.fp)).Perm
        (h.length :: s.addr :: (c0.fp ++ (c1.fp ++ (c2.fp ++ (c3.fp ++ (c4.fp ++ c5.fp)))))) := by
      refine List.perm_middle.trans ?_
      simp
    rw [hperm.nodup_iff, List.nodup_cons]
    refine ⟨?_, hndy0⟩
    intro hm
    have : h.length ∈ s.fp := by rw [hfpy]; exact hm
    have := hslt _ this; omega
  · intro b hb hbx hbs
    apply hfr b hbx _ (by omega)
    intro he; apply hbs; rw [he]; exact hsr0.addr_mem
  · intro nc hnc
    rw [hy1] at hnc
    cases hnc
    show 3 < ORDER - 1
    decide
  · intro nc hnc
    change h1[h.length]? = some nc at hnc
    rw [hz1] at hnc
    cases hnc
    rw [z3]; decide

/-- `split_child` on a full child of an internal node of a represented tree. -/
theorem split_rep {V : Type} (d : Nat) (h : Heap V) (S : Sub V) (n : node V)
    (A C : List (Sub V)) (s : Sub V)
    (hn : h[S.addr]? = some n) (hin : inner_holds n (A ++ s :: C))
    (hnk : n.num_keys < ORDER - 1)
    (hseg : seg (A ++ s :: C) (some S.first) S.nxt)
    (hfp : S.fp = S.addr :: ((A ++ s :: C).map Sub.fp).flatten) (hnd : S.fp.Nodup)
    (hk : ∀ c ∈ A ++ s :: C, Rep h d c)
    (hfull : ∀ nc, h[s.addr]? = some nc → nc.num_keys = ORDER - 1) :
    ∃ h1 n1 sy sz, split_child h S.addr A.length = some h1 ∧
      split_post h h1 d S n1 A C s sy sz := by
  cases d with
  | zero => exact split_rep_leaf h S n A C s hn hin hnk hseg hfp hnd hk hfull
  | succ d => exact split_rep_inner d h S n A C s hn hin hnk hseg hfp hnd hk hfull

end Ledger

namespace Ledger

/-! ## `insert_non_full` step by step -/

theorem insert_inner_nosplit {V : Type} (f : Nat) (h : Heap V) (x i c : Nat) (n nc : node V)
    (key : Int) (t : V)
    (hn : h[x]? = some n) (hl : n.is_leaf = false)
    (hd : descend key n.num_keys n.keys = some i)
    (hp : n.pointers[i]? = some (Ptr.child c)) (hc : h[c]? = some nc)
    (hnf : nc.num_keys ≠ ORDER - 1) :
    insert_non_full (f + 1) h x key t = insert_non_full f h c key t := by
  have hnl : ¬ (n.is_leaf = true) := by rw [hl]; exact Bool.false_ne_true
  rw [insert_non_full]
  rw [hn]; dsimp only [bind, Option.bind]
  rw [if_neg hnl, hd]; dsimp only
  rw [hp]; dsimp only [asChild]
  rw [hc]; dsimp only
  rw [if_neg hnf]

theorem insert_inner_split {V : Type} (f : Nat) (h h1 : Heap V) (x i c c1 : Nat)
    (n nc n1 : node V) (key ki : Int) (t : V)
    (hn : h[x]? = some n) (hl : n.is_leaf = false)
    (hd : descend key n.num_keys n.keys = some i)
    (hp : n.pointers[i]? = some (Ptr.child c)) (hc : h[c]? = some nc)
    (hfull : nc.num_keys = ORDER - 1) (hs : split_child h x i = some h1)
    (hn1 : h1[x]? = some n1) (hki : n1.keys[i]? = some ki)
    (hp1 : n1.pointers[if key > ki then i + 1 else i]? = some (Ptr.child c1)) :
    insert_non_full (f + 1) h x key t = insert_non_full f h1 c1 key t := by
  have hnl : ¬ (n.is_leaf = true) := by rw [hl]; exact Bool.false_ne_true
  rw [insert_non_full]
  rw [hn]; dsimp only [bind, Option.bind]
  rw [if_neg hnl, hd]; dsimp only
  rw [hp]; dsimp only [asChild]
  rw [hc]; dsimp only
  rw [if_pos hfull, hs]; dsimp only
  rw [hn1]; dsimp only
  rw [hki]; dsimp only
  rw [hp1]; dsimp only [asChild]

theorem inner_holds.key_before {V : Type} {n : node V} {A C : List (Sub V)} {s : Sub V}
    (hin : inner_holds n (A ++ s :: C)) (hA : A ≠ []) :
    n.keys[A.length - 1]? = some s.hk := by
  rcases List.eq_nil_or_concat A with h1 | ⟨A0, a, h1⟩
  · exact absurd h1 hA
  · rw [h1, List.concat_eq_append] at hin ⊢
    rw [List.append_assoc] at hin
    have := hin.key
    simpa using this

theorem inner_holds.keys_after {V : Type} {n : node V} {A C : List (Sub V)} {s : Sub V}
    (hin : inner_holds n (A ++ s :: C)) :
    (n.keys.take n.num_keys).drop A.length = C.map Sub.hk := by
  obtain ⟨_, _, _, _, hks⟩ := hin
  rw [← hks]
  cases A with
  | nil => simp
  | cons a A =>
    simp only [List.cons_append, List.map_cons, List.tail_cons, List.length_cons,
      List.map_append]
    rw [show List.map Sub.hk A ++ s.hk :: List.map Sub.hk C
          = (List.map Sub.hk A ++ [s.hk]) ++ List.map Sub.hk C by simp]
    exact drop_at _ _ _ (by simp)

/-- A store after a split and a later operation on the split node's subtree. -/
theorem grows_after_split {V : Type} {h h1 h2 : Heap V} {d : Nat} {S S2 : Sub V}
    (S1 : Sub V) {n1 : node V} {A C : List (Sub V)} {s sy sz : Sub V}
    (hp : split_post h h1 d S n1 A C s sy sz)
    (hfp : S.fp = S.addr :: ((A ++ s :: C).map Sub.fp).flatten)
    (ha : S1.addr = S.addr) (hf : S1.first = S.first) (hx : S1.nxt = S.nxt)
    (hfp1 : S1.fp = S.addr :: ((A ++ sy :: sz :: C).map Sub.fp).flatten)
    (hg : grows h1 h2 S1 S2) : grows h h2 S S2 := by
  obtain ⟨p1, p2, p3, p4, p5, p6, p7, p8, p9, p10, p11, p12⟩ := hp
  obtain ⟨g1, g2, g3, g4, g5, g6⟩ := hg
  simp only [List.map_append, List.map_cons, List.flatten_append, List.flatten_cons]
    at hfp hfp1
  have hsub : ∀ b ∈ S1.fp, b ∈ S.fp ∨ b = h.length := by
    intro b hb
    rw [hfp1] at hb
    rw [hfp]
    simp only [List.mem_cons, List.mem_append] at hb ⊢
    rcases hb with h3 | h3 | h3 | h3 | h3
    · tauto
    · tauto
    · rcases p8 b (List.mem_append.mpr (Or.inl h3)) with h4 | h4 <;> tauto
    · rcases p8 b (List.mem_append.mpr (Or.inr h3)) with h4 | h4 <;> tauto
    · tauto
  refine ⟨by rw [g1, ha], by rw [g2, hf], by rw [g3, hx], by omega, ?_, ?_⟩
  · intro b hb hbn
    rw [g5 b (by omega)]
    · apply p10 b hb
      · intro he; apply hbn; rw [hfp, he]; simp
      · intro he; apply hbn; rw [hfp]; simp [he]
    · intro hb1
      rcases hsub b hb1 with h3 | h3
      · exact hbn h3
      · omega
  · intro b hb
    rcases g6 b hb with h3 | h3
    · rcases hsub b h3 with h4 | h4
      · exact Or.inl h4
      · right; omega
    · right; omega

end Ledger

namespace Ledger

/-! ## `insert_non_full` keeps the tree -/

theorem split_at_index {α : Type} (l : List α) (i : Nat) (hi : i < l.length) :
    ∃ A s C, l = A ++ s :: C ∧ A.length = i := by
  refine ⟨l.take i, l[i], l.drop (i + 1), ?_, by simp; omega⟩
  rw [← List.drop_eq_getElem_cons hi, List.take_append_drop]

theorem insert_non_full_leaf_spec (V : Type) : InsSpec V 0 := by
  intro fuel h S key t hr hasc hnf hfuel
  obtain ⟨f, rfl⟩ : ∃ f, fuel = f + 1 := ⟨fuel - 1, by omega⟩
  obtain ⟨n, hn, hl, h1, hfirst, hnext, hfp⟩ := hr
  obtain ⟨n1, es1, hins, hl1, hk1, hnx1, hpl⟩ :=
    insert_leaf_store f h S.addr n S.es key t hn hl (hnf n hn) hasc
  refine ⟨h.set S.addr n1, { S with es := es1 }, hins,
    ⟨n1, List.getElem?_set_self (lookup_lt hn), hl1, by omega, hfirst, by rw [hnx1, hnext],
      hfp⟩, ⟨rfl, rfl, rfl, by simp, ?_, fun b hb => Or.inl hb⟩, hpl⟩
  intro b _ hbn
  rw [hfp] at hbn
  simp only [List.mem_singleton] at hbn
  exact List.getElem?_set_ne (Ne.symm hbn)

theorem insert_non_full_inner_spec (V : Type) (d : Nat) (ih : InsSpec V d) :
    InsSpec V (d + 1) := by
  intro fuel h S key t hr hasc hnf hfuel
  obtain ⟨f, rfl⟩ : ∃ f, fuel = f + 1 := ⟨fuel - 1, by omega⟩
  have hfuel1 : d + 1 ≤ f := by omega
  obtain ⟨n, subs, hn, hin, h1k, hseg, hes, hfp, hnd, hk⟩ := hr
  have hnk := hnf n hn
  have hklen : n.num_keys ≤ n.keys.length := by
    rw [hin.2.1.1]; exact hin.2.2.1
  obtain ⟨i, hdesc, hile, hgt, hlo⟩ := descend_spec key n.keys n.num_keys hklen
  obtain ⟨A, s, C, hsubs, hAlen⟩ := split_at_index subs i (by rw [hin.child_count]; omega)
  subst hsubs
  subst hAlen
  have hC : ∀ c ∈ C, key < c.hk := by
    intro c hc
    apply hgt
    rw [hin.keys_after]
    exact List.mem_map_of_mem _ hc
  have hlo1 : A ≠ [] → s.hk ≤ key := by
    intro hA
    apply hlo _ _ (hin.key_before hA)
    exact List.length_pos.mpr hA
  obtain ⟨nc, hnc, _, _, _, _⟩ := (hk s (by simp)).root_node
  have haddr : S.addr < h.length := lookup_lt hn
  by_cases hfullc : nc.num_keys = ORDER - 1
  · obtain ⟨h1, n1, sy, sz, hsplit, hpost⟩ := split_rep d h S n A C s hn hin hnk hseg hfp hnd hk
      (fun nc1 h1 => by rw [hnc] at h1; cases h1; exact hfullc)
    have hpost0 := hpost
    obtain ⟨p1, p2, p3, p4, p5, p6, p7, p8, p9, p10, p11, p12⟩ := hpost
    have hki : n1.keys[A.length]? = some sz.hk := p3.key
    have h1k1 : 1 ≤ n1.num_keys := by
      have := p3.child_count
      simp at this
      omega
    have hes1 : S.es = ((A ++ sy :: sz :: C).map Sub.es).flatten := by
      rw [hes]
      simp only [List.map_append, List.map_cons, List.flatten_append, List.flatten_cons]
      rw [← p6, List.append_assoc]
    have hnd1 : (S.addr :: ((A ++ sy :: sz :: C).map Sub.fp).flatten).Nodup := by
      simp only [List.map_append, List.map_cons, List.flatten_append, List.flatten_cons]
      rw [← List.append_assoc sy.fp]
      rw [hfp] at hnd
      simp only [List.map_append, List.map_cons, List.flatten_append, List.flatten_cons] at hnd
      refine nodup_swap _ _ _ _ _ h.length hnd p9 ?_ haddr
        (flatten_fp_lt fun c hc => hk c (by simp [hc]))
        (flatten_fp_lt fun c hc => hk c (by simp [hc]))
      intro b hb
      rcases p8 b hb with h3 | h3
      · exact Or.inl h3
      · right; omega
    by_cases hgt2 : key > sz.hk
    · have p3a : inner_holds n1 ((A ++ [sy]) ++ sz :: C) := by
        rw [List.append_assoc]; exact p3
      have hptr : n1.pointers[A.length + 1]? = some (Ptr.child sz.addr) := by
        have := p3a.ptr
        simpa using this
      have hstep := insert_inner_split f h h1 S.addr A.length s.addr sz.addr n nc n1 key sz.hk t
        hn hin.1 hdesc hin.ptr hnc hfullc hsplit p2 hki (by rw [if_pos hgt2]; exact hptr)
      obtain ⟨h2, S2, hins, hrep2, hg, hpl⟩ := kid_insert ih f h1
        { addr := S.addr, first := S.first, nxt := S.nxt,
          fp := S.addr :: ((A ++ sy :: sz :: C).map Sub.fp).flatten, es := S.es }
        n1 (A ++ [sy]) C sz key t p2 p3a h1k1 (by rw [List.append_assoc]; exact p4)
        (by rw [List.append_assoc]; exact hes1) (by rw [List.append_assoc]; rfl) hnd1
        (by rw [List.append_assoc]; exact p5) hasc (fun _ => le_of_lt hgt2)
        (fun c hc => le_of_lt (hC c hc)) p12 hfuel1
      have hgr := grows_after_split
        ⟨S.addr, S.first, S.nxt, S.addr :: ((A ++ sy :: sz :: C).map Sub.fp).flatten, S.es⟩
        hpost0 hfp rfl rfl rfl rfl hg
      exact ⟨h2, S2, by rw [hstep]; exact hins, hrep2, hgr, hpl⟩
    · have hptr : n1.pointers[A.length]? = some (Ptr.child sy.addr) := p3.ptr
      have hstep := insert_inner_split f h h1 S.addr A.length s.addr sy.addr n nc n1 key sz.hk t
        hn hin.1 hdesc hin.ptr hnc hfullc hsplit p2 hki (by rw [if_neg hgt2]; exact hptr)
      obtain ⟨h2, S2, hins, hrep2, hg, hpl⟩ := kid_insert ih f h1
        { addr := S.addr, first := S.first, nxt := S.nxt,
          fp := S.addr :: ((A ++ sy :: sz :: C).map Sub.fp).flatten, es := S.es }
        n1 A (sz :: C) sy key t p2 p3 h1k1 p4 hes1 rfl hnd1 p5 hasc
        (fun hA => by rw [p7]; exact hlo1 hA)
        (fun c hc => by
          rcases List.mem_cons.mp hc with h3 | h3
          · rw [h3]; exact not_lt.mp hgt2
          · exact le_of_lt (hC c h3)) p11 hfuel1
      have hgr := grows_after_split
        ⟨S.addr, S.first, S.nxt, S.addr :: ((A ++ sy :: sz :: C).map Sub.fp).flatten, S.es⟩
        hpost0 hfp rfl rfl rfl rfl hg
      exact ⟨h2, S2, by rw [hstep]; exact hins, hrep2, hgr, hpl⟩
  · have hstep := insert_inner_nosplit f h S.addr A.length s.addr n nc key t hn hin.1 hdesc
      hin.ptr hnc hfullc
    obtain ⟨h2, S2, hins, hrep2, hg, hpl⟩ := kid_insert ih f h S n A C s key t hn hin h1k hseg hes
      hfp hnd hk hasc hlo1 (fun c hc => le_of_lt (hC c hc))
      (fun nc1 h1 => by
        rw [hnc] at h1; cases h1
        have := (hk s (by simp)).root_node
        obtain ⟨n2, hn2, _, _, hle, _⟩ := this
        rw [hnc] at hn2; cases hn2
        omega) hfuel1
    exact ⟨h2, S2, by rw [hstep]; exact hins, hrep2, hg, hpl⟩

/-- `insert_non_full` on a tree of any height whose root is not full. -/
theorem insert_non_full_spec (V : Type) : ∀ d, InsSpec V d := by
  intro d
  induction d with
  | zero => exact insert_non_full_leaf_spec V
  | succ d ih => exact insert_non_full_inner_spec V d ih

end Ledger

namespace Ledger

/-! ## `insert_transaction` keeps the index well formed -/

/-- Writing the `parent` field of the root does not change what the tree stands for. -/
theorem Rep.set_parent {V : Type} {h : Heap V} {d : Nat} {S : Sub V} (hr : Rep h d S)
    (n : node V) (hn : h[S.addr]? = some n) (p : Option Nat) :
    Rep (h.set S.addr { n with parent := p }) d S := by
  have hlt := lookup_lt hn
  cases d with
  | zero =>
    obtain ⟨n0, hn0, h1, h2, h3, h4, hfp⟩ := hr
    rw [hn] at hn0; cases hn0
    exact ⟨_, List.getElem?_set_self hlt, h1, h2, h3, h4, hfp⟩
  | succ d =>
    obtain ⟨n0, subs, hn0, h1, h0, h2, h3, hfp, h4, hk⟩ := hr
    rw [hn] at hn0; cases hn0
    refine ⟨_, subs, List.getElem?_set_self hlt, h1, h0, h2, h3, hfp, h4, ?_⟩
    intro s hs
    apply (hk s hs).frame
    intro b hb
    apply List.getElem?_set_ne
    intro he
    rw [hfp, List.nodup_cons] at h4
    exact h4.1 (he ▸ mem_flatten_fp hs hb)

theorem Rep.append {V : Type} {h : Heap V} {d : Nat} {S : Sub V} (hr : Rep h d S)
    (l : Heap V) : Rep (h ++ l) d S := by
  apply hr.frame
  intro b hb
  exact List.getElem?_append_left (hr.fp_lt b hb)

/-- First insertion: a leaf root is allocated and takes the entry. -/
theorem insert_transaction_empty {V : Type} (hp : Heap V) (key : Int) (t : V) :
    ∃ idx1, insert_transaction ⟨hp, none⟩ key t = some idx1 ∧ WF idx1 [(key, t)] := by
  obtain ⟨n0, hn0⟩ : ∃ n0 : node V, n0 = ⟨List.replicate (ORDER + 1) Ptr.null,
      List.replicate (ORDER - 1) 0, none, true, 0, none⟩ := ⟨_, rfl⟩
  have hl0 : leaf_holds n0 [] := by
    rw [hn0]; exact ⟨rfl, ⟨by simp, by simp⟩, Nat.zero_le _, rfl, rfl⟩
  have hasc0 : ascending ([] : List (Int × V)) := by
    rw [ascending_iff]; exact List.Pairwise.nil
  obtain ⟨n1, es1, hins, hl1, hk1, hnx1, hpl⟩ := insert_leaf_store hp.length
    (hp ++ [n0]) hp.length n0 [] key t (List.getElem?_concat_length _ _) hl0
    (by rw [hn0]; show 0 < ORDER - 1; decide) hasc0
  have hes1 : es1 = [(key, t)] := by
    obtain ⟨l, r, h1, h2, _, _⟩ := hpl
    have hl : l = [] := (List.append_eq_nil.mp h1.symm).1
    have hr : r = [] := (List.append_eq_nil.mp h1.symm).2
    rw [h2, hl, hr]; rfl
  refine ⟨⟨(hp ++ [n0]).set hp.length n1, some hp.length⟩, ?_, Or.inr ⟨0,
    ⟨hp.length, hp.length, none, [hp.length], es1⟩, rfl,
    ⟨n1, List.getElem?_set_self (by simp), hl1, by rw [hk1]; exact Nat.le_add_left _ _, rfl,
      by rw [hnx1, hn0], rfl⟩, rfl, hes1, ?_⟩⟩
  · unfold insert_transaction
    dsimp only [bind, Option.bind, create_node]
    rw [List.getElem?_concat_length]
    dsimp only
    rw [if_neg (by decide), List.length_append, List.length_singleton, ← hn0, hins]
  · rw [← hes1]; exact hpl.asc_of hasc0

/-- Insertion when the root is not full. -/
theorem insert_transaction_nonfull {V : Type} (hp : Heap V) (d : Nat) (S : Sub V)
    (key : Int) (t : V) (hr : Rep hp d S) (hnxt : S.nxt = none) (hasc : ascending S.es)
    (hnf : ∀ n, hp[S.addr]? = some n → n.num_keys ≠ ORDER - 1) :
    ∃ idx1 es1, insert_transaction ⟨hp, some S.addr⟩ key t = some idx1 ∧ WF idx1 es1 ∧
      placed key t S.es es1 := by
  obtain ⟨nr, hnr, _, _, hle, _⟩ := hr.root_node
  have hne := hnf nr hnr
  obtain ⟨h1, S1, hins, hrep1, ⟨g1, g2, g3, _⟩, hpl⟩ := insert_non_full_spec V d hp.length hp S
    key t hr hasc (fun n hn => by rw [hnr] at hn; cases hn; omega) hr.depth_lt_store
  refine ⟨⟨h1, some S.addr⟩, S1.es, ?_, Or.inr ⟨d, S1, by rw [g1], hrep1, by rw [g3, hnxt],
    rfl, hpl.asc_of hasc⟩, hpl⟩
  unfold insert_transaction
  dsimp only [bind, Option.bind]
  rw [hnr]; dsimp only
  rw [if_neg hne, hins]

/-- Insertion when the root is full: a new root is allocated above it, the old root is split
and the entry goes below the new root. -/
theorem insert_transaction_full {V : Type} (hp : Heap V) (d : Nat) (S : Sub V)
    (key : Int) (t : V) (hr : Rep hp d S) (hnxt : S.nxt = none) (hasc : ascending S.es)
    (nr : node V) (hnr : hp[S.addr]? = some nr) (hfull : nr.num_keys = ORDER - 1) :
    ∃ idx1 es1, insert_transaction ⟨hp, some S.addr⟩ key t = some idx1 ∧ WF idx1 es1 ∧
      placed key t S.es es1 ∧ root_is_internal idx1 = true := by
  have hlt := lookup_lt hnr
  -- the store after the new root is written and the old root's parent is set
  have hl1 : (hp.set S.addr { nr with parent := some hp.length }).length = hp.length := by simp
  have hr3 : Rep (hp.set S.addr { nr with parent := some hp.length } ++
      [{ pointers := (List.replicate (ORDER + 1) Ptr.null).set 0 (Ptr.child S.addr),
         keys := List.replicate (ORDER - 1) 0, parent := none, is_leaf := false, num_keys := 0,
         next := none }]) d S := (hr.set_parent nr hnr _).append _
  have hx3 : (hp.set S.addr { nr with parent := some hp.length } ++
      [{ pointers := (List.replicate (ORDER + 1) Ptr.null).set 0 (Ptr.child S.addr),
         keys := List.replicate (ORDER - 1) 0, parent := none, is_leaf := false, num_keys := 0,
         next := none }])[hp.length]? = some
      { pointers := (List.replicate (ORDER + 1) Ptr.null).set 0 (Ptr.child S.addr),
        keys := List.replicate (ORDER - 1) 0, parent := none, is_leaf := false, num_keys := 0,
        next := none } := by
    exact getElem?_at _ [] _ _ hl1.symm
  have hy3 : (hp.set S.addr { nr with parent := some hp.length } ++
      [{ pointers := (List.replicate (ORDER + 1) Ptr.null).set 0 (Ptr.child S.addr),
         keys := List.replicate (ORDER - 1) 0, parent := none, is_leaf := false, num_keys := 0,
         next := none }])[S.addr]? = some { nr with parent := some hp.length } := by
    rw [List.getElem?_append_left (by rw [hl1]; exact hlt)]
    exact List.getElem?_set_self hlt
  have hfpS : ∀ b ∈ S.fp, b < hp.length := hr.fp_lt
  obtain ⟨h4, n1, sy, sz, hsplit, hpost⟩ := split_rep d _
    ⟨hp.length, S.first, none, hp.length :: (([] ++ S :: []).map Sub.fp).flatten, S.es⟩
    _ [] [] S hx3
    ⟨rfl, ⟨by simp, by simp⟩, Nat.zero_le _, rfl, rfl⟩ (by show 0 < ORDER - 1; decide)
    ⟨rfl, hnxt⟩ rfl
    (by
      show (hp.length :: (([] ++ S :: []).map Sub.fp).flatten).Nodup
      simp only [List.nil_append, List.map_cons, List.map_nil, List.flatten_cons,
        List.flatten_nil, List.append_nil, List.nodup_cons]
      exact ⟨fun hm => by have := hfpS _ hm; omega, hr.nodup⟩)
    (by intro c hc; simp at hc; rw [hc]; exact hr3)
    (by intro nc hnc; rw [hy3] at hnc; cases hnc; exact hfull)
  obtain ⟨p1, p2, p3, p4, p5, p6, p7, p8, p9, p10, p11, p12⟩ := hpost
  have hk1 : n1.num_keys = 1 := by
    have := p3.child_count
    simp at this
    omega
  have hrep4 : Rep h4 (d + 1)
      ⟨hp.length, S.first, none, hp.length :: (([] ++ sy :: sz :: []).map Sub.fp).flatten,
        S.es⟩ := by
    refine ⟨n1, [] ++ sy :: sz :: [], p2, p3, by omega, p4, ?_, rfl, ?_, p5⟩
    · show S.es = (([] ++ sy :: sz :: []).map Sub.es).flatten
      simp [← p6]
    · show (hp.length :: (([] ++ sy :: sz :: []).map Sub.fp).flatten).Nodup
      simp only [List.nil_append, List.map_cons, List.map_nil, List.flatten_cons,
        List.flatten_nil, List.append_nil, List.nodup_cons]
      refine ⟨fun hm => ?_, p9⟩
      rcases p8 _ hm with h3 | h3
      · have := hfpS _ h3; omega
      · simp at h3
  obtain ⟨h5, S2, hins, hrep5, ⟨g1, g2, g3, _⟩, hpl⟩ := insert_non_full_spec V (d + 1) h4.length
    h4 _ key t hrep4 hasc
    (fun n hn => by
      change h4[hp.length]? = some n at hn
      change h4[hp.length]? = some n1 at p2
      rw [p2] at hn; cases hn; rw [hk1]; decide)
    hrep4.depth_lt_store
  obtain ⟨n5, hn5, _, _, _, hleaf5⟩ := hrep5.root_node
  refine ⟨⟨h5, some hp.length⟩, S2.es, ?_, Or.inr ⟨d + 1, S2, by rw [g1], hrep5, by rw [g3],
    rfl, hpl.asc_of hasc⟩, hpl, ?_⟩
  · unfold insert_transaction
    dsimp only [bind, Option.bind, create_node]
    rw [hnr]; dsimp only
    rw [if_pos hfull, List.getElem?_concat_length]; dsimp only
    rw [wr_some _ _ _ (by simp [ORDER])]; dsimp only
    rw [wr_append_last _ _ _ _ rfl]; dsimp only
    rw [wr_append_left _ _ _ _ hlt]; dsimp only
    have hsplit1 : split_child _ hp.length 0 = some h4 := hsplit
    have hins1 : insert_non_full h4.length h4 hp.length key t = some h5 := hins
    rw [hsplit1]; dsimp only
    rw [hins1]
  · unfold root_is_internal
    dsimp only
    rw [g1] at hn5
    change h5[hp.length]? = some n5 at hn5
    rw [hn5]
    simp [hleaf5]

end Ledger

namespace Ledger

/-- `insert_transaction` on a well-formed index succeeds, keeps it well formed and places the
new entry in key order among the old ones. -/
theorem insert_transaction_spec {V : Type} (idx : Index V) (es : List (Int × V)) (key : Int)
    (t : V) (hw : WF idx es) :
    ∃ idx1 es1, insert_transaction idx key t = some idx1 ∧ WF idx1 es1 ∧ placed key t es es1 := by
  obtain ⟨hp, root⟩ := idx
  rcases hw with ⟨hroot, hes⟩ | ⟨d, S, hroot, hrep, hnxt, hes, hasc⟩
  · simp only at hroot
    subst hroot
    subst hes
    obtain ⟨idx1, h1, h2⟩ := insert_transaction_empty hp key t
    exact ⟨idx1, _, h1, h2, [], [], rfl, rfl, by simp, by simp⟩
  · simp only at hroot hrep
    subst hroot
    subst hes
    obtain ⟨nr, hnr, _⟩ := hrep.root_node
    by_cases hfull : nr.num_keys = ORDER - 1
    · obtain ⟨idx1, es1, h1, h2, h3, _⟩ :=
        insert_transaction_full hp d S key t hrep hnxt hasc nr hnr hfull
      exact ⟨idx1, es1, h1, h2, h3⟩
    · exact insert_transaction_nonfull hp d S key t hrep hnxt hasc
        (fun n hn => by rw [hnr] at hn; cases hn; exact hfull)

/-! ## The ordered traversal -/

theorem leaf_entries_spec {V : Type} (n : node V) :
    ∀ (cnt i : Nat) (es : List (Int × V)),
    (n.keys.drop i).take cnt = es.map Prod.fst →
    (n.pointers.drop i).take cnt = es.map (fun e => Ptr.val e.2) →
    es.length = cnt → leaf_entries n cnt i = some es := by
  intro cnt
  induction cnt with
  | zero =>
    intro i es _ _ hl
    rw [List.length_eq_zero] at hl
    rw [hl]; rfl
  | succ cnt ih =>
    intro i es hk hp hl
    cases es with
    | nil => simp at hl
    | cons e es =>
      cases hdk : n.keys.drop i with
      | nil => rw [hdk] at hk; simp at hk
      | cons k kr =>
        cases hdp : n.pointers.drop i with
        | nil => rw [hdp] at hp; simp at hp
        | cons p pr =>
          rw [hdk] at hk
          rw [hdp] at hp
          simp only [List.take_succ_cons, List.map_cons, List.cons.injEq] at hk hp
          have hki : n.keys[i]? = some e.1 := by
            have := congrArg (fun l => l[0]?) hdk
            simp only [List.getElem?_drop, Nat.add_zero, List.getElem?_cons_zero] at this
            rw [this, hk.1]
          have hpi : n.pointers[i]? = some (Ptr.val e.2) := by
            have := congrArg (fun l => l[0]?) hdp
            simp only [List.getElem?_drop, Nat.add_zero, List.getElem?_cons_zero] at this
            rw [this, hp.1]
          have hkr : n.keys.drop (i + 1) = kr := by
            have := congrArg List.tail hdk
            simpa using this
          have hpr : n.pointers.drop (i + 1) = pr := by
            have := congrArg List.tail hdp
            simpa using this
          have hrest := ih (i + 1) es (by rw [hkr]; exact hk.2) (by rw [hpr]; exact hp.2)
            (by simpa using hl)
          rw [leaf_entries]
          dsimp only [bind, Option.bind]
          rw [hki]; dsimp only
          rw [hpi]; dsimp only [asRec]
          rw [hrest]

theorem leaf_holds.entries {V : Type} {n : node V} {es : List (Int × V)}
    (hn : leaf_holds n es) : leaf_entries n n.num_keys 0 = some es :=
  leaf_entries_spec n n.num_keys 0 es (by simpa using hn.2.2.2.1) (by simpa using hn.2.2.2.2)
    hn.entry_count

theorem leaf_chain_null {V : Type} (fuel : Nat) (h : Heap V) :
    leaf_chain fuel h none = some [] := by
  cases fuel <;> rfl

theorem find_leftmost_null {V : Type} (fuel : Nat) (h : Heap V) :
    find_leftmost_leaf fuel h none = some none := by
  cases fuel <;> rfl

/-- `find_leftmost_leaf` reaches the leftmost leaf of a represented tree. -/
theorem find_leftmost_rep {V : Type} (h : Heap V) :
    ∀ (d : Nat) (S : Sub V) (fuel : Nat), Rep h d S → d + 1 ≤ fuel →
    find_leftmost_leaf fuel h (some S.addr) = some (some S.first) := by
  intro d
  induction d with
  | zero =>
    intro S fuel hr hf
    obtain ⟨f, rfl⟩ : ∃ f, fuel = f + 1 := ⟨fuel - 1, by omega⟩
    obtain ⟨n, hn, hl, _, hfirst, _, _⟩ := hr
    rw [find_leftmost_leaf]
    dsimp only [bind, Option.bind]
    rw [hn]; dsimp only
    rw [if_pos hl.1, hfirst]
  | succ d ih =>
    intro S fuel hr hf
    obtain ⟨f, rfl⟩ : ∃ f, fuel = f + 1 := ⟨fuel - 1, by omega⟩
    obtain ⟨n, subs, hn, hin, _, hseg, _, _, _, hk⟩ := hr
    cases subs with
    | nil => have := hin.child_count; simp at this
    | cons s C =>
      have hp : n.pointers[0]? = some (Ptr.child s.addr) :=
        inner_holds.ptr (A := []) hin
      have hnl : ¬ (n.is_leaf = true) := by rw [hin.1]; exact Bool.false_ne_true
      rw [find_leftmost_leaf]
      dsimp only [bind, Option.bind]
      rw [hn]; dsimp only
      rw [if_neg hnl, hp]; dsimp only
      rw [ih s f (hk s (by simp)) (by omega)]
      simp only [seg] at hseg
      rw [hseg.1]

/-- Following `next` from the leftmost leaf of a represented tree lists its entries and then
goes on with the link that leaves the tree. -/
theorem leaf_chain_rep {V : Type} (h : Heap V) :
    ∀ (d : Nat) (S : Sub V), Rep h d S →
    ∃ m, m ≤ S.fp.length ∧ ∀ fuel, leaf_chain (fuel + m) h (some S.first)
      = (leaf_chain fuel h S.nxt).map (fun rest => S.es ++ rest) := by
  intro d
  induction d with
  | zero =>
    intro S hr
    obtain ⟨n, hn, hl, _, hfirst, hnext, hfp⟩ := hr
    refine ⟨1, by rw [hfp]; simp, ?_⟩
    intro fuel
    rw [leaf_chain]
    dsimp only [bind, Option.bind]
    rw [hfirst, hn]; dsimp only
    rw [hl.entries, hnext]; dsimp only
    cases leaf_chain fuel h S.nxt <;> rfl
  | succ d ih =>
    intro S hr
    obtain ⟨n, subs, hn, hin, _, hseg, hes, hfp, _, hk⟩ := hr
    have key : ∀ (L : List (Sub V)) (start stop : Option Nat), seg L start stop →
        (∀ s ∈ L, Rep h d s) →
        ∃ m, m ≤ ((L.map Sub.fp).flatten).length ∧ ∀ fuel, leaf_chain (fuel + m) h start
          = (leaf_chain fuel h stop).map (fun rest => (L.map Sub.es).flatten ++ rest) := by
      intro L
      induction L with
      | nil =>
        intro start stop hs _
        simp only [seg] at hs
        refine ⟨0, Nat.zero_le _, fun fuel => ?_⟩
        rw [hs, Nat.add_zero]
        cases hc : leaf_chain fuel h stop <;> simp
      | cons s L ihL =>
        intro start stop hs hkL
        simp only [seg] at hs
        obtain ⟨m1, hm1, h1⟩ := ih s (hkL s (by simp))
        obtain ⟨m2, hm2, h2⟩ := ihL s.nxt stop hs.2 (fun c hc => hkL c (by simp [hc]))
        refine ⟨m2 + m1, ?_, fun fuel => ?_⟩
        · rw [List.map_cons, List.flatten_cons, List.length_append]; omega
        rw [hs.1, ← Nat.add_assoc, h1, h2]
        cases leaf_chain fuel h stop with
        | none => rfl
        | some rest => simp
    obtain ⟨m, hm, hc⟩ := key subs (some S.first) S.nxt hseg hk
    refine ⟨m, by rw [hfp, List.length_cons]; omega, fun fuel => ?_⟩
    rw [hc, hes]

/-- The ordered traversal of a well-formed index yields its entries. -/
theorem traverse_spec {V : Type} (idx : Index V) (es : List (Int × V)) (hw : WF idx es) :
    traverse idx = some es := by
  obtain ⟨hp, root⟩ := idx
  rcases hw with ⟨hroot, hes⟩ | ⟨d, S, hroot, hrep, hnxt, hes, _⟩
  · simp only at hroot
    subst hroot
    subst hes
    unfold traverse
    dsimp only [bind, Option.bind]
    rw [find_leftmost_null]; dsimp only
    rw [leaf_chain_null]
  · simp only at hroot hrep
    subst hroot
    subst hes
    obtain ⟨m, hm, hc⟩ := leaf_chain_rep hp d S hrep
    have hm2 : m ≤ hp.length := le_trans hm (nodup_lt_length hrep.nodup hrep.fp_lt)
    unfold traverse
    dsimp only [bind, Option.bind]
    rw [find_leftmost_rep hp d S hp.length hrep hrep.depth_lt_store]; dsimp only
    rw [show hp.length = (hp.length - m) + m by omega, hc, hnxt, leaf_chain_null]
    simp

/-- A well-formed index with more than `ORDER - 1` entries has an internal root. -/
theorem WF.root_internal {V : Type} {idx : Index V} {es : List (Int × V)} (hw : WF idx es)
    (hl : ORDER ≤ es.length) : root_is_internal idx = true := by
  obtain ⟨hp, root⟩ := idx
  rcases hw with ⟨hroot, hes⟩ | ⟨d, S, hroot, hrep, hnxt, hes, _⟩
  · rw [hes] at hl
    simp [ORDER] at hl
  · simp only at hroot hrep
    subst hroot
    subst hes
    obtain ⟨n, hn, _, _, _, hleaf⟩ := hrep.root_node
    cases d with
    | zero =>
      obtain ⟨n0, hn0, hl0, _⟩ := hrep
      have h1 := hl0.entry_count
      have h2 := hl0.2.2.1
      have h3 : ORDER - 1 < ORDER := by decide
      omega
    | succ d =>
      unfold root_is_internal
      dsimp only
      rw [hn]
      simp [hleaf]

theorem WF.asc {V : Type} {idx : Index V} {es : List (Int × V)} (hw : WF idx es) :
    ascending es := by
  rcases hw with ⟨_, hes⟩ | ⟨d, S, _, _, _, _, hasc⟩
  · rw [hes, ascending_iff]; exact List.Pairwise.nil
  · exact hasc

theorem WF_empty (V : Type) : WF (Index.empty : Index V) [] := Or.inl ⟨rfl, rfl⟩

end Ledger

namespace Ledger

/-! ## Claims about the ordered index -/

/-- Inserting a list of entries one at a time into a well-formed index succeeds and gives a
well-formed index holding the old entries and the new ones. -/
theorem insert_all_spec {V : Type} : ∀ (l : List (Int × V)) (idx : Index V)
    (es : List (Int × V)), WF idx es →
    ∃ idx1 es1, insert_all idx l = some idx1 ∧ WF idx1 es1 ∧ es1.Perm (l ++ es) := by
  intro l
  induction l with
  | nil => intro idx es hw; exact ⟨idx, es, rfl, hw, List.Perm.refl _⟩
  | cons e l ih =>
    intro idx es hw
    obtain ⟨k, v⟩ := e
    obtain ⟨idx1, es1, h1, hw1, hpl⟩ := insert_transaction_spec idx es k v hw
    obtain ⟨idx2, es2, h2, hw2, hp2⟩ := ih idx1 es1 hw1
    refine ⟨idx2, es2, ?_, hw2, ?_⟩
    · rw [insert_all, h1]; exact h2
    · refine hp2.trans ?_
      refine (List.Perm.append_left l hpl.perm).trans ?_
      exact List.perm_middle

/-- C1: for every finite list of keys (with their records, duplicates allowed), inserting
them one at a time with `insert_transaction` into the empty index succeeds, the leaf-chain
traversal of the result lists exactly the inserted entries (a permutation of the input,
nothing lost or added) with the keys in ascending order, i.e. the keys are the sorted input
keys, and when the list has at least `ORDER` entries the root is an internal node. -/
theorem C1_split_correctness (V : Type) (l : List (Int × V)) :
    ∃ idx es, insert_all Index.empty l = some idx ∧ traverse idx = some es ∧
      es.Perm l ∧
      es.map Prod.fst = (l.map Prod.fst).insertionSort (fun a b => a ≤ b) ∧
      (ORDER ≤ l.length → root_is_internal idx = true) := by
  obtain ⟨idx, es, h1, hw, hp⟩ := insert_all_spec l Index.empty [] (WF_empty V)
  rw [List.append_nil] at hp
  refine ⟨idx, es, h1, traverse_spec idx es hw, hp, ?_, ?_⟩
  · apply List.eq_of_perm_of_sorted (r := fun a b : Int => a ≤ b)
    · exact (hp.map Prod.fst).trans (List.perm_insertionSort _ _).symm
    · exact hw.asc
    · exact List.sorted_insertionSort _ _
  · intro hl
    apply hw.root_internal
    rw [hp.length_eq]; exact hl

/-- C1 at six keys inserted in descending order: the traversal is ascending and the root is
internal. -/
theorem C1_split_correctness_witness :
    ∃ idx es, insert_all (Index.empty : Index Unit)
        [(6, ()), (5, ()), (4, ()), (3, ()), (2, ()), (1, ())] = some idx ∧
      traverse idx = some es ∧
      es.Perm [(6, ()), (5, ()), (4, ()), (3, ()), (2, ()), (1, ())] ∧
      es.map Prod.fst = ([(6, ()), (5, ()), (4, ()), (3, ()), (2, ()), (1, ())].map
        Prod.fst).insertionSort (fun a b : Int => a ≤ b) ∧
      (ORDER ≤ [(6, ()), (5, ()), (4, ()), (3, ()), (2, ()), (1, ())].length →
        root_is_internal idx = true) :=
  C1_split_correctness Unit [(6, ()), (5, ()), (4, ()), (3, ()), (2, ()), (1, ())]

/-- C2 as stated fails: inserting the key 1 twice gives the traversal 1, 1, which is not
strictly ascending. -/
theorem C2_counterexample :
    ∃ idx es, insert_all (Index.empty : Index Unit) [(1, ()), (1, ())] = some idx ∧
      traverse idx = some es ∧ es.map Prod.fst = [1, 1] ∧
      ¬ (es.map Prod.fst).Sorted (fun a b => a < b) := by
  refine ⟨_, [(1, ()), (1, ())], rfl, rfl, rfl, ?_⟩
  decide

/-- C2 (amended): after any sequence of `insert_transaction` calls starting from the empty
index, the ordered traversal of the leaf chain yields the keys in non-decreasing order, and
in strictly ascending order when the inserted keys are pairwise distinct. -/
theorem C2_ordering_invariant (V : Type) (l : List (Int × V)) :
    ∃ idx es, insert_all Index.empty l = some idx ∧ traverse idx = some es ∧
      (es.map Prod.fst).Sorted (fun a b => a ≤ b) ∧
      ((l.map Prod.fst).Nodup → (es.map Prod.fst).Sorted (fun a b => a < b)) := by
  obtain ⟨idx, es, h1, hw, hp⟩ := insert_all_spec l Index.empty [] (WF_empty V)
  rw [List.append_nil] at hp
  refine ⟨idx, es, h1, traverse_spec idx es hw, hw.asc, ?_⟩
  intro hnd
  have hnd1 : (es.map Prod.fst).Nodup := ((hp.map Prod.fst).nodup_iff).mpr hnd
  exact List.Sorted.lt_of_le hw.asc hnd1

/-- C2 (amended) at three distinct keys. -/
theorem C2_ordering_invariant_witness :
    ∃ idx es, insert_all (Index.empty : Index Unit) [(3, ()), (1, ()), (2, ())] = some idx ∧
      traverse idx = some es ∧
      (es.map Prod.fst).Sorted (fun a b => a ≤ b) ∧
      (([(3, ()), (1, ()), (2, ())].map Prod.fst : List Int).Nodup →
        (es.map Prod.fst).Sorted (fun a b => a < b)) :=
  C2_ordering_invariant Unit [(3, ()), (1, ()), (2, ())]

end Ledger

namespace Ledger

/-! ## Directories -/

theorem nodup_map_index {R : Type} {idf : R → Int} {mem : List R} (hn : (mem.map idf).Nodup)
    {a b : Nat} {s r : R} (ha : mem[a]? = some s) (hb : mem[b]? = some r)
    (he : idf s = idf r) : a = b := by
  have hal := lookup_lt ha
  have hbl := lookup_lt hb
  have h1 : (mem.map idf)[a]? = some (idf s) := by simp [ha]
  have h2 : (mem.map idf)[b]? = some (idf r) := by simp [hb]
  have hal1 : a < (mem.map idf).length := by simpa using hal
  have hbl1 : b < (mem.map idf).length := by simpa using hbl
  rw [List.getElem?_eq_getElem hal1] at h1
  rw [List.getElem?_eq_getElem hbl1] at h2
  have h3 : (mem.map idf)[a] = (mem.map idf)[b] := by
    rw [Option.some.inj h1, Option.some.inj h2, he]
  exact (hn.getElem_inj_iff).mp h3

/-- The lookup loop over directory entries that all point into the store: it ends with the
first entry whose record has the id, or with nothing when no entry's record has it. -/
theorem scan_for_id_spec {R : Type} (idf : R → Int) (mem : List R) (id : Int) :
    ∀ (es : List (Int × Nat)), (∀ e ∈ es, ∃ s, mem[e.2]? = some s) →
    (∃ a s, scan_for_id idf mem id es = some (some a) ∧ mem[a]? = some s ∧ idf s = id) ∨
    (scan_for_id idf mem id es = some none ∧
      ∀ e ∈ es, ∀ s, mem[e.2]? = some s → idf s ≠ id) := by
  intro es
  induction es with
  | nil => intro _; exact Or.inr ⟨rfl, by simp⟩
  | cons e es ih =>
    intro hall
    obtain ⟨s, hs⟩ := hall e (by simp)
    obtain ⟨k, a⟩ := e
    by_cases hid : idf s = id
    · left
      refine ⟨a, s, ?_, hs, hid⟩
      rw [scan_for_id]; dsimp only [bind, Option.bind]
      simp only at hs
      rw [hs]; dsimp only
      rw [if_pos hid]
    · have hstep : scan_for_id idf mem id ((k, a) :: es) = scan_for_id idf mem id es := by
        rw [scan_for_id]; dsimp only [bind, Option.bind]
        simp only at hs
        rw [hs]; dsimp only
        rw [if_neg hid]
      rw [hstep]
      rcases ih (fun e he => hall e (by simp [he])) with h1 | ⟨h1, h2⟩
      · exact Or.inl h1
      · right
        refine ⟨h1, ?_⟩
        intro e he s1 hs1
        rcases List.mem_cons.mp he with h3 | h3
        · rw [h3] at hs1
          simp only at hs hs1
          rw [hs] at hs1; cases hs1; exact hid
        · exact h2 e h3 s1 hs1

theorem mem_of_lookup {α : Type} {l : List α} {i : Nat} {a : α} (h : l[i]? = some a) :
    a ∈ l := by
  have hl := lookup_lt h
  rw [List.getElem?_eq_getElem hl] at h
  cases h
  exact List.getElem_mem hl

theorem DirOK.points {R : Type} {idf : R → Int} {mem : List R}
    {es : List (Int × Nat)} (hk : ∀ e ∈ es, (mem[e.2]?).map idf = some e.1) :
    ∀ e ∈ es, ∃ s, mem[e.2]? = some s := by
  intro e he
  have := hk e he
  cases h : mem[e.2]? with
  | none => rw [h] at this; cases this
  | some s => exact ⟨s, rfl⟩

/-- Looking up an id that a record of the store has finds that record. -/
theorem DirOK.scan_found {R : Type} {idf : R → Int} {tree : Index Nat} {mem : List R}
    (hd : DirOK idf tree mem) {a : Nat} {s : R} {id : Int} (ha : mem[a]? = some s)
    (hid : idf s = id) :
    ∃ es, traverse tree = some es ∧ scan_for_id idf mem id es = some (some a) := by
  obtain ⟨es, hw, hperm, hk, hn⟩ := hd
  refine ⟨es, traverse_spec tree es hw, ?_⟩
  rcases scan_for_id_spec idf mem id es (DirOK.points hk) with
    ⟨a1, s1, h1, h2, h3⟩ | ⟨_, h2⟩
  · rw [h1, nodup_map_index hn h2 ha (by rw [h3, hid])]
  · exfalso
    have hmem : a ∈ es.map Prod.snd := by
      rw [hperm.mem_iff, List.mem_range]; exact lookup_lt ha
    obtain ⟨e, he, hea⟩ := List.mem_map.mp hmem
    exact h2 e he s (by rw [hea]; exact ha) hid

/-- Looking up an id that no record of the store has finds nothing. -/
theorem DirOK.scan_none {R : Type} {idf : R → Int} {tree : Index Nat} {mem : List R}
    (hd : DirOK idf tree mem) {id : Int} (hno : ∀ s ∈ mem, idf s ≠ id) :
    ∃ es, traverse tree = some es ∧ scan_for_id idf mem id es = some none := by
  obtain ⟨es, hw, hperm, hk, hn⟩ := hd
  refine ⟨es, traverse_spec tree es hw, ?_⟩
  rcases scan_for_id_spec idf mem id es (DirOK.points hk) with
    ⟨a1, s1, _, h2, h3⟩ | ⟨h1, _⟩
  · exact absurd h3 (hno s1 (mem_of_lookup h2))
  · exact h1

/-- Overwriting a record by one with the same id keeps the directory. -/
theorem DirOK.set {R : Type} {idf : R → Int} {tree : Index Nat} {mem : List R}
    (hd : DirOK idf tree mem) {a : Nat} {s s1 : R} (ha : mem[a]? = some s)
    (hid : idf s1 = idf s) : DirOK idf tree (mem.set a s1) := by
  obtain ⟨es, hw, hperm, hk, hn⟩ := hd
  have hmap : (mem.set a s1).map idf = mem.map idf := by
    rw [List.map_set]
    apply List.ext_getElem? 
    intro i
    rw [List.getElem?_set]
    split
    · rename_i h; subst h
      split
      · simp [ha, hid]
      · rename_i h2; simp at h2
        have := lookup_lt ha; omega
    · rfl
  refine ⟨es, hw, by simpa using hperm, ?_, by rw [hmap]; exact hn⟩
  intro e he
  have h1 := hk e he
  rw [← List.getElem?_map, hmap, List.getElem?_map]
  exact h1

/-- Registering a record with a new id: the directory takes it under its id. -/
theorem DirOK.insert {R : Type} {idf : R → Int} {tree : Index Nat} {mem : List R}
    (hd : DirOK idf tree mem) {id : Int} (hno : ∀ s ∈ mem, idf s ≠ id) (r : R)
    (hr : idf r = id) :
    ∃ tree1, insert_transaction tree id mem.length = some tree1 ∧
      DirOK idf tree1 (mem ++ [r]) := by
  obtain ⟨es, hw, hperm, hk, hn⟩ := hd
  obtain ⟨tree1, es1, h1, hw1, hpl⟩ := insert_transaction_spec tree es id mem.length hw
  refine ⟨tree1, h1, es1, hw1, ?_, ?_, ?_⟩
  · have := hpl.perm.map Prod.snd
    refine this.trans ?_
    rw [List.length_append, List.length_singleton, List.range_succ, List.map_cons]
    exact (List.Perm.cons _ hperm).trans (List.perm_append_singleton _ _).symm
  · intro e he
    rcases List.mem_cons.mp (hpl.perm.mem_iff.mp he) with h2 | h2
    · rw [h2]
      simp [hr]
    · have h3 := hk e h2
      have hlt : e.2 < mem.length := by
        cases h : mem[e.2]? with
        | none => rw [h] at h3; cases h3
        | some s => exact lookup_lt h
      rw [List.getElem?_append_left hlt]; exact h3
  · rw [List.map_append, List.map_singleton, List.nodup_append]
    refine ⟨hn, List.nodup_singleton _, ?_⟩
    intro x hx hx2
    simp only [List.mem_singleton] at hx2
    obtain ⟨s, hs, hsx⟩ := List.mem_map.mp hx
    exact hno s hs (by rw [hsx, hx2, hr])

theorem DirOK_empty {R : Type} (idf : R → Int) : DirOK idf Index.empty ([] : List R) :=
  ⟨[], WF_empty Nat, by simp, by simp, by simp⟩

end Ledger

namespace Ledger

/-! ## Lookup-or-create -/

theorem update_rates_fields (s : SellerKey) (rb ra : ℚ) :
    (update_rates s rb ra).seller_id = s.seller_id ∧
    (update_rates s rb ra).regular_buyers = s.regular_buyers ∧
    (update_rates s rb ra).regular_buyer_count = s.regular_buyer_count ∧
    (update_rates s rb ra).transaction_tree = s.transaction_tree ∧
    (update_rates s rb ra).transaction_count = s.transaction_count ∧
    (update_rates s rb ra).rate_below_300 = (if rb > 0 then rb else s.rate_below_300) ∧
    (update_rates s rb ra).rate_above_300 = (if ra > 0 then ra else s.rate_above_300) := by
  unfold update_rates
  by_cases h1 : rb > 0 <;> by_cases h2 : ra > 0 <;> simp [h1, h2]

/-- `get_or_create_seller` on an id that a seller record has: the record gets the rate
update and is returned; nothing else changes. -/
theorem get_or_create_seller_found (st : State) (id : Int) (rb ra : ℚ)
    (hd : DirOK SellerKey.seller_id st.seller_tree st.seller_mem) (a : Nat) (s : SellerKey)
    (ha : st.seller_mem[a]? = some s) (hid : s.seller_id = id) :
    get_or_create_seller st id rb ra
      = some ({ st with seller_mem := st.seller_mem.set a (update_rates s rb ra) }, a) := by
  obtain ⟨es, h1, h2⟩ := hd.scan_found ha hid
  unfold get_or_create_seller
  dsimp only [bind, Option.bind]
  rw [h1]; dsimp only
  rw [h2]; dsimp only
  rw [ha]; dsimp only
  rw [wr_some _ _ _ (lookup_lt ha)]

/-- `get_or_create_seller` on an id that no seller record has: a record is allocated at the
end of the store and entered in the directory. -/
theorem get_or_create_seller_new (st : State) (id : Int) (rb ra : ℚ)
    (hd : DirOK SellerKey.seller_id st.seller_tree st.seller_mem)
    (hno : ∀ s ∈ st.seller_mem, s.seller_id ≠ id) :
    ∃ tree1, insert_transaction st.seller_tree id st.seller_mem.length = some tree1 ∧
      DirOK SellerKey.seller_id tree1 (st.seller_mem ++ [new_seller id rb ra]) ∧
      get_or_create_seller st id rb ra
        = some ({ st with seller_mem := st.seller_mem ++ [new_seller id rb ra],
                          seller_tree := tree1 }, st.seller_mem.length) := by
  obtain ⟨es, h1, h2⟩ := hd.scan_none hno
  obtain ⟨tree1, h3, h4⟩ := hd.insert hno (new_seller id rb ra) rfl
  refine ⟨tree1, h3, h4, ?_⟩
  unfold get_or_create_seller
  dsimp only [bind, Option.bind]
  rw [h1]; dsimp only
  rw [h2]; dsimp only
  rw [h3]

/-- `get_or_create_buyer` on an id that a buyer record has returns it and changes nothing. -/
theorem get_or_create_buyer_found (st : State) (id : Int)
    (hd : DirOK BuyerKey.buyer_id st.buyer_tree st.buyer_mem) (a : Nat) (b : BuyerKey)
    (ha : st.buyer_mem[a]? = some b) (hid : b.buyer_id = id) :
    get_or_create_buyer st id = some (st, a) := by
  obtain ⟨es, h1, h2⟩ := hd.scan_found ha hid
  unfold get_or_create_buyer
  dsimp only [bind, Option.bind]
  rw [h1]; dsimp only
  rw [h2]

/-- `get_or_create_buyer` on an id that no buyer record has allocates and enters one. -/
theorem get_or_create_buyer_new (st : State) (id : Int)
    (hd : DirOK BuyerKey.buyer_id st.buyer_tree st.buyer_mem)
    (hno : ∀ b ∈ st.buyer_mem, b.buyer_id ≠ id) :
    ∃ tree1, insert_transaction st.buyer_tree id st.buyer_mem.length = some tree1 ∧
      DirOK BuyerKey.buyer_id tree1 (st.buyer_mem ++ [new_buyer id]) ∧
      get_or_create_buyer st id
        = some ({ st with buyer_mem := st.buyer_mem ++ [new_buyer id],
                          buyer_tree := tree1 }, st.buyer_mem.length) := by
  obtain ⟨es, h1, h2⟩ := hd.scan_none hno
  obtain ⟨tree1, h3, h4⟩ := hd.insert hno (new_buyer id) rfl
  refine ⟨tree1, h3, h4, ?_⟩
  unfold get_or_create_buyer
  dsimp only [bind, Option.bind]
  rw [h1]; dsimp only
  rw [h2]; dsimp only
  rw [h3]

/-- Either some record of a store has the id, or none has. -/
theorem store_has_id {R : Type} (idf : R → Int) (mem : List R) (id : Int) :
    (∃ (a : Nat) (s : R), mem[a]? = some s ∧ idf s = id) ∨ (∀ s ∈ mem, idf s ≠ id) := by
  by_cases h : ∃ s ∈ mem, idf s = id
  · obtain ⟨s, hs, hid⟩ := h
    obtain ⟨a, ha⟩ := List.getElem?_of_mem hs
    exact Or.inl ⟨a, s, ha, hid⟩
  · right
    intro s hs hid
    exact h ⟨s, hs, hid⟩

/-! ## Pricing and loyalty -/

/-- The membership loop over the slots in use. -/
theorem regular_loop_spec (rb : List Int) (x : Int) :
    ∀ (cnt i : Nat), i + cnt ≤ rb.length →
    regular_loop rb x cnt i = some (decide (x ∈ (rb.drop i).take cnt)) := by
  intro cnt
  induction cnt with
  | zero => intro i _; simp [regular_loop]
  | succ cnt ih =>
    intro i hi
    have hlt : i < rb.length := by omega
    have hd : rb.drop i = rb[i] :: rb.drop (i + 1) := List.drop_eq_getElem_cons hlt
    rw [regular_loop]
    dsimp only [bind, Option.bind]
    rw [List.getElem?_eq_getElem hlt]; dsimp only
    by_cases hx : rb[i] = x
    · rw [if_pos hx, hd]
      simp [hx]
    · rw [if_neg hx, ih (i + 1) (by omega), hd]
      have hx2 : ¬ x = rb[i] := fun h => hx h.symm
      simp only [List.take_succ_cons, List.mem_cons, hx2, false_or]

theorem regular_loop_regulars (s : SellerKey) (x : Int)
    (h : s.regular_buyer_count ≤ s.regular_buyers.length) :
    regular_loop s.regular_buyers x s.regular_buyer_count 0 = some (decide (x ∈ regulars s)) := by
  rw [regular_loop_spec _ _ _ 0 (by omega)]
  rfl

/-- The price for a seller record whose count of regular buyers is within the array: the
tiered price, times 95/100 when the buyer is in the regular-buyer set. -/
theorem calculate_price_eq (s : SellerKey) (e : ℚ) (b : Int)
    (h : s.regular_buyer_count ≤ s.regular_buyers.length) :
    calculate_price s e b = some
      (tiered s.rate_below_300 s.rate_above_300 e *
        (if b ∈ regulars s then 95 / 100 else 1)) := by
  unfold calculate_price
  dsimp only [bind, Option.bind]
  rw [regular_loop_regulars s b h]; dsimp only
  unfold tiered_price ENERGY_THRESHOLD tiered
  by_cases hb : b ∈ regulars s
  · simp [hb]
  · simp [hb]

/-- C7: for every seller entry `s` (with its count of regular buyers within the array),
energy `e` and buyer id `b`, amounts being exact rationals, `calculate_price s e b` is
`base * d`, where `base = e * s.rate_below_300` when `e ≤ 300` and
`base = 300 * s.rate_below_300 + (e - 300) * s.rate_above_300` when `e > 300`, and `d = 0.95`
when `b` is among the first `regular_buyer_count` entries of `s.regular_buyers` and `d = 1`
otherwise. -/
theorem C7_calculate_price (s : SellerKey) (e : ℚ) (b : Int)
    (h : s.regular_buyer_count ≤ s.regular_buyers.length) :
    calculate_price s e b = some
      ((if e ≤ 300 then e * s.rate_below_300
        else 300 * s.rate_below_300 + (e - 300) * s.rate_above_300) *
       (if b ∈ s.regular_buyers.take s.regular_buyer_count then 95 / 100 else 1)) :=
  calculate_price_eq s e b h

/-- C7 at rates 0.10 / 0.08 and 400 kWh: 38.0 for a buyer who is not regular, 36.1 for a
regular buyer. -/
theorem C7_calculate_price_witness :
    calculate_price (new_seller 3 (1 / 10) (8 / 100)) 400 7 = some 38 ∧
    calculate_price { new_seller 3 (1 / 10) (8 / 100) with
                      regular_buyers := (List.replicate MAX_BUYERS 0).set 0 7,
                      regular_buyer_count := 1 } 400 7 = some (361 / 10) := by
  constructor
  · rw [C7_calculate_price (new_seller 3 (1 / 10) (8 / 100)) 400 7 (by decide)]
    norm_num [new_seller]
  · rw [C7_calculate_price _ 400 7 (by decide)]
    have hm : (7 : Int) ∈ List.take 1 ((List.replicate MAX_BUYERS (0 : Int)).set 0 7) := by
      decide
    norm_num [new_seller, hm]

end Ledger

namespace Ledger

/-! ## Slots of a record store -/

theorem slot_update_set {R : Type} {M : List R} {a : Nat} {s : R} (ha : M[a]? = some s)
    (r : R) : slot_update M (M.set a r) a r :=
  ⟨List.getElem?_set_self (lookup_lt ha), fun _ hi => List.getElem?_set_ne (Ne.symm hi)⟩

theorem slot_update_append {R : Type} (M : List R) (r : R) :
    slot_update M (M ++ [r]) M.length r := by
  refine ⟨List.getElem?_concat_length _ _, ?_⟩
  intro i hi
  rcases Nat.lt_or_ge i M.length with h1 | h1
  · exact List.getElem?_append_left h1
  · rw [List.getElem?_eq_none h1, List.getElem?_eq_none (by simp; omega)]

theorem slot_update.reset {R : Type} {M M1 : List R} {a : Nat} {r : R}
    (h : slot_update M M1 a r) (r1 : R) : slot_update M (M1.set a r1) a r1 :=
  ⟨List.getElem?_set_self (lookup_lt h.1), fun i hi => by
    rw [List.getElem?_set_ne (Ne.symm hi)]; exact h.2 i hi⟩

theorem slot_update.all {R : Type} {M M1 : List R} {a : Nat} {r : R}
    (h : slot_update M M1 a r) {P : R → Prop} (hM : ∀ x ∈ M, P x) (hr : P r) :
    ∀ x ∈ M1, P x := by
  intro x hx
  obtain ⟨i, hi⟩ := List.getElem?_of_mem hx
  by_cases hia : i = a
  · rw [hia, h.1] at hi; cases hi; exact hr
  · rw [h.2 i hia] at hi
    exact hM x (mem_of_lookup hi)

theorem take_set_succ {α : Type} (l : List α) (n : Nat) (x : α) (hn : n < l.length) :
    (l.set n x).take (n + 1) = l.take n ++ [x] := by
  have h1 : l = l.take n ++ l[n] :: l.drop (n + 1) := by
    rw [← List.drop_eq_getElem_cons hn, List.take_append_drop]
  have h2 : (l.take n).length = n := by simp; omega
  have h3 : l.set n x = l.take n ++ x :: l.drop (n + 1) := by
    have := wr_mid (l.take n) l[n] x (l.drop (n + 1))
    rw [h2, ← h1] at this
    rw [wr_some _ _ _ hn] at this
    exact Option.some.inj this
  rw [h3, show l.take n ++ x :: l.drop (n + 1) = (l.take n ++ [x]) ++ l.drop (n + 1) by simp]
  exact take_at _ _ _ (by simp; omega)

/-! ## The steps of `add_transaction` -/

theorem SellerOK_update {s : SellerKey} (h : SellerOK s) (rb ra : ℚ) :
    SellerOK (update_rates s rb ra) := by
  obtain ⟨f1, f2, f3, f4, _⟩ := update_rates_fields s rb ra
  unfold SellerOK
  rw [f2, f3, f4]; exact h

theorem SellerOK_new (id : Int) (rb ra : ℚ) : SellerOK (new_seller id rb ra) :=
  ⟨⟨[], WF_empty _⟩, by simp [new_seller], Nat.zero_le _⟩

/-- `get_or_create_seller` in one statement: the returned slot holds the seller's record,
which is the found record after the rate update or a new record in the next free slot. -/
theorem seller_step (st : State) (id : Int) (rb ra : ℚ)
    (hd : DirOK SellerKey.seller_id st.seller_tree st.seller_mem)
    (hok : ∀ s ∈ st.seller_mem, SellerOK s) :
    ∃ M2 T2 sa sc, get_or_create_seller st id rb ra
        = some ({ st with seller_mem := M2, seller_tree := T2 }, sa) ∧
      DirOK SellerKey.seller_id T2 M2 ∧ slot_update st.seller_mem M2 sa sc ∧
      sc.seller_id = id ∧ SellerOK sc ∧
      (∀ s, st.seller_mem[sa]? = some s →
        s.seller_id = id ∧ sc = update_rates s rb ra ∧ T2 = st.seller_tree) ∧
      (st.seller_mem[sa]? = none →
        sc = new_seller id rb ra ∧ ∀ s ∈ st.seller_mem, s.seller_id ≠ id) := by
  rcases store_has_id SellerKey.seller_id st.seller_mem id with ⟨a, s, ha, hid⟩ | hno
  · have hf := (update_rates_fields s rb ra).1
    refine ⟨st.seller_mem.set a (update_rates s rb ra), st.seller_tree, a, update_rates s rb ra,
      get_or_create_seller_found st id rb ra hd a s ha hid, hd.set ha hf,
      slot_update_set ha _, by rw [hf, hid], SellerOK_update (hok s (mem_of_lookup ha)) rb ra,
      ?_, ?_⟩
    · intro s1 hs1
      rw [ha] at hs1; cases hs1
      exact ⟨hid, rfl, rfl⟩
    · intro hn; rw [ha] at hn; cases hn
  · obtain ⟨tree1, h1, h2, h3⟩ := get_or_create_seller_new st id rb ra hd hno
    refine ⟨_, tree1, st.seller_mem.length, new_seller id rb ra, h3, h2,
      slot_update_append _ _, rfl, SellerOK_new id rb ra, ?_, ?_⟩
    · intro s1 hs1
      have := lookup_lt hs1
      omega
    · intro _; exact ⟨rfl, hno⟩

/-- `get_or_create_buyer` in one statement. -/
theorem buyer_step (st : State) (id : Int)
    (hd : DirOK BuyerKey.buyer_id st.buyer_tree st.buyer_mem)
    (hok : ∀ b ∈ st.buyer_mem, BuyerOK b) :
    ∃ B2 T2 ba bc, get_or_create_buyer st id
        = some ({ st with buyer_mem := B2, buyer_tree := T2 }, ba) ∧
      DirOK BuyerKey.buyer_id T2 B2 ∧ slot_update st.buyer_mem B2 ba bc ∧
      bc.buyer_id = id ∧ BuyerOK bc ∧
      (∀ b, st.buyer_mem[ba]? = some b → b.buyer_id = id ∧ bc = b ∧ B2 = st.buyer_mem) ∧
      (st.buyer_mem[ba]? = none →
        bc = new_buyer id ∧ ∀ b ∈ st.buyer_mem, b.buyer_id ≠ id) := by
  rcases store_has_id BuyerKey.buyer_id st.buyer_mem id with ⟨a, b, ha, hid⟩ | hno
  · refine ⟨st.buyer_mem, st.buyer_tree, a, b,
      get_or_create_buyer_found st id hd a b ha hid, hd, ⟨ha, fun _ _ => rfl⟩, hid,
      hok b (mem_of_lookup ha), ?_, ?_⟩
    · intro b1 hb1
      rw [ha] at hb1; cases hb1
      exact ⟨hid, rfl, rfl⟩
    · intro hn; rw [ha] at hn; cases hn
  · obtain ⟨tree1, h1, h2, h3⟩ := get_or_create_buyer_new st id hd hno
    refine ⟨_, tree1, st.buyer_mem.length, new_buyer id, h3, h2,
      slot_update_append _ _, rfl, ⟨[], WF_empty _⟩, ?_, ?_⟩
    · intro b1 hb1
      have := lookup_lt hb1
      omega
    · intro _; exact ⟨rfl, hno⟩

/-- The loyalty block: the seller's record gets the buyer appended to its regular-buyer set
when the buyer's count exceeds 5, the buyer is not in the set and the set has room; nothing
else changes. -/
theorem promote_spec (st : State) (sa : Nat) (s : SellerKey) (b : BuyerKey)
    (hs : st.seller_mem[sa]? = some s) (hok : SellerOK s) :
    ∃ sf, promote st sa b = some { st with seller_mem := st.seller_mem.set sa sf } ∧
      sf.seller_id = s.seller_id ∧ sf.rate_below_300 = s.rate_below_300 ∧
      sf.rate_above_300 = s.rate_above_300 ∧ sf.transaction_tree = s.transaction_tree ∧
      sf.transaction_count = s.transaction_count ∧ SellerOK sf ∧
      regulars sf =
        if 5 < b.transaction_count ∧ b.buyer_id ∉ regulars s ∧
            s.regular_buyer_count < MAX_BUYERS
        then regulars s ++ [b.buyer_id] else regulars s := by
  obtain ⟨hw, hlen, hcnt⟩ := hok
  have hsame : ({ st with seller_mem := st.seller_mem.set sa s } : State) = st := by
    have : st.seller_mem.set sa s = st.seller_mem := by
      apply List.ext_getElem?
      intro i
      by_cases hi : sa = i
      · rw [← hi, List.getElem?_set_self (lookup_lt hs), hs]
      · rw [List.getElem?_set_ne hi]
    rw [this]
  have hloop := regular_loop_regulars s b.buyer_id (by rw [hlen]; exact hcnt)
  by_cases h5 : 5 < b.transaction_count
  · by_cases hin : b.buyer_id ∈ regulars s
    · refine ⟨s, ?_, rfl, rfl, rfl, rfl, rfl, ⟨hw, hlen, hcnt⟩, ?_⟩
      · unfold promote
        rw [if_pos h5]; dsimp only [bind, Option.bind]
        rw [hs]; dsimp only
        rw [hloop]; dsimp only
        simp only [hin, decide_True, Bool.not_true, Bool.false_and, Bool.false_eq_true,
          if_false]
        rw [hsame]
      · rw [if_neg (by tauto)]
    · by_cases hroom : s.regular_buyer_count < MAX_BUYERS
      · have hlt : s.regular_buyer_count < s.regular_buyers.length := by rw [hlen]; exact hroom
        refine ⟨{ s with regular_buyers := s.regular_buyers.set s.regular_buyer_count b.buyer_id,
                         regular_buyer_count := s.regular_buyer_count + 1 }, ?_, rfl, rfl,
          rfl, rfl, rfl, ⟨hw, by simp [hlen], hroom⟩, ?_⟩
        · unfold promote
          rw [if_pos h5]; dsimp only [bind, Option.bind]
          rw [hs]; dsimp only
          rw [hloop]; dsimp only
          simp only [hin, decide_False, Bool.not_false, Bool.true_and, decide_eq_true_eq,
            hroom, if_true]
          rw [wr_some _ _ _ hlt]; dsimp only
          rw [wr_some _ _ _ (lookup_lt hs)]
        · rw [if_pos ⟨h5, hin, hroom⟩]
          exact take_set_succ _ _ _ hlt
      · refine ⟨s, ?_, rfl, rfl, rfl, rfl, rfl, ⟨hw, hlen, hcnt⟩, ?_⟩
        · unfold promote
          rw [if_pos h5]; dsimp only [bind, Option.bind]
          rw [hs]; dsimp only
          rw [hloop]; dsimp only
          simp only [hin, decide_False, Bool.not_false, Bool.true_and, decide_eq_true_eq,
            hroom, if_false, decide_False, Bool.false_eq_true]
          first
            | rfl
            | rw [hsame]
        · rw [if_neg (by tauto)]
  · refine ⟨s, ?_, rfl, rfl, rfl, rfl, rfl, ⟨hw, hlen, hcnt⟩, ?_⟩
    · unfold promote
      rw [if_neg h5, hsame]
    · rw [if_neg (by tauto)]

end Ledger

namespace Ledger

/-! ## `add_transaction` -/

theorem has_id_false {G : List (Int × Transaction)} {id : Int}
    (h : ∀ e ∈ G, e.2.transaction_id ≠ id) : has_id G id = false := by
  unfold has_id
  rw [List.any_eq_false]
  intro e he
  simpa using h e he

theorem has_id_true {G : List (Int × Transaction)} {id : Int}
    (h : ∃ e ∈ G, e.2.transaction_id = id) : has_id G id = true := by
  unfold has_id
  rw [List.any_eq_true]
  obtain ⟨e, he, hid⟩ := h
  exact ⟨e, he, by simpa using hid⟩

theorem recorded_perm {G G1 : List (Int × Transaction)} (h : G1.Perm G) (x : Int) :
    recorded G1 x = recorded G x := by
  unfold recorded
  exact (h.filter _).length_eq

theorem recorded_placed {G G1 : List (Int × Transaction)} {t : Transaction}
    (h : placed t.transaction_id t G G1) (x : Int) :
    recorded G1 x = recorded G x + (if t.buyer_id = x then 1 else 0) := by
  rw [recorded_perm h.perm x]
  unfold recorded
  by_cases hx : t.buyer_id = x
  · rw [List.filter_cons_of_pos (by simpa using hx), if_pos hx]; rfl
  · rw [List.filter_cons_of_neg (by simpa using hx), if_neg hx]; rfl

theorem recorded_zero {G : List (Int × Transaction)} {x : Int}
    (h : ∀ e ∈ G, e.2.buyer_id ≠ x) : recorded G x = 0 := by
  unfold recorded
  rw [List.length_eq_zero, List.filter_eq_nil_iff]
  intro e he
  simpa using h e he

/-- A successful `add_transaction`: on a state that satisfies the invariant and a record whose
id is not in the global index, the call returns true and leaves a state as described by
`AddPost`. -/
theorem add_transaction_fresh (st : State) (G : List (Int × Transaction)) (t : Transaction)
    (hinv : Inv st G) (hfresh : ∀ e ∈ G, e.2.transaction_id ≠ t.transaction_id)
    (hroom : st.transaction_index < MAX_TRANSACTIONS) :
    ∃ st1 G1 sa sc sf ba bc bf, add_transaction st t = some (true, st1) ∧
      AddPost st st1 t G G1 sa sc sf ba bc bf := by
  have htr := traverse_spec _ _ hinv.global
  have hslot : store_slot st.all_transactions st.transaction_index t =
      some (st.all_transactions.set st.transaction_index (some t)) := by
    unfold store_slot
    exact wr_some _ _ _ (by rw [hinv.store]; exact hroom)
  have hh := has_id_false hfresh
  obtain ⟨g, G1, hg, hwg, hplg⟩ :=
    insert_transaction_spec st.global_transaction_tree G t.transaction_id t hinv.global
  -- the seller
  obtain ⟨M2, T2, sa, sc, hgs, hd2, hsl2, hscid, hscok, hsfound, hsnew⟩ := seller_step
    ⟨st.seller_tree, st.buyer_tree, g, st.all_transactions.set st.transaction_index (some t),
      st.transaction_index + 1, st.seller_mem, st.buyer_mem⟩
    t.seller_id t.rate_below_300 t.rate_above_300 hinv.sellers hinv.seller_ok
  dsimp only at hgs hsl2 hsfound hsnew
  obtain ⟨ts, hts⟩ := hscok.1
  obtain ⟨stree, ts1, hst, hwst, hplst⟩ :=
    insert_transaction_spec sc.transaction_tree ts t.transaction_id t hts
  obtain ⟨s3, hs3⟩ : ∃ s3 : SellerKey, s3 =
      { sc with transaction_tree := stree, transaction_count := sc.transaction_count + 1 } :=
    ⟨_, rfl⟩
  have hs3ok : SellerOK s3 := by
    rw [hs3]; exact ⟨⟨ts1, hwst⟩, hscok.2.1, hscok.2.2⟩
  -- the buyer
  obtain ⟨B4, BT4, ba, bc, hgb, hdb, hslb, hbcid, hbcok, hbfound, hbnew⟩ := buyer_step
    ⟨T2, st.buyer_tree, g, st.all_transactions.set st.transaction_index (some t),
      st.transaction_index + 1, M2.set sa s3, st.buyer_mem⟩
    t.buyer_id hinv.buyers hinv.buyer_ok
  dsimp only at hgb hslb hbfound hbnew
  obtain ⟨tb, htb⟩ := hbcok
  obtain ⟨btree, tb1, hbt, hwbt, hplbt⟩ :=
    insert_transaction_spec bc.transaction_tree tb t.transaction_id t htb
  obtain ⟨bf, hbf⟩ : ∃ bf : BuyerKey, bf =
      { bc with transaction_tree := btree,
                total_energy_purchased := bc.total_energy_purchased + t.energy_kwh,
                transaction_count := bc.transaction_count + 1 } :=
    ⟨_, rfl⟩
  -- the loyalty block
  obtain ⟨sf, hpr, f1, f2, f3, f4, f5, hsfok, hreg⟩ := promote_spec
    ⟨T2, BT4, g, st.all_transactions.set st.transaction_index (some t),
      st.transaction_index + 1, M2.set sa s3, B4.set ba bf⟩
    sa s3 bf (List.getElem?_set_self (lookup_lt hsl2.1)) hs3ok
  dsimp only at hpr
  have hadd : add_transaction st t = some (true,
      ⟨T2, BT4, g, st.all_transactions.set st.transaction_index (some t),
        st.transaction_index + 1, (M2.set sa s3).set sa sf, B4.set ba bf⟩) := by
    unfold add_transaction
    dsimp only [bind, Option.bind]
    rw [htr]; dsimp only
    rw [hh, if_neg Bool.false_ne_true]
    rw [hslot]; dsimp only
    rw [hg]; dsimp only
    rw [hgs]; dsimp only
    rw [hsl2.1]; dsimp only
    rw [hst]; dsimp only
    rw [← hs3, wr_some _ _ _ (lookup_lt hsl2.1)]; dsimp only
    rw [hgb]; dsimp only
    rw [hslb.1]; dsimp only
    rw [hbt]; dsimp only
    rw [← hbf, wr_some _ _ _ (lookup_lt hslb.1)]; dsimp only
    rw [hpr]
  -- the slots after the call
  have hsslot : slot_update st.seller_mem ((M2.set sa s3).set sa sf) sa sf :=
    (hsl2.reset _).reset sf
  have hbslot : slot_update st.buyer_mem (B4.set ba bf) ba bf := hslb.reset bf
  have hbf_id : bf.buyer_id = bc.buyer_id := by rw [hbf]
  have hbf_count : bf.transaction_count = bc.transaction_count + 1 := by rw [hbf]
  have hs3_reg : regulars s3 = regulars sc := by rw [hs3]; rfl
  rw [hs3_reg, hbf_id] at hreg
  have hs3f : s3.seller_id = sc.seller_id ∧ s3.rate_below_300 = sc.rate_below_300 ∧
      s3.rate_above_300 = sc.rate_above_300 ∧ s3.transaction_tree = stree ∧
      s3.transaction_count = sc.transaction_count + 1 ∧
      s3.regular_buyer_count = sc.regular_buyer_count := by
    rw [hs3]; exact ⟨rfl, rfl, rfl, rfl, rfl, rfl⟩
  -- the buyer's old count is the number of its recorded transactions
  have hbc_count : bc.transaction_count = recorded G t.buyer_id := by
    cases hb0 : st.buyer_mem[ba]? with
    | some b0 =>
      obtain ⟨h1, h2, _⟩ := hbfound b0 hb0
      rw [h2, hinv.counted b0 (mem_of_lookup hb0), h1]
    | none =>
      obtain ⟨h1, h2⟩ := hbnew hb0
      rw [h1, recorded_zero]
      · rfl
      · intro e he heq
        obtain ⟨b0, hb0m, hb0id⟩ := List.mem_map.mp (hinv.known e he)
        exact h2 b0 hb0m (by rw [hb0id, heq])
  have hrec_t : recorded G1 t.buyer_id = bc.transaction_count + 1 := by
    rw [recorded_placed hplg, if_pos rfl, hbc_count]
  have hsc_reg : ∀ x ∈ regulars sc, 5 < recorded G x := by
    intro x hx
    cases hs0 : st.seller_mem[sa]? with
    | some s0 =>
      obtain ⟨_, h2, _⟩ := hsfound s0 hs0
      have hf := update_rates_fields s0 t.rate_below_300 t.rate_above_300
      rw [h2] at hx
      unfold regulars at hx
      rw [hf.2.1, hf.2.2.1] at hx
      exact hinv.loyal s0 (mem_of_lookup hs0) x hx
    | none =>
      obtain ⟨h1, _⟩ := hsnew hs0
      rw [h1] at hx
      simp [regulars, new_seller] at hx
  have hmono : ∀ x, recorded G x ≤ recorded G1 x := fun x => by
    rw [recorded_placed hplg]; exact Nat.le_add_right _ _
  refine ⟨_, G1, sa, sc, sf, ba, bc, bf, hadd, ?_⟩
  refine
    { global_placed := hplg
      inv :=
        { global := hwg
          keyed := ?_
          distinct := ?_
          index := ?_
          store := by
            show (st.all_transactions.set st.transaction_index (some t)).length =
              MAX_TRANSACTIONS
            rw [List.length_set]; exact hinv.store
          sellers := (hd2.set hsl2.1 hs3f.1).set (List.getElem?_set_self (lookup_lt hsl2.1)) f1
          buyers := hdb.set hslb.1 hbf_id
          seller_ok := hsslot.all hinv.seller_ok hsfok
          buyer_ok := hbslot.all hinv.buyer_ok (by rw [hbf]; exact ⟨tb1, hwbt⟩)
          counted := ?_
          known := ?_
          loyal := ?_ }
      store := rfl
      s_slot := hsslot
      s_found := fun s hs => ⟨(hsfound s hs).1, (hsfound s hs).2.1⟩
      s_new := hsnew
      s_id := by rw [f1, hs3f.1]; exact hscid
      s_rates := ⟨by rw [f2, hs3f.2.1], by rw [f3, hs3f.2.2.1]⟩
      s_count := by rw [f5, hs3f.2.2.2.2.1]
      s_tree := ⟨ts, ts1, hts, by rw [f4, hs3f.2.2.2.1]; exact hwst, hplst⟩
      s_regulars := by rw [hreg, hbcid, hs3f.2.2.2.2.2]
      b_slot := hbslot
      b_found := fun b hb => ⟨(hbfound b hb).1, (hbfound b hb).2.1⟩
      b_new := hbnew
      b_id := by rw [hbf_id]; exact hbcid
      b_count := hbf_count
      b_energy := by rw [hbf]
      b_tree := ⟨tb, tb1, htb, by rw [hbf]; exact hwbt, hplbt⟩ }
  · intro e he
    rcases List.mem_cons.mp (hplg.perm.mem_iff.mp he) with h1 | h1
    · rw [h1]
    · exact hinv.keyed e h1
  · rw [(hplg.perm.map Prod.fst).nodup_iff, List.map_cons, List.nodup_cons]
    refine ⟨?_, hinv.distinct⟩
    intro hm
    obtain ⟨e, he, hek⟩ := List.mem_map.mp hm
    exact hfresh e he (by rw [← hinv.keyed e he]; exact hek)
  · show st.transaction_index + 1 = G1.length
    rw [hplg.perm.length_eq, hinv.index]; rfl
  · intro b hb
    obtain ⟨i, hi⟩ := List.getElem?_of_mem hb
    by_cases hia : i = ba
    · rw [hia, hbslot.1] at hi
      cases hi
      rw [hbf_count, hbf_id, hbcid, hrec_t]
    · rw [hbslot.2 i hia] at hi
      have hne : t.buyer_id ≠ b.buyer_id := by
        intro heq
        have h4 : B4[i]? = some b := by rw [hslb.2 i hia]; exact hi
        obtain ⟨_, _, _, _, hnd⟩ := hdb
        exact hia (nodup_map_index hnd h4 hslb.1 (by rw [hbcid, heq]))
      rw [recorded_placed hplg, if_neg hne, Nat.add_zero]
      exact hinv.counted b (mem_of_lookup hi)
  · intro e he
    rcases List.mem_cons.mp (hplg.perm.mem_iff.mp he) with h1 | h1
    · rw [h1]
      exact List.mem_map.mpr ⟨_, mem_of_lookup hbslot.1, by rw [hbf_id]; exact hbcid⟩
    · obtain ⟨b0, hb0m, hb0id⟩ := List.mem_map.mp (hinv.known e h1)
      obtain ⟨i, hi⟩ := List.getElem?_of_mem hb0m
      by_cases hia : i = ba
      · rw [hia] at hi
        refine List.mem_map.mpr ⟨_, mem_of_lookup hbslot.1, ?_⟩
        rw [hbf_id, hbcid, ← (hbfound b0 hi).1, hb0id]
      · exact List.mem_map.mpr ⟨b0, mem_of_lookup ((hbslot.2 i hia).trans hi), hb0id⟩
  · refine hsslot.all (P := fun s => ∀ x ∈ regulars s, 5 < recorded G1 x) ?_ ?_
    · intro s hs x hx
      exact lt_of_lt_of_le (hinv.loyal s hs x hx) (hmono x)
    · intro x hx
      rw [hreg] at hx
      have hold : ∀ y ∈ regulars sc, 5 < recorded G1 y := fun y hy =>
        lt_of_lt_of_le (hsc_reg y hy) (hmono y)
      split at hx
      · rename_i hc
        rcases List.mem_append.mp hx with h1 | h1
        · exact hold x h1
        · simp only [List.mem_singleton] at h1
          rw [h1, hbcid, hrec_t, ← hbf_count]
          exact hc.1
      · exact hold x hx

end Ledger

namespace Ledger

/-! ## The invariant holds in every reachable state -/

theorem Inv_init : Inv State.init [] :=
  { global := WF_empty Transaction
    keyed := fun e he => by cases he
    distinct := List.nodup_nil
    index := rfl
    store := List.length_replicate _ _
    sellers := DirOK_empty SellerKey.seller_id
    buyers := DirOK_empty BuyerKey.buyer_id
    seller_ok := fun s hs => by cases hs
    buyer_ok := fun b hb => by cases hb
    counted := fun b hb => by cases hb
    known := fun e he => by cases he
    loyal := fun s hs => by cases hs }

theorem regulars_update_rates (s : SellerKey) (rb ra : ℚ) :
    regulars (update_rates s rb ra) = regulars s := by
  have hf := update_rates_fields s rb ra
  unfold regulars
  rw [hf.2.1, hf.2.2.1]

theorem regulars_new_seller (id : Int) (rb ra : ℚ) : regulars (new_seller id rb ra) = [] := rfl

/-- A duplicate id is rejected and the state is returned as it was. -/
theorem add_transaction_dup (st : State) (G : List (Int × Transaction)) (t : Transaction)
    (hinv : Inv st G) (hdup : ∃ e ∈ G, e.2.transaction_id = t.transaction_id) :
    add_transaction st t = some (false, st) := by
  unfold add_transaction
  dsimp only [bind, Option.bind]
  rw [traverse_spec _ _ hinv.global]; dsimp only
  rw [has_id_true hdup, if_pos rfl]

/-- A call of `get_or_create_seller` in a state with the invariant returns and keeps it. -/
theorem seller_call_inv (st : State) (G : List (Int × Transaction)) (id : Int) (rb ra : ℚ)
    (hinv : Inv st G) :
    ∃ st1 a, get_or_create_seller st id rb ra = some (st1, a) ∧ Inv st1 G := by
  obtain ⟨M2, T2, sa, sc, hgs, hd2, hsl, hscid, hscok, hfound, hnew⟩ :=
    seller_step st id rb ra hinv.sellers hinv.seller_ok
  refine ⟨_, sa, hgs, ?_⟩
  refine
    { global := hinv.global
      keyed := hinv.keyed
      distinct := hinv.distinct
      index := hinv.index
      store := hinv.store
      sellers := hd2
      buyers := hinv.buyers
      seller_ok := hsl.all hinv.seller_ok hscok
      buyer_ok := hinv.buyer_ok
      counted := hinv.counted
      known := hinv.known
      loyal := ?_ }
  refine hsl.all (P := fun s => ∀ x ∈ regulars s, 5 < recorded G x) hinv.loyal ?_
  intro x hx
  cases hs0 : st.seller_mem[sa]? with
  | some s0 =>
    obtain ⟨_, h2, _⟩ := hfound s0 hs0
    rw [h2, regulars_update_rates] at hx
    exact hinv.loyal s0 (mem_of_lookup hs0) x hx
  | none =>
    obtain ⟨h1, _⟩ := hnew hs0
    rw [h1, regulars_new_seller] at hx
    cases hx

/-- A buyer that no record of the global index names has no recorded transaction. -/
theorem recorded_unknown {st : State} {G : List (Int × Transaction)} (hinv : Inv st G)
    {id : Int} (hno : ∀ b ∈ st.buyer_mem, b.buyer_id ≠ id) : recorded G id = 0 := by
  apply recorded_zero
  intro e he heq
  obtain ⟨b, hb, hbid⟩ := List.mem_map.mp (hinv.known e he)
  exact hno b hb (hbid.trans heq)

/-- A call of `get_or_create_buyer` in a state with the invariant returns and keeps it. -/
theorem buyer_call_inv (st : State) (G : List (Int × Transaction)) (id : Int)
    (hinv : Inv st G) :
    ∃ st1 a, get_or_create_buyer st id = some (st1, a) ∧ Inv st1 G ∧
      st1.seller_mem = st.seller_mem := by
  obtain ⟨B2, T2, ba, bc, hgb, hdb, hsl, hbcid, hbcok, hfound, hnew⟩ :=
    buyer_step st id hinv.buyers hinv.buyer_ok
  refine ⟨_, ba, hgb, ?_, rfl⟩
  have hbc : bc.transaction_count = recorded G bc.buyer_id := by
    cases hb0 : st.buyer_mem[ba]? with
    | some b0 =>
      obtain ⟨_, h2, _⟩ := hfound b0 hb0
      rw [h2]
      exact hinv.counted b0 (mem_of_lookup hb0)
    | none =>
      obtain ⟨h1, hno⟩ := hnew hb0
      rw [hbcid, recorded_unknown hinv hno, h1]
      rfl
  refine
    { global := hinv.global
      keyed := hinv.keyed
      distinct := hinv.distinct
      index := hinv.index
      store := hinv.store
      sellers := hinv.sellers
      buyers := hdb
      seller_ok := hinv.seller_ok
      buyer_ok := hsl.all hinv.buyer_ok hbcok
      counted := hsl.all (P := fun b => b.transaction_count = recorded G b.buyer_id)
        hinv.counted hbc
      known := ?_
      loyal := hinv.loyal }
  intro e he
  obtain ⟨b0, hb0m, hb0id⟩ := List.mem_map.mp (hinv.known e he)
  obtain ⟨i, hi⟩ := List.getElem?_of_mem hb0m
  by_cases hia : i = ba
  · rw [hia] at hi
    refine List.mem_map.mpr ⟨bc, mem_of_lookup hsl.1, ?_⟩
    rw [(hfound b0 hi).2.1]
    exact hb0id
  · exact List.mem_map.mpr ⟨b0, mem_of_lookup ((hsl.2 i hia).trans hi), hb0id⟩

/-- Whether an id is in the global index is decided. -/
theorem fresh_or_dup (G : List (Int × Transaction)) (id : Int) :
    (∀ e ∈ G, e.2.transaction_id ≠ id) ∨ (∃ e ∈ G, e.2.transaction_id = id) := by
  by_cases h : ∃ e ∈ G, e.2.transaction_id = id
  · exact Or.inr h
  · left
    intro e he heq
    exact h ⟨e, he, heq⟩

/-- When the store is full, `add_transaction` with a new id gets past the duplicate check and
to the write `all_transactions[transaction_index++] = t`, which is outside the array: the
call has no defined result. -/
theorem add_transaction_overflow (st : State) (G : List (Int × Transaction)) (t : Transaction)
    (hinv : Inv st G) (hfresh : ∀ e ∈ G, e.2.transaction_id ≠ t.transaction_id)
    (hfull : MAX_TRANSACTIONS ≤ st.transaction_index) :
    store_slot st.all_transactions st.transaction_index t = none ∧
    add_transaction st t = none := by
  have hslot : store_slot st.all_transactions st.transaction_index t = none := by
    unfold store_slot wr
    rw [if_neg (by rw [hinv.store]; exact Nat.not_lt.mpr hfull)]
  refine ⟨hslot, ?_⟩
  unfold add_transaction
  dsimp only [bind, Option.bind]
  rw [traverse_spec _ _ hinv.global]; dsimp only
  rw [has_id_false hfresh, if_neg Bool.false_ne_true, hslot]

/-- A call of `add_transaction` in a state with the invariant and with room in the store
returns and keeps the invariant. -/
theorem add_call_inv (st : State) (G : List (Int × Transaction)) (t : Transaction)
    (hinv : Inv st G) (hroom : st.transaction_index < MAX_TRANSACTIONS) :
    ∃ ok st1 G1, add_transaction st t = some (ok, st1) ∧ Inv st1 G1 := by
  rcases fresh_or_dup G t.transaction_id with h | h
  · obtain ⟨st1, G1, sa, sc, sf, ba, bc, bf, hadd, hpost⟩ :=
      add_transaction_fresh st G t hinv h hroom
    exact ⟨true, st1, G1, hadd, hpost.inv⟩
  · exact ⟨false, st, G, add_transaction_dup st G t hinv h, hinv⟩

/-- A call of `add_transaction` that returns was made with a duplicate id or with room in the
store, and keeps the invariant. -/
theorem add_ret_inv (st st1 : State) (G : List (Int × Transaction)) (t : Transaction)
    (ok : Bool) (hinv : Inv st G) (hadd : add_transaction st t = some (ok, st1)) :
    ∃ G1, Inv st1 G1 := by
  rcases fresh_or_dup G t.transaction_id with h | h
  · by_cases hroom : st.transaction_index < MAX_TRANSACTIONS
    · obtain ⟨st2, G1, sa, sc, sf, ba, bc, bf, hadd2, hpost⟩ :=
        add_transaction_fresh st G t hinv h hroom
      rw [hadd] at hadd2
      cases hadd2
      exact ⟨G1, hpost.inv⟩
    · rw [(add_transaction_overflow st G t hinv h (Nat.not_lt.mp hroom)).2] at hadd
      cases hadd
  · rw [add_transaction_dup st G t hinv h] at hadd
    cases hadd
    exact ⟨G, hinv⟩

/-- The invariant holds in every reachable state. -/
theorem Reach.inv {st : State} (hr : Reach st) : ∃ G, Inv st G := by
  induction hr with
  | init => exact ⟨[], Inv_init⟩
  | add st st1 t ok _ hadd ih =>
    obtain ⟨G, hinv⟩ := ih
    exact add_ret_inv st st1 G t ok hinv hadd
  | seller st st1 id rb ra a _ hcall ih =>
    obtain ⟨G, hinv⟩ := ih
    obtain ⟨st2, a2, h1, hinv1⟩ := seller_call_inv st G id rb ra hinv
    rw [hcall] at h1
    cases h1
    exact ⟨G, hinv1⟩
  | buyer st st1 id a _ hcall ih =>
    obtain ⟨G, hinv⟩ := ih
    obtain ⟨st2, a2, h1, hinv1, _⟩ := buyer_call_inv st G id hinv
    rw [hcall] at h1
    cases h1
    exact ⟨G, hinv1⟩

/-- In a reachable state the invariant holds for the traversal of the global index. -/
theorem Reach.inv_of {st : State} (hr : Reach st) {G : List (Int × Transaction)}
    (hG : traverse st.global_transaction_tree = some G) : Inv st G := by
  obtain ⟨G0, hinv⟩ := hr.inv
  have h := traverse_spec _ _ hinv.global
  rw [hG] at h
  cases h
  exact hinv

end Ledger

namespace Ledger

/-! ## Looking up a record of a directory -/

theorem lookup_in_found {R : Type} {idf : R → Int} {tree : Index Nat} {mem : List R}
    (hd : DirOK idf tree mem) {a : Nat} {s : R} {id : Int} (ha : mem[a]? = some s)
    (hid : idf s = id) : lookup_in idf tree mem id = some (some s) := by
  obtain ⟨es, h1, h2⟩ := hd.scan_found ha hid
  unfold lookup_in
  dsimp only [bind, Option.bind]
  rw [h1]; dsimp only
  rw [h2]; dsimp only
  rw [ha]; rfl

theorem lookup_in_none {R : Type} {idf : R → Int} {tree : Index Nat} {mem : List R}
    (hd : DirOK idf tree mem) {id : Int} (hno : ∀ s ∈ mem, idf s ≠ id) :
    lookup_in idf tree mem id = some none := by
  obtain ⟨es, h1, h2⟩ := hd.scan_none hno
  unfold lookup_in
  dsimp only [bind, Option.bind]
  rw [h1]; dsimp only
  rw [h2]

/-- A change of one slot of the store does not change what is found for the other ids. -/
theorem lookup_in_frame {R : Type} {idf : R → Int} {tree tree1 : Index Nat} {mem mem1 : List R}
    (hd : DirOK idf tree mem) (hd1 : DirOK idf tree1 mem1) {a : Nat} {r : R}
    (hsl : slot_update mem mem1 a r) {id : Int} (hr : idf r ≠ id)
    (hold : ∀ s, mem[a]? = some s → idf s ≠ id) :
    lookup_in idf tree1 mem1 id = lookup_in idf tree mem id := by
  rcases store_has_id idf mem id with ⟨i, s, hi, hid⟩ | hno
  · have hia : i ≠ a := by
      intro h
      rw [h] at hi
      exact hold s hi hid
    rw [lookup_in_found hd hi hid, lookup_in_found hd1 ((hsl.2 i hia).trans hi) hid]
  · rw [lookup_in_none hd hno, lookup_in_none hd1 (hsl.all hno hr)]

theorem WF_empty_entries {V : Type} {es : List (Int × V)} (h : WF (Index.empty : Index V) es) :
    es = [] := by
  have h1 := traverse_spec _ _ h
  have h2 := traverse_spec _ _ (WF_empty V)
  rw [h1] at h2
  cases h2
  rfl

theorem placed_nil {V : Type} {key : Int} {t : V} {es1 : List (Int × V)}
    (h : placed key t [] es1) : es1 = [(key, t)] := by
  obtain ⟨l, r, h1, h2, _, _⟩ := h
  obtain ⟨hl, hr⟩ := List.append_eq_nil.mp h1.symm
  rw [h2, hl, hr]
  rfl

/-! ## Duplicate ids -/

/-- C3: for every reachable state and every transaction `t` whose `transaction_id` already
occurs in the global index (as a key or as the id of a stored record), `add_transaction`
returns false and the state it returns is the state it was given: the global index, the
store of transactions and `transaction_index`, both directories and every seller and buyer
entry are as before. -/
theorem C3_duplicate_rejected (st : State) (t : Transaction) (G : List (Int × Transaction))
    (hr : Reach st) (hG : traverse st.global_transaction_tree = some G)
    (hdup : ∃ e ∈ G, e.1 = t.transaction_id ∨ e.2.transaction_id = t.transaction_id) :
    add_transaction st t = some (false, st) := by
  have hinv := hr.inv_of hG
  apply add_transaction_dup st G t hinv
  obtain ⟨e, he, h | h⟩ := hdup
  · exact ⟨e, he, (hinv.keyed e he).symm.trans h⟩
  · exact ⟨e, he, h⟩

/-- C3 at the state after one transaction: recording the same transaction again is rejected
and leaves that state as it is. -/
theorem C3_duplicate_rejected_witness :
    ∃ st, add_transaction State.init ⟨1, 7, 3, 400, 1 / 10, 38, "", 1 / 10, 8 / 100⟩
        = some (true, st) ∧
      add_transaction st ⟨1, 7, 3, 400, 1 / 10, 38, "", 1 / 10, 8 / 100⟩ = some (false, st) := by
  obtain ⟨st1, G1, sa, sc, sf, ba, bc, bf, hadd, hpost⟩ := add_transaction_fresh State.init []
    ⟨1, 7, 3, 400, 1 / 10, 38, "", 1 / 10, 8 / 100⟩ Inv_init (fun e he => by cases he)
    (by decide)
  refine ⟨st1, hadd, ?_⟩
  exact C3_duplicate_rejected st1 _ G1 (Reach.add _ _ _ _ Reach.init hadd)
    (traverse_spec _ _ hpost.inv.global)
    ⟨_, hpost.global_placed.perm.mem_iff.mpr (List.mem_cons_self _ _), Or.inr rfl⟩

/-- The number of new ids depends only on which ids have been seen. -/
theorem new_ids_congr : ∀ (ts : List Transaction) (s1 s2 : List Int),
    (∀ x, x ∈ s1 ↔ x ∈ s2) → new_ids s1 ts = new_ids s2 ts := by
  intro ts
  induction ts with
  | nil => intro s1 s2 _; rfl
  | cons t rest ih =>
    intro s1 s2 h
    rw [new_ids, new_ids]
    by_cases hm : t.transaction_id ∈ s1
    · rw [if_pos hm, if_pos ((h _).mp hm)]
      exact ih s1 s2 h
    · rw [if_neg hm, if_neg (fun h2 => hm ((h _).mpr h2))]
      rw [ih (t.transaction_id :: s1) (t.transaction_id :: s2) (fun x => by
        rw [List.mem_cons, List.mem_cons, h x])]

theorem fresh_iff_not_mem (G : List (Int × Transaction)) (id : Int) :
    (∀ e ∈ G, e.2.transaction_id ≠ id) ↔ id ∉ G.map fun e => e.2.transaction_id := by
  constructor
  · intro h hm
    obtain ⟨e, he, heq⟩ := List.mem_map.mp hm
    exact h e he heq
  · intro h e he heq
    exact h (List.mem_map.mpr ⟨e, he, heq⟩)

/-- A sequence of `add_transaction` calls from a state with the invariant, with room in the
store for the calls that carry a new id: every call returns, and a call returns true exactly
when its id is neither in the global index at the start nor the id of an earlier call of the
sequence that returned true. -/
theorem run_adds_spec : ∀ (ts : List Transaction) (st : State) (G : List (Int × Transaction)),
    Inv st G →
    G.length + new_ids (G.map fun e => e.2.transaction_id) ts ≤ MAX_TRANSACTIONS →
    ∃ oks st1 G1, run_adds st ts = some (oks, st1) ∧ Inv st1 G1 ∧ oks.length = ts.length ∧
      G1.length = G.length + new_ids (G.map fun e => e.2.transaction_id) ts ∧
      ∀ (i : Nat) (t : Transaction), ts[i]? = some t →
        (oks[i]? = some true ↔
          (∀ e ∈ G, e.2.transaction_id ≠ t.transaction_id) ∧
          ∀ (j : Nat) (u : Transaction), j < i → ts[j]? = some u → oks[j]? = some true →
            u.transaction_id ≠ t.transaction_id) := by
  intro ts
  induction ts with
  | nil =>
    intro st G hinv _
    exact ⟨[], st, G, rfl, hinv, rfl, rfl, fun i t h => by simp at h⟩
  | cons t0 rest ih =>
    intro st G hinv hcap
    -- the first call
    have h0 : ∃ ok st1 G1, add_transaction st t0 = some (ok, st1) ∧ Inv st1 G1 ∧
        (ok = true ↔ ∀ e ∈ G, e.2.transaction_id ≠ t0.transaction_id) ∧
        (∀ x : Int, (∀ e ∈ G1, e.2.transaction_id ≠ x) ↔
          ((∀ e ∈ G, e.2.transaction_id ≠ x) ∧ (ok = true → t0.transaction_id ≠ x))) ∧
        G1.length + new_ids (G1.map fun e => e.2.transaction_id) rest =
          G.length + new_ids (G.map fun e => e.2.transaction_id) (t0 :: rest) := by
      rcases fresh_or_dup G t0.transaction_id with h | h
      · have hnm := (fresh_iff_not_mem G t0.transaction_id).mp h
        have hn : new_ids (G.map fun e => e.2.transaction_id) (t0 :: rest) =
            new_ids (t0.transaction_id :: G.map fun e => e.2.transaction_id) rest + 1 := by
          rw [new_ids, if_neg hnm]
        obtain ⟨st1, G1, sa, sc, sf, ba, bc, bf, hadd, hpost⟩ :=
          add_transaction_fresh st G t0 hinv h (by rw [hinv.index]; omega)
        have hp := hpost.global_placed.perm
        refine ⟨true, st1, G1, hadd, hpost.inv, ⟨fun _ => h, fun _ => rfl⟩, ?_, ?_⟩
        · intro x
          constructor
          · intro hx
            refine ⟨fun e he => hx e (hp.mem_iff.mpr (List.mem_cons_of_mem _ he)), fun _ => ?_⟩
            exact hx _ (hp.mem_iff.mpr (List.mem_cons_self _ _))
          · intro hx e he
            rcases List.mem_cons.mp (hp.mem_iff.mp he) with h1 | h1
            · rw [h1]; exact hx.2 rfl
            · exact hx.1 e h1
        · rw [hn, hp.length_eq, List.length_cons,
            new_ids_congr rest (G1.map fun e => e.2.transaction_id)
              (t0.transaction_id :: G.map fun e => e.2.transaction_id)
              (fun x => by
                rw [← List.map_cons (fun e : Int × Transaction => e.2.transaction_id)
                  (t0.transaction_id, t0) G]
                exact (hp.map _).mem_iff)]
          omega
      · have hm : t0.transaction_id ∈ G.map fun e => e.2.transaction_id := by
          obtain ⟨e, he, heq⟩ := h
          exact List.mem_map.mpr ⟨e, he, heq⟩
        refine ⟨false, st, G, add_transaction_dup st G t0 hinv h, hinv, ?_, ?_, ?_⟩
        · constructor
          · intro hf; cases hf
          · intro hf
            obtain ⟨e, he, heq⟩ := h
            exact absurd heq (hf e he)
        · intro x
          exact ⟨fun hx => ⟨hx, fun hf => by cases hf⟩, fun hx => hx.1⟩
        · rw [new_ids, if_pos hm]
    obtain ⟨ok, st1, G1, hadd, hinv1, hok, hG1, hnew⟩ := h0
    obtain ⟨oks, st2, G2, hrun, hinv2, hlen, hlen2, hspec⟩ := ih st1 G1 hinv1
      (by rw [hnew]; exact hcap)
    refine ⟨ok :: oks, st2, G2, ?_, hinv2, ?_, by rw [hlen2, hnew], ?_⟩
    · rw [run_adds]
      dsimp only [bind, Option.bind]
      rw [hadd]; dsimp only
      rw [hrun]
    · rw [List.length_cons, List.length_cons, hlen]
    · intro i t hi
      cases i with
      | zero =>
        rw [List.getElem?_cons_zero] at hi ⊢
        cases hi
        constructor
        · intro h
          have h1 : ok = true := by cases h; rfl
          exact ⟨hok.mp h1, fun j u hj => absurd hj (Nat.not_lt_zero j)⟩
        · intro h
          rw [hok.mpr h.1]
      | succ i =>
        rw [List.getElem?_cons_succ] at hi ⊢
        rw [hspec i t hi, hG1 t.transaction_id]
        constructor
        · rintro ⟨⟨h1, h2⟩, h3⟩
          refine ⟨h1, ?_⟩
          intro j u hj hu hoj
          cases j with
          | zero =>
            rw [List.getElem?_cons_zero] at hu hoj
            cases hu
            cases hoj
            exact h2 rfl
          | succ j =>
            rw [List.getElem?_cons_succ] at hu hoj
            exact h3 j u (Nat.lt_of_succ_lt_succ hj) hu hoj
        · rintro ⟨h1, h2⟩
          refine ⟨⟨h1, ?_⟩, ?_⟩
          · intro hokt
            exact h2 0 t0 (Nat.succ_pos i) (List.getElem?_cons_zero ..)
              (by rw [hokt, List.getElem?_cons_zero])
          · intro j u hj hu hoj
            exact h2 (j + 1) u (Nat.succ_lt_succ hj)
              (by rw [List.getElem?_cons_succ]; exact hu)
              (by rw [List.getElem?_cons_succ]; exact hoj)

/-- C4, amended: every sequence of `add_transaction` calls from the empty state that carries
at most `MAX_TRANSACTIONS` different ids (so that the store has a slot for every record)
returns at each call, a call returns true if and only if no earlier call of the sequence that
returned true carried the same `transaction_id`, and the transaction ids in the global index
after the sequence (the keys, and the ids of the stored records) are pairwise distinct. -/
theorem C4_true_iff_first (ts : List Transaction) (hcap : new_ids [] ts ≤ MAX_TRANSACTIONS) :
    ∃ oks st G, run_adds State.init ts = some (oks, st) ∧ oks.length = ts.length ∧
      (∀ (i : Nat) (t : Transaction), ts[i]? = some t →
        (oks[i]? = some true ↔
          ∀ (j : Nat) (u : Transaction), j < i → ts[j]? = some u → oks[j]? = some true →
            u.transaction_id ≠ t.transaction_id)) ∧
      traverse st.global_transaction_tree = some G ∧
      (G.map Prod.fst).Nodup ∧ (G.map fun e => e.2.transaction_id).Nodup := by
  obtain ⟨oks, st, G, hrun, hinv, hlen, _, hspec⟩ := run_adds_spec ts State.init [] Inv_init
    (by rw [List.length_nil, Nat.zero_add]; exact hcap)
  refine ⟨oks, st, G, hrun, hlen, ?_, traverse_spec _ _ hinv.global, hinv.distinct, ?_⟩
  · intro i t hi
    rw [hspec i t hi]
    exact ⟨fun h => h.2, fun h => ⟨fun e he => (by cases he), h⟩⟩
  · have h : G.map (fun e => e.2.transaction_id) = G.map Prod.fst :=
      List.map_congr_left fun e he => (hinv.keyed e he).symm
    rw [h]
    exact hinv.distinct

/-- C4 for the calls with the ids 1, 2, 1, 3: the third call, which repeats the id 1, returns
false and the others return true, and the global index then holds the ids 1, 2, 3. -/
theorem C4_true_iff_first_witness :
    ∃ oks st G,
      run_adds State.init
        [⟨1, 7, 3, 200, 1 / 10, 20, "2024-01-20 10:00", 1 / 10, 8 / 100⟩,
          ⟨2, 8, 3, 400, 8 / 100, 38, "2024-02-01 09:30", 1 / 10, 8 / 100⟩,
          ⟨1, 8, 4, 100, 1 / 10, 10, "2024-02-02 09:30", 1 / 10, 8 / 100⟩,
          ⟨3, 7, 4, 100, 1 / 10, 10, "2024-02-03 09:30", 1 / 10, 8 / 100⟩] =
        some (oks, st) ∧
      oks = [true, true, false, true] ∧
      traverse st.global_transaction_tree = some G ∧
      G.map Prod.fst = [1, 2, 3] ∧ (G.map Prod.fst).Nodup := by
  have key : (run_adds State.init
        [⟨1, 7, 3, 200, 1 / 10, 20, "2024-01-20 10:00", 1 / 10, 8 / 100⟩,
          ⟨2, 8, 3, 400, 8 / 100, 38, "2024-02-01 09:30", 1 / 10, 8 / 100⟩,
          ⟨1, 8, 4, 100, 1 / 10, 10, "2024-02-02 09:30", 1 / 10, 8 / 100⟩,
          ⟨3, 7, 4, 100, 1 / 10, 10, "2024-02-03 09:30", 1 / 10, 8 / 100⟩]).bind
      (fun r => (traverse r.2.global_transaction_tree).map fun G => (r.1, G.map Prod.fst)) =
      some ([true, true, false, true], [1, 2, 3]) := by
    decide!
  obtain ⟨oks, st, G, hrun, _, _, hG, hnd, _⟩ := C4_true_iff_first
    [⟨1, 7, 3, 200, 1 / 10, 20, "2024-01-20 10:00", 1 / 10, 8 / 100⟩,
      ⟨2, 8, 3, 400, 8 / 100, 38, "2024-02-01 09:30", 1 / 10, 8 / 100⟩,
      ⟨1, 8, 4, 100, 1 / 10, 10, "2024-02-02 09:30", 1 / 10, 8 / 100⟩,
      ⟨3, 7, 4, 100, 1 / 10, 10, "2024-02-03 09:30", 1 / 10, 8 / 100⟩] (by decide)
  rw [hrun] at key
  simp only [Option.some_bind, hG, Option.map_some', Option.some.injEq,
    Prod.mk.injEq] at key
  exact ⟨oks, st, G, hrun, key.1, hG, key.2, hnd⟩

end Ledger

namespace Ledger

/-! ## The effect of a recorded transaction -/

/-- C5, amended: for every reachable state with a free slot in the store
(`transaction_index < MAX_TRANSACTIONS`) and every transaction `t` whose id is not in the
global index, `add_transaction` returns true and afterwards: the traversal of the global index is
the old one with `t` put in; the entry of seller `t.seller_id` has a count one higher than
before (1 if the seller is new) and its index holds the old entries and `t`; the entry of
buyer `t.buyer_id` has a count one higher (1 if new), a cumulative energy higher by exactly
`t.energy_kwh` and an index holding the old entries and `t`; what is found for every other
seller id and every other buyer id is the same as before.  Amounts are exact rationals. -/
theorem C5_add_effect (st : State) (t : Transaction) (G : List (Int × Transaction))
    (hr : Reach st) (hG : traverse st.global_transaction_tree = some G)
    (hfresh : ∀ e ∈ G, e.2.transaction_id ≠ t.transaction_id)
    (hroom : st.transaction_index < MAX_TRANSACTIONS) :
    ∃ st1 G1 s1 ts1 b1 tb1,
      add_transaction st t = some (true, st1) ∧
      traverse st1.global_transaction_tree = some G1 ∧ placed t.transaction_id t G G1 ∧
      lookup_seller st1 t.seller_id = some (some s1) ∧
      traverse s1.transaction_tree = some ts1 ∧
      ((lookup_seller st t.seller_id = some none ∧ s1.transaction_count = 1 ∧
          ts1 = [(t.transaction_id, t)]) ∨
        ∃ s0 ts0, lookup_seller st t.seller_id = some (some s0) ∧
          s1.transaction_count = s0.transaction_count + 1 ∧
          traverse s0.transaction_tree = some ts0 ∧ placed t.transaction_id t ts0 ts1) ∧
      (∀ id, id ≠ t.seller_id → lookup_seller st1 id = lookup_seller st id) ∧
      lookup_buyer st1 t.buyer_id = some (some b1) ∧
      traverse b1.transaction_tree = some tb1 ∧
      ((lookup_buyer st t.buyer_id = some none ∧ b1.transaction_count = 1 ∧
          b1.total_energy_purchased = t.energy_kwh ∧ tb1 = [(t.transaction_id, t)]) ∨
        ∃ b0 tb0, lookup_buyer st t.buyer_id = some (some b0) ∧
          b1.transaction_count = b0.transaction_count + 1 ∧
          b1.total_energy_purchased = b0.total_energy_purchased + t.energy_kwh ∧
          traverse b0.transaction_tree = some tb0 ∧ placed t.transaction_id t tb0 tb1) ∧
      (∀ id, id ≠ t.buyer_id → lookup_buyer st1 id = lookup_buyer st id) := by
  have hinv := hr.inv_of hG
  obtain ⟨st1, G1, sa, sc, sf, ba, bc, bf, hadd, hpost⟩ := add_transaction_fresh st G t hinv hfresh
    hroom
  obtain ⟨ts0, ts1, hws0, hws1, hpls⟩ := hpost.s_tree
  obtain ⟨tb0, tb1, hwb0, hwb1, hplb⟩ := hpost.b_tree
  refine ⟨st1, G1, sf, ts1, bf, tb1, hadd, traverse_spec _ _ hpost.inv.global,
    hpost.global_placed, lookup_in_found hpost.inv.sellers hpost.s_slot.1 hpost.s_id,
    traverse_spec _ _ hws1, ?_, ?_,
    lookup_in_found hpost.inv.buyers hpost.b_slot.1 hpost.b_id,
    traverse_spec _ _ hwb1, ?_, ?_⟩
  · -- the seller before the call
    cases hs0 : st.seller_mem[sa]? with
    | none =>
      obtain ⟨h1, hno⟩ := hpost.s_new hs0
      left
      refine ⟨lookup_in_none hinv.sellers hno, ?_, ?_⟩
      · rw [hpost.s_count, h1]; rfl
      · rw [h1] at hws0
        have h0 : ts0 = [] := WF_empty_entries hws0
        rw [h0] at hpls
        exact placed_nil hpls
    | some s0 =>
      obtain ⟨hid, h1⟩ := hpost.s_found s0 hs0
      have hf := update_rates_fields s0 t.rate_below_300 t.rate_above_300
      right
      refine ⟨s0, ts0, lookup_in_found hinv.sellers hs0 hid, ?_, ?_, hpls⟩
      · rw [hpost.s_count, h1, hf.2.2.2.2.1]
      · rw [h1, hf.2.2.2.1] at hws0
        exact traverse_spec _ _ hws0
  · intro id hid
    refine lookup_in_frame hinv.sellers hpost.inv.sellers hpost.s_slot ?_ ?_
    · rw [hpost.s_id]; exact fun h => hid h.symm
    · intro s hs
      rw [(hpost.s_found s hs).1]
      exact fun h => hid h.symm
  · -- the buyer before the call
    cases hb0 : st.buyer_mem[ba]? with
    | none =>
      obtain ⟨h1, hno⟩ := hpost.b_new hb0
      left
      refine ⟨lookup_in_none hinv.buyers hno, ?_, ?_, ?_⟩
      · rw [hpost.b_count, h1]; rfl
      · rw [hpost.b_energy, h1]
        show (0 : ℚ) + t.energy_kwh = t.energy_kwh
        exact zero_add _
      · rw [h1] at hwb0
        have h0 : tb0 = [] := WF_empty_entries hwb0
        rw [h0] at hplb
        exact placed_nil hplb
    | some b0 =>
      obtain ⟨hid, h1⟩ := hpost.b_found b0 hb0
      right
      refine ⟨b0, tb0, lookup_in_found hinv.buyers hb0 hid, ?_, ?_, ?_, hplb⟩
      · rw [hpost.b_count, h1]
      · rw [hpost.b_energy, h1]
      · rw [h1] at hwb0
        exact traverse_spec _ _ hwb0
  · intro id hid
    refine lookup_in_frame hinv.buyers hpost.inv.buyers hpost.b_slot ?_ ?_
    · rw [hpost.b_id]; exact fun h => hid h.symm
    · intro b hb
      rw [(hpost.b_found b hb).1]
      exact fun h => hid h.symm

/-- C5 at the empty state: the first transaction is recorded, the global index holds it, and
a seller and a buyer entry with count 1 are created, the buyer with the energy of the
transaction. -/
theorem C5_add_effect_witness :
    ∃ st1 s1 b1,
      add_transaction State.init ⟨1, 7, 3, 400, 1 / 10, 38, "", 1 / 10, 8 / 100⟩
        = some (true, st1) ∧
      traverse st1.global_transaction_tree
        = some [(1, ⟨1, 7, 3, 400, 1 / 10, 38, "", 1 / 10, 8 / 100⟩)] ∧
      lookup_seller st1 3 = some (some s1) ∧ s1.transaction_count = 1 ∧
      lookup_buyer st1 7 = some (some b1) ∧ b1.transaction_count = 1 ∧
      b1.total_energy_purchased = 400 := by
  obtain ⟨st1, G1, s1, ts1, b1, tb1, hadd, hg, hpl, hs, _, hs0, _, hb, _, hb0, _⟩ :=
    C5_add_effect State.init ⟨1, 7, 3, 400, 1 / 10, 38, "", 1 / 10, 8 / 100⟩ []
      Reach.init rfl (fun e he => by cases he) (by decide)
  refine ⟨st1, s1, b1, hadd, ?_, hs, ?_, hb, ?_, ?_⟩
  · rw [hg, placed_nil hpl]
  · rcases hs0 with ⟨_, h, _⟩ | ⟨s0, ts0, h, _⟩
    · exact h
    · cases h
  · rcases hb0 with ⟨_, h, _⟩ | ⟨b0, tb0, h, _⟩
    · exact h
    · cases h
  · rcases hb0 with ⟨_, _, h, _⟩ | ⟨b0, tb0, h, _⟩
    · exact h
    · cases h

end Ledger

namespace Ledger

/-! ## The loyalty threshold -/

/-- After a recorded transaction the buyer's count is the number of its records in the old
global index, plus one. -/
theorem AddPost.count_after {st st1 : State} {t : Transaction} {G G1 : List (Int × Transaction)}
    {sa : Nat} {sc sf : SellerKey} {ba : Nat} {bc bf : BuyerKey}
    (hp : AddPost st st1 t G G1 sa sc sf ba bc bf) (hinv : Inv st G) :
    bf.transaction_count = recorded G t.buyer_id + 1 := by
  rw [hp.b_count]
  cases hb0 : st.buyer_mem[ba]? with
  | none =>
    obtain ⟨h1, hno⟩ := hp.b_new hb0
    rw [recorded_unknown hinv hno, h1]
    rfl
  | some b0 =>
    obtain ⟨hid, h1⟩ := hp.b_found b0 hb0
    rw [h1, hinv.counted b0 (mem_of_lookup hb0), hid]

/-- The seller record a transaction is added to: the one found, with its regular buyers, or
a new one without any. -/
theorem AddPost.seller_before {st st1 : State} {t : Transaction}
    {G G1 : List (Int × Transaction)} {sa : Nat} {sc sf : SellerKey} {ba : Nat}
    {bc bf : BuyerKey} (hp : AddPost st st1 t G G1 sa sc sf ba bc bf) :
    (∃ s0, st.seller_mem[sa]? = some s0 ∧ s0.seller_id = t.seller_id ∧
      regulars sc = regulars s0 ∧ sc.regular_buyer_count = s0.regular_buyer_count ∧
      sc.rate_below_300 = (if t.rate_below_300 > 0 then t.rate_below_300
        else s0.rate_below_300) ∧
      sc.rate_above_300 = (if t.rate_above_300 > 0 then t.rate_above_300
        else s0.rate_above_300)) ∨
    (st.seller_mem[sa]? = none ∧ (∀ s ∈ st.seller_mem, s.seller_id ≠ t.seller_id) ∧
      regulars sc = [] ∧ sc.regular_buyer_count = 0 ∧
      sc.rate_below_300 = t.rate_below_300 ∧ sc.rate_above_300 = t.rate_above_300) := by
  cases hs0 : st.seller_mem[sa]? with
  | none =>
    obtain ⟨h1, hno⟩ := hp.s_new hs0
    right
    rw [h1]
    exact ⟨rfl, hno, rfl, rfl, rfl, rfl⟩
  | some s0 =>
    obtain ⟨hid, h1⟩ := hp.s_found s0 hs0
    have hf := update_rates_fields s0 t.rate_below_300 t.rate_above_300
    left
    rw [h1]
    exact ⟨s0, rfl, hid, regulars_update_rates _ _ _, hf.2.2.1, hf.2.2.2.2.2.1,
      hf.2.2.2.2.2.2⟩

/-- C6, amended: after any sequence of `add_transaction` calls from the empty state that
carries at most `MAX_TRANSACTIONS` different ids (so that the store has a slot for every
record), every id in a seller's regular-buyer set belongs to a buyer with more than five
recorded transactions (so the first five never put a buyer into any set), the count kept in a
buyer's entry is the number of its recorded transactions, `transaction_index` is the number of
recorded transactions, and a further transaction of a buyer that has exactly five, made while
the store has a free slot and with a seller whose set holds fewer than `MAX_BUYERS` ids, is
recorded and puts the buyer into that seller's set, whichever sellers the first five were
with. -/
theorem C6_loyalty_threshold (ts : List Transaction)
    (hcap : new_ids [] ts ≤ MAX_TRANSACTIONS) :
    ∃ oks st G, run_adds State.init ts = some (oks, st) ∧
      traverse st.global_transaction_tree = some G ∧
      (∀ s ∈ st.seller_mem, ∀ b ∈ regulars s, 5 < recorded G b) ∧
      (∀ b ∈ st.buyer_mem, b.transaction_count = recorded G b.buyer_id) ∧
      st.transaction_index = new_ids [] ts ∧
      ∀ t : Transaction, (∀ e ∈ G, e.2.transaction_id ≠ t.transaction_id) →
        recorded G t.buyer_id = 5 →
        st.transaction_index < MAX_TRANSACTIONS →
        (∀ s ∈ st.seller_mem, s.seller_id = t.seller_id →
          s.regular_buyer_count < MAX_BUYERS) →
        ∃ st1 s1, add_transaction st t = some (true, st1) ∧
          lookup_seller st1 t.seller_id = some (some s1) ∧ t.buyer_id ∈ regulars s1 := by
  obtain ⟨oks, st, G, hrun, hinv, _, hlenG, _⟩ := run_adds_spec ts State.init [] Inv_init
    (by rw [List.length_nil, Nat.zero_add]; exact hcap)
  refine ⟨oks, st, G, hrun, traverse_spec _ _ hinv.global, hinv.loyal, hinv.counted,
    by rw [hinv.index, hlenG]; exact Nat.zero_add _, ?_⟩
  intro t hfresh hfive hslot hroom
  obtain ⟨st1, G1, sa, sc, sf, ba, bc, bf, hadd, hpost⟩ :=
    add_transaction_fresh st G t hinv hfresh hslot
  refine ⟨st1, sf, hadd, lookup_in_found hpost.inv.sellers hpost.s_slot.1 hpost.s_id, ?_⟩
  have hcount : 5 < bf.transaction_count := by
    rw [hpost.count_after hinv, hfive]
    exact Nat.lt_succ_self 5
  have hcond : t.buyer_id ∉ regulars sc ∧ sc.regular_buyer_count < MAX_BUYERS := by
    rcases hpost.seller_before with ⟨s0, hs0, hid, hreg, hcnt, _⟩ | ⟨_, _, hreg, hcnt, _⟩
    · rw [hreg, hcnt]
      refine ⟨fun hin => ?_, hroom s0 (mem_of_lookup hs0) hid⟩
      have h := hinv.loyal s0 (mem_of_lookup hs0) _ hin
      rw [hfive] at h
      exact Nat.lt_irrefl 5 h
    · rw [hreg, hcnt]
      exact ⟨List.not_mem_nil _, by decide⟩
  rw [hpost.s_regulars, if_pos ⟨hcount, hcond⟩]
  exact List.mem_append_right _ (List.mem_singleton_self _)

/-- C6 for buyer 7 and five transactions with the sellers 11 to 15: after them buyer 7 is in
no regular-buyer set, and a sixth transaction, with seller 16, puts the buyer into the set of
seller 16. -/
theorem C6_loyalty_threshold_witness :
    ∃ oks st st1 s1,
      run_adds State.init
        [⟨1, 7, 11, 400, 1 / 10, 38, "", 1 / 10, 8 / 100⟩,
         ⟨2, 7, 12, 400, 1 / 10, 38, "", 1 / 10, 8 / 100⟩,
         ⟨3, 7, 13, 400, 1 / 10, 38, "", 1 / 10, 8 / 100⟩,
         ⟨4, 7, 14, 400, 1 / 10, 38, "", 1 / 10, 8 / 100⟩,
         ⟨5, 7, 15, 400, 1 / 10, 38, "", 1 / 10, 8 / 100⟩] = some (oks, st) ∧
      (∀ s ∈ st.seller_mem, (7 : Int) ∉ regulars s) ∧
      add_transaction st ⟨6, 7, 16, 400, 1 / 10, 38, "", 1 / 10, 8 / 100⟩ = some (true, st1) ∧
      lookup_seller st1 16 = some (some s1) ∧ (7 : Int) ∈ regulars s1 := by
  have key : (run_adds State.init
        [⟨1, 7, 11, 400, 1 / 10, 38, "", 1 / 10, 8 / 100⟩,
         ⟨2, 7, 12, 400, 1 / 10, 38, "", 1 / 10, 8 / 100⟩,
         ⟨3, 7, 13, 400, 1 / 10, 38, "", 1 / 10, 8 / 100⟩,
         ⟨4, 7, 14, 400, 1 / 10, 38, "", 1 / 10, 8 / 100⟩,
         ⟨5, 7, 15, 400, 1 / 10, 38, "", 1 / 10, 8 / 100⟩]).bind
      (fun r => (traverse r.2.global_transaction_tree).map fun G =>
        (recorded G 7, G.all (fun e => decide (e.2.transaction_id ≠ 6)),
          r.2.seller_mem.all (fun s => decide (s.seller_id ≠ 16)))) = some (5, true, true) := by
    decide!
  obtain ⟨oks, st, G, hrun, hG, h1, _, hix, h3⟩ := C6_loyalty_threshold
    [⟨1, 7, 11, 400, 1 / 10, 38, "", 1 / 10, 8 / 100⟩,
         ⟨2, 7, 12, 400, 1 / 10, 38, "", 1 / 10, 8 / 100⟩,
         ⟨3, 7, 13, 400, 1 / 10, 38, "", 1 / 10, 8 / 100⟩,
         ⟨4, 7, 14, 400, 1 / 10, 38, "", 1 / 10, 8 / 100⟩,
         ⟨5, 7, 15, 400, 1 / 10, 38, "", 1 / 10, 8 / 100⟩] (by decide)
  rw [hrun] at key
  simp only [Option.some_bind, hG, Option.map_some', Option.some.injEq, Prod.mk.injEq,
    List.all_eq_true, decide_eq_true_eq] at key
  obtain ⟨k1, k2, k3⟩ := key
  obtain ⟨st1, s1, hadd, hlook, hin⟩ := h3 ⟨6, 7, 16, 400, 1 / 10, 38, "", 1 / 10, 8 / 100⟩
    (fun e he => k2 e he) k1 (by rw [hix]; decide) (fun s hs hid => absurd hid (k3 s hs))
  refine ⟨oks, st, st1, s1, hrun, ?_, hadd, hlook, hin⟩
  intro s hs hin7
  have h := h1 s hs 7 hin7
  rw [k1] at h
  exact Nat.lt_irrefl 5 h

end Ledger

namespace Ledger

/-! ## The add flow of the menu -/

theorem regulars_length {s : SellerKey} (h : SellerOK s) :
    (regulars s).length = s.regular_buyer_count := by
  unfold regulars
  rw [List.length_take, h.2.1]
  exact Nat.min_eq_left h.2.2

theorem set_same {α : Type} {l : List α} {a : Nat} {x : α} (h : l[a]? = some x) :
    l.set a x = l := by
  apply List.ext_getElem?
  intro i
  by_cases hia : i = a
  · rw [hia, List.getElem?_set_self (lookup_lt h), h]
  · rw [List.getElem?_set_ne (fun h => hia h.symm)]

end Ledger

namespace Ledger

/-! ## Prices in a series of transactions of one buyer with one seller -/

end Ledger

namespace Ledger

/-! ## Pricing in the add flow -/

end Ledger

namespace Ledger

/-! ## Regular-buyer lists only grow -/

theorem regulars_kept_refl (st : State) : regulars_kept st st :=
  fun _ s hs => ⟨s, hs, rfl, List.prefix_refl _⟩

theorem regulars_kept_trans {st st1 st2 : State} (h1 : regulars_kept st st1)
    (h2 : regulars_kept st1 st2) : regulars_kept st st2 := by
  intro a s hs
  obtain ⟨s1, hs1, hid1, hp1⟩ := h1 a s hs
  obtain ⟨s2, hs2, hid2, hp2⟩ := h2 a s1 hs1
  exact ⟨s2, hs2, hid2.trans hid1, hp1.trans hp2⟩

/-- Nothing changes for the sellers when the seller store is the same. -/
theorem regulars_kept_same {st st1 : State} (h : st1.seller_mem = st.seller_mem) :
    regulars_kept st st1 := by
  intro a s hs
  exact ⟨s, by rw [h]; exact hs, rfl, List.prefix_refl _⟩

/-- A write to one seller record that keeps its id and extends its list. -/
theorem regulars_kept_set {st st1 : State} {a : Nat} {s s1 : SellerKey}
    (hs : st.seller_mem[a]? = some s) (h : st1.seller_mem = st.seller_mem.set a s1)
    (hid : s1.seller_id = s.seller_id) (hp : regulars s <+: regulars s1) :
    regulars_kept st st1 := by
  intro i r hr
  by_cases hia : i = a
  · rw [hia] at hr
    rw [hs] at hr
    cases hr
    exact ⟨s1, by rw [h, hia]; exact List.getElem?_set_self (lookup_lt hs), hid, hp⟩
  · refine ⟨r, ?_, rfl, List.prefix_refl _⟩
    rw [h, List.getElem?_set_ne (fun h => hia h.symm)]
    exact hr

/-- A new seller record at the end of the store. -/
theorem regulars_kept_append {st st1 : State} {r : SellerKey}
    (h : st1.seller_mem = st.seller_mem ++ [r]) : regulars_kept st st1 := by
  intro i s hs
  refine ⟨s, ?_, rfl, List.prefix_refl _⟩
  rw [h, List.getElem?_append_left (lookup_lt hs)]
  exact hs

theorem wr_eq_some {α : Type} {l l1 : List α} {i : Nat} {v : α} (h : wr l i v = some l1) :
    i < l.length ∧ l1 = l.set i v := by
  unfold wr at h
  split at h
  · rename_i hi
    cases h
    exact ⟨hi, rfl⟩
  · cases h

theorem seller_call_kept {st st1 : State} {id : Int} {rb ra : ℚ} {a : Nat}
    (h : get_or_create_seller st id rb ra = some (st1, a)) : regulars_kept st st1 := by
  unfold get_or_create_seller at h
  dsimp only [bind, Option.bind] at h
  cases h1 : traverse st.seller_tree with
  | none => rw [h1] at h; cases h
  | some es =>
    rw [h1] at h; dsimp only at h
    cases h2 : scan_for_id SellerKey.seller_id st.seller_mem id es with
    | none => rw [h2] at h; cases h
    | some found =>
      rw [h2] at h; dsimp only at h
      cases found with
      | some p =>
        dsimp only at h
        cases h3 : st.seller_mem[p]? with
        | none => rw [h3] at h; cases h
        | some s =>
          rw [h3] at h; dsimp only at h
          cases h4 : wr st.seller_mem p (update_rates s rb ra) with
          | none => rw [h4] at h; cases h
          | some mem =>
            rw [h4] at h; dsimp only at h
            cases h
            obtain ⟨_, hm⟩ := wr_eq_some h4
            refine regulars_kept_set h3 hm (update_rates_fields s rb ra).1 ?_
            rw [regulars_update_rates]
      | none =>
        dsimp only at h
        cases h3 : insert_transaction st.seller_tree id st.seller_mem.length with
        | none => rw [h3] at h; cases h
        | some tree =>
          rw [h3] at h; dsimp only at h
          cases h
          exact regulars_kept_append rfl

theorem buyer_call_same {st st1 : State} {id : Int} {a : Nat}
    (h : get_or_create_buyer st id = some (st1, a)) : st1.seller_mem = st.seller_mem := by
  unfold get_or_create_buyer at h
  dsimp only [bind, Option.bind] at h
  cases h1 : traverse st.buyer_tree with
  | none => rw [h1] at h; cases h
  | some es =>
    rw [h1] at h; dsimp only at h
    cases h2 : scan_for_id BuyerKey.buyer_id st.buyer_mem id es with
    | none => rw [h2] at h; cases h
    | some found =>
      rw [h2] at h; dsimp only at h
      cases found with
      | some p =>
        dsimp only at h
        cases h
        rfl
      | none =>
        dsimp only at h
        cases h3 : insert_transaction st.buyer_tree id st.buyer_mem.length with
        | none => rw [h3] at h; cases h
        | some tree =>
          rw [h3] at h; dsimp only at h
          cases h
          rfl

theorem promote_kept {st st1 : State} {sa : Nat} {b : BuyerKey}
    (h : promote st sa b = some st1) : regulars_kept st st1 := by
  unfold promote at h
  split at h
  · dsimp only [bind, Option.bind] at h
    cases h1 : st.seller_mem[sa]? with
    | none => rw [h1] at h; cases h
    | some s =>
      rw [h1] at h; dsimp only at h
      cases h2 : regular_loop s.regular_buyers b.buyer_id s.regular_buyer_count 0 with
      | none => rw [h2] at h; cases h
      | some already =>
        rw [h2] at h; dsimp only at h
        split at h
        · cases h3 : wr s.regular_buyers s.regular_buyer_count b.buyer_id with
          | none => rw [h3] at h; cases h
          | some rbs =>
            rw [h3] at h; dsimp only at h
            cases h4 : wr st.seller_mem sa
                { s with regular_buyers := rbs,
                         regular_buyer_count := s.regular_buyer_count + 1 } with
            | none => rw [h4] at h; cases h
            | some mem =>
              rw [h4] at h; dsimp only at h
              cases h
              obtain ⟨hlt, hr⟩ := wr_eq_some h3
              obtain ⟨_, hm⟩ := wr_eq_some h4
              refine regulars_kept_set h1 hm rfl ?_
              show s.regular_buyers.take s.regular_buyer_count <+:
                rbs.take (s.regular_buyer_count + 1)
              rw [hr, take_set_succ _ _ _ hlt]
              exact List.prefix_append _ _
        · cases h
          exact regulars_kept_refl _
  · cases h
    exact regulars_kept_refl _

end Ledger

namespace Ledger

theorem add_call_kept {st st1 : State} {t : Transaction} {ok : Bool}
    (h : add_transaction st t = some (ok, st1)) : regulars_kept st st1 := by
  unfold add_transaction at h
  dsimp only [bind, Option.bind] at h
  cases h1 : traverse st.global_transaction_tree with
  | none => rw [h1] at h; cases h
  | some es =>
    rw [h1] at h; dsimp only at h
    split at h
    · cases h
      exact regulars_kept_refl _
    · cases h0 : store_slot st.all_transactions st.transaction_index t with
      | none => rw [h0] at h; cases h
      | some slots =>
      rw [h0] at h; dsimp only at h
      cases h2 : insert_transaction st.global_transaction_tree t.transaction_id t with
      | none => rw [h2] at h; cases h
      | some g =>
        rw [h2] at h; dsimp only at h
        cases h3 : get_or_create_seller
            { st with all_transactions := slots,
                      transaction_index := st.transaction_index + 1,
                      global_transaction_tree := g }
            t.seller_id t.rate_below_300 t.rate_above_300 with
        | none => rw [h3] at h; cases h
        | some r2 =>
          obtain ⟨st2, sa⟩ := r2
          rw [h3] at h; dsimp only at h
          have k1 : regulars_kept st st2 := fun a s hs => seller_call_kept h3 a s hs
          cases h4 : st2.seller_mem[sa]? with
          | none => rw [h4] at h; cases h
          | some s =>
            rw [h4] at h; dsimp only at h
            cases h5 : insert_transaction s.transaction_tree t.transaction_id t with
            | none => rw [h5] at h; cases h
            | some stree =>
              rw [h5] at h; dsimp only at h
              cases h6 : wr st2.seller_mem sa
                  { s with transaction_tree := stree,
                           transaction_count := s.transaction_count + 1 } with
              | none => rw [h6] at h; cases h
              | some smem =>
                rw [h6] at h; dsimp only at h
                obtain ⟨_, hsm⟩ := wr_eq_some h6
                cases h7 : get_or_create_buyer { st2 with seller_mem := smem } t.buyer_id with
                | none => rw [h7] at h; cases h
                | some r4 =>
                  obtain ⟨st4, ba⟩ := r4
                  rw [h7] at h; dsimp only at h
                  have k2 : regulars_kept st2 st4 :=
                    regulars_kept_set h4 ((buyer_call_same h7).trans hsm) rfl
                      (List.prefix_refl _)
                  cases h8 : st4.buyer_mem[ba]? with
                  | none => rw [h8] at h; cases h
                  | some b =>
                    rw [h8] at h; dsimp only at h
                    cases h9 : insert_transaction b.transaction_tree t.transaction_id t with
                    | none => rw [h9] at h; cases h
                    | some btree =>
                      rw [h9] at h; dsimp only at h
                      cases h10 : wr st4.buyer_mem ba
                          { b with transaction_tree := btree,
                                   total_energy_purchased :=
                                     b.total_energy_purchased + t.energy_kwh,
                                   transaction_count := b.transaction_count + 1 } with
                      | none => rw [h10] at h; cases h
                      | some bmem =>
                        rw [h10] at h; dsimp only at h
                        cases h11 : promote { st4 with buyer_mem := bmem } sa
                            { b with transaction_tree := btree,
                                     total_energy_purchased :=
                                       b.total_energy_purchased + t.energy_kwh,
                                     transaction_count := b.transaction_count + 1 } with
                        | none => rw [h11] at h; cases h
                        | some st5 =>
                          rw [h11] at h; dsimp only at h
                          have k3 : regulars_kept st4 st5 := fun a s hs =>
                            promote_kept h11 a s hs
                          cases h
                          exact regulars_kept_trans k1 (regulars_kept_trans k2 k3)

theorem step_kept {st st1 : State} (h : Step st st1) : regulars_kept st st1 := by
  cases h with
  | add t ok h => exact add_call_kept h
  | seller id rb ra a h => exact seller_call_kept h
  | buyer id a h => exact regulars_kept_same (buyer_call_same h)

theorem step_reach {st st1 : State} (h : Step st st1) (hr : Reach st) : Reach st1 := by
  cases h with
  | add t ok h => exact Reach.add st st1 t ok hr h
  | seller id rb ra a h => exact Reach.seller st st1 id rb ra a hr h
  | buyer id a h => exact Reach.buyer st st1 id a hr h

end Ledger

namespace Ledger

/-! ## One-way promotion, and the lookup of a seller that exists -/

/-- A sequence of `add_transaction` calls that returns is a sequence of steps. -/
theorem run_adds_steps : ∀ (ts : List Transaction) (st st1 : State) (oks : List Bool),
    run_adds st ts = some (oks, st1) → Relation.ReflTransGen Step st st1 := by
  intro ts
  induction ts with
  | nil =>
    intro st st1 oks h
    rw [run_adds] at h
    cases h
    exact Relation.ReflTransGen.refl
  | cons t rest ih =>
    intro st st1 oks h
    rw [run_adds] at h
    dsimp only [bind, Option.bind] at h
    cases h1 : add_transaction st t with
    | none => rw [h1] at h; cases h
    | some r =>
      obtain ⟨ok, st2⟩ := r
      rw [h1] at h; dsimp only at h
      cases h2 : run_adds st2 rest with
      | none => rw [h2] at h; cases h
      | some r2 =>
        obtain ⟨oks2, st3⟩ := r2
        rw [h2] at h; dsimp only at h
        cases h
        exact Relation.ReflTransGen.head (Step.add st st2 t ok h1) (ih st2 _ oks2 h2)

/-- C9: over any number of calls of `add_transaction`, `get_or_create_seller` and
`get_or_create_buyer` that return, whatever they return, every seller record stays at its
place under its id and its regular-buyer list before the calls is a prefix of its list after
them, so every id in the list stays in it; and from a reachable state the state after the
calls is reachable, `get_or_create_seller` and `get_or_create_buyer` return when called
there, and `add_transaction` returns when called there while the store has a free slot.  (A
call of `add_transaction` with a new id when the store is full writes outside the array; it
has no defined result and is no step.) -/
theorem C9_promotion_one_way (st st1 : State) (h : Relation.ReflTransGen Step st st1) :
    (∀ (a : Nat) (s : SellerKey), st.seller_mem[a]? = some s →
      ∃ s1, st1.seller_mem[a]? = some s1 ∧ s1.seller_id = s.seller_id ∧
        regulars s <+: regulars s1 ∧ ∀ x ∈ regulars s, x ∈ regulars s1) ∧
    (Reach st → Reach st1 ∧ ∀ (t : Transaction) (id : Int) (rb ra : ℚ),
      (st1.transaction_index < MAX_TRANSACTIONS →
        ∃ ok st2, add_transaction st1 t = some (ok, st2)) ∧
      (∃ st2 a, get_or_create_seller st1 id rb ra = some (st2, a)) ∧
      (∃ st2 a, get_or_create_buyer st1 id = some (st2, a))) := by
  have hk : regulars_kept st st1 ∧ (Reach st → Reach st1) := by
    induction h with
    | refl => exact ⟨regulars_kept_refl _, fun hr => hr⟩
    | tail _ hstep ih =>
      exact ⟨regulars_kept_trans ih.1 (step_kept hstep), fun hr => step_reach hstep (ih.2 hr)⟩
  refine ⟨?_, ?_⟩
  · intro a s hs
    obtain ⟨s1, hs1, hid, hp⟩ := hk.1 a s hs
    exact ⟨s1, hs1, hid, hp, fun x hx => hp.subset hx⟩
  · intro hr
    have hr1 := hk.2 hr
    refine ⟨hr1, ?_⟩
    intro t id rb ra
    obtain ⟨G, hinv⟩ := hr1.inv
    obtain ⟨st3, a3, hs, _⟩ := seller_call_inv st1 G id rb ra hinv
    obtain ⟨st4, a4, hb, _⟩ := buyer_call_inv st1 G id hinv
    refine ⟨fun hroom => ?_, ⟨st3, a3, hs⟩, ⟨st4, a4, hb⟩⟩
    obtain ⟨ok, st2, _, hadd, _⟩ := add_call_inv st1 G t hinv hroom
    exact ⟨ok, st2, hadd⟩

/-- C9 for the state after six transactions of buyer 7 with seller 3, whose regular-buyer
list is then `[7]`, and the six transactions of buyer 8 with seller 3 recorded from there:
the record of seller 3 is still the first of the store, buyer 7 is still in its list, and the
list is `[7, 8]`, of which `[7]` is a prefix. -/
theorem C9_promotion_one_way_witness :
    ∃ oks st oks1 st1 s s1,
      run_adds State.init
        [⟨1, 7, 3, 400, 1 / 10, 38, "", 1 / 10, 8 / 100⟩,
         ⟨2, 7, 3, 400, 1 / 10, 38, "", 1 / 10, 8 / 100⟩,
         ⟨3, 7, 3, 400, 1 / 10, 38, "", 1 / 10, 8 / 100⟩,
         ⟨4, 7, 3, 400, 1 / 10, 38, "", 1 / 10, 8 / 100⟩,
         ⟨5, 7, 3, 400, 1 / 10, 38, "", 1 / 10, 8 / 100⟩,
         ⟨6, 7, 3, 400, 1 / 10, 38, "", 1 / 10, 8 / 100⟩] = some (oks, st) ∧
      run_adds st
        [⟨11, 8, 3, 400, 1 / 10, 38, "", 1 / 10, 8 / 100⟩,
         ⟨12, 8, 3, 400, 1 / 10, 38, "", 1 / 10, 8 / 100⟩,
         ⟨13, 8, 3, 400, 1 / 10, 38, "", 1 / 10, 8 / 100⟩,
         ⟨14, 8, 3, 400, 1 / 10, 38, "", 1 / 10, 8 / 100⟩,
         ⟨15, 8, 3, 400, 1 / 10, 38, "", 1 / 10, 8 / 100⟩,
         ⟨16, 8, 3, 400, 1 / 10, 38, "", 1 / 10, 8 / 100⟩] = some (oks1, st1) ∧
      st.seller_mem[0]? = some s ∧ st1.seller_mem[0]? = some s1 ∧ s1.seller_id = s.seller_id ∧
      regulars s = [7] ∧ regulars s1 = [7, 8] ∧ regulars s <+: regulars s1 ∧
      (7 : Int) ∈ regulars s1 := by
  have key : (run_adds State.init
        [⟨1, 7, 3, 400, 1 / 10, 38, "", 1 / 10, 8 / 100⟩,
         ⟨2, 7, 3, 400, 1 / 10, 38, "", 1 / 10, 8 / 100⟩,
         ⟨3, 7, 3, 400, 1 / 10, 38, "", 1 / 10, 8 / 100⟩,
         ⟨4, 7, 3, 400, 1 / 10, 38, "", 1 / 10, 8 / 100⟩,
         ⟨5, 7, 3, 400, 1 / 10, 38, "", 1 / 10, 8 / 100⟩,
         ⟨6, 7, 3, 400, 1 / 10, 38, "", 1 / 10, 8 / 100⟩]).bind
      (fun r => (run_adds r.2
        [⟨11, 8, 3, 400, 1 / 10, 38, "", 1 / 10, 8 / 100⟩,
         ⟨12, 8, 3, 400, 1 / 10, 38, "", 1 / 10, 8 / 100⟩,
         ⟨13, 8, 3, 400, 1 / 10, 38, "", 1 / 10, 8 / 100⟩,
         ⟨14, 8, 3, 400, 1 / 10, 38, "", 1 / 10, 8 / 100⟩,
         ⟨15, 8, 3, 400, 1 / 10, 38, "", 1 / 10, 8 / 100⟩,
         ⟨16, 8, 3, 400, 1 / 10, 38, "", 1 / 10, 8 / 100⟩]).map fun r1 =>
        (r.2.seller_mem.map regulars, r1.2.seller_mem.map regulars)) =
      some ([[7]], [[7, 8]]) := by
    decide!
  cases h1 : run_adds State.init
        [⟨1, 7, 3, 400, 1 / 10, 38, "", 1 / 10, 8 / 100⟩,
         ⟨2, 7, 3, 400, 1 / 10, 38, "", 1 / 10, 8 / 100⟩,
         ⟨3, 7, 3, 400, 1 / 10, 38, "", 1 / 10, 8 / 100⟩,
         ⟨4, 7, 3, 400, 1 / 10, 38, "", 1 / 10, 8 / 100⟩,
         ⟨5, 7, 3, 400, 1 / 10, 38, "", 1 / 10, 8 / 100⟩,
         ⟨6, 7, 3, 400, 1 / 10, 38, "", 1 / 10, 8 / 100⟩] with
  | none => rw [h1] at key; cases key
  | some r =>
    obtain ⟨oks, st⟩ := r
    rw [h1, Option.some_bind] at key
    dsimp only at key
    cases h2 : run_adds st
        [⟨11, 8, 3, 400, 1 / 10, 38, "", 1 / 10, 8 / 100⟩,
         ⟨12, 8, 3, 400, 1 / 10, 38, "", 1 / 10, 8 / 100⟩,
         ⟨13, 8, 3, 400, 1 / 10, 38, "", 1 / 10, 8 / 100⟩,
         ⟨14, 8, 3, 400, 1 / 10, 38, "", 1 / 10, 8 / 100⟩,
         ⟨15, 8, 3, 400, 1 / 10, 38, "", 1 / 10, 8 / 100⟩,
         ⟨16, 8, 3, 400, 1 / 10, 38, "", 1 / 10, 8 / 100⟩] with
    | none => rw [h2] at key; cases key
    | some r1 =>
      obtain ⟨oks1, st1⟩ := r1
      rw [h2, Option.map_some'] at key
      dsimp only at key
      have k1 : st.seller_mem.map regulars = [[7]] := (Prod.mk.inj (Option.some.inj key)).1
      have k2 : st1.seller_mem.map regulars = [[7, 8]] := (Prod.mk.inj (Option.some.inj key)).2
      obtain ⟨s, hs, hrs⟩ : ∃ s, st.seller_mem[0]? = some s ∧ regulars s = [7] := by
        cases hm : st.seller_mem with
        | nil => rw [hm] at k1; cases k1
        | cons s rest =>
          rw [hm, List.map_cons] at k1
          exact ⟨s, List.getElem?_cons_zero, (List.cons.inj k1).1⟩
      obtain ⟨s1, hs1, hid, hp, hin⟩ := (C9_promotion_one_way st st1
        (run_adds_steps _ st st1 oks1 h2)).1 0 s hs
      have hrs1 : regulars s1 = [7, 8] := by
        cases hm : st1.seller_mem with
        | nil => rw [hm] at k2; cases k2
        | cons s2 rest =>
          rw [hm, List.map_cons] at k2
          rw [hm, List.getElem?_cons_zero] at hs1
          cases hs1
          exact (List.cons.inj k2).1
      exact ⟨oks, st, oks1, st1, s, s1, rfl, h2, hs, hs1, hid, hrs, hrs1, hp,
        hin 7 (by rw [hrs]; exact List.mem_singleton_self _)⟩

end Ledger

namespace Ledger

/-! ## Timestamps -/

theorem is_leap_year_iff (year : Int) : is_leap_year year = true ↔ leap_year year := by
  unfold is_leap_year leap_year
  simp only [Bool.or_eq_true, Bool.and_eq_true, beq_iff_eq, bne_iff_ne, ne_eq,
    Int.dvd_iff_emod_eq_zero]

/-- The table lookup of `validate_datetime` gives the number of days of the month. -/
theorem table_lookup (year month : Int) (h1 : 1 ≤ month) (h2 : month ≤ 12) :
    (if is_leap_year year = true then days_in_month.set 1 29 else days_in_month)[
      (month - 1).toNat]? = some (month_days year month) := by
  by_cases hl : is_leap_year year = true
  · have hl2 := (is_leap_year_iff year).mp hl
    rw [if_pos hl]
    interval_cases month <;> simp [month_days, days_in_month, hl2]
  · have hl2 := mt (is_leap_year_iff year).mpr hl
    rw [if_neg hl]
    interval_cases month <;> simp [month_days, days_in_month, hl2]

/-- What `validate_datetime` returns for 16 `char`s with the separators in place: the range
check of the numbers read from the other twelve. -/
theorem validate_core (s : List Int) (c0 c1 c2 c3 c5 c6 c8 c9 c11 c12 c14 c15 : Int)
    (hs : s = [c0, c1, c2, c3, 45, c5, c6, 45, c8, c9, 32, c11, c12, 58, c14, c15]) :
    validate_datetime s = some (decide (in_range (field4 c0 c1 c2 c3) (field2 c5 c6)
      (field2 c8 c9) (field2 c11 c12) (field2 c14 c15))) := by
  have e1 : extract_int s 0 4 = some (field4 c0 c1 c2 c3) := by
    rw [hs]; simp [extract_int, extract_loop, field4]
  have e2 : extract_int s 5 2 = some (field2 c5 c6) := by
    rw [hs]; simp [extract_int, extract_loop, field2]
  have e3 : extract_int s 8 2 = some (field2 c8 c9) := by
    rw [hs]; simp [extract_int, extract_loop, field2]
  have e4 : extract_int s 11 2 = some (field2 c11 c12) := by
    rw [hs]; simp [extract_int, extract_loop, field2]
  have e5 : extract_int s 14 2 = some (field2 c14 c15) := by
    rw [hs]; simp [extract_int, extract_loop, field2]
  have hlen : s.length = 16 := by rw [hs]; rfl
  have hsep : ¬ (s[4]? ≠ some 45 ∨ s[7]? ≠ some 45 ∨ s[10]? ≠ some 32 ∨
      s[13]? ≠ some 58) := by
    rw [hs]; simp
  unfold validate_datetime
  dsimp only [bind, Option.bind]
  rw [if_neg (not_not.mpr hlen), if_neg hsep, e1, e2, e3, e4, e5]
  dsimp only
  by_cases hy : field4 c0 c1 c2 c3 < 1
  · rw [if_pos hy, decide_eq_false (fun h => absurd h.1 (not_le.mpr hy))]
  rw [if_neg hy]
  by_cases hm : field2 c5 c6 < 1 ∨ field2 c5 c6 > 12
  · rw [if_pos hm, decide_eq_false (fun h => by
      rcases hm with h1 | h1
      · exact absurd h.2.1.1 (not_le.mpr h1)
      · exact absurd h.2.1.2 (not_le.mpr h1))]
  rw [if_neg hm]
  by_cases hh : field2 c11 c12 < 0 ∨ field2 c11 c12 > 23
  · rw [if_pos hh, decide_eq_false (fun h => by
      rcases hh with h1 | h1
      · exact absurd h.2.2.1.1 (not_le.mpr h1)
      · exact absurd h.2.2.1.2 (not_le.mpr h1))]
  rw [if_neg hh]
  by_cases hn : field2 c14 c15 < 0 ∨ field2 c14 c15 > 59
  · rw [if_pos hn, decide_eq_false (fun h => by
      rcases hn with h1 | h1
      · exact absurd h.2.2.2.1.1 (not_le.mpr h1)
      · exact absurd h.2.2.2.1.2 (not_le.mpr h1))]
  rw [if_neg hn]
  rw [not_or, not_lt, not_lt] at hm hh hn
  rw [table_lookup _ _ hm.1 hm.2]
  dsimp only
  by_cases hd : field2 c8 c9 < 1 ∨ field2 c8 c9 > month_days (field4 c0 c1 c2 c3) (field2 c5 c6)
  · rw [if_pos hd, decide_eq_false (fun h => by
      rcases hd with h1 | h1
      · exact absurd h.2.2.2.2.1 (not_le.mpr h1)
      · exact absurd h.2.2.2.2.2 (not_le.mpr h1))]
  rw [if_neg hd]
  rw [not_or, not_lt, not_lt] at hd
  rw [decide_eq_true ⟨not_lt.mp hy, hm, hh, hn, hd⟩]

/-- A string that is not rejected at once has 16 `char`s with the separators in place. -/
theorem validate_shape (s : List Int) :
    validate_datetime s = some false ∨
    ∃ c0 c1 c2 c3 c5 c6 c8 c9 c11 c12 c14 c15 : Int,
      s = [c0, c1, c2, c3, 45, c5, c6, 45, c8, c9, 32, c11, c12, 58, c14, c15] := by
  by_cases hlen : s.length ≠ 16
  · left
    unfold validate_datetime
    rw [if_pos hlen]
  rw [not_not] at hlen
  by_cases hsep : s[4]? ≠ some 45 ∨ s[7]? ≠ some 45 ∨ s[10]? ≠ some 32 ∨ s[13]? ≠ some 58
  · left
    unfold validate_datetime
    rw [if_neg (not_not.mpr hlen), if_pos hsep]
  right
  match s, hlen, hsep with
  | [c0, c1, c2, c3, c4, c5, c6, c7, c8, c9, c10, c11, c12, c13, c14, c15], _, hsep =>
    simp only [ne_eq, not_or, not_not, List.getElem?_cons_succ, List.getElem?_cons_zero,
      Option.some.injEq] at hsep
    obtain ⟨h4, h7, h10, h13⟩ := hsep
    exact ⟨c0, c1, c2, c3, c5, c6, c8, c9, c11, c12, c14, c15, by rw [h4, h7, h10, h13]⟩

/-- `validate_datetime` returns for every string. -/
theorem validate_total (s : List Int) : ∃ r, validate_datetime s = some r := by
  rcases validate_shape s with h | ⟨c0, c1, c2, c3, c5, c6, c8, c9, c11, c12, c14, c15, hs⟩
  · exact ⟨false, h⟩
  · exact ⟨_, validate_core s c0 c1 c2 c3 c5 c6 c8 c9 c11 c12 c14 c15 hs⟩

/-! ### The C string of a text -/

theorem utf8_ascii {c : Char} (h : c.toNat < 128) : utf8 c = [c.toNat] := by
  unfold utf8
  rw [if_pos h]

theorem utf8_length_pos (c : Char) : 1 ≤ (utf8 c).length := by
  unfold utf8
  split
  · exact Nat.le_refl _
  · split
    · exact Nat.le_add_left 1 1
    · split
      · exact Nat.le_add_left 1 2
      · exact Nat.le_add_left 1 3

theorem utf8_length_one {c : Char} (h : (utf8 c).length = 1) : c.toNat < 128 := by
  by_contra hc
  unfold utf8 at h
  rw [if_neg hc] at h
  split at h
  · cases h
  · split at h <;> cases h

theorem to_char_ascii {n : Nat} (h : n < 128) : to_char n = (n : Int) := by
  unfold to_char
  rw [if_pos h]

/-- The C string of an ASCII text: the codes of its characters. -/
theorem c_str_ascii : ∀ (cs : List Char), (∀ c ∈ cs, c.toNat < 128) →
    c_str ⟨cs⟩ = cs.map fun c => (c.toNat : Int) := by
  intro cs
  induction cs with
  | nil => intro _; rfl
  | cons c rest ih =>
    intro h
    have h1 := h c (List.mem_cons_self _ _)
    have h2 := ih (fun x hx => h x (List.mem_cons_of_mem _ hx))
    unfold c_str at h2 ⊢
    rw [List.flatMap_cons, List.map_append, h2, utf8_ascii h1, List.map_cons, List.map_nil,
      to_char_ascii h1, List.map_cons]
    rfl

theorem c_str_length_le (cs : List Char) : cs.length ≤ (c_str ⟨cs⟩).length := by
  induction cs with
  | nil => exact Nat.le_refl _
  | cons c rest ih =>
    unfold c_str at ih ⊢
    rw [List.length_map] at ih ⊢
    have ih1 : rest.length ≤ (rest.flatMap utf8).length := ih
    show (c :: rest).length ≤ ((c :: rest).flatMap utf8).length
    rw [List.flatMap_cons, List.length_append, List.length_cons]
    have := utf8_length_pos c
    omega

theorem digit_char_toNat (d : Nat) (h : d < 10) : (digit_char d).toNat = 48 + d := by
  interval_cases d <;> rfl

theorem digit_char_ascii (d : Nat) : (digit_char d).toNat < 128 := by
  by_cases h : d < 10
  · rw [digit_char_toNat d h]; omega
  · have : digit_char d = '0' := by
      unfold digit_char
      rw [List.getD_eq_default]
      exact Nat.not_lt.mp h
    rw [this]
    decide

/-- The C string of a text `DDDD-DD-DD DD:DD` of digits. -/
theorem c_str_stamp (y0 y1 y2 y3 m0 m1 d0 d1 h0 h1 n0 n1 : Nat)
    (hy0 : y0 < 10) (hy1 : y1 < 10) (hy2 : y2 < 10) (hy3 : y3 < 10) (hm0 : m0 < 10)
    (hm1 : m1 < 10) (hd0 : d0 < 10) (hd1 : d1 < 10) (hh0 : h0 < 10) (hh1 : h1 < 10)
    (hn0 : n0 < 10) (hn1 : n1 < 10) :
    c_str (stamp y0 y1 y2 y3 m0 m1 d0 d1 h0 h1 n0 n1) =
      [48 + (y0 : Int), 48 + (y1 : Int), 48 + (y2 : Int), 48 + (y3 : Int), 45,
        48 + (m0 : Int), 48 + (m1 : Int), 45, 48 + (d0 : Int), 48 + (d1 : Int), 32,
        48 + (h0 : Int), 48 + (h1 : Int), 58, 48 + (n0 : Int), 48 + (n1 : Int)] := by
  unfold stamp
  rw [c_str_ascii _ (by
    intro c hc
    simp only [List.mem_cons, List.mem_singleton, List.not_mem_nil, or_false] at hc
    rcases hc with h | h | h | h | h | h | h | h | h | h | h | h | h | h | h | h <;>
      rw [h] <;> first | exact digit_char_ascii _ | decide)]
  simp only [List.map_cons, List.map_nil, digit_char_toNat _ hy0, digit_char_toNat _ hy1,
    digit_char_toNat _ hy2, digit_char_toNat _ hy3, digit_char_toNat _ hm0,
    digit_char_toNat _ hm1, digit_char_toNat _ hd0, digit_char_toNat _ hd1,
    digit_char_toNat _ hh0, digit_char_toNat _ hh1, digit_char_toNat _ hn0,
    digit_char_toNat _ hn1, Nat.cast_add, Nat.cast_ofNat]
  rfl

theorem field2_digits (a b : Nat) : field2 (48 + (a : Int)) (48 + (b : Int)) = 10 * a + b := by
  unfold field2
  ring

theorem field4_digits (a b c d : Nat) :
    field4 (48 + (a : Int)) (48 + (b : Int)) (48 + (c : Int)) (48 + (d : Int))
      = 1000 * a + 100 * b + 10 * c + d := by
  unfold field4
  ring

/-- On a text `DDDD-DD-DD DD:DD` of digits, `validate_datetime` is the range check of the
decimal numbers. -/
theorem validate_stamp (y0 y1 y2 y3 m0 m1 d0 d1 h0 h1 n0 n1 : Nat)
    (hy0 : y0 < 10) (hy1 : y1 < 10) (hy2 : y2 < 10) (hy3 : y3 < 10) (hm0 : m0 < 10)
    (hm1 : m1 < 10) (hd0 : d0 < 10) (hd1 : d1 < 10) (hh0 : h0 < 10) (hh1 : h1 < 10)
    (hn0 : n0 < 10) (hn1 : n1 < 10) :
    validate_datetime (c_str (stamp y0 y1 y2 y3 m0 m1 d0 d1 h0 h1 n0 n1)) =
      some (decide (in_range
        (1000 * y0 + 100 * y1 + 10 * y2 + y3) (10 * m0 + m1) (10 * d0 + d1) (10 * h0 + h1)
        (10 * n0 + n1))) := by
  rw [validate_core _ _ _ _ _ _ _ _ _ _ _ _ _
      (c_str_stamp y0 y1 y2 y3 m0 m1 d0 d1 h0 h1 n0 n1 hy0 hy1 hy2 hy3 hm0 hm1 hd0 hd1 hh0
        hh1 hn0 hn1),
    field4_digits y0 y1 y2 y3, field2_digits m0 m1, field2_digits d0 d1, field2_digits h0 h1,
    field2_digits n0 n1]

end Ledger

namespace Ledger

/-! ## Timestamps and byte-wise comparison -/

theorem isDigit_toNat {c : Char} (h : c.isDigit = true) : 48 ≤ c.toNat ∧ c.toNat ≤ 57 := by
  unfold Char.isDigit at h
  simp only [Bool.and_eq_true, decide_eq_true_eq] at h
  exact ⟨h.1, h.2⟩

/-- The numbers `instant` reads for 16 `char`s. -/
theorem instant_core (s : List Int) (c0 c1 c2 c3 c4 c5 c6 c7 c8 c9 c10 c11 c12 c13 c14 c15 : Int)
    (hs : s = [c0, c1, c2, c3, c4, c5, c6, c7, c8, c9, c10, c11, c12, c13, c14, c15]) :
    instant s = some (field4 c0 c1 c2 c3, field2 c5 c6, field2 c8 c9, field2 c11 c12,
      field2 c14 c15) := by
  unfold instant
  rw [hs]
  simp [extract_int, extract_loop, field4, field2]

theorem strcmp_cons (x y : Char) (xs ys : List Char) :
    strcmp (x :: xs) (y :: ys) ≤ 0 ↔
      x.toNat < y.toNat ∨ (x.toNat = y.toNat ∧ strcmp xs ys ≤ 0) := by
  rw [strcmp]
  split
  · rename_i h
    constructor
    · intro h1; exact Or.inr ⟨h, h1⟩
    · rintro (h1 | h1)
      · omega
      · exact h1.2
  · rename_i h
    constructor
    · intro h1; left; omega
    · rintro (h1 | h1)
      · omega
      · exact absurd h1.1 h

theorem strcmp_same (x : Char) (xs ys : List Char) :
    strcmp (x :: xs) (x :: ys) ≤ 0 ↔ strcmp xs ys ≤ 0 := by
  rw [strcmp, if_pos rfl]

theorem block2 (a0 a1 b0 b1 : Char) (P : Prop)
    (ha0 : 48 ≤ a0.toNat ∧ a0.toNat ≤ 57) (ha1 : 48 ≤ a1.toNat ∧ a1.toNat ≤ 57)
    (hb0 : 48 ≤ b0.toNat ∧ b0.toNat ≤ 57) (hb1 : 48 ≤ b1.toNat ∧ b1.toNat ≤ 57) :
    (a0.toNat < b0.toNat ∨ (a0.toNat = b0.toNat ∧
      (a1.toNat < b1.toNat ∨ (a1.toNat = b1.toNat ∧ P)))) ↔
    (field2 (a0.toNat : Int) (a1.toNat : Int) < field2 (b0.toNat : Int) (b1.toNat : Int) ∨
      (field2 (a0.toNat : Int) (a1.toNat : Int) = field2 (b0.toNat : Int) (b1.toNat : Int) ∧
        P)) := by
  unfold field2
  have hlt : ((a0.toNat : Int) - 48) * 10 + ((a1.toNat : Int) - 48) <
      ((b0.toNat : Int) - 48) * 10 + ((b1.toNat : Int) - 48) ↔
      (a0.toNat < b0.toNat ∨ (a0.toNat = b0.toNat ∧ a1.toNat < b1.toNat)) := by omega
  have heq : ((a0.toNat : Int) - 48) * 10 + ((a1.toNat : Int) - 48) =
      ((b0.toNat : Int) - 48) * 10 + ((b1.toNat : Int) - 48) ↔
      (a0.toNat = b0.toNat ∧ a1.toNat = b1.toNat) := by omega
  rw [hlt, heq]
  tauto

theorem field2_bounds (a0 a1 : Char)
    (ha0 : 48 ≤ a0.toNat ∧ a0.toNat ≤ 57) (ha1 : 48 ≤ a1.toNat ∧ a1.toNat ≤ 57) :
    0 ≤ field2 (a0.toNat : Int) (a1.toNat : Int) ∧
      field2 (a0.toNat : Int) (a1.toNat : Int) ≤ 99 := by
  unfold field2
  omega

theorem field4_split (a0 a1 a2 a3 : Char) :
    field4 (a0.toNat : Int) (a1.toNat : Int) (a2.toNat : Int) (a3.toNat : Int) =
      field2 (a0.toNat : Int) (a1.toNat : Int) * 100 +
        field2 (a2.toNat : Int) (a3.toNat : Int) := by
  unfold field4 field2
  ring

theorem lex_pair (x y u v : Int) (P : Prop) (hy : 0 ≤ y ∧ y ≤ 99) (hv : 0 ≤ v ∧ v ≤ 99) :
    (x < u ∨ (x = u ∧ (y < v ∨ (y = v ∧ P)))) ↔
    (x * 100 + y < u * 100 + v ∨ (x * 100 + y = u * 100 + v ∧ P)) := by
  have hlt : x * 100 + y < u * 100 + v ↔ (x < u ∨ (x = u ∧ y < v)) := by omega
  have heq : x * 100 + y = u * 100 + v ↔ (x = u ∧ y = v) := by omega
  rw [hlt, heq]
  tauto

theorem block4 (a0 a1 a2 a3 b0 b1 b2 b3 : Char) (P : Prop)
    (ha0 : 48 ≤ a0.toNat ∧ a0.toNat ≤ 57) (ha1 : 48 ≤ a1.toNat ∧ a1.toNat ≤ 57)
    (ha2 : 48 ≤ a2.toNat ∧ a2.toNat ≤ 57) (ha3 : 48 ≤ a3.toNat ∧ a3.toNat ≤ 57)
    (hb0 : 48 ≤ b0.toNat ∧ b0.toNat ≤ 57) (hb1 : 48 ≤ b1.toNat ∧ b1.toNat ≤ 57)
    (hb2 : 48 ≤ b2.toNat ∧ b2.toNat ≤ 57) (hb3 : 48 ≤ b3.toNat ∧ b3.toNat ≤ 57) :
    (a0.toNat < b0.toNat ∨ (a0.toNat = b0.toNat ∧
      (a1.toNat < b1.toNat ∨ (a1.toNat = b1.toNat ∧
        (a2.toNat < b2.toNat ∨ (a2.toNat = b2.toNat ∧
          (a3.toNat < b3.toNat ∨ (a3.toNat = b3.toNat ∧ P)))))))) ↔
    (field4 (a0.toNat : Int) (a1.toNat : Int) (a2.toNat : Int) (a3.toNat : Int) <
        field4 (b0.toNat : Int) (b1.toNat : Int) (b2.toNat : Int) (b3.toNat : Int) ∨
      (field4 (a0.toNat : Int) (a1.toNat : Int) (a2.toNat : Int) (a3.toNat : Int) =
        field4 (b0.toNat : Int) (b1.toNat : Int) (b2.toNat : Int) (b3.toNat : Int) ∧ P)) := by
  rw [block2 a0 a1 b0 b1 _ ha0 ha1 hb0 hb1, block2 a2 a3 b2 b3 P ha2 ha3 hb2 hb3,
    field4_split, field4_split]
  exact lex_pair _ _ _ _ P (field2_bounds a2 a3 ha2 ha3) (field2_bounds b2 b3 hb2 hb3)

/-- For two texts of the timestamp shape with digits in the fields, the byte-wise order is
the order of the instants. -/
theorem stamp_order (a0 a1 a2 a3 a5 a6 a8 a9 a11 a12 a14 a15 : Char)
    (b0 b1 b2 b3 b5 b6 b8 b9 b11 b12 b14 b15 : Char)
    (ha : ∀ c ∈ [a0, a1, a2, a3, a5, a6, a8, a9, a11, a12, a14, a15],
      48 ≤ c.toNat ∧ c.toNat ≤ 57)
    (hb : ∀ c ∈ [b0, b1, b2, b3, b5, b6, b8, b9, b11, b12, b14, b15],
      48 ≤ c.toNat ∧ c.toNat ≤ 57) :
    strcmp [a0, a1, a2, a3, '-', a5, a6, '-', a8, a9, ' ', a11, a12, ':', a14, a15]
        [b0, b1, b2, b3, '-', b5, b6, '-', b8, b9, ' ', b11, b12, ':', b14, b15] ≤ 0 ↔
      not_later
        (field4 (a0.toNat : Int) (a1.toNat : Int) (a2.toNat : Int) (a3.toNat : Int),
          field2 (a5.toNat : Int) (a6.toNat : Int), field2 (a8.toNat : Int) (a9.toNat : Int),
          field2 (a11.toNat : Int) (a12.toNat : Int),
          field2 (a14.toNat : Int) (a15.toNat : Int))
        (field4 (b0.toNat : Int) (b1.toNat : Int) (b2.toNat : Int) (b3.toNat : Int),
          field2 (b5.toNat : Int) (b6.toNat : Int), field2 (b8.toNat : Int) (b9.toNat : Int),
          field2 (b11.toNat : Int) (b12.toNat : Int),
          field2 (b14.toNat : Int) (b15.toNat : Int)) := by
  simp only [List.mem_cons, List.mem_singleton, forall_eq_or_imp, forall_eq, List.not_mem_nil,
    false_implies, implies_true, and_true] at ha hb
  obtain ⟨x0, x1, x2, x3, x5, x6, x8, x9, x11, x12, x14, x15⟩ := ha
  obtain ⟨y0, y1, y2, y3, y5, y6, y8, y9, y11, y12, y14, y15⟩ := hb
  have h0 : strcmp [] [] ≤ 0 ↔ True := by decide
  rw [strcmp_cons, strcmp_cons, strcmp_cons, strcmp_cons, strcmp_same, strcmp_cons,
    strcmp_cons, strcmp_same, strcmp_cons, strcmp_cons, strcmp_same, strcmp_cons, strcmp_cons,
    strcmp_same, strcmp_cons, strcmp_cons, h0]
  rw [block4 a0 a1 a2 a3 b0 b1 b2 b3 _ x0 x1 x2 x3 y0 y1 y2 y3,
    block2 a5 a6 b5 b6 _ x5 x6 y5 y6, block2 a8 a9 b8 b9 _ x8 x9 y8 y9,
    block2 a11 a12 b11 b12 _ x11 x12 y11 y12, block2 a14 a15 b14 b15 True x14 x15 y14 y15]
  unfold not_later
  dsimp only
  rw [and_true, ← le_iff_lt_or_eq]

/-- The characters of a string with digits in its twelve fields. -/
theorem digit_fields_bounds {s : String}
    {c0 c1 c2 c3 c4 c5 c6 c7 c8 c9 c10 c11 c12 c13 c14 c15 : Char}
    (hs : s.data = [c0, c1, c2, c3, c4, c5, c6, c7, c8, c9, c10, c11, c12, c13, c14, c15])
    (hd : digit_fields s) :
    ∀ c ∈ [c0, c1, c2, c3, c5, c6, c8, c9, c11, c12, c14, c15],
      48 ≤ c.toNat ∧ c.toNat ≤ 57 := by
  unfold digit_fields at hd
  rw [hs] at hd
  simp only [List.mem_cons, List.mem_singleton, forall_eq_or_imp, forall_eq, List.not_mem_nil,
    false_implies, implies_true, and_true, List.getElem?_cons_succ, List.getElem?_cons_zero,
    Option.some.injEq, exists_eq_left'] at hd ⊢
  obtain ⟨h0, h1, h2, h3, h5, h6, h8, h9, h11, h12, h14, h15⟩ := hd
  exact ⟨isDigit_toNat h0, isDigit_toNat h1, isDigit_toNat h2, isDigit_toNat h3,
    isDigit_toNat h5, isDigit_toNat h6, isDigit_toNat h8, isDigit_toNat h9,
    isDigit_toNat h11, isDigit_toNat h12, isDigit_toNat h14, isDigit_toNat h15⟩

end Ledger

namespace Ledger

/-! ## Claims about timestamps -/

theorem digit_char_of_isDigit {c : Char} (h : c.isDigit = true) :
    ∃ d, d < 10 ∧ c = digit_char d := by
  obtain ⟨h1, h2⟩ := isDigit_toNat h
  have hc : c = Char.ofNat c.toNat := (Char.ofNat_toNat c).symm
  generalize c.toNat = n at h1 h2 hc
  rw [hc]
  interval_cases n
  · exact ⟨0, by decide, rfl⟩
  · exact ⟨1, by decide, rfl⟩
  · exact ⟨2, by decide, rfl⟩
  · exact ⟨3, by decide, rfl⟩
  · exact ⟨4, by decide, rfl⟩
  · exact ⟨5, by decide, rfl⟩
  · exact ⟨6, by decide, rfl⟩
  · exact ⟨7, by decide, rfl⟩
  · exact ⟨8, by decide, rfl⟩
  · exact ⟨9, by decide, rfl⟩

/-- A string of 16 characters with the separators in place and digits in the twelve fields
is the text of twelve digits. -/
theorem stamp_of_digit_fields (s : String) (hd : digit_fields s)
    (c0 c1 c2 c3 c5 c6 c8 c9 c11 c12 c14 c15 : Char)
    (hs : s.data = [c0, c1, c2, c3, '-', c5, c6, '-', c8, c9, ' ', c11, c12, ':', c14, c15]) :
    ∃ y0 y1 y2 y3 m0 m1 d0 d1 h0 h1 n0 n1 : Nat,
      (y0 < 10 ∧ y1 < 10 ∧ y2 < 10 ∧ y3 < 10 ∧ m0 < 10 ∧ m1 < 10 ∧ d0 < 10 ∧ d1 < 10 ∧
        h0 < 10 ∧ h1 < 10 ∧ n0 < 10 ∧ n1 < 10) ∧
      s = stamp y0 y1 y2 y3 m0 m1 d0 d1 h0 h1 n0 n1 := by
  unfold digit_fields at hd
  rw [hs] at hd
  simp only [List.mem_cons, List.mem_singleton, forall_eq_or_imp, forall_eq, List.not_mem_nil,
    false_implies, implies_true, and_true, List.getElem?_cons_succ, List.getElem?_cons_zero,
    Option.some.injEq, exists_eq_left'] at hd
  obtain ⟨h0, h1, h2, h3, h5, h6, h8, h9, h11, h12, h14, h15⟩ := hd
  obtain ⟨y0, b0, e0⟩ := digit_char_of_isDigit h0
  obtain ⟨y1, b1, e1⟩ := digit_char_of_isDigit h1
  obtain ⟨y2, b2, e2⟩ := digit_char_of_isDigit h2
  obtain ⟨y3, b3, e3⟩ := digit_char_of_isDigit h3
  obtain ⟨m0, b5, e5⟩ := digit_char_of_isDigit h5
  obtain ⟨m1, b6, e6⟩ := digit_char_of_isDigit h6
  obtain ⟨d0, b8, e8⟩ := digit_char_of_isDigit h8
  obtain ⟨d1, b9, e9⟩ := digit_char_of_isDigit h9
  obtain ⟨g0, b11, e11⟩ := digit_char_of_isDigit h11
  obtain ⟨g1, b12, e12⟩ := digit_char_of_isDigit h12
  obtain ⟨n0, b14, e14⟩ := digit_char_of_isDigit h14
  obtain ⟨n1, b15, e15⟩ := digit_char_of_isDigit h15
  refine ⟨y0, y1, y2, y3, m0, m1, d0, d1, g0, g1, n0, n1,
    ⟨b0, b1, b2, b3, b5, b6, b8, b9, b11, b12, b14, b15⟩, ?_⟩
  apply String.ext
  rw [hs, e0, e1, e2, e3, e5, e6, e8, e9, e11, e12, e14, e15]
  rfl

/-- The acceptance of a string by `validate_datetime`, in terms of the numbers it reads. -/
theorem validate_iff (s : List Int) :
    validate_datetime s = some true ↔
      s.length = 16 ∧ s[4]? = some 45 ∧ s[7]? = some 45 ∧ s[10]? = some 32 ∧
      s[13]? = some 58 ∧
      ∃ y m d h n, instant s = some (y, m, d, h, n) ∧ in_range y m d h n := by
  constructor
  · intro hv
    rcases validate_shape s with h | ⟨c0, c1, c2, c3, c5, c6, c8, c9, c11, c12, c14, c15, hs⟩
    · rw [h] at hv; cases hv
    · rw [validate_core s _ _ _ _ _ _ _ _ _ _ _ _ hs] at hv
      have hr := of_decide_eq_true (Option.some.inj hv)
      refine ⟨?_, ?_, ?_, ?_, ?_, _, _, _, _, _, instant_core s _ _ _ _ _ _ _ _ _ _ _ _ _ _ _ _ hs,
        hr⟩
      · rw [hs]; rfl
      · rw [hs]; rfl
      · rw [hs]; rfl
      · rw [hs]; rfl
      · rw [hs]; rfl
  · rintro ⟨hlen, h4, h7, h10, h13, y, m, d, h, n, hi, hr⟩
    match s, hlen, h4, h7, h10, h13, hi with
    | [c0, c1, c2, c3, c4, c5, c6, c7, c8, c9, c10, c11, c12, c13, c14, c15], _, h4, h7, h10,
        h13, hi =>
      simp only [List.getElem?_cons_succ, List.getElem?_cons_zero, Option.some.injEq]
        at h4 h7 h10 h13
      subst h4 h7 h10 h13
      rw [instant_core _ _ _ _ _ _ _ _ _ _ _ _ _ _ _ _ _ rfl] at hi
      cases hi
      rw [validate_core _ _ _ _ _ _ _ _ _ _ _ _ _ rfl, decide_eq_true hr]

theorem list_len16 {α : Type} (l : List α) (hl : l.length = 16) :
    ∃ c0 c1 c2 c3 c4 c5 c6 c7 c8 c9 c10 c11 c12 c13 c14 c15,
      l = [c0, c1, c2, c3, c4, c5, c6, c7, c8, c9, c10, c11, c12, c13, c14, c15] := by
  match l, hl with
  | [c0, c1, c2, c3, c4, c5, c6, c7, c8, c9, c10, c11, c12, c13, c14, c15], _ =>
    exact ⟨c0, c1, c2, c3, c4, c5, c6, c7, c8, c9, c10, c11, c12, c13, c14, c15, rfl⟩

theorem char_of_code {c : Char} {n : Nat} (h : (c.toNat : Int) = (n : Int)) :
    c = Char.ofNat n := by
  have h1 : c.toNat = n := by exact_mod_cast h
  rw [← h1]
  exact (Char.ofNat_toNat c).symm

/-- A `char` with the value of a digit is the code of a digit. -/
theorem digit_of_code {c : Int} (h1 : 48 ≤ c) (h2 : c ≤ 57) :
    ∃ d : Nat, d < 10 ∧ c = 48 + (d : Int) :=
  ⟨(c - 48).toNat, by omega, by omega⟩

/-- A C string of 16 `char`s with the separators in place and the values of digits in the
twelve fields is the C string of a text of twelve digits. -/
theorem stamp_of_digit_codes (c0 c1 c2 c3 c5 c6 c8 c9 c11 c12 c14 c15 : Int)
    (hd : ∀ c ∈ [c0, c1, c2, c3, c5, c6, c8, c9, c11, c12, c14, c15], 48 ≤ c ∧ c ≤ 57) :
    ∃ y0 y1 y2 y3 m0 m1 d0 d1 h0 h1 n0 n1 : Nat,
      (y0 < 10 ∧ y1 < 10 ∧ y2 < 10 ∧ y3 < 10 ∧ m0 < 10 ∧ m1 < 10 ∧ d0 < 10 ∧ d1 < 10 ∧
        h0 < 10 ∧ h1 < 10 ∧ n0 < 10 ∧ n1 < 10) ∧
      [c0, c1, c2, c3, 45, c5, c6, 45, c8, c9, 32, c11, c12, 58, c14, c15] =
        c_str (stamp y0 y1 y2 y3 m0 m1 d0 d1 h0 h1 n0 n1) := by
  simp only [List.mem_cons, List.mem_singleton, forall_eq_or_imp, forall_eq, List.not_mem_nil,
    false_implies, implies_true, and_true] at hd
  obtain ⟨h0, h1, h2, h3, h5, h6, h8, h9, h11, h12, h14, h15⟩ := hd
  obtain ⟨y0, b0, e0⟩ := digit_of_code h0.1 h0.2
  obtain ⟨y1, b1, e1⟩ := digit_of_code h1.1 h1.2
  obtain ⟨y2, b2, e2⟩ := digit_of_code h2.1 h2.2
  obtain ⟨y3, b3, e3⟩ := digit_of_code h3.1 h3.2
  obtain ⟨m0, b5, e5⟩ := digit_of_code h5.1 h5.2
  obtain ⟨m1, b6, e6⟩ := digit_of_code h6.1 h6.2
  obtain ⟨d0, b8, e8⟩ := digit_of_code h8.1 h8.2
  obtain ⟨d1, b9, e9⟩ := digit_of_code h9.1 h9.2
  obtain ⟨g0, b11, e11⟩ := digit_of_code h11.1 h11.2
  obtain ⟨g1, b12, e12⟩ := digit_of_code h12.1 h12.2
  obtain ⟨n0, b14, e14⟩ := digit_of_code h14.1 h14.2
  obtain ⟨n1, b15, e15⟩ := digit_of_code h15.1 h15.2
  refine ⟨y0, y1, y2, y3, m0, m1, d0, d1, g0, g1, n0, n1,
    ⟨b0, b1, b2, b3, b5, b6, b8, b9, b11, b12, b14, b15⟩, ?_⟩
  rw [c_str_stamp y0 y1 y2 y3 m0 m1 d0 d1 g0 g1 n0 n1 b0 b1 b2 b3 b5 b6 b8 b9 b11 b12 b14 b15,
    e0, e1, e2, e3, e5, e6, e8, e9, e11, e12, e14, e15]

/-- A text whose C string is accepted by `validate_datetime` and whose twelve field
characters are digits has 16 characters, all ASCII, with the separators in place; its C
string is the list of the codes of its characters. -/
theorem ascii_shape (a : String) (hv : validate_datetime (c_str a) = some true)
    (hd : digit_fields a) :
    ∃ c0 c1 c2 c3 c5 c6 c8 c9 c11 c12 c14 c15 : Char,
      a.data = [c0, c1, c2, c3, '-', c5, c6, '-', c8, c9, ' ', c11, c12, ':', c14, c15] ∧
      c_str a = [(c0.toNat : Int), (c1.toNat : Int), (c2.toNat : Int), (c3.toNat : Int), 45,
        (c5.toNat : Int), (c6.toNat : Int), 45, (c8.toNat : Int), (c9.toNat : Int), 32,
        (c11.toNat : Int), (c12.toNat : Int), 58, (c14.toNat : Int), (c15.toNat : Int)] := by
  have hlen : (c_str a).length = 16 := ((validate_iff _).mp hv).1
  have hge : 15 < a.data.length := by
    obtain ⟨c, hc, _⟩ := hd 15 (by decide)
    exact lookup_lt hc
  have hle : a.data.length ≤ (c_str a).length := c_str_length_le a.data
  obtain ⟨c0, c1, c2, c3, c4, c5, c6, c7, c8, c9, c10, c11, c12, c13, c14, c15, hcs⟩ :=
    list_len16 a.data (by omega)
  have hbytes : (c_str a).length = (utf8 c0).length + (utf8 c1).length + (utf8 c2).length +
      (utf8 c3).length + (utf8 c4).length + (utf8 c5).length + (utf8 c6).length +
      (utf8 c7).length + (utf8 c8).length + (utf8 c9).length + (utf8 c10).length +
      (utf8 c11).length + (utf8 c12).length + (utf8 c13).length + (utf8 c14).length +
      (utf8 c15).length := by
    unfold c_str
    rw [hcs, List.length_map]
    simp only [List.flatMap_cons, List.flatMap_nil, List.length_append, List.length_nil]
    omega
  have p0 := utf8_length_pos c0
  have p1 := utf8_length_pos c1
  have p2 := utf8_length_pos c2
  have p3 := utf8_length_pos c3
  have p4 := utf8_length_pos c4
  have p5 := utf8_length_pos c5
  have p6 := utf8_length_pos c6
  have p7 := utf8_length_pos c7
  have p8 := utf8_length_pos c8
  have p9 := utf8_length_pos c9
  have p10 := utf8_length_pos c10
  have p11 := utf8_length_pos c11
  have p12 := utf8_length_pos c12
  have p13 := utf8_length_pos c13
  have p14 := utf8_length_pos c14
  have p15 := utf8_length_pos c15
  have hascii : ∀ c ∈ [c0, c1, c2, c3, c4, c5, c6, c7, c8, c9, c10, c11, c12, c13, c14, c15],
      c.toNat < 128 := by
    intro c hc
    apply utf8_length_one
    simp only [List.mem_cons, List.mem_singleton, List.not_mem_nil, or_false] at hc
    rcases hc with h | h | h | h | h | h | h | h | h | h | h | h | h | h | h | h <;>
      rw [h] <;> omega
  have hstr : c_str a = [c0, c1, c2, c3, c4, c5, c6, c7, c8, c9, c10, c11, c12, c13, c14,
      c15].map fun c => (c.toNat : Int) := by
    rw [← c_str_ascii _ hascii, ← hcs]
  obtain ⟨_, h4, h7, h10, h13, _⟩ := (validate_iff _).mp hv
  rw [hstr] at h4 h7 h10 h13
  simp only [List.map_cons, List.getElem?_cons_succ, List.getElem?_cons_zero,
    Option.some.injEq] at h4 h7 h10 h13
  have e4 : c4 = '-' := char_of_code (n := 45) h4
  have e7 : c7 = '-' := char_of_code (n := 45) h7
  have e10 : c10 = ' ' := char_of_code (n := 32) h10
  have e13 : c13 = ':' := char_of_code (n := 58) h13
  subst e4 e7 e10 e13
  exact ⟨c0, c1, c2, c3, c5, c6, c8, c9, c11, c12, c14, c15, hcs, hstr⟩

end Ledger

namespace Ledger

/-- C12 as stated fails: `"2024-01-1: 10:00"` is accepted although the character at place 9
is `':'`, not a decimal digit; `extract_int` reads the day as `1 * 10 + (':' - '0') = 20`. -/
theorem C12_counterexample :
    validate_datetime (c_str "2024-01-1: 10:00") = some true ∧
    "2024-01-1: 10:00".data[9]? = some ':' ∧ ':'.isDigit = false ∧
    (c_str "2024-01-1: 10:00")[9]? = some 58 ∧
    extract_int (c_str "2024-01-1: 10:00") 8 2 = some 20 ∧
    ¬ digit_fields "2024-01-1: 10:00" := by
  refine ⟨by decide, by decide, by decide, by decide, by decide, ?_⟩
  intro h
  obtain ⟨c, hc, hd⟩ := h 9 (by decide)
  have h9 : "2024-01-1: 10:00".data[9]? = some ':' := by decide
  rw [h9] at hc
  cases hc
  exact absurd hd (by decide)

/-- C12 (amended): `validate_datetime` returns for every C string `s`, given as the list of
its `char`s (signed bytes); it returns true if and only if the string has exactly 16 `char`s
with `'-'` (45) at places 4 and 7, `' '` (32) at 10 and `':'` (58) at 13, and the numbers it
reads from the other twelve `char`s (each counting as its value minus the value 48 of `'0'`,
digit or not) pass the range check: year at least 1, month in 1..12, hour in 0..23, minute in
0..59, day in 1..(days of that month in that year).  On a text `DDDD-DD-DD DD:DD` of decimal
digits the numbers read are the decimal numbers, so there it is the stated check; and every
string of that shape with the values of digits (48..57) in the twelve fields is the C string
of such a text. -/
theorem C12_validate_datetime (s : List Int) :
    (∃ r, validate_datetime s = some r) ∧
    (validate_datetime s = some true ↔
      s.length = 16 ∧ s[4]? = some 45 ∧ s[7]? = some 45 ∧ s[10]? = some 32 ∧
      s[13]? = some 58 ∧
      ∃ y m d h n, instant s = some (y, m, d, h, n) ∧ in_range y m d h n) ∧
    (∀ c0 c1 c2 c3 c4 c5 c6 c7 c8 c9 c10 c11 c12 c13 c14 c15 : Int,
      s = [c0, c1, c2, c3, c4, c5, c6, c7, c8, c9, c10, c11, c12, c13, c14, c15] →
      instant s = some ((((c0 - 48) * 10 + (c1 - 48)) * 10 + (c2 - 48)) * 10 + (c3 - 48),
        (c5 - 48) * 10 + (c6 - 48), (c8 - 48) * 10 + (c9 - 48),
        (c11 - 48) * 10 + (c12 - 48), (c14 - 48) * 10 + (c15 - 48))) ∧
    (∀ y0 y1 y2 y3 m0 m1 d0 d1 h0 h1 n0 n1 : Nat,
      y0 < 10 → y1 < 10 → y2 < 10 → y3 < 10 → m0 < 10 → m1 < 10 → d0 < 10 → d1 < 10 →
      h0 < 10 → h1 < 10 → n0 < 10 → n1 < 10 →
      (validate_datetime (c_str (stamp y0 y1 y2 y3 m0 m1 d0 d1 h0 h1 n0 n1)) = some true ↔
        in_range (1000 * y0 + 100 * y1 + 10 * y2 + y3) (10 * m0 + m1) (10 * d0 + d1)
          (10 * h0 + h1) (10 * n0 + n1))) ∧
    ((∀ i ∈ [0, 1, 2, 3, 5, 6, 8, 9, 11, 12, 14, 15], ∃ c, s[i]? = some c ∧ 48 ≤ c ∧ c ≤ 57) →
      s.length = 16 → s[4]? = some 45 → s[7]? = some 45 → s[10]? = some 32 →
      s[13]? = some 58 →
      ∃ y0 y1 y2 y3 m0 m1 d0 d1 h0 h1 n0 n1 : Nat,
        (y0 < 10 ∧ y1 < 10 ∧ y2 < 10 ∧ y3 < 10 ∧ m0 < 10 ∧ m1 < 10 ∧ d0 < 10 ∧ d1 < 10 ∧
          h0 < 10 ∧ h1 < 10 ∧ n0 < 10 ∧ n1 < 10) ∧
        s = c_str (stamp y0 y1 y2 y3 m0 m1 d0 d1 h0 h1 n0 n1)) := by
  refine ⟨validate_total s, validate_iff s, ?_, ?_, ?_⟩
  · intro c0 c1 c2 c3 c4 c5 c6 c7 c8 c9 c10 c11 c12 c13 c14 c15 hs
    exact instant_core s _ _ _ _ _ _ _ _ _ _ _ _ _ _ _ _ hs
  · intro y0 y1 y2 y3 m0 m1 d0 d1 h0 h1 n0 n1 hy0 hy1 hy2 hy3 hm0 hm1 hd0 hd1 hh0 hh1 hn0 hn1
    rw [validate_stamp y0 y1 y2 y3 m0 m1 d0 d1 h0 h1 n0 n1 hy0 hy1 hy2 hy3 hm0 hm1 hd0 hd1
      hh0 hh1 hn0 hn1]
    simp only [Option.some.injEq, decide_eq_true_eq]
  · intro hd hlen h4 h7 h10 h13
    match s, hlen, h4, h7, h10, h13, hd with
    | [c0, c1, c2, c3, c4, c5, c6, c7, c8, c9, c10, c11, c12, c13, c14, c15], _, h4, h7, h10,
        h13, hd =>
      simp only [List.getElem?_cons_succ, List.getElem?_cons_zero, Option.some.injEq]
        at h4 h7 h10 h13
      subst h4 h7 h10 h13
      apply stamp_of_digit_codes
      simp only [List.mem_cons, List.mem_singleton, forall_eq_or_imp, forall_eq,
        List.not_mem_nil, false_implies, implies_true, and_true, List.getElem?_cons_succ,
        List.getElem?_cons_zero, Option.some.injEq, exists_eq_left'] at hd ⊢
      exact hd

/-- C12 (amended) at `"2024-02-29 10:00"`, accepted, at `"2024-02-30 10:00"`, rejected, and
at a string of 16 bytes that holds a character outside ASCII, whose two bytes are read as
negative `char`s: `"99é-12-01 10:00"` is accepted with the year read as 8675. -/
theorem C12_validate_datetime_witness :
    validate_datetime (c_str "2024-02-29 10:00") = some true ∧
    validate_datetime (c_str "2024-02-30 10:00") ≠ some true ∧
    c_str "99é-12-01 10:00" =
      [57, 57, -61, -87, 45, 49, 50, 45, 48, 49, 32, 49, 48, 58, 48, 48] ∧
    instant (c_str "99é-12-01 10:00") = some (8675, 12, 1, 10, 0) ∧
    validate_datetime (c_str "99é-12-01 10:00") = some true := by
  have e1 : stamp 2 0 2 4 0 2 2 9 1 0 0 0 = "2024-02-29 10:00" := by decide
  have e2 : stamp 2 0 2 4 0 2 3 0 1 0 0 0 = "2024-02-30 10:00" := by decide
  have e3 : c_str "99é-12-01 10:00" =
      [57, 57, -61, -87, 45, 49, 50, 45, 48, 49, 32, 49, 48, 58, 48, 48] := by decide
  refine ⟨?_, ?_, e3, ?_, ?_⟩
  · rw [← e1]
    exact ((C12_validate_datetime []).2.2.2.1 2 0 2 4 0 2 2 9 1 0 0 0 (by decide) (by decide)
      (by decide) (by decide) (by decide) (by decide) (by decide) (by decide) (by decide)
      (by decide) (by decide) (by decide)).mpr (by decide)
  · rw [← e2]
    intro h
    exact absurd (((C12_validate_datetime []).2.2.2.1 2 0 2 4 0 2 3 0 1 0 0 0 (by decide)
      (by decide) (by decide) (by decide) (by decide) (by decide) (by decide) (by decide)
      (by decide) (by decide) (by decide) (by decide)).mp h) (by decide)
  · rw [e3]
    exact (C12_validate_datetime _).2.2.1 _ _ _ _ _ _ _ _ _ _ _ _ _ _ _ _ rfl
  · rw [e3]
    exact (C12_validate_datetime _).2.1.mpr ⟨rfl, rfl, rfl, rfl, rfl, 8675, 12, 1, 10, 0,
      (C12_validate_datetime _).2.2.1 _ _ _ _ _ _ _ _ _ _ _ _ _ _ _ _ rfl, by decide⟩

/-- C13 as stated fails in its second half: the month field of `"2024-0<-01 00:00"` is
`0<`, which is outside 01..12, and `validate_datetime` accepts the string: `extract_int`
reads the field as `0 * 10 + ('<' - '0') = 12`. -/
theorem C13_counterexample :
    validate_datetime (c_str "2024-0<-01 00:00") = some true ∧
    ("2024-0<-01 00:00".data.drop 5).take 2 = ['0', '<'] ∧
    extract_int (c_str "2024-0<-01 00:00") 5 2 = some 12 := by
  refine ⟨by decide, by decide, by decide⟩

/-- C13, amended: for every four-digit year `Y ≥ 1` and every valid hour and minute,
`validate_datetime` accepts `"Y-02-29 hh:mm"` if and only if `Y` is a Gregorian leap year
(and rejects it otherwise); it rejects every C string (a list of `char`s, signed bytes) whose
month field, as `extract_int` reads it from the `char`s at places 5 and 6 (each counting as
its value minus 48), is not a number in 1..12, and in particular every text of digits whose
two month digits make a number outside 01..12. -/
theorem C13_leap_day_and_month (y0 y1 y2 y3 h0 h1 n0 n1 : Nat)
    (hy0 : y0 < 10) (hy1 : y1 < 10) (hy2 : y2 < 10) (hy3 : y3 < 10)
    (hh0 : h0 < 10) (hh1 : h1 < 10) (hn0 : n0 < 10) (hn1 : n1 < 10)
    (hY : 1 ≤ 1000 * y0 + 100 * y1 + 10 * y2 + y3) (hH : 10 * h0 + h1 ≤ 23)
    (hN : 10 * n0 + n1 ≤ 59) :
    (validate_datetime (c_str (stamp y0 y1 y2 y3 0 2 2 9 h0 h1 n0 n1)) = some true ↔
      leap_year (1000 * y0 + 100 * y1 + 10 * y2 + y3)) ∧
    (validate_datetime (c_str (stamp y0 y1 y2 y3 0 2 2 9 h0 h1 n0 n1)) = some false ↔
      ¬ leap_year (1000 * y0 + 100 * y1 + 10 * y2 + y3)) ∧
    (∀ s : List Int, (¬ ∃ m, extract_int s 5 2 = some m ∧ 1 ≤ m ∧ m ≤ 12) →
      validate_datetime s = some false) ∧
    (∀ s : List Int, ∀ c5 c6 : Int, s[5]? = some c5 → s[6]? = some c6 →
      extract_int s 5 2 = some ((c5 - 48) * 10 + (c6 - 48))) ∧
    (∀ m0 m1 d0 d1 : Nat, m0 < 10 → m1 < 10 → d0 < 10 → d1 < 10 →
      (10 * m0 + m1 < 1 ∨ 12 < 10 * m0 + m1) →
      validate_datetime (c_str (stamp y0 y1 y2 y3 m0 m1 d0 d1 h0 h1 n0 n1)) = some false) := by
  have hval := validate_stamp y0 y1 y2 y3 0 2 2 9 h0 h1 n0 n1 hy0 hy1 hy2 hy3 (by decide)
    (by decide) (by decide) (by decide) hh0 hh1 hn0 hn1
  have hr : in_range (1000 * (y0 : Int) + 100 * y1 + 10 * y2 + y3) (10 * (0 : Nat) + (2 : Nat))
      (10 * (2 : Nat) + (9 : Nat)) (10 * (h0 : Int) + h1) (10 * (n0 : Int) + n1) ↔
      leap_year (1000 * (y0 : Int) + 100 * y1 + 10 * y2 + y3) := by
    unfold in_range month_days
    constructor
    · intro h
      by_contra hl
      have h5 := h.2.2.2.2.2
      norm_num [hl] at h5
    · intro hl
      refine ⟨by exact_mod_cast hY, by norm_num, ⟨by positivity, by exact_mod_cast hH⟩,
        ⟨by positivity, by exact_mod_cast hN⟩, by norm_num, ?_⟩
      norm_num [hl]
  refine ⟨?_, ?_, ?_, ?_, ?_⟩
  · rw [hval]
    simp only [Option.some.injEq, decide_eq_true_eq]
    exact hr
  · rw [hval]
    simp only [Option.some.injEq, decide_eq_false_iff_not]
    exact not_congr hr
  · intro s hm
    rcases validate_shape s with h | ⟨c0, c1, c2, c3, c5, c6, c8, c9, c11, c12, c14, c15, hs⟩
    · exact h
    · rw [validate_core s _ _ _ _ _ _ _ _ _ _ _ _ hs]
      have e2 : extract_int s 5 2 = some (field2 c5 c6) := by
        rw [hs]; simp [extract_int, extract_loop, field2]
      rw [decide_eq_false (fun h => hm ⟨_, e2, h.2.1⟩)]
  · intro s c5 c6 h5 h6
    unfold extract_int
    rw [extract_loop]
    dsimp only [bind, Option.bind]
    rw [h5]; dsimp only
    rw [extract_loop]
    dsimp only [bind, Option.bind]
    rw [h6]; dsimp only
    rw [extract_loop, zero_mul, zero_add]
  · intro m0 m1 d0 d1 hm0 hm1 hd0 hd1 hm
    rw [validate_stamp y0 y1 y2 y3 m0 m1 d0 d1 h0 h1 n0 n1 hy0 hy1 hy2 hy3 hm0 hm1 hd0 hd1
      hh0 hh1 hn0 hn1]
    rw [decide_eq_false (fun h => by
      have h1 := h.2.1
      omega)]

/-- C13 at the three strings of the claim: `"2024-02-29 10:00"` is accepted,
`"2023-02-29 10:00"` and `"2024-13-01 00:00"` are rejected. -/
theorem C13_leap_day_and_month_witness :
    validate_datetime (c_str "2024-02-29 10:00") = some true ∧
    validate_datetime (c_str "2023-02-29 10:00") = some false ∧
    validate_datetime (c_str "2024-13-01 00:00") = some false := by
  have e1 : stamp 2 0 2 4 0 2 2 9 1 0 0 0 = "2024-02-29 10:00" := by decide
  have e2 : stamp 2 0 2 3 0 2 2 9 1 0 0 0 = "2023-02-29 10:00" := by decide
  have e3 : stamp 2 0 2 4 1 3 0 1 0 0 0 0 = "2024-13-01 00:00" := by decide
  refine ⟨?_, ?_, ?_⟩
  · rw [← e1]
    exact (C13_leap_day_and_month 2 0 2 4 1 0 0 0 (by decide) (by decide) (by decide)
      (by decide) (by decide) (by decide) (by decide) (by decide) (by decide) (by decide)
      (by decide)).1.mpr (by decide)
  · rw [← e2]
    exact (C13_leap_day_and_month 2 0 2 3 1 0 0 0 (by decide) (by decide) (by decide)
      (by decide) (by decide) (by decide) (by decide) (by decide) (by decide) (by decide)
      (by decide)).2.1.mpr (by decide)
  · rw [← e3]
    exact (C13_leap_day_and_month 2 0 2 4 0 0 0 0 (by decide) (by decide) (by decide)
      (by decide) (by decide) (by decide) (by decide) (by decide) (by decide) (by decide)
      (by decide)).2.2.2.2 1 3 0 1 (by decide) (by decide) (by decide) (by decide)
      (Or.inr (by decide))

/-- C14 as stated fails: `"2024-01-20 10:00"` and `"2024-01-1: 10:00"` are both accepted by
`validate_datetime` and both read as the instant (2024, 1, 20, 10, 0), so the first is not
later than the second, yet `strcmp` of the first with the second is positive. -/
theorem C14_counterexample :
    validate_datetime (c_str "2024-01-20 10:00") = some true ∧
    validate_datetime (c_str "2024-01-1: 10:00") = some true ∧
    instant (c_str "2024-01-20 10:00") = some (2024, 1, 20, 10, 0) ∧
    instant (c_str "2024-01-1: 10:00") = some (2024, 1, 20, 10, 0) ∧
    not_later (2024, 1, 20, 10, 0) (2024, 1, 20, 10, 0) ∧
    ¬ strcmp "2024-01-20 10:00".data "2024-01-1: 10:00".data ≤ 0 := by
  refine ⟨by decide, by decide, by decide, by decide, by decide, by decide⟩

/-- C14 (amended): for every two strings `a` and `b` that `validate_datetime` accepts and
whose twelve field characters are decimal digits, `strcmp(a, b) ≤ 0` holds if and only if
the instant of `a` is not later than the instant of `b`, the instant being the tuple (year,
month, day, hour, minute) that `validate_datetime` reads, compared lexicographically. -/
theorem C14_string_order (a b : String) (ha : validate_datetime (c_str a) = some true)
    (hb : validate_datetime (c_str b) = some true) (hda : digit_fields a)
    (hdb : digit_fields b) :
    ∃ ia ib, instant (c_str a) = some ia ∧ instant (c_str b) = some ib ∧
      (strcmp a.data b.data ≤ 0 ↔ not_later ia ib) := by
  obtain ⟨a0, a1, a2, a3, a5, a6, a8, a9, a11, a12, a14, a15, hsa, hca⟩ := ascii_shape a ha hda
  obtain ⟨b0, b1, b2, b3, b5, b6, b8, b9, b11, b12, b14, b15, hsb, hcb⟩ := ascii_shape b hb hdb
  refine ⟨_, _, instant_core _ _ _ _ _ _ _ _ _ _ _ _ _ _ _ _ _ hca,
    instant_core _ _ _ _ _ _ _ _ _ _ _ _ _ _ _ _ _ hcb, ?_⟩
  rw [hsa, hsb]
  exact stamp_order _ _ _ _ _ _ _ _ _ _ _ _ _ _ _ _ _ _ _ _ _ _ _ _
    (digit_fields_bounds hsa hda) (digit_fields_bounds hsb hdb)

/-- C14 (amended) at `"2024-01-20 10:00"` and `"2024-02-01 09:30"`: the first is not later
and compares below. -/
theorem C14_string_order_witness :
    ∃ ia ib, instant (c_str "2024-01-20 10:00") = some ia ∧
      instant (c_str "2024-02-01 09:30") = some ib ∧
      (strcmp "2024-01-20 10:00".data "2024-02-01 09:30".data ≤ 0 ↔ not_later ia ib) :=
  C14_string_order "2024-01-20 10:00" "2024-02-01 09:30" (by decide) (by decide)
    (fun i hi => by
      simp only [List.mem_cons, List.mem_singleton, List.not_mem_nil, or_false] at hi
      rcases hi with h | h | h | h | h | h | h | h | h | h | h | h <;> subst h <;>
        exact ⟨_, rfl, by decide⟩)
    (fun i hi => by
      simp only [List.mem_cons, List.mem_singleton, List.not_mem_nil, or_false] at hi
      rcases hi with h | h | h | h | h | h | h | h | h | h | h | h <;> subst h <;>
        exact ⟨_, rfl, by decide⟩)

end Ledger

namespace Ledger

/-! ## Directory ids -/

/-- The keys of a directory's traversal are the ids of the records of its store. -/
theorem DirOK.keys_perm {R : Type} {idf : R → Int} {tree : Index Nat} {mem : List R}
    (hd : DirOK idf tree mem) {es : List (Int × Nat)} (ht : traverse tree = some es) :
    (es.map Prod.fst).Perm (mem.map idf) ∧
    ∀ e ∈ es, ∃ r, mem[e.2]? = some r ∧ idf r = e.1 := by
  obtain ⟨es1, hw, hperm, hk, _⟩ := hd
  have h1 := traverse_spec _ _ hw
  rw [ht] at h1
  cases h1
  have hpt : ∀ e ∈ es, ∃ r, mem[e.2]? = some r ∧ idf r = e.1 := by
    intro e he
    have h := hk e he
    cases hm : mem[e.2]? with
    | none => rw [hm] at h; cases h
    | some r =>
      rw [hm] at h
      exact ⟨r, rfl, Option.some.inj h⟩
  refine ⟨?_, hpt⟩
  have e1 : es.map Prod.fst = (es.map Prod.snd).map (fun a => ((mem[a]?).map idf).getD 0) := by
    rw [List.map_map]
    apply List.map_congr_left
    intro e he
    show e.1 = ((mem[e.2]?).map idf).getD 0
    rw [hk e he]
    rfl
  have e2 : (List.range mem.length).map (fun a => ((mem[a]?).map idf).getD 0)
      = mem.map idf := by
    apply List.ext_getElem?
    intro i
    rw [List.getElem?_map, List.getElem?_map]
    by_cases hi : i < mem.length
    · rw [List.getElem?_range hi, List.getElem?_eq_getElem hi]
      simp [hi]
    · rw [List.getElem?_eq_none (not_lt.mp hi),
        List.getElem?_eq_none (by rw [List.length_range]; exact not_lt.mp hi)]
      rfl
  rw [e1, ← e2]
  exact hperm.map _

theorem map_set_same {α β : Type} (f : α → β) {l : List α} {a : Nat} {x y : α}
    (h : l[a]? = some x) (hf : f y = f x) : (l.set a y).map f = l.map f := by
  rw [List.map_set, hf]
  apply set_same
  rw [List.getElem?_map, h]
  rfl

/-- What a call of `get_or_create_seller` does to the directory: nothing but a rate update
when a record with the id exists, a new record at the end of the store and a new entry in the
tree otherwise.  The rest of the state is untouched. -/
theorem seller_call_effect (st : State) (G : List (Int × Transaction)) (id : Int) (rb ra : ℚ)
    (hinv : Inv st G) :
    ∃ st1 a, get_or_create_seller st id rb ra = some (st1, a) ∧ Inv st1 G ∧
      st1.buyer_tree = st.buyer_tree ∧ st1.buyer_mem = st.buyer_mem ∧
      ((∃ s ∈ st.seller_mem, s.seller_id = id) →
        st1.seller_tree = st.seller_tree ∧
        st1.seller_mem.map SellerKey.seller_id = st.seller_mem.map SellerKey.seller_id) ∧
      ((∀ s ∈ st.seller_mem, s.seller_id ≠ id) →
        a = st.seller_mem.length ∧
        st1.seller_mem = st.seller_mem ++ [new_seller id rb ra] ∧
        ∃ es es1, WF st.seller_tree es ∧ WF st1.seller_tree es1 ∧ placed id a es es1) := by
  obtain ⟨st1, a, hget, hinv1⟩ := seller_call_inv st G id rb ra hinv
  rcases store_has_id SellerKey.seller_id st.seller_mem id with ⟨i, s, hi, hid⟩ | hno
  · have h := get_or_create_seller_found st id rb ra hinv.sellers i s hi hid
    rw [hget] at h
    cases h
    refine ⟨_, _, hget, hinv1, rfl, rfl, fun _ => ⟨rfl, ?_⟩, fun hno => ?_⟩
    · exact map_set_same SellerKey.seller_id hi (update_rates_fields s rb ra).1
    · exact absurd hid (hno s (mem_of_lookup hi))
  · obtain ⟨tree1, hins, _, h⟩ := get_or_create_seller_new st id rb ra hinv.sellers hno
    rw [hget] at h
    cases h
    refine ⟨_, _, hget, hinv1, rfl, rfl, fun hex => ?_, fun _ => ⟨rfl, rfl, ?_⟩⟩
    · obtain ⟨s, hs, hid⟩ := hex
      exact absurd hid (hno s hs)
    · obtain ⟨es, hw, _⟩ := hinv.sellers
      obtain ⟨idx1, es1, h1, hw1, hpl⟩ := insert_transaction_spec st.seller_tree es id
        st.seller_mem.length hw
      rw [hins] at h1
      cases h1
      exact ⟨es, es1, hw, hw1, hpl⟩

/-- What a call of `get_or_create_buyer` does to the directory. -/
theorem buyer_call_effect (st : State) (G : List (Int × Transaction)) (id : Int)
    (hinv : Inv st G) :
    ∃ st1 a, get_or_create_buyer st id = some (st1, a) ∧ Inv st1 G ∧
      st1.seller_tree = st.seller_tree ∧ st1.seller_mem = st.seller_mem ∧
      ((∃ b ∈ st.buyer_mem, b.buyer_id = id) → st1 = st) ∧
      ((∀ b ∈ st.buyer_mem, b.buyer_id ≠ id) →
        a = st.buyer_mem.length ∧
        st1.buyer_mem = st.buyer_mem ++ [new_buyer id] ∧
        ∃ es es1, WF st.buyer_tree es ∧ WF st1.buyer_tree es1 ∧ placed id a es es1) := by
  obtain ⟨st1, a, hget, hinv1, _⟩ := buyer_call_inv st G id hinv
  rcases store_has_id BuyerKey.buyer_id st.buyer_mem id with ⟨i, b, hi, hid⟩ | hno
  · have h := get_or_create_buyer_found st id hinv.buyers i b hi hid
    rw [hget] at h
    cases h
    refine ⟨_, _, hget, hinv1, rfl, rfl, fun _ => rfl, fun hno => ?_⟩
    exact absurd hid (hno b (mem_of_lookup hi))
  · obtain ⟨tree1, hins, _, h⟩ := get_or_create_buyer_new st id hinv.buyers hno
    rw [hget] at h
    cases h
    refine ⟨_, _, hget, hinv1, rfl, rfl, fun hex => ?_, fun _ => ⟨rfl, rfl, ?_⟩⟩
    · obtain ⟨b, hb, hid⟩ := hex
      exact absurd hid (hno b hb)
    · obtain ⟨es, hw, _⟩ := hinv.buyers
      obtain ⟨idx1, es1, h1, hw1, hpl⟩ := insert_transaction_spec st.buyer_tree es id
        st.buyer_mem.length hw
      rw [hins] at h1
      cases h1
      exact ⟨es, es1, hw, hw1, hpl⟩

theorem ids_cases {R : Type} (idf : R → Int) (mem : List R) (id : Int) :
    (∃ s ∈ mem, idf s = id) ∨ (∀ s ∈ mem, idf s ≠ id) := by
  rcases store_has_id idf mem id with ⟨i, s, hi, hid⟩ | hno
  · exact Or.inl ⟨s, mem_of_lookup hi, hid⟩
  · exact Or.inr hno

/-- A sequence of lookup-or-create calls from a state with the invariant: it returns, and the
ids in each directory afterwards are the ids before and the ids asked for. -/
theorem run_calls_spec : ∀ (cs : List Call) (st : State) (G : List (Int × Transaction)),
    Inv st G →
    ∃ st1, run_calls st cs = some st1 ∧ Inv st1 G ∧
      (∀ x, x ∈ st1.seller_mem.map SellerKey.seller_id ↔
        (x ∈ st.seller_mem.map SellerKey.seller_id ∨ ∃ rb ra, Call.seller x rb ra ∈ cs)) ∧
      (∀ x, x ∈ st1.buyer_mem.map BuyerKey.buyer_id ↔
        (x ∈ st.buyer_mem.map BuyerKey.buyer_id ∨ Call.buyer x ∈ cs)) := by
  intro cs
  induction cs with
  | nil =>
    intro st G hinv
    refine ⟨st, rfl, hinv, fun x => ?_, fun x => ?_⟩
    · simp
    · simp
  | cons c rest ih =>
    intro st G hinv
    cases c with
    | seller id rb ra =>
      obtain ⟨st1, a, hget, hinv1, hbt, hbm, hfound, hnew⟩ := seller_call_effect st G id rb ra hinv
      obtain ⟨st2, hrun, hinv2, hs, hb⟩ := ih st1 G hinv1
      have hids : ∀ x, x ∈ st1.seller_mem.map SellerKey.seller_id ↔
          (x ∈ st.seller_mem.map SellerKey.seller_id ∨ x = id) := by
        intro x
        rcases ids_cases SellerKey.seller_id st.seller_mem id with hex | hno
        · rw [(hfound hex).2]
          constructor
          · exact Or.inl
          · rintro (h | h)
            · exact h
            · obtain ⟨s, hs1, hs2⟩ := hex
              rw [h, ← hs2]
              exact List.mem_map_of_mem _ hs1
        · rw [(hnew hno).2.1, List.map_append, List.mem_append]
          simp [new_seller]
      refine ⟨st2, ?_, hinv2, fun x => ?_, fun x => ?_⟩
      · rw [run_calls]
        dsimp only [bind, Option.bind]
        rw [hget]; dsimp only
        exact hrun
      · rw [hs x, hids x]
        constructor
        · rintro ((h | h) | ⟨rb1, ra1, h⟩)
          · exact Or.inl h
          · exact Or.inr ⟨rb, ra, by rw [h]; exact List.mem_cons_self _ _⟩
          · exact Or.inr ⟨rb1, ra1, List.mem_cons_of_mem _ h⟩
        · rintro (h | ⟨rb1, ra1, h⟩)
          · exact Or.inl (Or.inl h)
          · rcases List.mem_cons.mp h with h1 | h1
            · cases h1
              exact Or.inl (Or.inr rfl)
            · exact Or.inr ⟨rb1, ra1, h1⟩
      · rw [hb x, hbm]
        constructor
        · rintro (h | h)
          · exact Or.inl h
          · exact Or.inr (List.mem_cons_of_mem _ h)
        · rintro (h | h)
          · exact Or.inl h
          · rcases List.mem_cons.mp h with h1 | h1
            · cases h1
            · exact Or.inr h1
    | buyer id =>
      obtain ⟨st1, a, hget, hinv1, hst, hsm, hfound, hnew⟩ := buyer_call_effect st G id hinv
      obtain ⟨st2, hrun, hinv2, hs, hb⟩ := ih st1 G hinv1
      have hids : ∀ x, x ∈ st1.buyer_mem.map BuyerKey.buyer_id ↔
          (x ∈ st.buyer_mem.map BuyerKey.buyer_id ∨ x = id) := by
        intro x
        rcases ids_cases BuyerKey.buyer_id st.buyer_mem id with hex | hno
        · rw [hfound hex]
          constructor
          · exact Or.inl
          · rintro (h | h)
            · exact h
            · obtain ⟨b, hb1, hb2⟩ := hex
              rw [h, ← hb2]
              exact List.mem_map_of_mem _ hb1
        · rw [(hnew hno).2.1, List.map_append, List.mem_append]
          simp [new_buyer]
      refine ⟨st2, ?_, hinv2, fun x => ?_, fun x => ?_⟩
      · rw [run_calls]
        dsimp only [bind, Option.bind]
        rw [hget]; dsimp only
        exact hrun
      · rw [hs x, hsm]
        constructor
        · rintro (h | ⟨rb1, ra1, h⟩)
          · exact Or.inl h
          · exact Or.inr ⟨rb1, ra1, List.mem_cons_of_mem _ h⟩
        · rintro (h | ⟨rb1, ra1, h⟩)
          · exact Or.inl h
          · rcases List.mem_cons.mp h with h1 | h1
            · cases h1
            · exact Or.inr ⟨rb1, ra1, h1⟩
      · rw [hb x, hids x]
        constructor
        · rintro ((h | h) | h)
          · exact Or.inl h
          · exact Or.inr (by rw [h]; exact List.mem_cons_self _ _)
          · exact Or.inr (List.mem_cons_of_mem _ h)
        · rintro (h | h)
          · exact Or.inl (Or.inl h)
          · rcases List.mem_cons.mp h with h1 | h1
            · cases h1
              exact Or.inl (Or.inr rfl)
            · exact Or.inr h1

end Ledger

namespace Ledger

theorem WF.unique {V : Type} {idx : Index V} {es es1 : List (Int × V)} (h : WF idx es)
    (h1 : WF idx es1) : es = es1 := by
  have e := traverse_spec _ _ h
  rw [traverse_spec _ _ h1] at e
  exact (Option.some.inj e).symm

theorem WF.of_traverse {V : Type} {idx : Index V} {es es1 : List (Int × V)} (h : WF idx es)
    (h1 : traverse idx = some es1) : WF idx es1 := by
  have e := traverse_spec _ _ h
  rw [h1] at e
  cases e
  exact h

/-- C11: after any sequence of `get_or_create_seller` and `get_or_create_buyer` calls from
the empty state, the keys of the seller (buyer) directory's leaf-chain traversal are pairwise
distinct and are exactly the seller (buyer) ids asked for so far, each entry pointing to the
record with that id; a further call with an id that is present leaves the traversal as it is,
and a further call with an id that is not present puts one entry in, for a new record with
that id, transaction count 0, an empty index and (seller) an empty regular-buyer set or
(buyer) zero cumulative energy.  The other directory is not touched. -/
theorem C11_directory_ids_unique (cs : List Call) :
    ∃ st es eb, run_calls State.init cs = some st ∧
      traverse st.seller_tree = some es ∧ traverse st.buyer_tree = some eb ∧
      (es.map Prod.fst).Nodup ∧
      (∀ id, id ∈ es.map Prod.fst ↔ ∃ rb ra, Call.seller id rb ra ∈ cs) ∧
      (eb.map Prod.fst).Nodup ∧
      (∀ id, id ∈ eb.map Prod.fst ↔ Call.buyer id ∈ cs) ∧
      (∀ e ∈ es, ∃ s, st.seller_mem[e.2]? = some s ∧ s.seller_id = e.1) ∧
      (∀ e ∈ eb, ∃ b, st.buyer_mem[e.2]? = some b ∧ b.buyer_id = e.1) ∧
      (∀ (id : Int) (rb ra : ℚ), ∃ st1 a es1,
        get_or_create_seller st id rb ra = some (st1, a) ∧
        traverse st1.seller_tree = some es1 ∧ traverse st1.buyer_tree = some eb ∧
        (id ∈ es.map Prod.fst → es1 = es) ∧
        (id ∉ es.map Prod.fst → placed id a es es1 ∧
          ∃ s, st1.seller_mem[a]? = some s ∧ s.seller_id = id ∧ s.transaction_count = 0 ∧
            traverse s.transaction_tree = some [] ∧ regulars s = [])) ∧
      (∀ id : Int, ∃ st1 a eb1,
        get_or_create_buyer st id = some (st1, a) ∧
        traverse st1.buyer_tree = some eb1 ∧ traverse st1.seller_tree = some es ∧
        (id ∈ eb.map Prod.fst → eb1 = eb) ∧
        (id ∉ eb.map Prod.fst → placed id a eb eb1 ∧
          ∃ b, st1.buyer_mem[a]? = some b ∧ b.buyer_id = id ∧ b.transaction_count = 0 ∧
            traverse b.transaction_tree = some [] ∧ b.total_energy_purchased = 0)) := by
  obtain ⟨st, hrun, hinv, hs, hb⟩ := run_calls_spec cs State.init [] Inv_init
  obtain ⟨es, hwes, _, _, hnds⟩ := id hinv.sellers
  obtain ⟨eb, hweb, _, _, hndb⟩ := id hinv.buyers
  have htes := traverse_spec _ _ hwes
  have hteb := traverse_spec _ _ hweb
  obtain ⟨hps, hpts⟩ := hinv.sellers.keys_perm htes
  obtain ⟨hpb, hptb⟩ := hinv.buyers.keys_perm hteb
  refine ⟨st, es, eb, hrun, htes, hteb, hps.nodup_iff.mpr hnds, ?_, hpb.nodup_iff.mpr hndb, ?_,
    hpts, hptb, ?_, ?_⟩
  · intro x
    rw [hps.mem_iff, hs x]
    constructor
    · rintro (h | h)
      · cases h
      · exact h
    · exact Or.inr
  · intro x
    rw [hpb.mem_iff, hb x]
    constructor
    · rintro (h | h)
      · cases h
      · exact h
    · exact Or.inr
  · intro x rb ra
    obtain ⟨st1, a, hget, hinv1, hbt, _, hfound, hnew⟩ := seller_call_effect st [] x rb ra hinv
    obtain ⟨es1, hw1, _⟩ := id hinv1.sellers
    refine ⟨st1, a, es1, hget, traverse_spec _ _ hw1, by rw [hbt]; exact hteb, ?_, ?_⟩
    · intro hin
      rw [hps.mem_iff] at hin
      obtain ⟨s, hsm, hsid⟩ := List.mem_map.mp hin
      rw [(hfound ⟨s, hsm, hsid⟩).1] at hw1
      exact hw1.unique hwes
    · intro hnin
      rw [hps.mem_iff] at hnin
      have hno : ∀ s ∈ st.seller_mem, s.seller_id ≠ x := fun s hsm hsid =>
        hnin (List.mem_map.mpr ⟨s, hsm, hsid⟩)
      obtain ⟨ha, hm, es0, es2, hw0, hw2, hpl⟩ := hnew hno
      rw [hw0.unique hwes, hw2.unique hw1] at hpl
      refine ⟨hpl, new_seller x rb ra, ?_, rfl, rfl, rfl, rfl⟩
      rw [hm, ha]
      exact List.getElem?_concat_length _ _
  · intro x
    obtain ⟨st1, a, hget, hinv1, hst, _, hfound, hnew⟩ := buyer_call_effect st [] x hinv
    obtain ⟨eb1, hw1, _⟩ := id hinv1.buyers
    refine ⟨st1, a, eb1, hget, traverse_spec _ _ hw1, by rw [hst]; exact htes, ?_, ?_⟩
    · intro hin
      rw [hpb.mem_iff] at hin
      obtain ⟨b, hbm, hbid⟩ := List.mem_map.mp hin
      rw [hfound ⟨b, hbm, hbid⟩] at hw1
      exact hw1.unique hweb
    · intro hnin
      rw [hpb.mem_iff] at hnin
      have hno : ∀ b ∈ st.buyer_mem, b.buyer_id ≠ x := fun b hbm hbid =>
        hnin (List.mem_map.mpr ⟨b, hbm, hbid⟩)
      obtain ⟨ha, hm, es0, es2, hw0, hw2, hpl⟩ := hnew hno
      rw [hw0.unique hweb, hw2.unique hw1] at hpl
      refine ⟨hpl, new_buyer x, ?_, rfl, rfl, rfl, rfl⟩
      rw [hm, ha]
      exact List.getElem?_concat_length _ _

end Ledger

namespace Ledger

/-! ## Placing an entry and filtering -/

/-- Where an entry with a new key lands is determined. -/
theorem placed_unique {V : Type} {key : Int} {t : V} {es es1 es2 : List (Int × V)}
    (h1 : placed key t es es1) (h2 : placed key t es es2) (hne : ∀ e ∈ es, e.1 ≠ key) :
    es1 = es2 := by
  obtain ⟨l1, r1, e1, f1, hl1, hr1⟩ := h1
  obtain ⟨l2, r2, e2, f2, hl2, hr2⟩ := h2
  have key1 : ∀ (l r : List (Int × V)), es = l ++ r → (∀ e ∈ l, e.1 ≤ key) →
      (∀ e ∈ r, key ≤ e.1) → l = es.takeWhile (fun e => decide (e.1 < key)) ∧
        r = es.dropWhile (fun e => decide (e.1 < key)) := by
    intro l r he hl hr
    have hl' : ∀ e ∈ l, decide (e.1 < key) = true := by
      intro e hel
      have hm : e ∈ es := by rw [he]; exact List.mem_append_left _ hel
      exact decide_eq_true (lt_of_le_of_ne (hl e hel) (hne e hm))
    rw [he]
    constructor
    · rw [List.takeWhile_append_of_pos hl']
      cases r with
      | nil => simp
      | cons x r =>
        have hx : ¬ x.1 < key := not_lt.mpr (hr x (List.mem_cons_self _ _))
        simp [List.takeWhile_cons, hx]
    · rw [List.dropWhile_append_of_pos hl']
      cases r with
      | nil => simp
      | cons x r =>
        have hx : ¬ x.1 < key := not_lt.mpr (hr x (List.mem_cons_self _ _))
        simp [List.dropWhile_cons, hx]
  obtain ⟨a1, b1⟩ := key1 l1 r1 e1 hl1 hr1
  obtain ⟨a2, b2⟩ := key1 l2 r2 e2 hl2 hr2
  rw [f1, f2, a1, b1, a2, b2]

/-- Filtering keeps a placement when the new entry passes the filter. -/
theorem placed_filter_pos {V : Type} {key : Int} {t : V} {es es1 : List (Int × V)}
    (h : placed key t es es1) (p : Int × V → Bool) (hp : p (key, t) = true) :
    placed key t (es.filter p) (es1.filter p) := by
  obtain ⟨l, r, e1, f1, hl, hr⟩ := h
  refine ⟨l.filter p, r.filter p, ?_, ?_, ?_, ?_⟩
  · rw [e1, List.filter_append]
  · rw [f1, List.filter_append, List.filter_cons_of_pos hp]
  · exact fun e he => hl e (List.mem_of_mem_filter he)
  · exact fun e he => hr e (List.mem_of_mem_filter he)

/-- Filtering drops the new entry when it does not pass the filter. -/
theorem placed_filter_neg {V : Type} {key : Int} {t : V} {es es1 : List (Int × V)}
    (h : placed key t es es1) (p : Int × V → Bool) (hp : ¬ p (key, t) = true) :
    es1.filter p = es.filter p := by
  obtain ⟨l, r, e1, f1, _, _⟩ := h
  rw [e1, f1, List.filter_append, List.filter_append, List.filter_cons_of_neg hp]

theorem slot_update.all_ne {R : Type} {M M1 : List R} {a : Nat} {r : R}
    (h : slot_update M M1 a r) {P : R → Prop}
    (hM : ∀ i x, i ≠ a → M[i]? = some x → P x) (hr : P r) : ∀ x ∈ M1, P x := by
  intro x hx
  obtain ⟨i, hi⟩ := List.getElem?_of_mem hx
  by_cases hia : i = a
  · rw [hia, h.1] at hi
    cases hi
    exact hr
  · rw [h.2 i hia] at hi
    exact hM i x hia hi

end Ledger

namespace Ledger

/-! ## The books agree in every reachable state -/

theorem Books_init : Books State.init [] :=
  { seller_index := fun s hs => by cases hs
    seller_count := fun s hs => by cases hs
    seller_known := fun e he => by cases he
    buyer_index := fun b hb => by cases hb
    buyer_energy := fun b hb => by cases hb }

theorem of_seller_nil {G : List (Int × Transaction)} {id : Int}
    (h : ∀ e ∈ G, e.2.seller_id ≠ id) : of_seller G id = [] := by
  unfold of_seller
  rw [List.filter_eq_nil_iff]
  intro e he
  rw [decide_eq_true_eq]
  exact h e he

theorem of_buyer_nil {G : List (Int × Transaction)} {id : Int}
    (h : ∀ e ∈ G, e.2.buyer_id ≠ id) : of_buyer G id = [] := by
  unfold of_buyer
  rw [List.filter_eq_nil_iff]
  intro e he
  rw [decide_eq_true_eq]
  exact h e he

/-- A seller id without a record has no entry in the global index. -/
theorem Books.no_seller {st : State} {G : List (Int × Transaction)} (hb : Books st G)
    {id : Int} (hno : ∀ s ∈ st.seller_mem, s.seller_id ≠ id) : of_seller G id = [] := by
  apply of_seller_nil
  intro e he heq
  obtain ⟨s, hs, hsid⟩ := List.mem_map.mp (hb.seller_known e he)
  exact hno s hs (hsid.trans heq)

/-- A buyer id without a record has no entry in the global index. -/
theorem Inv.no_buyer {st : State} {G : List (Int × Transaction)} (hinv : Inv st G)
    {id : Int} (hno : ∀ b ∈ st.buyer_mem, b.buyer_id ≠ id) : of_buyer G id = [] := by
  apply of_buyer_nil
  intro e he heq
  obtain ⟨b, hb, hbid⟩ := List.mem_map.mp (hinv.known e he)
  exact hno b hb (hbid.trans heq)

/-- The entries for an id after a transaction with that id is put into the global index. -/
theorem of_seller_placed {G G1 : List (Int × Transaction)} {t : Transaction}
    (h : placed t.transaction_id t G G1) :
    placed t.transaction_id t (of_seller G t.seller_id) (of_seller G1 t.seller_id) :=
  placed_filter_pos h _ (decide_eq_true rfl)

theorem of_buyer_placed {G G1 : List (Int × Transaction)} {t : Transaction}
    (h : placed t.transaction_id t G G1) :
    placed t.transaction_id t (of_buyer G t.buyer_id) (of_buyer G1 t.buyer_id) :=
  placed_filter_pos h _ (decide_eq_true rfl)

theorem of_seller_other {G G1 : List (Int × Transaction)} {t : Transaction}
    (h : placed t.transaction_id t G G1) {id : Int} (hne : id ≠ t.seller_id) :
    of_seller G1 id = of_seller G id :=
  placed_filter_neg h _ (by rw [decide_eq_true_eq]; exact fun h => hne h.symm)

theorem of_buyer_other {G G1 : List (Int × Transaction)} {t : Transaction}
    (h : placed t.transaction_id t G G1) {id : Int} (hne : id ≠ t.buyer_id) :
    of_buyer G1 id = of_buyer G id :=
  placed_filter_neg h _ (by rw [decide_eq_true_eq]; exact fun h => hne h.symm)

theorem placed.length_eq {V : Type} {key : Int} {t : V} {es es1 : List (Int × V)}
    (h : placed key t es es1) : es1.length = es.length + 1 := by
  rw [h.perm.length_eq, List.length_cons]

/-- The records at the other places of the seller store have other ids than the
transaction's seller. -/
theorem AddPost.other_seller {st st1 : State} {t : Transaction}
    {G G1 : List (Int × Transaction)} {sa : Nat} {sc sf : SellerKey} {ba : Nat}
    {bc bf : BuyerKey} (hp : AddPost st st1 t G G1 sa sc sf ba bc bf) (hinv : Inv st G)
    {i : Nat} {x : SellerKey} (hi : i ≠ sa) (hx : st.seller_mem[i]? = some x) :
    x.seller_id ≠ t.seller_id := by
  cases hs0 : st.seller_mem[sa]? with
  | none => exact (hp.s_new hs0).2 x (mem_of_lookup hx)
  | some s0 =>
    intro heq
    obtain ⟨_, _, _, _, hnd⟩ := hinv.sellers
    exact hi (nodup_map_index hnd hx hs0 (heq.trans (hp.s_found s0 hs0).1.symm))

theorem AddPost.other_buyer {st st1 : State} {t : Transaction}
    {G G1 : List (Int × Transaction)} {sa : Nat} {sc sf : SellerKey} {ba : Nat}
    {bc bf : BuyerKey} (hp : AddPost st st1 t G G1 sa sc sf ba bc bf) (hinv : Inv st G)
    {i : Nat} {x : BuyerKey} (hi : i ≠ ba) (hx : st.buyer_mem[i]? = some x) :
    x.buyer_id ≠ t.buyer_id := by
  cases hb0 : st.buyer_mem[ba]? with
  | none => exact (hp.b_new hb0).2 x (mem_of_lookup hx)
  | some b0 =>
    intro heq
    obtain ⟨_, _, _, _, hnd⟩ := hinv.buyers
    exact hi (nodup_map_index hnd hx hb0 (heq.trans (hp.b_found b0 hb0).1.symm))

end Ledger

namespace Ledger

/-- The keys of the entries for one seller are not the id of a new transaction. -/
theorem fresh_in_filter {G : List (Int × Transaction)} {st : State} (hinv : Inv st G)
    {t : Transaction} (hfresh : ∀ e ∈ G, e.2.transaction_id ≠ t.transaction_id)
    (p : Int × Transaction → Bool) : ∀ e ∈ G.filter p, e.1 ≠ t.transaction_id := by
  intro e he
  have hm := List.mem_of_mem_filter he
  rw [hinv.keyed e hm]
  exact hfresh e hm

/-- Recording a new transaction keeps the books. -/
theorem books_add {st st1 : State} {t : Transaction} {G G1 : List (Int × Transaction)}
    {sa : Nat} {sc sf : SellerKey} {ba : Nat} {bc bf : BuyerKey}
    (hp : AddPost st st1 t G G1 sa sc sf ba bc bf) (hinv : Inv st G) (hb : Books st G)
    (hfresh : ∀ e ∈ G, e.2.transaction_id ≠ t.transaction_id) : Books st1 G1 := by
  have hpl := hp.global_placed
  -- the seller record of the transaction before the call
  have hsc : WF sc.transaction_tree (of_seller G t.seller_id) ∧
      sc.transaction_count = (of_seller G t.seller_id).length := by
    cases hs0 : st.seller_mem[sa]? with
    | none =>
      obtain ⟨h1, hno⟩ := hp.s_new hs0
      rw [h1, hb.no_seller hno]
      exact ⟨WF_empty Transaction, rfl⟩
    | some s0 =>
      obtain ⟨hid, h1⟩ := hp.s_found s0 hs0
      have hf := update_rates_fields s0 t.rate_below_300 t.rate_above_300
      rw [h1, hf.2.2.2.1, hf.2.2.2.2.1, ← hid]
      exact ⟨hb.seller_index s0 (mem_of_lookup hs0), hb.seller_count s0 (mem_of_lookup hs0)⟩
  have hsf : WF sf.transaction_tree (of_seller G1 sf.seller_id) ∧
      sf.transaction_count = (of_seller G1 sf.seller_id).length := by
    obtain ⟨ts0, ts1, hw0, hw1, hpls⟩ := hp.s_tree
    rw [hp.s_id]
    have e0 := hw0.unique hsc.1
    rw [e0] at hpls
    have e1 := placed_unique hpls (of_seller_placed hpl) (fresh_in_filter hinv hfresh _)
    rw [← e1]
    refine ⟨hw1, ?_⟩
    rw [hp.s_count, hsc.2, hpls.length_eq]
  -- the buyer record of the transaction before the call
  have hbc : WF bc.transaction_tree (of_buyer G t.buyer_id) ∧
      bc.total_energy_purchased = ((of_buyer G t.buyer_id).map fun e => e.2.energy_kwh).sum := by
    cases hb0 : st.buyer_mem[ba]? with
    | none =>
      obtain ⟨h1, hno⟩ := hp.b_new hb0
      rw [h1, hinv.no_buyer hno]
      exact ⟨WF_empty Transaction, rfl⟩
    | some b0 =>
      obtain ⟨hid, h1⟩ := hp.b_found b0 hb0
      rw [h1, ← hid]
      exact ⟨hb.buyer_index b0 (mem_of_lookup hb0), hb.buyer_energy b0 (mem_of_lookup hb0)⟩
  have hbf : WF bf.transaction_tree (of_buyer G1 bf.buyer_id) ∧
      bf.total_energy_purchased =
        ((of_buyer G1 bf.buyer_id).map fun e => e.2.energy_kwh).sum := by
    obtain ⟨ts0, ts1, hw0, hw1, hplb⟩ := hp.b_tree
    rw [hp.b_id]
    have e0 := hw0.unique hbc.1
    rw [e0] at hplb
    have e1 := placed_unique hplb (of_buyer_placed hpl) (fresh_in_filter hinv hfresh _)
    rw [← e1]
    refine ⟨hw1, ?_⟩
    rw [hp.b_energy, hbc.2, (hplb.perm.map fun e => e.2.energy_kwh).sum_eq, List.map_cons,
      List.sum_cons, add_comm]
  refine
    { seller_index := ?_
      seller_count := ?_
      seller_known := ?_
      buyer_index := ?_
      buyer_energy := ?_ }
  · refine hp.s_slot.all_ne (P := fun s => WF s.transaction_tree (of_seller G1 s.seller_id))
      ?_ hsf.1
    intro i x hi hx
    show WF x.transaction_tree (of_seller G1 x.seller_id)
    rw [of_seller_other hpl (hp.other_seller hinv hi hx)]
    exact hb.seller_index x (mem_of_lookup hx)
  · refine hp.s_slot.all_ne
      (P := fun s => s.transaction_count = (of_seller G1 s.seller_id).length) ?_ hsf.2
    intro i x hi hx
    show x.transaction_count = (of_seller G1 x.seller_id).length
    rw [of_seller_other hpl (hp.other_seller hinv hi hx)]
    exact hb.seller_count x (mem_of_lookup hx)
  · intro e he
    rcases List.mem_cons.mp (hpl.perm.mem_iff.mp he) with h1 | h1
    · rw [h1]
      exact List.mem_map.mpr ⟨sf, mem_of_lookup hp.s_slot.1, hp.s_id⟩
    · obtain ⟨s0, hs0m, hs0id⟩ := List.mem_map.mp (hb.seller_known e h1)
      obtain ⟨i, hi⟩ := List.getElem?_of_mem hs0m
      by_cases hia : i = sa
      · rw [hia] at hi
        refine List.mem_map.mpr ⟨sf, mem_of_lookup hp.s_slot.1, ?_⟩
        rw [hp.s_id, ← (hp.s_found s0 hi).1, hs0id]
      · exact List.mem_map.mpr ⟨s0, mem_of_lookup ((hp.s_slot.2 i hia).trans hi), hs0id⟩
  · refine hp.b_slot.all_ne (P := fun b => WF b.transaction_tree (of_buyer G1 b.buyer_id))
      ?_ hbf.1
    intro i x hi hx
    show WF x.transaction_tree (of_buyer G1 x.buyer_id)
    rw [of_buyer_other hpl (hp.other_buyer hinv hi hx)]
    exact hb.buyer_index x (mem_of_lookup hx)
  · refine hp.b_slot.all_ne (P := fun b => b.total_energy_purchased =
        ((of_buyer G1 b.buyer_id).map fun e => e.2.energy_kwh).sum) ?_ hbf.2
    intro i x hi hx
    show x.total_energy_purchased = ((of_buyer G1 x.buyer_id).map fun e => e.2.energy_kwh).sum
    rw [of_buyer_other hpl (hp.other_buyer hinv hi hx)]
    exact hb.buyer_energy x (mem_of_lookup hx)

end Ledger

namespace Ledger

/-- A call of `get_or_create_seller` keeps the books. -/
theorem books_seller_call {st st1 : State} {G : List (Int × Transaction)} {id : Int}
    {rb ra : ℚ} {a : Nat} (hinv : Inv st G) (hb : Books st G)
    (h : get_or_create_seller st id rb ra = some (st1, a)) : Books st1 G := by
  obtain ⟨M2, T2, sa, sc, hgs, _, hsl, hscid, _, hfound, hnew⟩ :=
    seller_step st id rb ra hinv.sellers hinv.seller_ok
  rw [h] at hgs
  cases hgs
  have hsc : WF sc.transaction_tree (of_seller G sc.seller_id) ∧
      sc.transaction_count = (of_seller G sc.seller_id).length := by
    cases hs0 : st.seller_mem[a]? with
    | none =>
      obtain ⟨h1, hno⟩ := hnew hs0
      rw [hscid, hb.no_seller hno, h1]
      exact ⟨WF_empty Transaction, rfl⟩
    | some s0 =>
      obtain ⟨_, h1, _⟩ := hfound s0 hs0
      have hf := update_rates_fields s0 rb ra
      rw [h1, hf.1, hf.2.2.2.1, hf.2.2.2.2.1]
      exact ⟨hb.seller_index s0 (mem_of_lookup hs0), hb.seller_count s0 (mem_of_lookup hs0)⟩
  refine
    { seller_index := hsl.all hb.seller_index hsc.1
      seller_count := hsl.all hb.seller_count hsc.2
      seller_known := ?_
      buyer_index := hb.buyer_index
      buyer_energy := hb.buyer_energy }
  intro e he
  obtain ⟨s0, hs0m, hs0id⟩ := List.mem_map.mp (hb.seller_known e he)
  obtain ⟨i, hi⟩ := List.getElem?_of_mem hs0m
  by_cases hia : i = a
  · rw [hia] at hi
    refine List.mem_map.mpr ⟨sc, mem_of_lookup hsl.1, ?_⟩
    rw [hscid, ← (hfound s0 hi).1, hs0id]
  · exact List.mem_map.mpr ⟨s0, mem_of_lookup ((hsl.2 i hia).trans hi), hs0id⟩

/-- A call of `get_or_create_buyer` keeps the books. -/
theorem books_buyer_call {st st1 : State} {G : List (Int × Transaction)} {id : Int}
    {a : Nat} (hinv : Inv st G) (hb : Books st G)
    (h : get_or_create_buyer st id = some (st1, a)) : Books st1 G := by
  obtain ⟨B2, T2, ba, bc, hgb, _, hsl, hbcid, _, hfound, hnew⟩ :=
    buyer_step st id hinv.buyers hinv.buyer_ok
  rw [h] at hgb
  cases hgb
  have hbc : WF bc.transaction_tree (of_buyer G bc.buyer_id) ∧
      bc.total_energy_purchased =
        ((of_buyer G bc.buyer_id).map fun e => e.2.energy_kwh).sum := by
    cases hb0 : st.buyer_mem[a]? with
    | none =>
      obtain ⟨h1, hno⟩ := hnew hb0
      rw [hbcid, hinv.no_buyer hno, h1]
      exact ⟨WF_empty Transaction, rfl⟩
    | some b0 =>
      obtain ⟨_, h1, _⟩ := hfound b0 hb0
      rw [h1]
      exact ⟨hb.buyer_index b0 (mem_of_lookup hb0), hb.buyer_energy b0 (mem_of_lookup hb0)⟩
  exact
    { seller_index := hb.seller_index
      seller_count := hb.seller_count
      seller_known := hb.seller_known
      buyer_index := hsl.all hb.buyer_index hbc.1
      buyer_energy := hsl.all hb.buyer_energy hbc.2 }

/-- A call of `add_transaction` in a state with the invariant and the books, with a free
slot in the store, returns and keeps both. -/
theorem add_call_books (st : State) (G : List (Int × Transaction)) (t : Transaction)
    (hinv : Inv st G) (hb : Books st G) (hroom : st.transaction_index < MAX_TRANSACTIONS) :
    ∃ ok st1 G1, add_transaction st t = some (ok, st1) ∧ Inv st1 G1 ∧ Books st1 G1 := by
  rcases fresh_or_dup G t.transaction_id with h | h
  · obtain ⟨st1, G1, sa, sc, sf, ba, bc, bf, hadd, hpost⟩ :=
      add_transaction_fresh st G t hinv h hroom
    exact ⟨true, st1, G1, hadd, hpost.inv, books_add hpost hinv hb h⟩
  · exact ⟨false, st, G, add_transaction_dup st G t hinv h, hinv, hb⟩

/-- A call of `add_transaction` that returns keeps the invariant and the books. -/
theorem add_ret_books (st st1 : State) (G : List (Int × Transaction)) (t : Transaction)
    (ok : Bool) (hinv : Inv st G) (hb : Books st G)
    (hadd : add_transaction st t = some (ok, st1)) : ∃ G1, Inv st1 G1 ∧ Books st1 G1 := by
  rcases fresh_or_dup G t.transaction_id with h | h
  · by_cases hroom : st.transaction_index < MAX_TRANSACTIONS
    · obtain ⟨st2, G1, sa, sc, sf, ba, bc, bf, hadd2, hpost⟩ :=
        add_transaction_fresh st G t hinv h hroom
      rw [hadd] at hadd2
      cases hadd2
      exact ⟨G1, hpost.inv, books_add hpost hinv hb h⟩
    · rw [(add_transaction_overflow st G t hinv h (Nat.not_lt.mp hroom)).2] at hadd
      cases hadd
  · rw [add_transaction_dup st G t hinv h] at hadd
    cases hadd
    exact ⟨G, hinv, hb⟩

/-- The invariant and the books hold in every reachable state. -/
theorem Reach.books {st : State} (hr : Reach st) : ∃ G, Inv st G ∧ Books st G := by
  induction hr with
  | init => exact ⟨[], Inv_init, Books_init⟩
  | add st st1 t ok _ hadd ih =>
    obtain ⟨G, hinv, hb⟩ := ih
    exact add_ret_books st st1 G t ok hinv hb hadd
  | seller st st1 id rb ra a _ hcall ih =>
    obtain ⟨G, hinv, hb⟩ := ih
    obtain ⟨st2, a2, h1, hinv1⟩ := seller_call_inv st G id rb ra hinv
    have hb1 := books_seller_call hinv hb h1
    rw [hcall] at h1
    cases h1
    exact ⟨G, hinv1, hb1⟩
  | buyer st st1 id a _ hcall ih =>
    obtain ⟨G, hinv, hb⟩ := ih
    obtain ⟨st2, a2, h1, hinv1, _⟩ := buyer_call_inv st G id hinv
    have hb1 := books_buyer_call hinv hb h1
    rw [hcall] at h1
    cases h1
    exact ⟨G, hinv1, hb1⟩

/-- In a reachable state the invariant and the books hold for the traversal of the global
index. -/
theorem Reach.books_of {st : State} (hr : Reach st) {G : List (Int × Transaction)}
    (hG : traverse st.global_transaction_tree = some G) : Inv st G ∧ Books st G := by
  obtain ⟨G0, hinv, hb⟩ := hr.books
  have h := traverse_spec _ _ hinv.global
  rw [hG] at h
  cases h
  exact ⟨hinv, hb⟩

/-- Transactions with pairwise distinct new ids, for which the store has room, are all
recorded, and the global index afterwards holds them and the entries it held. -/
theorem run_adds_all : ∀ (ts : List Transaction) (st : State) (G : List (Int × Transaction)),
    Inv st G → Reach st → (ts.map Transaction.transaction_id).Nodup →
    (∀ e ∈ G, ∀ t ∈ ts, e.2.transaction_id ≠ t.transaction_id) →
    G.length + ts.length ≤ MAX_TRANSACTIONS →
    ∃ oks st1 G1, run_adds st ts = some (oks, st1) ∧ Inv st1 G1 ∧ Reach st1 ∧
      (∀ ok ∈ oks, ok = true) ∧
      G1.Perm (ts.map (fun t => (t.transaction_id, t)) ++ G) := by
  intro ts
  induction ts with
  | nil =>
    intro st G hinv hr _ _ _
    exact ⟨[], st, G, rfl, hinv, hr, fun ok h => (by cases h), List.Perm.refl _⟩
  | cons t rest ih =>
    intro st G hinv hr hnd hfresh hcap
    rw [List.length_cons] at hcap
    rw [List.map_cons, List.nodup_cons] at hnd
    obtain ⟨st1, G1, sa, sc, sf, ba, bc, bf, hadd, hpost⟩ := add_transaction_fresh st G t hinv
      (fun e he => hfresh e he t (List.mem_cons_self _ _)) (by rw [hinv.index]; omega)
    have hpl := hpost.global_placed
    obtain ⟨oks, st2, G2, hrun, hinv2, hr2, hoks, hperm⟩ := ih st1 G1 hpost.inv
      (Reach.add st st1 t true hr hadd) hnd.2
      (by
        intro e he x hx
        rcases List.mem_cons.mp (hpl.perm.mem_iff.mp he) with h | h
        · rw [h]
          intro heq
          have hm : x.transaction_id ∈ rest.map Transaction.transaction_id :=
            List.mem_map_of_mem _ hx
          rw [← heq] at hm
          exact hnd.1 hm
        · exact hfresh e h x (List.mem_cons_of_mem _ hx))
      (by rw [hpl.perm.length_eq, List.length_cons]; omega)
    refine ⟨true :: oks, st2, G2, ?_, hinv2, hr2, ?_, ?_⟩
    · rw [run_adds]
      dsimp only [bind, Option.bind]
      rw [hadd]; dsimp only
      rw [hrun]
    · intro ok hok
      rcases List.mem_cons.mp hok with h | h
      · exact h
      · exact hoks ok h
    · refine hperm.trans ?_
      refine (List.Perm.append_left _ hpl.perm).trans ?_
      rw [List.map_cons]
      exact List.perm_middle

end Ledger

namespace Ledger

/-! ## Range filters -/

/-- The keys of the global index are in strictly ascending order. -/
theorem Inv.strict {st : State} {G : List (Int × Transaction)} (hinv : Inv st G) :
    (G.map Prod.fst).Sorted (fun a b => a < b) :=
  List.Sorted.lt_of_le hinv.global.asc hinv.distinct

/-- Two lists of entries with strictly ascending keys and the same entries are equal. -/
theorem sorted_perm_eq {V : Type} {es es1 : List (Int × V)}
    (h : (es.map Prod.fst).Sorted (fun a b => a < b))
    (h1 : (es1.map Prod.fst).Sorted (fun a b => a < b)) (hp : es.Perm es1) : es = es1 := by
  haveI : IsAntisymm (Int × V) (fun a b => a.1 < b.1) :=
    ⟨fun a b hab hba => absurd hab (not_lt.mpr (le_of_lt hba))⟩
  exact List.eq_of_perm_of_sorted hp (List.pairwise_map.mp h) (List.pairwise_map.mp h1)

/-- The records of the global index, listed by transaction id. -/
theorem Inv.ids {st : State} {G : List (Int × Transaction)} (hinv : Inv st G) :
    (G.map Prod.snd).map Transaction.transaction_id = G.map Prod.fst := by
  rw [List.map_map]
  exact List.map_congr_left fun e he => (hinv.keyed e he).symm

/-- What a filter over the global index prints: the recorded transactions that pass, each
once, by ascending id. -/
theorem filter_report {st : State} {G : List (Int × Transaction)} (hinv : Inv st G)
    {ts : List Transaction} (hp : G.Perm (ts.map fun t => (t.transaction_id, t)))
    (p : Transaction → Bool) :
    ((G.map Prod.snd).filter p).Perm (ts.filter p) ∧
    (((G.map Prod.snd).filter p).map Transaction.transaction_id).Sorted (fun a b => a < b) := by
  constructor
  · apply List.Perm.filter
    have h := hp.map Prod.snd
    rw [List.map_map] at h
    have e : (Prod.snd ∘ fun t : Transaction => (t.transaction_id, t)) = id := rfl
    rw [e, List.map_id] at h
    exact h
  · have hs := hinv.strict
    rw [← hinv.ids] at hs
    exact hs.sublist ((List.filter_sublist _).map _)

/-- C15, amended: for every list of at most `MAX_TRANSACTIONS` transactions (so that the
store has a slot for each) with pairwise distinct ids and every reordering of it, recording
either with `add_transaction` from the empty state records all of them, and
in both final states `energy_range_transactions(min, max)` prints the same list: exactly the
recorded transactions with `min ≤ energy_kwh ≤ max`, each once, by ascending transaction id;
likewise `transactions_in_time_range(start, end)` prints exactly those with
`strcmp(datetime, start) ≥ 0` and `strcmp(datetime, end) ≤ 0`. -/
theorem C15_range_filters (ts ts1 : List Transaction) (min_kwh max_kwh : ℚ)
    (start_str end_str : String) (hnd : (ts.map Transaction.transaction_id).Nodup)
    (hperm : ts1.Perm ts) (hcap : ts.length ≤ MAX_TRANSACTIONS) :
    ∃ oks st oks1 st1 out_e out_t,
      run_adds State.init ts = some (oks, st) ∧ (∀ ok ∈ oks, ok = true) ∧
      run_adds State.init ts1 = some (oks1, st1) ∧ (∀ ok ∈ oks1, ok = true) ∧
      energy_range_transactions st min_kwh max_kwh = some out_e ∧
      energy_range_transactions st1 min_kwh max_kwh = some out_e ∧
      out_e.Perm (ts.filter fun t => t.energy_kwh ≥ min_kwh ∧ t.energy_kwh ≤ max_kwh) ∧
      (out_e.map Transaction.transaction_id).Sorted (fun a b => a < b) ∧
      transactions_in_time_range st start_str end_str = some out_t ∧
      transactions_in_time_range st1 start_str end_str = some out_t ∧
      out_t.Perm (ts.filter fun t => strcmp t.datetime.data start_str.data ≥ 0 ∧
        strcmp t.datetime.data end_str.data ≤ 0) ∧
      (out_t.map Transaction.transaction_id).Sorted (fun a b => a < b) := by
  have hnd1 : (ts1.map Transaction.transaction_id).Nodup :=
    ((hperm.map Transaction.transaction_id).nodup_iff).mpr hnd
  obtain ⟨oks, st, G, hrun, hinv, _, hoks, hG⟩ := run_adds_all ts State.init [] Inv_init
    Reach.init hnd (fun e he => by cases he)
    (by rw [List.length_nil, Nat.zero_add]; exact hcap)
  obtain ⟨oks1, st1, G1, hrun1, hinv1, _, hoks1, hG1⟩ := run_adds_all ts1 State.init []
    Inv_init Reach.init hnd1 (fun e he => by cases he)
    (by rw [List.length_nil, Nat.zero_add, hperm.length_eq]; exact hcap)
  rw [List.append_nil] at hG hG1
  have hG2 : G1.Perm (ts.map fun t => (t.transaction_id, t)) := hG1.trans (hperm.map _)
  have hsame : G1 = G := sorted_perm_eq hinv1.strict hinv.strict (hG2.trans hG.symm)
  have he := filter_report hinv hG
    (fun t => decide (t.energy_kwh ≥ min_kwh ∧ t.energy_kwh ≤ max_kwh))
  have ht := filter_report hinv hG
    (fun t => decide (strcmp t.datetime.data start_str.data ≥ 0 ∧
      strcmp t.datetime.data end_str.data ≤ 0))
  refine ⟨oks, st, oks1, st1, _, _, hrun, hoks, hrun1, hoks1, ?_, ?_, he.1, he.2, ?_, ?_,
    ht.1, ht.2⟩
  · unfold energy_range_transactions
    dsimp only [bind, Option.bind]
    rw [traverse_spec _ _ hinv.global]
  · unfold energy_range_transactions
    dsimp only [bind, Option.bind]
    rw [traverse_spec _ _ hinv1.global, hsame]
  · unfold transactions_in_time_range
    dsimp only [bind, Option.bind]
    rw [traverse_spec _ _ hinv.global]
  · unfold transactions_in_time_range
    dsimp only [bind, Option.bind]
    rw [traverse_spec _ _ hinv1.global, hsame]

/-- C15 for two transactions recorded in both orders: the energy range 100..300 prints the
transaction with id 1 in both cases. -/
theorem C15_range_filters_witness :
    ∃ oks st oks1 st1 out_e,
      run_adds State.init
        [⟨2, 7, 3, 400, 1 / 10, 38, "2024-02-01 09:30", 1 / 10, 8 / 100⟩,
          ⟨1, 7, 3, 200, 1 / 10, 20, "2024-01-20 10:00", 1 / 10, 8 / 100⟩] = some (oks, st) ∧
      run_adds State.init
        [⟨1, 7, 3, 200, 1 / 10, 20, "2024-01-20 10:00", 1 / 10, 8 / 100⟩,
          ⟨2, 7, 3, 400, 1 / 10, 38, "2024-02-01 09:30", 1 / 10, 8 / 100⟩] = some (oks1, st1) ∧
      energy_range_transactions st 100 300 = some out_e ∧
      energy_range_transactions st1 100 300 = some out_e ∧
      out_e.Perm [⟨1, 7, 3, 200, 1 / 10, 20, "2024-01-20 10:00", 1 / 10, 8 / 100⟩] := by
  obtain ⟨oks, st, oks1, st1, out_e, out_t, h1, _, h2, _, h3, h4, h5, _⟩ := C15_range_filters
    [⟨2, 7, 3, 400, 1 / 10, 38, "2024-02-01 09:30", 1 / 10, 8 / 100⟩,
      ⟨1, 7, 3, 200, 1 / 10, 20, "2024-01-20 10:00", 1 / 10, 8 / 100⟩]
    [⟨1, 7, 3, 200, 1 / 10, 20, "2024-01-20 10:00", 1 / 10, 8 / 100⟩,
      ⟨2, 7, 3, 400, 1 / 10, 38, "2024-02-01 09:30", 1 / 10, 8 / 100⟩]
    100 300 "2024-01-01 00:00" "2024-12-31 23:59" (by decide) (List.Perm.swap _ _ _)
    (by decide)
  refine ⟨oks, st, oks1, st1, out_e, h1, h2, h3, h4, ?_⟩
  refine h5.trans ?_
  have e : ([⟨2, 7, 3, 400, 1 / 10, 38, "2024-02-01 09:30", 1 / 10, 8 / 100⟩,
      ⟨1, 7, 3, 200, 1 / 10, 20, "2024-01-20 10:00", 1 / 10, 8 / 100⟩] :
      List Transaction).filter (fun t => t.energy_kwh ≥ 100 ∧ t.energy_kwh ≤ 300)
      = [⟨1, 7, 3, 200, 1 / 10, 20, "2024-01-20 10:00", 1 / 10, 8 / 100⟩] := by
    decide!
  rw [e]

end Ledger

namespace Ledger

/-! ## Scanning the leaves of a tree -/

theorem scan_leaves_stop {V σ : Type} (go : σ → Bool) (body : σ → Nat → node V → Option σ)
    (fuel : Nat) (h : Heap V) (leaf : Option Nat) (s : σ) (hs : go s = false) :
    scan_leaves go body fuel h leaf s = some s := by
  cases fuel <;> cases leaf <;> simp [scan_leaves, hs]

theorem scan_leaves_none {V σ : Type} (go : σ → Bool) (body : σ → Nat → node V → Option σ)
    (fuel : Nat) (h : Heap V) (s : σ) : scan_leaves go body fuel h none s = some s := by
  cases fuel <;> rfl

theorem scan_list_stop {V σ : Type} (go : σ → Bool) (body : σ → Nat → node V → Option σ)
    (L : List (Nat × node V)) (s : σ) (hs : go s = false) : scan_list go body L s = some s := by
  cases L with
  | nil => rfl
  | cons x L =>
    obtain ⟨a, n⟩ := x
    simp [scan_list, hs]

theorem scan_list_append {V σ : Type} (go : σ → Bool) (body : σ → Nat → node V → Option σ) :
    ∀ (L1 L2 : List (Nat × node V)) (s : σ),
    scan_list go body (L1 ++ L2) s = (scan_list go body L1 s).bind (scan_list go body L2) := by
  intro L1
  induction L1 with
  | nil => intro L2 s; rfl
  | cons x L1 ih =>
    intro L2 s
    obtain ⟨a, n⟩ := x
    rw [List.cons_append, scan_list, scan_list]
    by_cases hg : go s = true
    · rw [if_pos hg, if_pos hg]
      cases hb : body s a n with
      | none => rfl
      | some s1 => exact ih L2 s1
    · rw [if_neg hg, if_neg hg]
      rw [Bool.not_eq_true] at hg
      exact (scan_list_stop go body L2 s hg).symm

/-- The leaves of a represented tree: they hold its entries, their addresses are the leaf
list of the tree, taken from its nodes, and a scan that enters at the leftmost leaf runs over
them and goes on with the link that leaves the tree. -/
theorem leaves_rep {V : Type} (h : Heap V) :
    ∀ (d : Nat) (S : Sub V), Rep h d S →
    ∃ L : List (Nat × node V × List (Int × V)), leaves_hold h L ∧
      (L.map fun x => x.2.2).flatten = S.es ∧
      L.map (fun x => x.1) = leaf_list h d S.addr ∧
      (L.map fun x => x.1).Sublist S.fp ∧
      (L.map fun x => x.1).head? = some S.first ∧
      ∀ (σ : Type) (go : σ → Bool) (body : σ → Nat → node V → Option σ) (fuel : Nat) (s : σ),
        scan_leaves go body (fuel + L.length) h (some S.first) s =
          (scan_list go body (L.map fun x => (x.1, x.2.1)) s).bind
            fun s1 => scan_leaves go body fuel h S.nxt s1 := by
  intro d
  induction d with
  | zero =>
    intro S hr
    obtain ⟨n, hn, hl, h1, hfirst, hnext, hfp⟩ := hr
    refine ⟨[(S.addr, n, S.es)], ?_, ?_, rfl, ?_, ?_, ?_⟩
    · intro x hx
      rw [List.mem_singleton] at hx
      rw [hx]
      exact ⟨hn, hl, h1⟩
    · simp
    · rw [hfp]
      exact List.Sublist.refl _
    · rw [hfirst]
      rfl
    · intro σ go body fuel s
      show scan_leaves go body (fuel + 1) h (some S.first) s = _
      rw [scan_leaves]
      dsimp only [List.map, scan_list]
      by_cases hg : go s = true
      · rw [if_pos hg, if_pos hg]
        dsimp only [bind, Option.bind]
        rw [hfirst, hn]; dsimp only
        cases hb : body s S.addr n with
        | none => rfl
        | some s1 =>
          dsimp only
          rw [hnext]
      · rw [if_neg hg, if_neg hg]
        rw [Bool.not_eq_true] at hg
        exact (scan_leaves_stop go body fuel h S.nxt s hg).symm
  | succ d ih =>
    intro S hr
    obtain ⟨n, subs, hn, hin, _, hseg, hes, hfp, _, hk⟩ := hr
    have key : ∀ (C : List (Sub V)) (start stop : Option Nat), seg C start stop →
        (∀ s ∈ C, Rep h d s) →
        ∃ L : List (Nat × node V × List (Int × V)), leaves_hold h L ∧
          (L.map fun x => x.2.2).flatten = (C.map Sub.es).flatten ∧
          L.map (fun x => x.1) = (C.map fun c => leaf_list h d c.addr).flatten ∧
          (L.map fun x => x.1).Sublist (C.map Sub.fp).flatten ∧
          (C ≠ [] → (L.map fun x => x.1).head? = start) ∧
          ∀ (σ : Type) (go : σ → Bool) (body : σ → Nat → node V → Option σ) (fuel : Nat)
            (s : σ),
            scan_leaves go body (fuel + L.length) h start s =
              (scan_list go body (L.map fun x => (x.1, x.2.1)) s).bind
                fun s1 => scan_leaves go body fuel h stop s1 := by
      intro C
      induction C with
      | nil =>
        intro start stop hs _
        simp only [seg] at hs
        refine ⟨[], fun x hx => (by cases hx), rfl, rfl, List.Sublist.refl _,
          fun hne => absurd rfl hne, ?_⟩
        intro σ go body fuel s
        rw [hs]
        rfl
      | cons c C ihC =>
        intro start stop hs hkC
        simp only [seg] at hs
        obtain ⟨L1, hh1, he1, ha1, hs1, hf1, hc1⟩ := ih c (hkC c (List.mem_cons_self _ _))
        obtain ⟨L2, hh2, he2, ha2, hs2, _, hc2⟩ := ihC c.nxt stop hs.2
          (fun x hx => hkC x (List.mem_cons_of_mem _ hx))
        refine ⟨L1 ++ L2, ?_, ?_, ?_, ?_, ?_, ?_⟩
        · intro x hx
          rcases List.mem_append.mp hx with h1 | h1
          · exact hh1 x h1
          · exact hh2 x h1
        · rw [List.map_append, List.flatten_append, he1, he2, List.map_cons,
            List.flatten_cons]
        · rw [List.map_append, ha1, ha2, List.map_cons, List.flatten_cons]
        · rw [List.map_append, List.map_cons, List.flatten_cons]
          exact hs1.append hs2
        · intro _
          rw [List.map_append, hs.1]
          cases hL1 : L1.map (fun x => x.1) with
          | nil => rw [hL1] at hf1; cases hf1
          | cons y ys =>
            rw [hL1] at hf1
            rw [List.cons_append, List.head?_cons]
            exact hf1
        · intro σ go body fuel s
          rw [hs.1, List.length_append, ← Nat.add_assoc, Nat.add_right_comm, hc1,
            List.map_append, scan_list_append]
          cases hsl : scan_list go body (L1.map fun x => (x.1, x.2.1)) s with
          | none => rfl
          | some s1 =>
            show scan_leaves go body (fuel + L2.length) h c.nxt s1 = _
            rw [hc2]
            rfl
    obtain ⟨L, hh, he, ha, hsub, hf, hc⟩ := key subs (some S.first) S.nxt hseg hk
    have hne : subs ≠ [] := by
      intro h0
      have hcc := hin.child_count
      rw [h0] at hcc
      simp at hcc
    refine ⟨L, hh, by rw [he, hes], ?_, ?_, hf hne, hc⟩
    · rw [ha, leaf_list, hn]
      dsimp only
      rw [hin.2.2.2.1, List.map_map]
      rfl
    · rw [hfp]
      exact List.Sublist.cons _ hsub

end Ledger

namespace Ledger

/-- A scan of a well-formed index runs over its leaves, which hold its entries; the leaves
are pairwise different nodes. -/
theorem scan_spec {V : Type} (idx : Index V) (es : List (Int × V)) (hw : WF idx es) :
    ∃ L : List (Nat × node V × List (Int × V)), leaves_hold idx.heap L ∧
      (L.map fun x => x.2.2).flatten = es ∧ (L.map fun x => x.1).Nodup ∧
      ∀ (σ : Type) (go : σ → Bool) (body : σ → Nat → node V → Option σ) (s : σ),
        scan idx go body s = scan_list go body (L.map fun x => (x.1, x.2.1)) s := by
  obtain ⟨hp, root⟩ := idx
  rcases hw with ⟨hroot, hes⟩ | ⟨d, S, hroot, hrep, hnxt, hes, _⟩
  · simp only at hroot
    subst hroot
    subst hes
    refine ⟨[], fun x hx => (by cases hx), rfl, List.nodup_nil, ?_⟩
    intro σ go body s
    unfold scan
    dsimp only [bind, Option.bind]
    rw [find_leftmost_null]; dsimp only
    rw [scan_leaves_none]
    rfl
  · simp only at hroot hrep
    subst hroot
    subst hes
    obtain ⟨L, hh, he, _, hsub, _, hc⟩ := leaves_rep hp d S hrep
    have hnd : (L.map fun x => x.1).Nodup := hrep.nodup.sublist hsub
    have hlen : L.length ≤ hp.length := by
      have h1 := nodup_lt_length hnd (fun b hb => hrep.fp_lt b (hsub.subset hb))
      rw [List.length_map] at h1
      exact h1
    refine ⟨L, hh, he, hnd, ?_⟩
    intro σ go body s
    unfold scan
    dsimp only [bind, Option.bind]
    rw [find_leftmost_rep hp d S hp.length hrep hrep.depth_lt_store]; dsimp only
    rw [show hp.length = (hp.length - L.length) + L.length by omega, hc, hnxt]
    cases hsl : scan_list go body (L.map fun x => (x.1, x.2.1)) s with
    | none => rfl
    | some s1 =>
      show scan_leaves go body _ hp none s1 = _
      rw [scan_leaves_none]

/-! ## The loop over one leaf -/

/-- The loop over the slots of a leaf is the loop over the records the leaf holds. -/
theorem leaf_loop_spec {V σ : Type} (step : σ → V → Option σ) (stop : σ → Bool) (n : node V) :
    ∀ (cnt i : Nat) (es : List (Int × V)) (s : σ),
    (n.pointers.drop i).take cnt = es.map (fun e => Ptr.val e.2) → es.length = cnt →
    leaf_loop step stop n cnt i s = loop_list step stop (es.map Prod.snd) s := by
  intro cnt
  induction cnt with
  | zero =>
    intro i es s _ hl
    rw [List.length_eq_zero] at hl
    rw [hl]; rfl
  | succ cnt ih =>
    intro i es s hp hl
    cases es with
    | nil => simp at hl
    | cons e es =>
      cases hdp : n.pointers.drop i with
      | nil => rw [hdp] at hp; simp at hp
      | cons p pr =>
        rw [hdp] at hp
        simp only [List.take_succ_cons, List.map_cons, List.cons.injEq] at hp
        have hpi : n.pointers[i]? = some (Ptr.val e.2) := by
          have := congrArg (fun l => l[0]?) hdp
          simp only [List.getElem?_drop, Nat.add_zero, List.getElem?_cons_zero] at this
          rw [this, hp.1]
        have hpr : n.pointers.drop (i + 1) = pr := by
          have := congrArg List.tail hdp
          simpa using this
        have hrest := fun s1 => ih (i + 1) es s1 (by rw [hpr]; exact hp.2) (by simpa using hl)
        rw [leaf_loop, List.map_cons, loop_list]
        dsimp only [bind, Option.bind]
        rw [hpi]; dsimp only [asRec]
        cases hst : step s e.2 with
        | none => rfl
        | some s1 =>
          dsimp only
          by_cases hs : stop s1 = true
          · rw [if_pos hs, if_pos hs]
          · rw [if_neg hs, if_neg hs]
            exact hrest s1

theorem leaf_holds.loop {V σ : Type} {n : node V} {es : List (Int × V)} (hn : leaf_holds n es)
    (step : σ → V → Option σ) (stop : σ → Bool) (s : σ) :
    leaf_loop step stop n n.num_keys 0 s = loop_list step stop (es.map Prod.snd) s :=
  leaf_loop_spec step stop n n.num_keys 0 es s (by simpa using hn.2.2.2.2) hn.entry_count

end Ledger

namespace Ledger

/-! ## The node invariant -/

/-- A represented tree with its entries in ascending order satisfies the node invariant. -/
theorem Rep.node_inv {V : Type} {h : Heap V} : ∀ {d : Nat} {S : Sub V}, Rep h d S →
    ascending S.es → node_inv h d S.addr := by
  intro d
  induction d with
  | zero =>
    intro S hr ha
    obtain ⟨n, hn, hl, h1, _, _, _⟩ := hr
    refine ⟨n, hn, hl.1, h1, hl.2.2.1, ?_⟩
    rw [hl.2.2.2.1]
    exact ha
  | succ d ih =>
    intro S hr ha
    obtain ⟨n, subs, hn, hin, h1, _, hes, _, _, hk⟩ := hr
    refine ⟨n, hn, hin.1, h1, hin.2.2.1, ?_⟩
    intro i hi
    have hlen := hin.child_count
    have hi2 : i < subs.length := by omega
    obtain ⟨A, c, C, hsplit, hA⟩ : ∃ A c C, subs = A ++ c :: C ∧ A.length = i :=
      ⟨subs.take i, subs[i], subs.drop (i + 1), by
        rw [← List.drop_eq_getElem_cons hi2, List.take_append_drop],
        by rw [List.length_take]; omega⟩
    have hc : c ∈ subs := by rw [hsplit]; simp
    refine ⟨c.addr, ?_, ih (hk c hc) ?_⟩
    · rw [hsplit] at hin
      rw [← hA]
      exact hin.ptr
    · rw [hes] at ha
      exact ha.flatten_mem hc

/-- The addresses collected by a scan without extra condition are those of the list. -/
theorem scan_list_addrs {V : Type} : ∀ (L : List (Nat × node V)) (s : List Nat),
    scan_list (fun _ => true) (fun (s : List Nat) a (_ : node V) => some (s ++ [a])) L s
      = some (s ++ L.map Prod.fst) := by
  intro L
  induction L with
  | nil => intro s; rw [scan_list, List.map_nil, List.append_nil]
  | cons x L ih =>
    intro s
    obtain ⟨a, n⟩ := x
    rw [scan_list, if_pos rfl]
    show scan_list _ _ L (s ++ [a]) = _
    rw [ih, List.map_cons, List.append_assoc]
    rfl

/-- C20: every tree built from the empty index by any sequence of `insert_transaction` calls
is empty (no call) or has a depth `d` such that: every node holds between 1 and `ORDER - 1`
keys; every internal node with `n` keys has children in its slots `0..n` (non-null, and
nodes of the tree); the keys inside every leaf are in ascending (non-decreasing) order; all
leaves are at depth `d`; and following `next` from the leftmost leaf visits exactly the
leaves of the tree, each once, left to right, and ends at `NULL`. -/
theorem C20_node_invariant (V : Type) (l : List (Int × V)) :
    ∃ idx, insert_all Index.empty l = some idx ∧
      ((l = [] ∧ idx.root = none) ∨
        ∃ d r first, idx.root = some r ∧ node_inv idx.heap d r ∧
          find_leftmost_leaf idx.heap.length idx.heap idx.root = some (some first) ∧
          (leaf_list idx.heap d r).head? = some first ∧
          leaf_addrs idx = some (leaf_list idx.heap d r) ∧
          (leaf_list idx.heap d r).Nodup) := by
  obtain ⟨idx, es, h1, hw, hp⟩ := insert_all_spec l Index.empty [] (WF_empty V)
  rw [List.append_nil] at hp
  refine ⟨idx, h1, ?_⟩
  obtain ⟨hp0, root⟩ := idx
  rcases hw with ⟨hroot, hes⟩ | ⟨d, S, hroot, hrep, hnxt, hes, hasc⟩
  · left
    rw [hes] at hp
    exact ⟨hp.symm.eq_nil, hroot⟩
  · right
    simp only at hroot hrep
    subst hroot
    obtain ⟨L, hh, he, ha, hsub, hf, hc⟩ := leaves_rep hp0 d S hrep
    have hnd : (L.map fun x => x.1).Nodup := hrep.nodup.sublist hsub
    have hlen : L.length ≤ hp0.length := by
      have h2 := nodup_lt_length hnd (fun b hb => hrep.fp_lt b (hsub.subset hb))
      rw [List.length_map] at h2
      exact h2
    have hfind := find_leftmost_rep hp0 d S hp0.length hrep hrep.depth_lt_store
    have haddrs : leaf_addrs (⟨hp0, some S.addr⟩ : Index V) = some (L.map fun x => x.1) := by
      unfold leaf_addrs scan
      dsimp only [bind, Option.bind]
      rw [hfind]; dsimp only
      rw [show hp0.length = (hp0.length - L.length) + L.length by omega, hc, hnxt,
        scan_list_addrs]
      dsimp only [Option.bind]
      rw [scan_leaves_none, List.nil_append, List.map_map]
      rfl
    exact ⟨d, S.addr, S.first, rfl, hrep.node_inv (by rw [hes]; exact hasc), hfind,
      by rw [← ha]; exact hf, by rw [← ha]; exact haddrs, by rw [← ha]; exact hnd⟩

end Ledger

namespace Ledger

/-! ## Bubble sort -/

/-- The inner loop of the bubble sort carries the element at `j` to the right. -/
theorem bubble_inner_spec {α : Type} (sw : α → α → Bool) :
    ∀ (ys pre : List α) (x : α) (post : List α),
    bubble_inner sw ys.length pre.length (pre ++ x :: ys ++ post)
      = some (pre ++ bubble_up sw x ys ++ post) := by
  intro ys
  induction ys with
  | nil => intro pre x post; rfl
  | cons y ys ih =>
    intro pre x post
    have hx : (pre ++ x :: (y :: ys) ++ post)[pre.length]? = some x := by
      rw [List.append_assoc, List.getElem?_append_right (le_refl _), Nat.sub_self]
      simp
    have hy : (pre ++ x :: (y :: ys) ++ post)[pre.length + 1]? = some y := by
      rw [List.append_assoc, List.getElem?_append_right (Nat.le_succ _)]
      rw [show pre.length + 1 - pre.length = 1 by omega]
      simp
    rw [List.length_cons, bubble_inner]
    dsimp only [bind, Option.bind]
    rw [hx]; dsimp only
    rw [hy]; dsimp only
    rw [bubble_up]
    by_cases hs : sw x y = true
    · rw [if_pos hs, if_pos hs]
      have e1 : wr (pre ++ x :: (y :: ys) ++ post) pre.length y
          = some (pre ++ y :: (y :: ys) ++ post) := by
        rw [wr_some _ _ _ (by simp)]
        congr 1
        rw [List.append_assoc, List.set_append_right _ _ (le_refl _), Nat.sub_self,
          List.append_assoc]
        simp
      have e2 : wr (pre ++ y :: (y :: ys) ++ post) (pre.length + 1) x
          = some (pre ++ y :: (x :: ys) ++ post) := by
        rw [wr_some _ _ _ (by simp)]
        congr 1
        rw [List.append_assoc, List.set_append_right _ _ (Nat.le_succ _),
          show pre.length + 1 - pre.length = 1 by omega, List.append_assoc]
        simp
      rw [e1]; dsimp only
      rw [e2]; dsimp only
      have h := ih (pre ++ [y]) x post
      rw [List.length_append, List.length_singleton] at h
      simp only [List.append_assoc, List.singleton_append, List.cons_append] at h ⊢
      exact h
    · rw [if_neg hs, if_neg hs]
      have h := ih (pre ++ [x]) y post
      rw [List.length_append, List.length_singleton] at h
      simp only [List.append_assoc, List.singleton_append, List.cons_append] at h ⊢
      exact h

/-- One pass puts a largest element last and keeps the order of the elements with equal
keys. -/
theorem bubble_up_spec {α K : Type} [LinearOrder K] (sw : α → α → Bool) (key : α → K)
    (hsw : ∀ x y, sw x y = true ↔ key y < key x) :
    ∀ (ys : List α) (x : α), ∃ P m, bubble_up sw x ys = P ++ [m] ∧ P.length = ys.length ∧
      (∀ z ∈ P, key z ≤ key m) ∧ key x ≤ key m ∧ m ∈ x :: ys ∧
      (bubble_up sw x ys).Perm (x :: ys) ∧
      ∀ e : K, (bubble_up sw x ys).filter (fun z => decide (key z = e))
        = (x :: ys).filter (fun z => decide (key z = e)) := by
  intro ys
  induction ys with
  | nil =>
    intro x
    exact ⟨[], x, rfl, rfl, fun z hz => (by cases hz), le_refl _, List.mem_singleton_self _,
      List.Perm.refl _, fun e => rfl⟩
  | cons y ys ih =>
    intro x
    rw [bubble_up]
    by_cases hs : sw x y = true
    · rw [if_pos hs]
      have hlt := (hsw x y).mp hs
      obtain ⟨P, m, he, hl, hP, hxm, hm, hperm, hst⟩ := ih x
      refine ⟨y :: P, m, by rw [he]; rfl, by rw [List.length_cons, hl]; rfl, ?_, hxm, ?_, ?_, ?_⟩
      · intro z hz
        rcases List.mem_cons.mp hz with h | h
        · rw [h]; exact le_trans (le_of_lt hlt) hxm
        · exact hP z h
      · rcases List.mem_cons.mp hm with h | h
        · rw [h]; exact List.mem_cons_self _ _
        · exact List.mem_cons_of_mem _ (List.mem_cons_of_mem _ h)
      · exact (List.Perm.cons y hperm).trans (List.Perm.swap x y ys)
      · intro e
        rw [List.filter_cons, hst e, List.filter_cons, List.filter_cons (x := x),
          List.filter_cons (x := y)]
        by_cases hy : key y = e
        · have hx : ¬ key x = e := fun h => absurd (hy.trans h.symm) (ne_of_lt hlt)
          simp [hy, hx]
        · simp [hy]
    · rw [if_neg hs]
      have hle : key x ≤ key y := not_lt.mp (mt (hsw x y).mpr hs)
      obtain ⟨P, m, he, hl, hP, hym, hm, hperm, hst⟩ := ih y
      refine ⟨x :: P, m, by rw [he]; rfl, by rw [List.length_cons, hl]; rfl, ?_,
        le_trans hle hym, List.mem_cons_of_mem _ hm, List.Perm.cons x hperm, ?_⟩
      · intro z hz
        rcases List.mem_cons.mp hz with h | h
        · rw [h]; exact le_trans hle hym
        · exact hP z h
      · intro e
        rw [List.filter_cons, hst e, List.filter_cons (x := x)]

end Ledger

namespace Ledger

/-- The outer loop of the bubble sort, when the last elements `Q` are already in place. -/
theorem bubble_outer_spec {α K : Type} [LinearOrder K] (sw : α → α → Bool) (key : α → K)
    (hsw : ∀ x y, sw x y = true ↔ key y < key x) :
    ∀ (cnt : Nat) (P Q : List α), P.length = cnt + 1 →
    Q.Pairwise (fun x y => key x ≤ key y) → (∀ p ∈ P, ∀ q ∈ Q, key p ≤ key q) →
    ∃ out, bubble_outer sw (P ++ Q).length cnt Q.length (P ++ Q) = some out ∧
      out.Pairwise (fun x y => key x ≤ key y) ∧ out.Perm (P ++ Q) ∧
      ∀ e : K, out.filter (fun z => decide (key z = e))
        = (P ++ Q).filter (fun z => decide (key z = e)) := by
  intro cnt
  induction cnt with
  | zero =>
    intro P Q hl hQ hPQ
    refine ⟨P ++ Q, rfl, ?_, List.Perm.refl _, fun e => rfl⟩
    rw [List.pairwise_append]
    refine ⟨?_, hQ, hPQ⟩
    match P, hl with
    | [p], _ => exact List.pairwise_singleton _ _
  | succ cnt ih =>
    intro P Q hl hQ hPQ
    match P, hl, hPQ with
    | x :: ys, hl, hPQ =>
      have hys : ys.length = cnt + 1 := by simpa using hl
      obtain ⟨P1, m, he, hl1, hP1, _, hm, hperm, hst⟩ := bubble_up_spec sw key hsw ys x
      have hinner : bubble_inner sw ((x :: ys ++ Q).length - Q.length - 1) 0 (x :: ys ++ Q)
          = some (P1 ++ (m :: Q)) := by
        have h := bubble_inner_spec sw ys [] x Q
        rw [List.length_nil, List.nil_append, List.nil_append, he] at h
        rw [show (x :: ys ++ Q).length - Q.length - 1 = ys.length by
          simp only [List.length_append, List.length_cons]; omega]
        rw [h, List.append_assoc]
        rfl
      have hmQ : ∀ q ∈ Q, key m ≤ key q := fun q hq => hPQ m hm q hq
      obtain ⟨out, hout, hsorted, hp2, hst2⟩ := ih P1 (m :: Q) (by rw [hl1, hys])
        (List.pairwise_cons.mpr ⟨hmQ, hQ⟩)
        (by
          intro p hp q hq
          rcases List.mem_cons.mp hq with h | h
          · rw [h]; exact hP1 p hp
          · have hpm : p ∈ x :: ys := by
              apply hperm.subset
              rw [he]
              exact List.mem_append_left _ hp
            exact hPQ p hpm q h)
      have hlen : (P1 ++ m :: Q).length = (x :: ys ++ Q).length := by
        simp only [List.length_append, List.length_cons, hl1]
        omega
      have e1 : P1 ++ m :: Q = (P1 ++ [m]) ++ Q := by simp
      refine ⟨out, ?_, hsorted, ?_, ?_⟩
      · rw [bubble_outer]
        dsimp only [bind, Option.bind]
        rw [hinner]; dsimp only
        rw [← hlen]
        exact hout
      · refine hp2.trans ?_
        rw [e1, ← he]
        exact List.Perm.append_right Q hperm
      · intro e
        rw [hst2 e, e1, ← he, List.filter_append, hst e, ← List.filter_append]

/-- The bubble sort of the reports returns its input sorted by the key, with the elements
of equal keys in their input order. -/
theorem bubble_sort_spec {α K : Type} [LinearOrder K] (sw : α → α → Bool) (key : α → K)
    (hsw : ∀ x y, sw x y = true ↔ key y < key x) (a : List α) :
    ∃ out, bubble_sort sw a = some out ∧ out.Pairwise (fun x y => key x ≤ key y) ∧
      out.Perm a ∧
      ∀ e : K, out.filter (fun z => decide (key z = e)) = a.filter (fun z => decide (key z = e)) := by
  cases a with
  | nil => exact ⟨[], rfl, List.Pairwise.nil, List.Perm.refl _, fun e => rfl⟩
  | cons x ys =>
    obtain ⟨out, h1, h2, h3, h4⟩ := bubble_outer_spec sw key hsw ys.length (x :: ys) [] rfl
      List.Pairwise.nil (fun p _ q hq => by cases hq)
    rw [List.append_nil] at h1 h3 h4
    exact ⟨out, h1, h2, h3, h4⟩

end Ledger

namespace Ledger

/-! ## Collecting the buyers -/

theorem collect_loop (vs : List Nat) : ∀ (s : List Nat), s.length < MAX_BUYERS →
    loop_list (fun (bs : List Nat) a => some (bs ++ [a]))
      (fun bs => decide (bs.length ≥ MAX_BUYERS)) vs s
      = some (s ++ vs.take (MAX_BUYERS - s.length)) := by
  induction vs with
  | nil => intro s _; rw [loop_list, List.take_nil, List.append_nil]
  | cons v vs ih =>
    intro s hs
    rw [loop_list]
    dsimp only [Option.bind]
    obtain ⟨k, hk⟩ : ∃ k, MAX_BUYERS - s.length = k + 1 := ⟨MAX_BUYERS - s.length - 1, by omega⟩
    rw [hk, List.take_succ_cons]
    by_cases hst : (s ++ [v]).length ≥ MAX_BUYERS
    · rw [if_pos (decide_eq_true hst)]
      rw [List.length_append, List.length_singleton] at hst
      have hk0 : k = 0 := by omega
      rw [hk0, List.take_zero]
    · rw [if_neg (by rw [decide_eq_true_eq]; exact hst)]
      rw [ih (s ++ [v]) (not_le.mp hst), List.length_append, List.length_singleton,
        show MAX_BUYERS - (s.length + 1) = k by omega, List.append_assoc]
      rfl

theorem collect_scan {h : Heap Nat} : ∀ (L : List (Nat × node Nat × List (Int × Nat))),
    leaves_hold h L → ∀ (s : List Nat), s.length ≤ MAX_BUYERS →
    scan_list (fun (buyers : List Nat) => decide (buyers.length < MAX_BUYERS))
      (fun buyers _ leaf =>
        leaf_loop (fun bs a => some (bs ++ [a])) (fun bs => decide (bs.length ≥ MAX_BUYERS))
          leaf leaf.num_keys 0 buyers)
      (L.map fun x => (x.1, x.2.1)) s
      = some (s ++ (((L.map fun x => x.2.2).flatten).map Prod.snd).take
          (MAX_BUYERS - s.length)) := by
  intro L
  induction L with
  | nil =>
    intro _ s _
    rw [List.map_nil, scan_list, List.map_nil, List.flatten_nil, List.map_nil, List.take_nil,
      List.append_nil]
  | cons x L ih =>
    intro hh s hs
    obtain ⟨a, n, g⟩ := x
    have hx := hh (a, n, g) (List.mem_cons_self _ _)
    have hrest : leaves_hold h L := fun y hy => hh y (List.mem_cons_of_mem _ hy)
    rw [List.map_cons, scan_list, List.map_cons, List.flatten_cons, List.map_append]
    dsimp only
    by_cases hg : s.length < MAX_BUYERS
    · rw [if_pos (decide_eq_true hg), hx.2.1.loop, collect_loop _ s hg]
      dsimp only [Option.bind]
      have hlen : (s ++ (g.map Prod.snd).take (MAX_BUYERS - s.length)).length ≤ MAX_BUYERS := by
        rw [List.length_append, List.length_take]
        omega
      rw [ih hrest _ hlen, List.take_append_eq_append_take, List.append_assoc]
      have hl : (s ++ (g.map Prod.snd).take (MAX_BUYERS - s.length)).length
          = s.length + min (MAX_BUYERS - s.length) (g.map Prod.snd).length := by
        rw [List.length_append, List.length_take]
      rw [hl]
      rcases Nat.lt_or_ge (MAX_BUYERS - s.length) (g.map Prod.snd).length with hc | hc
      · rw [Nat.min_eq_left hc.le, show MAX_BUYERS - (s.length + (MAX_BUYERS - s.length)) = 0 by omega,
          show MAX_BUYERS - s.length - (g.map Prod.snd).length = 0 by omega]
      · rw [Nat.min_eq_right hc, Nat.sub_add_eq]
    · rw [if_neg (by rw [decide_eq_true_eq]; exact hg)]
      rw [show MAX_BUYERS - s.length = 0 by omega, List.take_zero, List.append_nil]

/-- The collecting loop stores the first `MAX_BUYERS` record pointers of the traversal. -/
theorem collect_buyers_spec (st : State) (eb : List (Int × Nat)) (hw : WF st.buyer_tree eb) :
    collect_buyers st = some ((eb.map Prod.snd).take MAX_BUYERS) := by
  obtain ⟨L, hh, he, _, hc⟩ := scan_spec st.buyer_tree eb hw
  unfold collect_buyers
  rw [hc, collect_scan L hh [] (Nat.zero_le _), he]
  rfl

theorem deref_dir {R : Type} (idf : R → Int) (mem : List R) :
    ∀ (es : List (Int × Nat)), (∀ e ∈ es, ∃ r, mem[e.2]? = some r ∧ idf r = e.1) →
    ∃ rs, deref mem (es.map Prod.snd) = some rs ∧ rs.map idf = es.map Prod.fst ∧
      List.Forall₂ (fun e r => mem[e.2]? = some r) es rs := by
  intro es
  induction es with
  | nil => intro _; exact ⟨[], rfl, rfl, List.Forall₂.nil⟩
  | cons e es ih =>
    intro hk
    obtain ⟨r, hr, hid⟩ := hk e (List.mem_cons_self _ _)
    obtain ⟨rs, h1, h2, h3⟩ := ih (fun x hx => hk x (List.mem_cons_of_mem _ hx))
    refine ⟨r :: rs, ?_, by rw [List.map_cons, List.map_cons, hid, h2], List.Forall₂.cons hr h3⟩
    rw [List.map_cons, deref]
    dsimp only [bind, Option.bind]
    rw [hr]; dsimp only
    rw [h1]

theorem deref_take {R : Type} (mem : List R) : ∀ (ptrs : List Nat) (rs : List R) (k : Nat),
    deref mem ptrs = some rs → deref mem (ptrs.take k) = some (rs.take k) := by
  intro ptrs
  induction ptrs with
  | nil =>
    intro rs k h
    rw [deref] at h
    cases h
    rw [List.take_nil, List.take_nil]
    rfl
  | cons a ptrs ih =>
    intro rs k h
    rw [deref] at h
    dsimp only [bind, Option.bind] at h
    cases hr : mem[a]? with
    | none => rw [hr] at h; cases h
    | some r =>
      rw [hr] at h; dsimp only at h
      cases hrs : deref mem ptrs with
      | none => rw [hrs] at h; cases h
      | some rs1 =>
        rw [hrs] at h; dsimp only at h
        cases h
        cases k with
        | zero => rfl
        | succ k =>
          rw [List.take_succ_cons, List.take_succ_cons, deref]
          dsimp only [bind, Option.bind]
          rw [hr]; dsimp only
          rw [ih rs1 k hrs]

/-- What `sort_buyers_by_energy` prints in a state with the invariant: the first
`MAX_BUYERS` buyer records in scan order (ascending buyer id), sorted by cumulative energy,
records with equal energy in scan order. -/
theorem sort_buyers_spec (st : State) (G : List (Int × Transaction)) (hinv : Inv st G) :
    ∃ eb B out, traverse st.buyer_tree = some eb ∧ buyers_in_order st = some B ∧
      B.map BuyerKey.buyer_id = eb.map Prod.fst ∧
      (B.map BuyerKey.buyer_id).Sorted (fun a b => a < b) ∧
      (B.map BuyerKey.buyer_id).Perm (st.buyer_mem.map BuyerKey.buyer_id) ∧
      sort_buyers_by_energy st = some out ∧
      out.Perm (B.take MAX_BUYERS) ∧
      out.Pairwise (fun x y => x.total_energy_purchased ≤ y.total_energy_purchased) ∧
      ∀ e : ℚ, out.filter (fun b => decide (b.total_energy_purchased = e))
        = (B.take MAX_BUYERS).filter (fun b => decide (b.total_energy_purchased = e)) := by
  obtain ⟨eb, hw, _, _, hndm⟩ := id hinv.buyers
  have hteb := traverse_spec _ _ hw
  obtain ⟨hperm, hpts⟩ := hinv.buyers.keys_perm hteb
  obtain ⟨B, hB, hBid, _⟩ := deref_dir BuyerKey.buyer_id st.buyer_mem eb hpts
  obtain ⟨out, hsort, hsorted, hp, hst⟩ := bubble_sort_spec
    (fun (x y : BuyerKey) => decide (x.total_energy_purchased > y.total_energy_purchased))
    BuyerKey.total_energy_purchased (fun x y => by rw [decide_eq_true_eq])
    (B.take MAX_BUYERS)
  refine ⟨eb, B, out, hteb, ?_, hBid, ?_, by rw [hBid]; exact hperm, ?_, hp, hsorted, hst⟩
  · unfold buyers_in_order
    dsimp only [bind, Option.bind]
    rw [hteb]; dsimp only
    exact hB
  · rw [hBid]
    exact List.Sorted.lt_of_le hw.asc (hperm.nodup_iff.mpr hndm)
  · unfold sort_buyers_by_energy
    dsimp only [bind, Option.bind]
    rw [collect_buyers_spec st eb hw]; dsimp only
    rw [deref_take _ _ _ MAX_BUYERS hB]; dsimp only
    exact hsort

end Ledger

namespace Ledger

theorem run_calls_reach : ∀ (cs : List Call) (st st1 : State),
    Reach st → run_calls st cs = some st1 → Reach st1 := by
  intro cs
  induction cs with
  | nil =>
    intro st st1 hr h
    rw [run_calls] at h
    cases h
    exact hr
  | cons c rest ih =>
    intro st st1 hr h
    cases c with
    | seller id rb ra =>
      rw [run_calls] at h
      dsimp only [bind, Option.bind] at h
      cases hg : get_or_create_seller st id rb ra with
      | none => rw [hg] at h; cases h
      | some p =>
        obtain ⟨st2, a⟩ := p
        rw [hg] at h
        exact ih st2 st1 (Reach.seller st st2 id rb ra a hr hg) h
    | buyer id =>
      rw [run_calls] at h
      dsimp only [bind, Option.bind] at h
      cases hg : get_or_create_buyer st id with
      | none => rw [hg] at h; cases h
      | some p =>
        obtain ⟨st2, a⟩ := p
        rw [hg] at h
        exact ih st2 st1 (Reach.buyer st st2 id a hr hg) h

theorem deref_filterMap {R : Type} (mem : List R) : ∀ (ptrs : List Nat) (rs : List R),
    deref mem ptrs = some rs → rs = ptrs.filterMap (fun a => mem[a]?) := by
  intro ptrs
  induction ptrs with
  | nil =>
    intro rs h
    rw [deref] at h
    cases h
    rfl
  | cons a ptrs ih =>
    intro rs h
    rw [deref] at h
    dsimp only [bind, Option.bind] at h
    cases hr : mem[a]? with
    | none => rw [hr] at h; cases h
    | some r =>
      rw [hr] at h; dsimp only at h
      cases hrs : deref mem ptrs with
      | none => rw [hrs] at h; cases h
      | some rs1 =>
        rw [hrs] at h; dsimp only at h
        cases h
        rw [List.filterMap_cons_some hr, ← ih rs1 hrs]

theorem range_filterMap {R : Type} (mem : List R) :
    (List.range mem.length).filterMap (fun a => mem[a]?) = mem := by
  have h : (List.range mem.length).map (fun a => mem[a]?) = mem.map some := by
    apply List.ext_getElem?
    intro i
    rw [List.getElem?_map, List.getElem?_map]
    by_cases hi : i < mem.length
    · rw [List.getElem?_range hi, List.getElem?_eq_getElem hi]
      dsimp only [Option.map]
      rw [List.getElem?_eq_getElem hi]
    · rw [List.getElem?_eq_none (by rw [List.length_range]; omega),
        List.getElem?_eq_none (by omega)]
      rfl
  have h2 : (List.range mem.length).filterMap (fun a => mem[a]?)
      = ((List.range mem.length).map (fun a => mem[a]?)).filterMap id := by
    rw [List.filterMap_map]
    rfl
  rw [h2, h, List.filterMap_map]
  exact List.filterMap_some mem

/-- The records a directory tree points at, in scan order, are the records of the store. -/
theorem DirOK.records_perm {R : Type} {idf : R → Int} {tree : Index Nat} {mem : List R}
    (hd : DirOK idf tree mem) {es : List (Int × Nat)} (ht : traverse tree = some es)
    {rs : List R} (hrs : deref mem (es.map Prod.snd) = some rs) : rs.Perm mem := by
  obtain ⟨es1, hw, hperm, _, _⟩ := hd
  have h1 := traverse_spec _ _ hw
  rw [ht] at h1
  cases h1
  rw [deref_filterMap mem _ rs hrs]
  have h := hperm.filterMap (fun a => mem[a]?)
  rw [range_filterMap] at h
  exact h

theorem buyers_in_order_perm (st : State) (G : List (Int × Transaction)) (hinv : Inv st G)
    (B : List BuyerKey) (hB : buyers_in_order st = some B) : B.Perm st.buyer_mem := by
  unfold buyers_in_order at hB
  dsimp only [bind, Option.bind] at hB
  cases ht : traverse st.buyer_tree with
  | none => rw [ht] at hB; cases hB
  | some es =>
    rw [ht] at hB
    exact hinv.buyers.records_perm ht hB

end Ledger

namespace Ledger

/-- C16 as stated fails: after 101 buyers have been created the directory holds 101 records,
and `sort_buyers_by_energy` prints 100 rows, which are not a permutation of the directory:
the collecting loop stops at `MAX_BUYERS` records. -/
theorem C16_counterexample :
    ∃ st B out,
      run_calls State.init ((List.range 101).map fun (i : Nat) => Call.buyer (i : Int)) = some st ∧
      buyers_in_order st = some B ∧ B.Perm st.buyer_mem ∧ B.length = 101 ∧
      sort_buyers_by_energy st = some out ∧ out.length = 100 ∧ ¬ out.Perm B := by
  obtain ⟨st, hrun, hinv, _, hb⟩ := run_calls_spec
    ((List.range 101).map fun (i : Nat) => Call.buyer (i : Int)) State.init [] Inv_init
  obtain ⟨eb, B, out, _, hB, _, _, hperm, hsort, hp, _, _⟩ := sort_buyers_spec st [] hinv
  obtain ⟨_, _, _, _, hnd⟩ := id hinv.buyers
  have hmem : ∀ x, x ∈ st.buyer_mem.map BuyerKey.buyer_id ↔
      x ∈ (List.range 101).map (fun (i : Nat) => (i : Int)) := by
    intro x
    rw [hb x]
    constructor
    · rintro (h | h)
      · cases h
      · rw [List.mem_map] at h ⊢
        obtain ⟨i, hi, he⟩ := h
        exact ⟨i, hi, Call.buyer.inj he⟩
    · intro h
      rw [List.mem_map] at h
      obtain ⟨i, hi, he⟩ := h
      exact Or.inr (List.mem_map.mpr ⟨i, hi, by rw [he]⟩)
  have hnd2 : ((List.range 101).map (fun (i : Nat) => (i : Int))).Nodup :=
    (List.nodup_range 101).map (fun a b h => Int.ofNat.inj h)
  have hlen : B.length = 101 := by
    have h1 := ((List.perm_ext_iff_of_nodup hnd hnd2).mpr hmem).length_eq
    have h2 := hperm.length_eq
    simp only [List.length_map, List.length_range] at h1 h2
    rw [h2, h1]
  have hout : out.length = 100 := by
    rw [hp.length_eq, List.length_take, hlen]
    rfl
  refine ⟨st, B, out, hrun, hB, buyers_in_order_perm st [] hinv B hB, hlen, hsort, hout, ?_⟩
  intro h
  have := h.length_eq
  omega

/-- C16, amended: in every reachable state `sort_buyers_by_energy` returns. With `B` the
buyer records in the order of the collecting scan (the leaf chain of the buyer directory, by
ascending buyer id; `B` is a permutation of the buyer store), the rows printed are a
permutation of the first `MAX_BUYERS` records of `B`, in non-decreasing order of
`total_energy_purchased`, and for every energy value the rows with that value are the
records of that part of `B` with that value in scan order. When the directory holds at most
`MAX_BUYERS` records the rows are a permutation of all of `B`, stable in the same sense. -/
theorem C16_buyers_by_energy (st : State) (hr : Reach st) :
    ∃ B out, buyers_in_order st = some B ∧ B.Perm st.buyer_mem ∧
      (B.map BuyerKey.buyer_id).Sorted (fun a b => a < b) ∧
      sort_buyers_by_energy st = some out ∧
      out.Perm (B.take MAX_BUYERS) ∧
      out.Pairwise (fun x y => x.total_energy_purchased ≤ y.total_energy_purchased) ∧
      (∀ e : ℚ, out.filter (fun b => decide (b.total_energy_purchased = e))
        = (B.take MAX_BUYERS).filter (fun b => decide (b.total_energy_purchased = e))) ∧
      (B.length ≤ MAX_BUYERS → out.Perm B ∧
        ∀ e : ℚ, out.filter (fun b => decide (b.total_energy_purchased = e))
          = B.filter (fun b => decide (b.total_energy_purchased = e))) := by
  obtain ⟨G, hinv⟩ := hr.inv
  obtain ⟨eb, B, out, _, hB, _, hasc, _, hsort, hp, hsorted, hst⟩ := sort_buyers_spec st G hinv
  refine ⟨B, out, hB, buyers_in_order_perm st G hinv B hB, hasc, hsort, hp, hsorted, hst, ?_⟩
  intro hle
  have e : B.take MAX_BUYERS = B := List.take_of_length_le hle
  rw [e] at hp hst
  exact ⟨hp, hst⟩

/-- C16 after five transactions: 500 kWh for buyer 1, 200 kWh for buyer 2, 200 kWh for buyer
3, and 60 kWh and 40 kWh for buyer 4.  The scan of the directory finds the buyers 1, 2, 3, 4,
and the rows printed are those of the buyers 4, 2, 3, 1 with the energies 100, 200, 200, 500:
buyer 4 has moved to the front, buyer 1 to the end, and the buyers 2 and 3, with the same
energy, are in scan order.  The rows are a permutation of the buyer store. -/
theorem C16_buyers_by_energy_witness :
    ∃ oks st out,
      run_adds State.init
        [⟨1, 1, 9, 500, 1 / 10, 46, "", 1 / 10, 8 / 100⟩,
          ⟨2, 2, 9, 200, 1 / 10, 20, "", 1 / 10, 8 / 100⟩,
          ⟨3, 3, 9, 200, 1 / 10, 20, "", 1 / 10, 8 / 100⟩,
          ⟨4, 4, 9, 60, 1 / 10, 6, "", 1 / 10, 8 / 100⟩,
          ⟨5, 4, 9, 40, 1 / 10, 4, "", 1 / 10, 8 / 100⟩] = some (oks, st) ∧
      sort_buyers_by_energy st = some out ∧
      out.map (fun b => (b.buyer_id, b.total_energy_purchased)) =
        [(4, 100), (2, 200), (3, 200), (1, 500)] ∧
      out.Perm st.buyer_mem ∧
      out.Pairwise (fun x y => x.total_energy_purchased ≤ y.total_energy_purchased) := by
  have key : (run_adds State.init
        [⟨1, 1, 9, 500, 1 / 10, 46, "", 1 / 10, 8 / 100⟩,
          ⟨2, 2, 9, 200, 1 / 10, 20, "", 1 / 10, 8 / 100⟩,
          ⟨3, 3, 9, 200, 1 / 10, 20, "", 1 / 10, 8 / 100⟩,
          ⟨4, 4, 9, 60, 1 / 10, 6, "", 1 / 10, 8 / 100⟩,
          ⟨5, 4, 9, 40, 1 / 10, 4, "", 1 / 10, 8 / 100⟩]).bind
      (fun r => (sort_buyers_by_energy r.2).map fun out =>
        out.map (fun b => (b.buyer_id, b.total_energy_purchased))) =
      some [(4, 100), (2, 200), (3, 200), (1, 500)] := by
    decide!
  obtain ⟨oks, st, G, hrun, _, hreach, _, _⟩ := run_adds_all
    [⟨1, 1, 9, 500, 1 / 10, 46, "", 1 / 10, 8 / 100⟩,
      ⟨2, 2, 9, 200, 1 / 10, 20, "", 1 / 10, 8 / 100⟩,
      ⟨3, 3, 9, 200, 1 / 10, 20, "", 1 / 10, 8 / 100⟩,
      ⟨4, 4, 9, 60, 1 / 10, 6, "", 1 / 10, 8 / 100⟩,
      ⟨5, 4, 9, 40, 1 / 10, 4, "", 1 / 10, 8 / 100⟩]
    State.init [] Inv_init Reach.init (by decide) (fun e he => by cases he) (by decide)
  obtain ⟨B, out, _, hB, _, hsort, hp, hsorted, _, hall⟩ := C16_buyers_by_energy st hreach
  rw [hrun] at key
  simp only [Option.some_bind, hsort, Option.map_some', Option.some.injEq] at key
  have hlen : B.length ≤ MAX_BUYERS := by
    have h1 := hp.length_eq
    have h2 : out.length = 4 := by
      rw [← List.length_map out (fun b => (b.buyer_id, b.total_energy_purchased)), key]
      rfl
    rw [h2, List.length_take] at h1
    have hmax : MAX_BUYERS = 100 := rfl
    omega
  exact ⟨oks, st, out, hrun, hsort, key, (hall hlen).1.trans hB, hsorted⟩

end Ledger

namespace Ledger

/-! ## Loops without an early exit -/

theorem loop_list_append {V σ : Type} (step : σ → V → Option σ) :
    ∀ (xs ys : List V) (s : σ),
    loop_list step (fun _ => false) (xs ++ ys) s
      = (loop_list step (fun _ => false) xs s).bind (loop_list step (fun _ => false) ys) := by
  intro xs
  induction xs with
  | nil => intro ys s; rfl
  | cons x xs ih =>
    intro ys s
    rw [List.cons_append, loop_list, loop_list]
    cases step s x with
    | none => rfl
    | some s1 =>
      dsimp only [Option.bind]
      exact ih ys s1

theorem loop_list_foldl {V σ : Type} (f : σ → V → σ) : ∀ (vs : List V) (s : σ),
    loop_list (fun s v => some (f s v)) (fun _ => false) vs s = some (vs.foldl f s) := by
  intro vs
  induction vs with
  | nil => intro s; rfl
  | cons v vs ih =>
    intro s
    rw [loop_list]
    dsimp only [Option.bind]
    exact ih (f s v)

/-- A loop that appends one row per element, the row being computed by `f`. -/
theorem loop_list_collect {V ρ : Type} (f : V → Option ρ) : ∀ (vs : List V) (rows : List ρ),
    (∀ v ∈ vs, ∃ r, f v = some r) →
    ∃ rs, loop_list (fun (acc : List ρ) v => (f v).bind fun r => some (acc ++ [r]))
        (fun _ => false) vs rows = some (rows ++ rs) ∧
      List.Forall₂ (fun v r => f v = some r) vs rs := by
  intro vs
  induction vs with
  | nil => intro rows _; exact ⟨[], by rw [loop_list, List.append_nil], List.Forall₂.nil⟩
  | cons v vs ih =>
    intro rows h
    obtain ⟨r, hr⟩ := h v (List.mem_cons_self _ _)
    obtain ⟨rs, h1, h2⟩ := ih (rows ++ [r]) (fun x hx => h x (List.mem_cons_of_mem _ hx))
    refine ⟨r :: rs, ?_, List.Forall₂.cons hr h2⟩
    rw [loop_list, hr, Option.some_bind, Option.some_bind, if_neg (by decide), h1,
      List.append_assoc]
    rfl

theorem scan_list_all {V σ : Type} (step : σ → V → Option σ)
    (body : σ → Nat → node V → Option σ) :
    ∀ (L : List (Nat × node V × List (Int × V))),
    (∀ x ∈ L, ∀ s, body s x.1 x.2.1 = loop_list step (fun _ => false) (x.2.2.map Prod.snd) s) →
    ∀ (s : σ), scan_list (fun _ => true) body (L.map fun x => (x.1, x.2.1)) s
      = loop_list step (fun _ => false) (((L.map fun x => x.2.2).flatten).map Prod.snd) s := by
  intro L
  induction L with
  | nil => intro _ s; rfl
  | cons x L ih =>
    intro hb s
    obtain ⟨a, n, g⟩ := x
    rw [List.map_cons, scan_list, List.map_cons, List.flatten_cons, List.map_append,
      loop_list_append, if_pos rfl]
    dsimp only
    rw [hb (a, n, g) (List.mem_cons_self _ _) s]
    cases loop_list step (fun _ => false) (g.map Prod.snd) s with
    | none => rfl
    | some s1 =>
      dsimp only [Option.bind]
      exact ih (fun y hy => hb y (List.mem_cons_of_mem _ hy)) s1

/-- A walk over all the leaves of a well-formed index whose body handles the entries of a
leaf one after the other is a loop over the entries of the index. -/
theorem scan_all {V σ : Type} (idx : Index V) (es : List (Int × V)) (hw : WF idx es)
    (step : σ → V → Option σ) (body : σ → Nat → node V → Option σ)
    (hb : ∀ (n : node V) (g : List (Int × V)), leaf_holds n g → ∀ a s,
      body s a n = loop_list step (fun _ => false) (g.map Prod.snd) s) (s : σ) :
    scan idx (fun _ => true) body s = loop_list step (fun _ => false) (es.map Prod.snd) s := by
  obtain ⟨L, hh, he, _, hc⟩ := scan_spec idx es hw
  rw [hc, scan_list_all step body L (fun x hx s1 => hb x.2.1 x.2.2 (hh x hx).2.1 x.1 s1) s, he]

theorem scan_all_loop {V σ : Type} (idx : Index V) (es : List (Int × V)) (hw : WF idx es)
    (step : σ → V → Option σ) (s : σ) :
    scan idx (fun _ => true)
      (fun s1 _ leaf => leaf_loop step (fun _ => false) leaf leaf.num_keys 0 s1) s
      = loop_list step (fun _ => false) (es.map Prod.snd) s :=
  scan_all idx es hw step _ (fun _ _ hn _ s1 => hn.loop step (fun _ => false) s1) s

end Ledger

namespace Ledger

/-! ## Revenue by seller -/

theorem forall2_map {α β γ : Type} {R : α → β → Prop} {f : α → γ} {g : β → γ}
    (h : ∀ a b, R a b → f a = g b) : ∀ {l1 : List α} {l2 : List β},
    List.Forall₂ R l1 l2 → l1.map f = l2.map g := by
  intro l1 l2 h2
  induction h2 with
  | nil => rfl
  | cons hab _ ih => rw [List.map_cons, List.map_cons, h _ _ hab, ih]

theorem forall2_mem_right {α β : Type} {R : α → β → Prop} : ∀ {l1 : List α} {l2 : List β},
    List.Forall₂ R l1 l2 → ∀ b ∈ l2, ∃ a ∈ l1, R a b := by
  intro l1 l2 h2
  induction h2 with
  | nil => intro b hb; cases hb
  | cons hab _ ih =>
    intro b hb
    rcases List.mem_cons.mp hb with h | h
    · subst h
      exact ⟨_, List.mem_cons_self _ _, hab⟩
    · obtain ⟨a, ha, hr⟩ := ih b h
      exact ⟨a, List.mem_cons_of_mem _ ha, hr⟩

theorem forall2_mem_left {α β : Type} {R : α → β → Prop} {l1 : List α} {l2 : List β}
    (h : List.Forall₂ R l1 l2) : List.Forall₂ (fun a b => a ∈ l1 ∧ R a b) l1 l2 := by
  have key : ∀ (l : List α), (∀ a ∈ l1, a ∈ l) →
      List.Forall₂ (fun a b => a ∈ l ∧ R a b) l1 l2 := by
    induction h with
    | nil => intro l _; exact List.Forall₂.nil
    | cons hab _ ih =>
      intro l hl
      exact List.Forall₂.cons ⟨hl _ (List.mem_cons_self _ _), hab⟩
        (ih l (fun a ha => hl a (List.mem_cons_of_mem _ ha)))
  exact key l1 (fun _ ha => ha)

theorem totals_foldl : ∀ (ts : List Transaction) (a : ℚ × ℚ),
    ts.foldl (fun (a : ℚ × ℚ) (t : Transaction) => (a.1 + t.total_price, a.2 + t.energy_kwh)) a
      = (a.1 + (ts.map Transaction.total_price).sum,
          a.2 + (ts.map Transaction.energy_kwh).sum) := by
  intro ts
  induction ts with
  | nil => intro a; simp
  | cons t ts ih =>
    intro a
    rw [List.foldl_cons, ih, List.map_cons, List.map_cons, List.sum_cons, List.sum_cons,
      add_assoc, add_assoc]

/-- The inner loops of `total_revenue_by_seller` add up the prices and the energies of the
entries of the seller's index. -/
theorem seller_totals_spec (s : SellerKey) (ts : List (Int × Transaction))
    (hw : WF s.transaction_tree ts) :
    seller_totals s = some ((ts.map fun e => e.2.total_price).sum,
      (ts.map fun e => e.2.energy_kwh).sum) := by
  unfold seller_totals
  rw [scan_all_loop _ ts hw, loop_list_foldl, totals_foldl, List.map_map, List.map_map,
    zero_add, zero_add]
  rfl

theorem total_revenue_spec (st : State) (G : List (Int × Transaction)) (hinv : Inv st G)
    (hb : Books st G) :
    ∃ es rows, traverse st.seller_tree = some es ∧ total_revenue_by_seller st = some rows ∧
      (es.map Prod.fst).Sorted (fun a b => a < b) ∧
      (es.map Prod.fst).Perm (st.seller_mem.map SellerKey.seller_id) ∧
      List.Forall₂ (fun e r => ∃ s ∈ st.seller_mem, s.seller_id = e.1 ∧ r = revenue_row G s)
        es rows := by
  obtain ⟨es, hw, _, _, hndm⟩ := id hinv.sellers
  have htes := traverse_spec _ _ hw
  obtain ⟨hperm, hpts⟩ := hinv.sellers.keys_perm htes
  have hrow : ∀ a ∈ es.map Prod.snd, ∃ r,
      ((st.seller_mem[a]?).bind fun s => (seller_totals s).bind fun tot =>
        some (⟨s.seller_id, tot.1, tot.2, s.transaction_count⟩ : RevenueRow)) = some r := by
    intro a ha
    obtain ⟨e, he, rfl⟩ := List.mem_map.mp ha
    obtain ⟨s, hs, _⟩ := hpts e he
    have hsm : s ∈ st.seller_mem := List.getElem?_mem hs
    rw [hs, Option.some_bind, seller_totals_spec s _ (hb.seller_index s hsm), Option.some_bind]
    exact ⟨_, rfl⟩
  obtain ⟨rows, hloop, hf⟩ := loop_list_collect
    (fun a => (st.seller_mem[a]?).bind fun s => (seller_totals s).bind fun tot =>
        some (⟨s.seller_id, tot.1, tot.2, s.transaction_count⟩ : RevenueRow))
    (es.map Prod.snd) [] hrow
  refine ⟨es, rows, htes, ?_, List.Sorted.lt_of_le hw.asc (hperm.nodup_iff.mpr hndm), hperm, ?_⟩
  · unfold total_revenue_by_seller
    rw [scan_all_loop _ es hw]
    rw [List.nil_append] at hloop
    rw [← hloop]
    congr 1
    funext rs a
    cases st.seller_mem[a]? with
    | none => rfl
    | some s =>
      rw [Option.some_bind, Option.some_bind]
      cases seller_totals s with
      | none => rfl
      | some tot => rfl
  · rw [List.forall₂_map_left_iff] at hf
    refine (forall2_mem_left hf).imp ?_
    intro e r h
    obtain ⟨he, h⟩ := h
    obtain ⟨s, hs, hid⟩ := hpts e he
    have hsm : s ∈ st.seller_mem := List.getElem?_mem hs
    rw [hs, Option.some_bind, seller_totals_spec s _ (hb.seller_index s hsm),
      Option.some_bind] at h
    refine ⟨s, hsm, hid, ?_⟩
    cases h
    unfold revenue_row
    rw [hb.seller_count s hsm]

end Ledger

namespace Ledger

/-- C18: in every reachable state `total_revenue_by_seller` returns; with `G` the entries of
the global index, it prints one row per record of the seller directory, by strictly ascending
seller id, and the row of a seller shows, over exactly the entries of `G` whose `seller_id`
is the seller's id, the sum of `total_price` as revenue, the sum of `energy_kwh` as energy
and the number of those entries as transaction count. -/
theorem C18_revenue_by_seller (st : State) (hr : Reach st) :
    ∃ G rows, traverse st.global_transaction_tree = some G ∧
      total_revenue_by_seller st = some rows ∧
      (rows.map RevenueRow.seller_id).Sorted (fun a b => a < b) ∧
      (rows.map RevenueRow.seller_id).Perm (st.seller_mem.map SellerKey.seller_id) ∧
      ∀ r ∈ rows,
        r.revenue = ((G.filter fun e => e.2.seller_id = r.seller_id).map
          fun e => e.2.total_price).sum ∧
        r.total_energy = ((G.filter fun e => e.2.seller_id = r.seller_id).map
          fun e => e.2.energy_kwh).sum ∧
        r.transaction_count = (G.filter fun e => e.2.seller_id = r.seller_id).length := by
  obtain ⟨G, hinv, hb⟩ := hr.books
  obtain ⟨es, rows, _, hrows, hasc, hperm, hf⟩ := total_revenue_spec st G hinv hb
  have hid : es.map Prod.fst = rows.map RevenueRow.seller_id :=
    forall2_map (fun e r h => by
      obtain ⟨s, _, hs, hrw⟩ := h
      rw [hrw, ← hs]
      rfl) hf
  refine ⟨G, rows, traverse_spec _ _ hinv.global, hrows, by rw [← hid]; exact hasc,
    by rw [← hid]; exact hperm, ?_⟩
  intro r hr
  obtain ⟨e, _, s, _, _, hrw⟩ := forall2_mem_right hf r hr
  rw [hrw]
  exact ⟨rfl, rfl, rfl⟩

/-- C18 after two transactions of seller 3 (200 kWh for 20 and 400 kWh for 38): a row for
seller 3 shows revenue 58, energy 600 and 2 transactions. -/
theorem C18_revenue_by_seller_witness :
    ∃ oks st rows,
      run_adds State.init
        [⟨1, 7, 3, 200, 1 / 10, 20, "2024-01-20 10:00", 1 / 10, 8 / 100⟩,
          ⟨2, 7, 3, 400, 1 / 10, 38, "2024-02-01 09:30", 1 / 10, 8 / 100⟩] = some (oks, st) ∧
      total_revenue_by_seller st = some rows ∧
      ∀ r ∈ rows, r.seller_id = 3 →
        r.revenue = 58 ∧ r.total_energy = 600 ∧ r.transaction_count = 2 := by
  obtain ⟨oks, st, G, hrun, hinv, hreach, _, hperm⟩ := run_adds_all
    [⟨1, 7, 3, 200, 1 / 10, 20, "2024-01-20 10:00", 1 / 10, 8 / 100⟩,
      ⟨2, 7, 3, 400, 1 / 10, 38, "2024-02-01 09:30", 1 / 10, 8 / 100⟩]
    State.init [] Inv_init Reach.init (by decide) (fun e he => by cases he) (by decide)
  obtain ⟨G1, rows, hG1, hrows, _, _, hall⟩ := C18_revenue_by_seller st hreach
  have hG : traverse st.global_transaction_tree = some G := traverse_spec _ _ hinv.global
  rw [hG] at hG1
  cases hG1
  have hGeq : G = [(1, ⟨1, 7, 3, 200, 1 / 10, 20, "2024-01-20 10:00", 1 / 10, 8 / 100⟩),
      (2, ⟨2, 7, 3, 400, 1 / 10, 38, "2024-02-01 09:30", 1 / 10, 8 / 100⟩)] := by
    apply sorted_perm_eq hinv.strict (by decide)
    rw [List.append_nil] at hperm
    exact hperm
  refine ⟨oks, st, rows, hrun, hrows, ?_⟩
  intro r hr h3
  obtain ⟨h1, h2, h4⟩ := hall r hr
  rw [h3, hGeq] at h1 h2 h4
  rw [h1, h2, h4]
  decide!

end Ledger

namespace Ledger

/-! ## Export -/

theorem save_leaf_of_loop (n : node Transaction) : ∀ (cnt i : Nat) (rows r : List ExportRow),
    leaf_loop (fun rs t => some (rs ++ [export_row t])) (fun _ => false) n cnt i rows = some r →
    save_leaf n cnt i rows = some r := by
  intro cnt
  induction cnt with
  | zero => intro i rows r h; exact h
  | succ cnt ih =>
    intro i rows r h
    rw [leaf_loop] at h
    rw [save_leaf]
    cases hp : n.pointers[i]? with
    | none => rw [hp] at h; cases h
    | some p =>
      rw [hp] at h
      cases p with
      | null => cases h
      | child c => cases h
      | val t => exact ih (i + 1) _ r h

theorem foldl_append_map {α β : Type} (f : α → β) : ∀ (vs : List α) (s : List β),
    vs.foldl (fun rs t => rs ++ [f t]) s = s ++ vs.map f := by
  intro vs
  induction vs with
  | nil => intro s; rw [List.foldl_nil, List.map_nil, List.append_nil]
  | cons v vs ih =>
    intro s
    rw [List.foldl_cons, ih, List.map_cons, List.append_assoc]
    rfl

/-- What `save_transactions_to_file` writes: one line per entry of the global index, in the
order of the index, made from the fields of the transaction itself. -/
theorem save_spec (st : State) (G : List (Int × Transaction)) (hinv : Inv st G) :
    save_transactions_to_file st = some (G.map fun e => export_row e.2) := by
  unfold save_transactions_to_file
  rw [scan_all _ G hinv.global (fun rs t => some (rs ++ [export_row t])) _
    (fun n g hn _ s => by
      rw [loop_list_foldl]
      apply save_leaf_of_loop
      rw [hn.loop, loop_list_foldl])]
  rw [loop_list_foldl, foldl_append_map, List.nil_append, List.map_map]
  rfl

/-- After a successful `add_transaction` with positive rates the seller record has the rates
of the transaction. -/
theorem AddPost.seller_rates {st st1 : State} {t : Transaction}
    {G G1 : List (Int × Transaction)} {sa : Nat} {sc sf : SellerKey} {ba : Nat}
    {bc bf : BuyerKey} (h : AddPost st st1 t G G1 sa sc sf ba bc bf)
    (hb : 0 < t.rate_below_300) (ha : 0 < t.rate_above_300) :
    sf.rate_below_300 = t.rate_below_300 ∧ sf.rate_above_300 = t.rate_above_300 := by
  rw [h.s_rates.1, h.s_rates.2]
  cases hs : st.seller_mem[sa]? with
  | none =>
    rw [(h.s_new hs).1]
    exact ⟨rfl, rfl⟩
  | some s =>
    rw [(h.s_found s hs).2]
    unfold update_rates
    dsimp only
    rw [if_pos ha, if_pos hb]
    exact ⟨rfl, rfl⟩

end Ledger

namespace Ledger

/-- C19 as stated fails: seller 3 sells 200 kWh at the rates 0.10 and 0.08, then 400 kWh at
the rates 0.20 and 0.09.  The seller entry then has the rates 0.20 and 0.09, and the line
exported for the first transaction still shows 0.10 and 0.08, the rates stored in the
transaction. -/
theorem C19_counterexample :
    ∃ oks st rows s,
      run_adds State.init
        [⟨1, 7, 3, 200, 1 / 10, 20, "2024-01-20 10:00", 1 / 10, 8 / 100⟩,
          ⟨2, 7, 3, 400, 9 / 100, 69, "2024-02-01 09:30", 2 / 10, 9 / 100⟩] = some (oks, st) ∧
      save_transactions_to_file st = some rows ∧
      rows = [⟨1, 7, 3, 200, 1 / 10, 8 / 100, "2024-01-20 10:00"⟩,
        ⟨2, 7, 3, 400, 2 / 10, 9 / 100, "2024-02-01 09:30"⟩] ∧
      lookup_seller st 3 = some (some s) ∧
      s.rate_below_300 = 2 / 10 ∧ s.rate_above_300 = 9 / 100 ∧
      ∃ r ∈ rows, r.seller_id = 3 ∧ r.rate_below_300 ≠ s.rate_below_300 ∧
        r.rate_above_300 ≠ s.rate_above_300 := by
  obtain ⟨st1, G1, sa1, sc1, sf1, ba1, bc1, bf1, hadd1, hpost1⟩ := add_transaction_fresh
    State.init [] ⟨1, 7, 3, 200, 1 / 10, 20, "2024-01-20 10:00", 1 / 10, 8 / 100⟩ Inv_init
    (fun e he => by cases he) (by decide)
  have hG1 : G1 = [(1, ⟨1, 7, 3, 200, 1 / 10, 20, "2024-01-20 10:00", 1 / 10, 8 / 100⟩)] :=
    List.perm_singleton.mp hpost1.global_placed.perm
  obtain ⟨st2, G2, sa, sc, sf, ba, bc, bf, hadd2, hpost2⟩ := add_transaction_fresh
    st1 G1 ⟨2, 7, 3, 400, 9 / 100, 69, "2024-02-01 09:30", 2 / 10, 9 / 100⟩ hpost1.inv
    (fun e he => by
      rw [hG1] at he
      cases List.mem_singleton.mp he
      decide)
    (by rw [hpost1.inv.index, hG1]; decide)
  have hG2 : G2 = [(1, ⟨1, 7, 3, 200, 1 / 10, 20, "2024-01-20 10:00", 1 / 10, 8 / 100⟩),
      (2, ⟨2, 7, 3, 400, 9 / 100, 69, "2024-02-01 09:30", 2 / 10, 9 / 100⟩)] := by
    apply sorted_perm_eq hpost2.inv.strict (by decide)
    refine hpost2.global_placed.perm.trans ?_
    rw [hG1]
    exact List.Perm.swap _ _ _
  obtain ⟨hrb, hra⟩ := hpost2.seller_rates (by decide!) (by decide!)
  refine ⟨[true, true], st2, [⟨1, 7, 3, 200, 1 / 10, 8 / 100, "2024-01-20 10:00"⟩,
      ⟨2, 7, 3, 400, 2 / 10, 9 / 100, "2024-02-01 09:30"⟩], sf, ?_, ?_, rfl,
    lookup_in_found hpost2.inv.sellers hpost2.s_slot.1 hpost2.s_id, hrb, hra,
    ⟨⟨1, 7, 3, 200, 1 / 10, 8 / 100, "2024-01-20 10:00"⟩, List.mem_cons_self _ _, rfl, ?_, ?_⟩⟩
  · rw [run_adds]
    dsimp only [bind, Option.bind]
    rw [hadd1]; dsimp only
    rw [run_adds]
    dsimp only [bind, Option.bind]
    rw [hadd2]; dsimp only
    rfl
  · rw [save_spec st2 G2 hpost2.inv, hG2]
    decide!
  · rw [hrb]
    decide!
  · rw [hra]
    decide!

/-- C19, amended: in every reachable state `save_transactions_to_file` returns; with `G` the
entries of the global index, it writes one seven-field line per entry of `G`, by strictly
ascending transaction id, and the line of a transaction shows the id, the buyer id, the
seller id and the timestamp stored in the transaction itself, and its energy and its two
rates written with two decimals (`round2`, the rounding of the format `%.2f`): the rate
fields are the rates the transaction was created with, rounded.  Amounts are exact
rationals. -/
theorem C19_export_rows (st : State) (hr : Reach st) :
    ∃ G rows, traverse st.global_transaction_tree = some G ∧
      save_transactions_to_file st = some rows ∧
      rows = G.map (fun e => (⟨e.2.transaction_id, e.2.buyer_id, e.2.seller_id,
        round2 e.2.energy_kwh, round2 e.2.rate_below_300, round2 e.2.rate_above_300,
        e.2.datetime⟩ : ExportRow)) ∧
      rows.map ExportRow.transaction_id = G.map Prod.fst ∧
      (rows.map ExportRow.transaction_id).Sorted (fun a b => a < b) := by
  obtain ⟨G, hinv⟩ := hr.inv
  have hid : (G.map fun e => export_row e.2).map ExportRow.transaction_id = G.map Prod.fst := by
    rw [List.map_map]
    exact List.map_congr_left fun e he => (hinv.keyed e he).symm
  refine ⟨G, _, traverse_spec _ _ hinv.global, save_spec st G hinv, rfl, hid, ?_⟩
  rw [hid]
  exact hinv.strict

/-- C19 after transaction 2 (400 kWh at the rates 0.20 and 0.09) and then transaction 1
(200.125 kWh at the rates 0.375 and 0.08) have been recorded: two lines, for transaction 1 and
then for transaction 2, each with the rates of its transaction in two decimals: 200.125 is
written as 200.12 and 0.375 as 0.38. -/
theorem C19_export_rows_witness :
    ∃ oks st rows,
      run_adds State.init
        [⟨2, 7, 3, 400, 9 / 100, 69, "2024-02-01 09:30", 2 / 10, 9 / 100⟩,
          ⟨1, 8, 4, 1601 / 8, 3 / 8, 20, "2024-01-20 10:00", 3 / 8, 8 / 100⟩] =
        some (oks, st) ∧
      save_transactions_to_file st = some rows ∧
      rows = [⟨1, 8, 4, 20012 / 100, 38 / 100, 8 / 100, "2024-01-20 10:00"⟩,
        ⟨2, 7, 3, 400, 2 / 10, 9 / 100, "2024-02-01 09:30"⟩] := by
  obtain ⟨oks, st, G, hrun, hinv, hreach, _, hperm⟩ := run_adds_all
    [⟨2, 7, 3, 400, 9 / 100, 69, "2024-02-01 09:30", 2 / 10, 9 / 100⟩,
      ⟨1, 8, 4, 1601 / 8, 3 / 8, 20, "2024-01-20 10:00", 3 / 8, 8 / 100⟩]
    State.init [] Inv_init Reach.init (by decide) (fun e he => by cases he) (by decide)
  obtain ⟨G1, rows, hG1, hrows, heq, _, _⟩ := C19_export_rows st hreach
  have hG : traverse st.global_transaction_tree = some G := traverse_spec _ _ hinv.global
  rw [hG] at hG1
  cases hG1
  have hGeq : G = [(1, ⟨1, 8, 4, 1601 / 8, 3 / 8, 20, "2024-01-20 10:00", 3 / 8, 8 / 100⟩),
      (2, ⟨2, 7, 3, 400, 9 / 100, 69, "2024-02-01 09:30", 2 / 10, 9 / 100⟩)] := by
    apply sorted_perm_eq hinv.strict (by decide)
    rw [List.append_nil] at hperm
    exact hperm.trans (List.Perm.swap _ _ _)
  refine ⟨oks, st, rows, hrun, hrows, ?_⟩
  rw [heq, hGeq]
  decide!

end Ledger

namespace Ledger

/-! ## Counting pairs -/

theorem bump_none_iff (b s : Int) : ∀ (P : List Pair),
    bump b s P = none ↔ (b, s) ∉ P.map Pair.key := by
  intro P
  induction P with
  | nil => simp [bump]
  | cons p P ih =>
    rw [bump, List.map_cons, List.mem_cons, not_or]
    by_cases h : p.buyer_id = b ∧ p.seller_id = s
    · rw [if_pos h]
      constructor
      · intro h1; cases h1
      · intro h1
        exact absurd (by unfold Pair.key; rw [h.1, h.2]) h1.1
    · rw [if_neg h, Option.map_eq_none', ih]
      constructor
      · intro h1
        refine ⟨?_, h1⟩
        intro he
        unfold Pair.key at he
        exact h ⟨(Prod.mk.inj he).1.symm, (Prod.mk.inj he).2.symm⟩
      · intro h1; exact h1.2

theorem bump_some (b s : Int) : ∀ (P P1 : List Pair), bump b s P = some P1 →
    ∃ Q p R, P = Q ++ p :: R ∧ p.key = (b, s) ∧ (b, s) ∉ Q.map Pair.key ∧
      P1 = Q ++ { p with transaction_count := p.transaction_count + 1 } :: R := by
  intro P
  induction P with
  | nil => intro P1 h; cases h
  | cons p P ih =>
    intro P1 h
    rw [bump] at h
    by_cases hc : p.buyer_id = b ∧ p.seller_id = s
    · rw [if_pos hc] at h
      cases h
      exact ⟨[], p, P, rfl, (by unfold Pair.key; rw [hc.1, hc.2]),
        (fun hm => by cases hm), rfl⟩
    · rw [if_neg hc] at h
      cases hb : bump b s P with
      | none => rw [hb] at h; cases h
      | some P2 =>
        rw [hb] at h
        cases h
        obtain ⟨Q, p1, R, h1, h2, h3, h4⟩ := ih P2 hb
        refine ⟨p :: Q, p1, R, by rw [h1]; rfl, h2, ?_, by rw [h4]; rfl⟩
        rw [List.map_cons, List.mem_cons, not_or]
        refine ⟨?_, h3⟩
        intro he
        unfold Pair.key at he
        exact hc ⟨(Prod.mk.inj he).1.symm, (Prod.mk.inj he).2.symm⟩

theorem Tally.nil : Tally [] [] :=
  { nodup := List.nodup_nil
    count := fun p hp => by cases hp
    mem := fun k => by simp
    order := List.Pairwise.nil
    total := rfl }

theorem Tally.length_le {P : List Pair} {ks : List (Int × Int)} (h : Tally P ks) :
    P.length ≤ ks.length := by
  have h1 := (h.nodup.subperm (fun k hk => (h.mem k).mp hk)).length_le
  rw [List.length_map] at h1
  exact h1

end Ledger

namespace Ledger

theorem first_index_append_of_mem {k : Int × Int} : ∀ {ks : List (Int × Int)}
    (x : List (Int × Int)), k ∈ ks → first_index k (ks ++ x) = first_index k ks := by
  intro ks
  induction ks with
  | nil => intro x h; cases h
  | cons y ks ih =>
    intro x h
    rw [List.cons_append, first_index, first_index]
    by_cases hy : y = k
    · rw [if_pos hy, if_pos hy]
    · rw [if_neg hy, if_neg hy]
      rcases List.mem_cons.mp h with h1 | h1
      · exact absurd h1.symm hy
      · rw [ih x h1]

theorem first_index_append_of_not_mem {k : Int × Int} : ∀ {ks : List (Int × Int)}
    (x : List (Int × Int)), k ∉ ks →
    first_index k (ks ++ x) = ks.length + first_index k x := by
  intro ks
  induction ks with
  | nil => intro x _; rw [List.nil_append, List.length_nil, Nat.zero_add]
  | cons y ks ih =>
    intro x h
    rw [List.mem_cons, not_or] at h
    rw [List.cons_append, first_index, if_neg (fun hy => h.1 hy.symm), ih x h.2,
      List.length_cons]
    omega

theorem first_index_lt {k : Int × Int} : ∀ {ks : List (Int × Int)}, k ∈ ks →
    first_index k ks < ks.length := by
  intro ks
  induction ks with
  | nil => intro h; cases h
  | cons y ks ih =>
    intro h
    rw [first_index, List.length_cons]
    by_cases hy : y = k
    · rw [if_pos hy]
      omega
    · rw [if_neg hy]
      rcases List.mem_cons.mp h with h1 | h1
      · exact absurd h1.symm hy
      · have := ih h1
        omega

theorem order_append {ks : List (Int × Int)} {L : List (Int × Int)} (x : List (Int × Int))
    (hm : ∀ k ∈ L, k ∈ ks)
    (h : L.Pairwise fun k1 k2 => first_index k1 ks < first_index k2 ks) :
    L.Pairwise fun k1 k2 => first_index k1 (ks ++ x) < first_index k2 (ks ++ x) := by
  refine h.imp_of_mem ?_
  intro a b ha hb hab
  rw [first_index_append_of_mem x (hm a ha), first_index_append_of_mem x (hm b hb)]
  exact hab

theorem count_append_other {ks : List (Int × Int)} {k q : Int × Int} (h : q ≠ k) :
    (ks ++ [k]).count q = ks.count q := by
  rw [List.count_append, List.count_singleton, if_neg (by
    intro he
    exact h (eq_of_beq he).symm)]
  rfl

theorem count_append_self (ks : List (Int × Int)) (k : Int × Int) :
    (ks ++ [k]).count k = ks.count k + 1 := by
  rw [List.count_append, List.count_singleton, if_pos (by simp)]

/-- One round of the innermost loop of `sort_pairs_by_transaction_count` keeps the tally, as
long as the array is not full. -/
theorem tally_step {P : List Pair} {ks : List (Int × Int)} (h : Tally P ks)
    (hl : P.length < MAX_BUYERS * MAX_SELLERS) (b : Int) (t : Transaction) :
    Tally (pair_step b P t) (ks ++ [(b, t.seller_id)]) := by
  unfold pair_step
  cases hb : bump b t.seller_id P with
  | none =>
    dsimp only
    rw [if_pos hl]
    have hk : (b, t.seller_id) ∉ P.map Pair.key := (bump_none_iff _ _ P).mp hb
    have hks : (b, t.seller_id) ∉ ks := fun hm => hk ((h.mem _).mpr hm)
    refine ⟨?_, ?_, ?_, ?_, ?_⟩
    · rw [List.map_append, List.nodup_append]
      refine ⟨h.nodup, List.nodup_singleton _, ?_⟩
      intro k hk1 hk2
      rw [List.map_singleton, List.mem_singleton] at hk2
      rw [hk2] at hk1
      exact hk hk1
    · intro p hp
      rcases List.mem_append.mp hp with h1 | h1
      · rw [count_append_other (fun he => hk (by rw [← he]; exact List.mem_map_of_mem _ h1))]
        exact h.count p h1
      · rw [List.mem_singleton] at h1
        rw [h1]
        show 1 = (ks ++ [(b, t.seller_id)]).count (b, t.seller_id)
        rw [count_append_self, List.count_eq_zero.mpr hks]
    · intro k
      rw [List.map_append, List.mem_append, List.mem_append, h.mem k]
      rfl
    · rw [List.map_append, List.pairwise_append]
      refine ⟨order_append _ (fun k hk1 => (h.mem k).mp hk1) h.order,
        List.pairwise_singleton _ _, ?_⟩
      intro k1 hk1 k2 hk2
      rw [List.map_singleton, List.mem_singleton] at hk2
      have hk3 : k2 = (b, t.seller_id) := hk2
      rw [hk3, first_index_append_of_mem _ ((h.mem k1).mp hk1),
        first_index_append_of_not_mem _ hks]
      exact lt_of_lt_of_le (first_index_lt ((h.mem k1).mp hk1)) (Nat.le_add_right _ _)
    · rw [List.map_append, List.sum_append, h.total, List.length_append]
      rfl
  | some P1 =>
    dsimp only
    obtain ⟨Q, p, R, hP, hpk, _, hP1⟩ := bump_some _ _ P P1 hb
    have hkeys : P1.map Pair.key = P.map Pair.key := by
      rw [hP1, hP, List.map_append, List.map_append, List.map_cons, List.map_cons]
      rfl
    have hnd := h.nodup
    rw [hP, List.map_append, List.map_cons, hpk] at hnd
    have hQ : (b, t.seller_id) ∉ Q.map Pair.key := fun hm =>
      (List.nodup_append.mp hnd).2.2 hm (List.mem_cons_self _ _)
    have hR : (b, t.seller_id) ∉ R.map Pair.key :=
      (List.nodup_cons.mp (List.nodup_append.mp hnd).2.1).1
    have hpP : p ∈ P := by rw [hP]; exact List.mem_append_right _ (List.mem_cons_self _ _)
    have hin : (b, t.seller_id) ∈ ks :=
      (h.mem _).mp (by rw [← hpk]; exact List.mem_map_of_mem _ hpP)
    refine ⟨by rw [hkeys]; exact h.nodup, ?_, ?_, ?_, ?_⟩
    · intro q hq
      rw [hP1] at hq
      rcases List.mem_append.mp hq with h1 | h1
      · rw [count_append_other (fun he => hQ (by rw [← he]; exact List.mem_map_of_mem _ h1))]
        exact h.count q (by rw [hP]; exact List.mem_append_left _ h1)
      · rcases List.mem_cons.mp h1 with h2 | h2
        · rw [h2]
          show p.transaction_count + 1 = (ks ++ [(b, t.seller_id)]).count p.key
          rw [hpk, count_append_self, h.count p hpP, hpk]
        · rw [count_append_other (fun he => hR (by rw [← he]; exact List.mem_map_of_mem _ h2))]
          exact h.count q (by
            rw [hP]
            exact List.mem_append_right _ (List.mem_cons_of_mem _ h2))
    · intro k
      rw [hkeys, h.mem k, List.mem_append, List.mem_singleton]
      constructor
      · intro h1; exact Or.inl h1
      · rintro (h1 | h1)
        · exact h1
        · rw [h1]; exact hin
    · rw [hkeys]
      exact order_append _ (fun k hk1 => (h.mem k).mp hk1) h.order
    · rw [hP1, List.map_append, List.map_cons, List.sum_append, List.sum_cons,
        List.length_append, ← h.total, hP, List.map_append, List.map_cons, List.sum_append,
        List.sum_cons]
      show _ + (p.transaction_count + 1 + _) = _
      rw [List.length_singleton]
      omega

end Ledger

namespace Ledger

/-! ## Loops with a guard that stays true -/

theorem scan_list_guard {V σ : Type} {h : Heap V} (go : σ → Bool) (step : σ → V → Option σ) :
    ∀ (L : List (Nat × node V × List (Int × V))), leaves_hold h L → ∀ (s : σ),
    (∀ pre post, ((L.map fun x => x.2.2).flatten).map Prod.snd = pre ++ post → post ≠ [] →
      ∀ s1, loop_list step (fun _ => false) pre s = some s1 → go s1 = true) →
    scan_list go (fun s1 _ leaf => leaf_loop step (fun _ => false) leaf leaf.num_keys 0 s1)
        (L.map fun x => (x.1, x.2.1)) s
      = loop_list step (fun _ => false) (((L.map fun x => x.2.2).flatten).map Prod.snd) s := by
  intro L
  induction L with
  | nil => intro _ s _; rfl
  | cons x L ih =>
    intro hh s hgo
    obtain ⟨a, n, g⟩ := x
    have hx := hh (a, n, g) (List.mem_cons_self _ _)
    have hrest : leaves_hold h L := fun y hy => hh y (List.mem_cons_of_mem _ hy)
    have hlen : g.length = n.num_keys := hx.2.1.entry_count
    have hne : g ≠ [] := by
      intro h0
      rw [h0, List.length_nil] at hlen
      have := hx.2.2
      dsimp only at this
      omega
    simp only [List.map_cons, List.flatten_cons, List.map_append] at hgo ⊢
    have hgo0 : go s = true := hgo [] _ (List.nil_append _).symm (by
      intro h0
      rw [List.append_eq_nil, List.map_eq_nil_iff] at h0
      exact hne h0.1) s rfl
    rw [scan_list, if_pos hgo0, loop_list_append]
    rw [hx.2.1.loop]
    cases hl : loop_list step (fun _ => false) (g.map Prod.snd) s with
    | none => rfl
    | some s1 =>
      dsimp only [Option.bind]
      refine ih hrest s1 ?_
      intro pre post hpp hpost s2 hs2
      refine hgo (g.map Prod.snd ++ pre) post (by rw [hpp, List.append_assoc]) hpost s2 ?_
      rw [loop_list_append, hl]
      exact hs2

/-- A guarded walk over the leaves of a well-formed index whose guard holds before every
entry is a loop over the entries of the index. -/
theorem scan_guard {V σ : Type} (idx : Index V) (es : List (Int × V)) (hw : WF idx es)
    (go : σ → Bool) (step : σ → V → Option σ) (s : σ)
    (hgo : ∀ pre post, es.map Prod.snd = pre ++ post → post ≠ [] →
      ∀ s1, loop_list step (fun _ => false) pre s = some s1 → go s1 = true) :
    scan idx go (fun s1 _ leaf => leaf_loop step (fun _ => false) leaf leaf.num_keys 0 s1) s
      = loop_list step (fun _ => false) (es.map Prod.snd) s := by
  obtain ⟨L, hh, he, _, hc⟩ := scan_spec idx es hw
  rw [hc, scan_list_guard go step L hh s (by rw [he]; exact hgo), he]

/-- The rounds of the innermost loop for the transactions `ts` of buyer `b`. -/
theorem tally_loop (b : Int) : ∀ (ts : List Transaction) (P : List Pair) (ks : List (Int × Int)),
    Tally P ks → ks.length + ts.length < MAX_BUYERS * MAX_SELLERS →
    ∃ P1, loop_list (fun ps t => some (pair_step b ps t)) (fun _ => false) ts P = some P1 ∧
      Tally P1 (ks ++ ts.map fun t => (b, t.seller_id)) := by
  intro ts
  induction ts with
  | nil =>
    intro P ks h _
    exact ⟨P, rfl, by rw [List.map_nil, List.append_nil]; exact h⟩
  | cons t ts ih =>
    intro P ks h hl
    rw [List.length_cons] at hl
    have h1 := tally_step h (lt_of_le_of_lt h.length_le (by omega)) b t
    obtain ⟨P1, hP1, hT⟩ := ih (pair_step b P t) (ks ++ [(b, t.seller_id)]) h1 (by
      rw [List.length_append, List.length_singleton]
      omega)
    refine ⟨P1, ?_, ?_⟩
    · rw [loop_list]
      exact hP1
    · rw [List.map_cons]
      rw [List.append_assoc] at hT
      exact hT

end Ledger

namespace Ledger

/-- The loop over the index of one buyer keeps the tally. -/
theorem buyer_pairs_spec (buyer : BuyerKey) (tsb : List (Int × Transaction))
    (hw : WF buyer.transaction_tree tsb) (P : List Pair) (ks : List (Int × Int))
    (h : Tally P ks) (hl : ks.length + tsb.length < MAX_BUYERS * MAX_SELLERS) :
    ∃ P1, buyer_pairs buyer P = some P1 ∧
      Tally P1 (ks ++ tsb.map fun e => (buyer.buyer_id, e.2.seller_id)) := by
  obtain ⟨P1, hP1, hT⟩ := tally_loop buyer.buyer_id (tsb.map Prod.snd) P ks h
    (by rw [List.length_map]; exact hl)
  refine ⟨P1, ?_, by rw [List.map_map] at hT; exact hT⟩
  unfold buyer_pairs
  rw [scan_guard _ tsb hw _ (fun ps1 trans => some (pair_step buyer.buyer_id ps1 trans)) P ?_]
  · exact hP1
  · intro pre post hpp _ s1 hs1
    have hlen := congrArg List.length hpp
    rw [List.length_map, List.length_append] at hlen
    obtain ⟨P2, hP2, hT2⟩ := tally_loop buyer.buyer_id pre P ks h (by omega)
    rw [hP2] at hs1
    cases hs1
    have := hT2.length_le
    rw [List.length_append, List.length_map] at this
    exact decide_eq_true (by omega)

theorem pair_scan_cons (b : BuyerKey) (B : List BuyerKey) (G : List (Int × Transaction)) :
    pair_scan (b :: B) G
      = ((of_buyer G b.buyer_id).map fun e => (b.buyer_id, e.2.seller_id)) ++ pair_scan B G := by
  unfold pair_scan
  rw [List.flatMap_cons]

theorem pair_scan_append (B1 B2 : List BuyerKey) (G : List (Int × Transaction)) :
    pair_scan (B1 ++ B2) G = pair_scan B1 G ++ pair_scan B2 G := by
  unfold pair_scan
  rw [List.flatMap_append]

/-- The loop over the buyers `B`, given by their pointers, keeps the tally. -/
theorem tally_buyers (st : State) (G : List (Int × Transaction)) :
    ∀ (es : List (Int × Nat)) (B : List BuyerKey),
    List.Forall₂ (fun e r => st.buyer_mem[e.2]? = some r) es B →
    (∀ b ∈ B, WF b.transaction_tree (of_buyer G b.buyer_id)) →
    ∀ (P : List Pair) (ks : List (Int × Int)), Tally P ks →
    ks.length + (pair_scan B G).length < MAX_BUYERS * MAX_SELLERS →
    ∃ P1, loop_list (fun ps a => (st.buyer_mem[a]?).bind fun buyer => buyer_pairs buyer ps)
        (fun _ => false) (es.map Prod.snd) P = some P1 ∧
      Tally P1 (ks ++ pair_scan B G) := by
  intro es B hf
  induction hf with
  | nil =>
    intro _ P ks h _
    exact ⟨P, rfl, by
      unfold pair_scan
      rw [List.flatMap_nil, List.append_nil]
      exact h⟩
  | @cons e b es1 B1 hab _ ih =>
    intro hwf P ks h hl
    rw [pair_scan_cons, List.length_append, List.length_map] at hl
    obtain ⟨P1, hP1, hT1⟩ := buyer_pairs_spec b _ (hwf b (List.mem_cons_self _ _)) P ks h
      (by omega)
    obtain ⟨P2, hP2, hT2⟩ := ih (fun x hx => hwf x (List.mem_cons_of_mem _ hx)) P1 _ hT1 (by
      rw [List.length_append, List.length_map]
      omega)
    refine ⟨P2, ?_, ?_⟩
    · rw [List.map_cons, loop_list, hab, Option.some_bind, hP1, Option.some_bind,
        if_neg (by decide)]
      exact hP2
    · rw [pair_scan_cons, ← List.append_assoc]
      exact hT2

end Ledger

namespace Ledger

/-! ## The sub-lists of the global index, buyer by buyer -/

theorem filter_disjoint_perm {α : Type} (p q : α → Bool) (hd : ∀ e, ¬ (p e = true ∧ q e = true)) :
    ∀ (G : List α), (G.filter p ++ G.filter q).Perm (G.filter fun e => p e || q e) := by
  intro G
  induction G with
  | nil => exact List.Perm.refl _
  | cons e G ih =>
    cases hp : p e with
    | true =>
      have hq : q e = false := by
        cases hq : q e with
        | false => rfl
        | true => exact absurd ⟨hp, hq⟩ (hd e)
      rw [List.filter_cons_of_pos hp, List.filter_cons_of_neg (by rw [hq]; decide),
        List.filter_cons_of_pos (by rw [hp]; rfl), List.cons_append]
      exact ih.cons e
    | false =>
      cases hq : q e with
      | true =>
        rw [List.filter_cons_of_neg (by rw [hp]; decide), List.filter_cons_of_pos hq,
          List.filter_cons_of_pos (by rw [hp, hq]; rfl)]
        exact List.perm_middle.trans (ih.cons e)
      | false =>
        rw [List.filter_cons_of_neg (by rw [hp]; decide),
          List.filter_cons_of_neg (by rw [hq]; decide),
          List.filter_cons_of_neg (by rw [hp, hq]; decide)]
        exact ih

theorem partition_filter {α : Type} (f : α → Int) (G : List α) : ∀ (I : List Int), I.Nodup →
    (I.flatMap fun i => G.filter fun e => decide (f e = i)).Perm
      (G.filter fun e => decide (f e ∈ I)) := by
  intro I
  induction I with
  | nil =>
    intro _
    rw [List.flatMap_nil]
    have : G.filter (fun e => decide (f e ∈ ([] : List Int))) = [] := by
      rw [List.filter_eq_nil_iff]
      intro e _ h
      rw [decide_eq_true_eq] at h
      cases h
    rw [this]
  | cons i I ih =>
    intro hnd
    rw [List.nodup_cons] at hnd
    rw [List.flatMap_cons]
    refine ((ih hnd.2).append_left _).trans ?_
    refine (filter_disjoint_perm _ _ ?_ G).trans ?_
    · intro e h
      rw [decide_eq_true_eq, decide_eq_true_eq] at h
      exact hnd.1 (h.1 ▸ h.2)
    · have : (fun e => decide (f e = i) || decide (f e ∈ I))
          = fun e => decide (f e ∈ i :: I) := by
        funext e
        rw [← Bool.decide_or]
        exact decide_eq_decide.mpr List.mem_cons.symm
      rw [this]

/-- The sub-lists of `G` for the ids of `I`, one after the other, are a rearrangement of `G`
when the ids of `I` are distinct and cover `G`. -/
theorem partition_perm {α : Type} (f : α → Int) (G : List α) (I : List Int) (hnd : I.Nodup)
    (hc : ∀ e ∈ G, f e ∈ I) :
    (I.flatMap fun i => G.filter fun e => decide (f e = i)).Perm G := by
  refine (partition_filter f G I hnd).trans ?_
  rw [List.filter_eq_self.mpr (fun e he => decide_eq_true (hc e he))]

theorem pair_scan_eq (G : List (Int × Transaction)) : ∀ (B : List BuyerKey),
    pair_scan B G = (((B.map BuyerKey.buyer_id).flatMap fun i =>
      G.filter fun e => decide (e.2.buyer_id = i)).map
        fun e => (e.2.buyer_id, e.2.seller_id)) := by
  intro B
  induction B with
  | nil => rfl
  | cons b B ih =>
    rw [pair_scan_cons, List.map_cons, List.flatMap_cons, List.map_append, ← ih]
    congr 1
    unfold of_buyer
    apply List.map_congr_left
    intro e he
    have h := (List.mem_filter.mp he).2
    rw [decide_eq_true_eq] at h
    rw [h]

/-- The visited pairs are, up to order, the pairs of the entries of the global index. -/
theorem pair_scan_perm (G : List (Int × Transaction)) (B : List BuyerKey)
    (hnd : (B.map BuyerKey.buyer_id).Nodup)
    (hc : ∀ e ∈ G, e.2.buyer_id ∈ B.map BuyerKey.buyer_id) :
    (pair_scan B G).Perm (G.map fun e => (e.2.buyer_id, e.2.seller_id)) := by
  rw [pair_scan_eq]
  exact (partition_perm (fun e : Int × Transaction => e.2.buyer_id) G _ hnd hc).map _

end Ledger

namespace Ledger

theorem forall2_lookup_mem {R : Type} {mem : List R} : ∀ {es : List (Int × Nat)} {B : List R},
    List.Forall₂ (fun e r => mem[e.2]? = some r) es B → ∀ b ∈ B, b ∈ mem := by
  intro es B h b hb
  obtain ⟨e, _, he⟩ := forall2_mem_right h b hb
  exact List.getElem?_mem he

/-- The collecting loops of `sort_pairs_by_transaction_count`, when the global index has fewer
entries than the array has rows: the array is the tally of the visited pairs. -/
theorem collect_pairs_spec (st : State) (G : List (Int × Transaction)) (hinv : Inv st G)
    (hb : Books st G) (hl : G.length < MAX_BUYERS * MAX_SELLERS) :
    ∃ B P, buyers_in_order st = some B ∧
      (B.map BuyerKey.buyer_id).Sorted (fun a b => a < b) ∧
      collect_pairs st = some P ∧ Tally P (pair_scan B G) ∧
      (pair_scan B G).Perm (G.map fun e => (e.2.buyer_id, e.2.seller_id)) := by
  obtain ⟨eb, hw, _, _, hndm⟩ := id hinv.buyers
  have hteb := traverse_spec _ _ hw
  obtain ⟨hperm, hpts⟩ := hinv.buyers.keys_perm hteb
  obtain ⟨B, hB, hBid, hF⟩ := deref_dir BuyerKey.buyer_id st.buyer_mem eb hpts
  have hBnd : (B.map BuyerKey.buyer_id).Nodup := by
    rw [hBid]
    exact hperm.nodup_iff.mpr hndm
  have hBsorted : (B.map BuyerKey.buyer_id).Sorted (fun a b => a < b) := by
    rw [hBid]
    exact List.Sorted.lt_of_le hw.asc (hperm.nodup_iff.mpr hndm)
  have hBmem : ∀ b ∈ B, b ∈ st.buyer_mem := forall2_lookup_mem hF
  have hwf : ∀ b ∈ B, WF b.transaction_tree (of_buyer G b.buyer_id) :=
    fun b hbB => hb.buyer_index b (hBmem b hbB)
  have hps : (pair_scan B G).Perm (G.map fun e => (e.2.buyer_id, e.2.seller_id)) :=
    pair_scan_perm G B hBnd (fun e he => by
      rw [hBid]
      exact hperm.mem_iff.mpr (hinv.known e he))
  have hlen : (pair_scan B G).length = G.length := by
    rw [hps.length_eq, List.length_map]
  obtain ⟨P, hP, hT⟩ := tally_buyers st G eb B hF hwf [] [] Tally.nil (by
    rw [hlen, List.length_nil, Nat.zero_add]
    exact hl)
  rw [List.nil_append] at hT
  refine ⟨B, P, ?_, hBsorted, ?_, hT, hps⟩
  · unfold buyers_in_order
    dsimp only [bind, Option.bind]
    rw [hteb]; dsimp only
    exact hB
  · unfold collect_pairs
    rw [scan_guard _ eb hw _
      (fun ps a => (st.buyer_mem[a]?).bind fun buyer => buyer_pairs buyer ps) [] ?_]
    · exact hP
    · intro pre post hpp _ s1 hs1
      have hpre : pre = (eb.take pre.length).map Prod.snd := by
        rw [List.map_take, hpp, List.take_left']
        rfl
      have hsplit : (pair_scan (B.take pre.length) G).length ≤ (pair_scan B G).length := by
        conv_rhs => rw [← List.take_append_drop pre.length B]
        rw [pair_scan_append, List.length_append]
        exact Nat.le_add_right _ _
      obtain ⟨P2, hP2, hT2⟩ := tally_buyers st G (eb.take pre.length) (B.take pre.length)
        (List.forall₂_take pre.length hF)
        (fun b hbB => hwf b (List.mem_of_mem_take hbB)) [] [] Tally.nil (by
          rw [List.length_nil, Nat.zero_add]
          omega)
      rw [← hpre, hs1] at hP2
      cases hP2
      have := hT2.length_le
      rw [List.nil_append] at this
      exact decide_eq_true (by omega)

end Ledger

namespace Ledger

theorem count_pairs (b s : Int) : ∀ (G : List (Int × Transaction)),
    (G.map fun e => (e.2.buyer_id, e.2.seller_id)).count (b, s)
      = (G.filter fun e => decide (e.2.buyer_id = b ∧ e.2.seller_id = s)).length := by
  intro G
  induction G with
  | nil => rfl
  | cons e G ih =>
    rw [List.map_cons, List.count_cons, ih, List.filter_cons]
    by_cases h : e.2.buyer_id = b ∧ e.2.seller_id = s
    · rw [if_pos (decide_eq_true h), List.length_cons,
        if_pos (by rw [h.1, h.2]; exact beq_self_eq_true _)]
    · have h1 : ¬ ((e.2.buyer_id, e.2.seller_id) == (b, s)) = true := by
        intro he
        have h2 := eq_of_beq he
        exact h ⟨(Prod.mk.inj h2).1, (Prod.mk.inj h2).2⟩
      have h3 : ¬ decide (e.2.buyer_id = b ∧ e.2.seller_id = s) = true := by
        rw [decide_eq_true_eq]
        exact h
      rw [if_neg h1, if_neg h3]
      rfl

/-- A stable sort keeps, among the rows with equal keys, every order relation that the rows
had before. -/
theorem stable_pairwise {α K : Type} [DecidableEq K] (key : α → K) (R : α → α → Prop)
    {out P : List α}
    (hst : ∀ e : K, out.filter (fun z => decide (key z = e)) = P.filter (fun z => decide (key z = e)))
    (hP : P.Pairwise R) : out.Pairwise fun p q => key p = key q → R p q := by
  rw [List.pairwise_iff_forall_sublist]
  intro a b hab heq
  have h1 := hab.filter (fun z => decide (key z = key a))
  rw [List.filter_cons, if_pos (decide_eq_true rfl), List.filter_cons,
    if_pos (decide_eq_true heq.symm), List.filter_nil, hst] at h1
  exact (List.pairwise_iff_forall_sublist.mp hP) (h1.trans (List.filter_sublist _))

/-- What `sort_pairs_by_transaction_count` prints in a state with the invariant whose global
index has fewer entries than the array has rows. -/
theorem sort_pairs_spec (st : State) (G : List (Int × Transaction)) (hinv : Inv st G)
    (hb : Books st G) (hl : G.length < MAX_BUYERS * MAX_SELLERS) :
    ∃ B out, buyers_in_order st = some B ∧
      (B.map BuyerKey.buyer_id).Sorted (fun a b => a < b) ∧
      sort_pairs_by_transaction_count st = some out ∧
      (out.map Pair.key).Nodup ∧
      (∀ b s, (b, s) ∈ out.map Pair.key ↔ ∃ e ∈ G, e.2.buyer_id = b ∧ e.2.seller_id = s) ∧
      (∀ p ∈ out, p.transaction_count = (G.filter fun e =>
        decide (e.2.buyer_id = p.buyer_id ∧ e.2.seller_id = p.seller_id)).length) ∧
      (out.map Pair.transaction_count).sum = G.length ∧
      out.Pairwise (fun p q => q.transaction_count ≤ p.transaction_count) ∧
      out.Pairwise (fun p q => p.transaction_count = q.transaction_count →
        first_index p.key (pair_scan B G) < first_index q.key (pair_scan B G)) := by
  obtain ⟨B, P, hB, hBs, hP, hT, hps⟩ := collect_pairs_spec st G hinv hb hl
  obtain ⟨out, hsort, hsorted, hp, hst⟩ := bubble_sort_spec
    (fun (x y : Pair) => decide (x.transaction_count < y.transaction_count))
    (fun p => -(p.transaction_count : Int))
    (fun x y => by rw [decide_eq_true_eq]; dsimp only; omega) P
  refine ⟨B, out, hB, hBs, ?_, (hp.map Pair.key).nodup_iff.mpr hT.nodup, ?_, ?_, ?_, ?_, ?_⟩
  · unfold sort_pairs_by_transaction_count
    dsimp only [bind, Option.bind]
    rw [hP]; dsimp only
    exact hsort
  · intro b s
    rw [(hp.map Pair.key).mem_iff, hT.mem, hps.mem_iff, List.mem_map]
    constructor
    · rintro ⟨e, he, h⟩
      exact ⟨e, he, (Prod.mk.inj h).1, (Prod.mk.inj h).2⟩
    · rintro ⟨e, he, h1, h2⟩
      exact ⟨e, he, by rw [h1, h2]⟩
  · intro p hpm
    rw [hT.count p (hp.mem_iff.mp hpm), ← count_pairs p.buyer_id p.seller_id G]
    exact hps.countP_eq _
  · rw [(hp.map Pair.transaction_count).sum_eq, hT.total, hps.length_eq, List.length_map]
  · refine hsorted.imp ?_
    intro p q h
    omega
  · have h1 : P.Pairwise fun p q =>
        first_index p.key (pair_scan B G) < first_index q.key (pair_scan B G) := by
      have := hT.order
      rw [List.pairwise_map] at this
      exact this
    refine (stable_pairwise (fun p : Pair => -(p.transaction_count : Int)) _ hst h1).imp ?_
    intro p q h heq
    exact h (by rw [heq])

end Ledger

namespace Ledger

/-- C17: in a reachable state whose global index `G` has at most `MAX_TRANSACTIONS` entries,
`sort_pairs_by_transaction_count` returns.  The rows have pairwise distinct (buyer id, seller
id); a pair has a row exactly when some entry of `G` has that buyer and that seller; the count
of a row is the number of entries of `G` with that buyer and that seller, so the counts add up
to the number of entries of `G`; the rows are in non-increasing order of count; and of two
rows with the same count the one printed first is the one whose pair comes first in the scan
`pair_scan B G`: buyer after buyer in the order `B` of the buyer directory (ascending buyer
id), the transactions of a buyer by ascending transaction id. -/
theorem C17_pairs_by_count (st : State) (G : List (Int × Transaction)) (hr : Reach st)
    (hG : traverse st.global_transaction_tree = some G) (hn : G.length ≤ MAX_TRANSACTIONS) :
    ∃ B out, buyers_in_order st = some B ∧
      (B.map BuyerKey.buyer_id).Sorted (fun a b => a < b) ∧
      (G.map Prod.fst).Sorted (fun a b => a < b) ∧
      sort_pairs_by_transaction_count st = some out ∧
      (out.map Pair.key).Nodup ∧
      (∀ b s, (b, s) ∈ out.map Pair.key ↔ ∃ e ∈ G, e.2.buyer_id = b ∧ e.2.seller_id = s) ∧
      (∀ p ∈ out, p.transaction_count = (G.filter fun e =>
        decide (e.2.buyer_id = p.buyer_id ∧ e.2.seller_id = p.seller_id)).length) ∧
      (out.map Pair.transaction_count).sum = G.length ∧
      out.Pairwise (fun p q => q.transaction_count ≤ p.transaction_count) ∧
      out.Pairwise (fun p q => p.transaction_count = q.transaction_count →
        first_index p.key (pair_scan B G) < first_index q.key (pair_scan B G)) := by
  obtain ⟨hinv, hb⟩ := hr.books_of hG
  obtain ⟨B, out, h1, h2, h3, h4, h5, h6, h7, h8, h9⟩ := sort_pairs_spec st G hinv hb
    (lt_of_le_of_lt hn (by decide))
  exact ⟨B, out, h1, h2, hinv.strict, h3, h4, h5, h6, h7, h8, h9⟩

/-- C17 after three transactions, two of buyer 7 and one of buyer 8, all with seller 3: the
counts add up to 3, the rows are in non-increasing order of count, a row of the pair (7, 3)
has count 2 and a row of the pair (8, 3) has count 1. -/
theorem C17_pairs_by_count_witness :
    ∃ oks st out,
      run_adds State.init
        [⟨1, 7, 3, 200, 1 / 10, 20, "2024-01-20 10:00", 1 / 10, 8 / 100⟩,
          ⟨2, 8, 3, 400, 8 / 100, 38, "2024-02-01 09:30", 1 / 10, 8 / 100⟩,
          ⟨3, 7, 3, 100, 1 / 10, 10, "2024-02-02 09:30", 1 / 10, 8 / 100⟩] = some (oks, st) ∧
      sort_pairs_by_transaction_count st = some out ∧
      (out.map Pair.transaction_count).sum = 3 ∧
      out.Pairwise (fun p q => q.transaction_count ≤ p.transaction_count) ∧
      (∀ p ∈ out, p.buyer_id = 7 → p.seller_id = 3 → p.transaction_count = 2) ∧
      (∀ p ∈ out, p.buyer_id = 8 → p.seller_id = 3 → p.transaction_count = 1) := by
  obtain ⟨oks, st, G, hrun, hinv, hreach, _, hperm⟩ := run_adds_all
    [⟨1, 7, 3, 200, 1 / 10, 20, "2024-01-20 10:00", 1 / 10, 8 / 100⟩,
      ⟨2, 8, 3, 400, 8 / 100, 38, "2024-02-01 09:30", 1 / 10, 8 / 100⟩,
      ⟨3, 7, 3, 100, 1 / 10, 10, "2024-02-02 09:30", 1 / 10, 8 / 100⟩]
    State.init [] Inv_init Reach.init (by decide) (fun e he => by cases he) (by decide)
  have hGeq : G = [(1, ⟨1, 7, 3, 200, 1 / 10, 20, "2024-01-20 10:00", 1 / 10, 8 / 100⟩),
      (2, ⟨2, 8, 3, 400, 8 / 100, 38, "2024-02-01 09:30", 1 / 10, 8 / 100⟩),
      (3, ⟨3, 7, 3, 100, 1 / 10, 10, "2024-02-02 09:30", 1 / 10, 8 / 100⟩)] := by
    apply sorted_perm_eq hinv.strict (by decide)
    rw [List.append_nil] at hperm
    exact hperm
  obtain ⟨B, out, _, _, _, hout, _, _, hcount, hsum, hsorted, _⟩ := C17_pairs_by_count st G
    hreach (traverse_spec _ _ hinv.global) (by rw [hGeq]; decide)
  refine ⟨oks, st, out, hrun, hout, by rw [hsum, hGeq]; rfl, hsorted, ?_, ?_⟩
  · intro p hp h7 h3
    rw [hcount p hp, h7, h3, hGeq]
    decide
  · intro p hp h8 h3
    rw [hcount p hp, h8, h3, hGeq]
    decide

end Ledger

namespace Ledger

/-! ## Keys and records in the leaves -/

/-- The slots in use of a leaf that holds the entries `g`: slot `i` has the key and the
record of the `i`-th entry. -/
theorem leaf_holds.slot {V : Type} {n : node V} {g : List (Int × V)} (hn : leaf_holds n g)
    {i : Nat} (hi : i < n.num_keys) :
    ∃ e, g[i]? = some e ∧ n.keys[i]? = some e.1 ∧ n.pointers[i]? = some (Ptr.val e.2) := by
  have hlen := hn.entry_count
  have hi2 : i < g.length := by omega
  refine ⟨g[i], List.getElem?_eq_getElem hi2, ?_, ?_⟩
  · rw [getElem?_of_take_eq hn.2.2.2.1 (by rw [List.length_map]; exact hi2),
      List.getElem?_map, List.getElem?_eq_getElem hi2]
    rfl
  · rw [getElem?_of_take_eq hn.2.2.2.2 (by rw [List.length_map]; exact hi2),
      List.getElem?_map, List.getElem?_eq_getElem hi2]
    rfl

/-- The leaves that the `next` chain of a well-formed index visits hold its entries. -/
theorem WF.leaf_slots {V : Type} {idx : Index V} {es : List (Int × V)} (hw : WF idx es) :
    ∃ addrs, leaf_addrs idx = some addrs ∧
      ∀ a ∈ addrs, ∃ n, idx.heap[a]? = some n ∧ n.is_leaf = true ∧
        ∀ i, i < n.num_keys → ∃ e ∈ es, n.keys[i]? = some e.1 ∧
          n.pointers[i]? = some (Ptr.val e.2) := by
  obtain ⟨L, hh, he, _, hc⟩ := scan_spec idx es hw
  refine ⟨L.map fun x => x.1, ?_, ?_⟩
  · unfold leaf_addrs
    rw [hc, scan_list_addrs, List.nil_append, List.map_map]
    rfl
  · intro a ha
    obtain ⟨x, hx, rfl⟩ := List.mem_map.mp ha
    obtain ⟨hn, hl, _⟩ := hh x hx
    refine ⟨x.2.1, hn, hl.1, ?_⟩
    intro i hi
    obtain ⟨e, hge, hk, hp⟩ := hl.slot hi
    refine ⟨e, ?_, hk, hp⟩
    rw [← he]
    exact List.mem_flatten.mpr ⟨x.2.2, List.mem_map_of_mem _ hx, List.getElem?_mem hge⟩

/-- C27: for records whose key is the field `kf` of the record (`transaction_id`, the first
`int` of the record, in the source), every tree built from the empty index by
`insert_transaction` calls has, in every leaf that the `next` chain visits from the leftmost
leaf and at every slot `i < num_keys`, a record pointer in `pointers[i]` and the key of that
record in `keys[i]`; and the traversal returns exactly the inserted records, each as often as
it was inserted, under its own key. -/
theorem C27_keys_paired (V : Type) (kf : V → Int) (l : List V) :
    ∃ idx es addrs, insert_all Index.empty (l.map fun v => (kf v, v)) = some idx ∧
      traverse idx = some es ∧ es.Perm (l.map fun v => (kf v, v)) ∧
      (∀ e ∈ es, e.1 = kf e.2) ∧
      leaf_addrs idx = some addrs ∧
      ∀ a ∈ addrs, ∃ n, idx.heap[a]? = some n ∧ n.is_leaf = true ∧
        ∀ i, i < n.num_keys → ∃ v, n.pointers[i]? = some (Ptr.val v) ∧
          n.keys[i]? = some (kf v) ∧ (kf v, v) ∈ es := by
  obtain ⟨idx, es, h1, hw, hp⟩ := insert_all_spec (l.map fun v => (kf v, v)) Index.empty []
    (WF_empty V)
  rw [List.append_nil] at hp
  have hkey : ∀ e ∈ es, e.1 = kf e.2 := by
    intro e he
    obtain ⟨v, _, rfl⟩ := List.mem_map.mp (hp.mem_iff.mp he)
    rfl
  obtain ⟨addrs, haddrs, hslots⟩ := hw.leaf_slots
  refine ⟨idx, es, addrs, h1, traverse_spec _ _ hw, hp, hkey, haddrs, ?_⟩
  intro a ha
  obtain ⟨n, hn, hleaf, hs⟩ := hslots a ha
  refine ⟨n, hn, hleaf, ?_⟩
  intro i hi
  obtain ⟨e, he, hk, hpt⟩ := hs i hi
  refine ⟨e.2, hpt, by rw [← hkey e he]; exact hk, ?_⟩
  rw [← hkey e he]
  exact he

end Ledger

namespace Ledger

/-! ## The sub-indexes and the counts -/

/-- A sequence of `add_transaction` calls that returns ends in a reachable state. -/
theorem run_adds_reach : ∀ (ts : List Transaction) (st st1 : State) (oks : List Bool),
    run_adds st ts = some (oks, st1) → Reach st → Reach st1 := by
  intro ts
  induction ts with
  | nil =>
    intro st st1 oks h hr
    rw [run_adds] at h
    cases h
    exact hr
  | cons t rest ih =>
    intro st st1 oks h hr
    rw [run_adds] at h
    dsimp only [bind, Option.bind] at h
    cases h1 : add_transaction st t with
    | none => rw [h1] at h; cases h
    | some r =>
      obtain ⟨ok, st2⟩ := r
      rw [h1] at h; dsimp only at h
      cases h2 : run_adds st2 rest with
      | none => rw [h2] at h; cases h
      | some r2 =>
        obtain ⟨oks2, st3⟩ := r2
        rw [h2] at h; dsimp only at h
        cases h
        exact ih st2 _ oks2 h2 (Reach.add st st2 t ok hr h1)

theorem length_flatMap_sum {α β : Type} (g : α → List β) : ∀ (I : List α),
    (I.flatMap g).length = (I.map fun i => (g i).length).sum := by
  intro I
  induction I with
  | nil => rfl
  | cons i I ih => rw [List.flatMap_cons, List.length_append, ih, List.map_cons, List.sum_cons]

/-- The counts of the records of a directory add up to the number of entries of `G` when
every record counts the entries of `G` with its id, the ids of the records are distinct and
every entry of `G` has a record. -/
theorem sum_counts {R : Type} (idf : R → Int) (cf : R → Nat) (f : Int × Transaction → Int)
    (G : List (Int × Transaction)) (M : List R) (hnd : (M.map idf).Nodup)
    (hc : ∀ e ∈ G, f e ∈ M.map idf)
    (hcount : ∀ r ∈ M, cf r = (G.filter fun e => decide (f e = idf r)).length) :
    (M.map cf).sum = G.length := by
  rw [← (partition_perm f G (M.map idf) hnd hc).length_eq, length_flatMap_sum, List.map_map]
  congr 1
  exact List.map_congr_left hcount

/-- The sub-indexes in a state with the invariant and the books. -/
theorem partition_spec (st : State) (G : List (Int × Transaction)) (hinv : Inv st G)
    (hb : Books st G) :
    (∀ s ∈ st.seller_mem,
      traverse s.transaction_tree = some (G.filter fun e => e.2.seller_id = s.seller_id) ∧
      s.transaction_count = (G.filter fun e => e.2.seller_id = s.seller_id).length) ∧
    (∀ b ∈ st.buyer_mem,
      traverse b.transaction_tree = some (G.filter fun e => e.2.buyer_id = b.buyer_id) ∧
      b.transaction_count = (G.filter fun e => e.2.buyer_id = b.buyer_id).length) ∧
    st.transaction_index = G.length ∧
    (st.seller_mem.map SellerKey.transaction_count).sum = G.length ∧
    (st.buyer_mem.map BuyerKey.transaction_count).sum = G.length := by
  obtain ⟨_, _, _, _, hnds⟩ := id hinv.sellers
  obtain ⟨_, _, _, _, hndb⟩ := id hinv.buyers
  refine ⟨?_, ?_, hinv.index, ?_, ?_⟩
  · intro s hs
    exact ⟨traverse_spec _ _ (hb.seller_index s hs), hb.seller_count s hs⟩
  · intro b hbm
    exact ⟨traverse_spec _ _ (hb.buyer_index b hbm), hinv.counted b hbm⟩
  · exact sum_counts SellerKey.seller_id SellerKey.transaction_count
      (fun e => e.2.seller_id) G st.seller_mem hnds hb.seller_known hb.seller_count
  · exact sum_counts BuyerKey.buyer_id BuyerKey.transaction_count
      (fun e => e.2.buyer_id) G st.buyer_mem hndb hinv.known hinv.counted

/-- C26, amended: every sequence of `add_transaction` calls from the empty state that carries
at most `MAX_TRANSACTIONS` different ids (so that the store has a slot for every record) runs
through, and afterwards, with `G` the traversal of the global index: the traversal of the
index of every seller entry is the sub-list of `G` with the seller's id and the seller's
`transaction_count` is its length; the same for every buyer entry with the buyer's id;
`transaction_index` is the length of `G`, and so are the sum of the sellers' counts and the
sum of the buyers' counts. -/
theorem C26_sub_indexes_partition (ts : List Transaction)
    (hcap : new_ids [] ts ≤ MAX_TRANSACTIONS) :
    ∃ oks st G, run_adds State.init ts = some (oks, st) ∧
      traverse st.global_transaction_tree = some G ∧
      (∀ s ∈ st.seller_mem,
        traverse s.transaction_tree = some (G.filter fun e => e.2.seller_id = s.seller_id) ∧
        s.transaction_count = (G.filter fun e => e.2.seller_id = s.seller_id).length) ∧
      (∀ b ∈ st.buyer_mem,
        traverse b.transaction_tree = some (G.filter fun e => e.2.buyer_id = b.buyer_id) ∧
        b.transaction_count = (G.filter fun e => e.2.buyer_id = b.buyer_id).length) ∧
      st.transaction_index = G.length ∧
      (st.seller_mem.map SellerKey.transaction_count).sum = G.length ∧
      (st.buyer_mem.map BuyerKey.transaction_count).sum = G.length := by
  obtain ⟨oks, st, _, hrun, _, _, _, _⟩ := run_adds_spec ts State.init [] Inv_init
    (by rw [List.length_nil, Nat.zero_add]; exact hcap)
  obtain ⟨G, hinv, hb⟩ := (run_adds_reach ts State.init st oks hrun Reach.init).books
  exact ⟨oks, st, G, hrun, traverse_spec _ _ hinv.global, partition_spec st G hinv hb⟩

/-- C26 for the calls with the ids 1, 2, 1, 3 (the third is a duplicate), of the buyers 7 and
8 with the sellers 3 and 4: the global index has three entries, `transaction_index` is 3 and
the counts of the sellers and the counts of the buyers each add up to 3. -/
theorem C26_sub_indexes_partition_witness :
    ∃ oks st G,
      run_adds State.init
        [⟨1, 7, 3, 200, 1 / 10, 20, "2024-01-20 10:00", 1 / 10, 8 / 100⟩,
          ⟨2, 8, 3, 400, 8 / 100, 38, "2024-02-01 09:30", 1 / 10, 8 / 100⟩,
          ⟨1, 8, 4, 100, 1 / 10, 10, "2024-02-02 09:30", 1 / 10, 8 / 100⟩,
          ⟨3, 7, 4, 100, 1 / 10, 10, "2024-02-03 09:30", 1 / 10, 8 / 100⟩] =
        some (oks, st) ∧
      traverse st.global_transaction_tree = some G ∧
      G.length = 3 ∧ st.transaction_index = 3 ∧
      (st.seller_mem.map SellerKey.transaction_count).sum = 3 ∧
      (st.buyer_mem.map BuyerKey.transaction_count).sum = 3 ∧
      ∀ s ∈ st.seller_mem,
        traverse s.transaction_tree = some (G.filter fun e => e.2.seller_id = s.seller_id) := by
  obtain ⟨oks, st, G, hrun, htr, hs, _, hix, hsum, hbsum⟩ := C26_sub_indexes_partition
    [⟨1, 7, 3, 200, 1 / 10, 20, "2024-01-20 10:00", 1 / 10, 8 / 100⟩,
      ⟨2, 8, 3, 400, 8 / 100, 38, "2024-02-01 09:30", 1 / 10, 8 / 100⟩,
      ⟨1, 8, 4, 100, 1 / 10, 10, "2024-02-02 09:30", 1 / 10, 8 / 100⟩,
      ⟨3, 7, 4, 100, 1 / 10, 10, "2024-02-03 09:30", 1 / 10, 8 / 100⟩] (by decide)
  obtain ⟨oks1, st1, G1, hrun1, hinv1, _, hlen, _⟩ := run_adds_spec
    [⟨1, 7, 3, 200, 1 / 10, 20, "2024-01-20 10:00", 1 / 10, 8 / 100⟩,
      ⟨2, 8, 3, 400, 8 / 100, 38, "2024-02-01 09:30", 1 / 10, 8 / 100⟩,
      ⟨1, 8, 4, 100, 1 / 10, 10, "2024-02-02 09:30", 1 / 10, 8 / 100⟩,
      ⟨3, 7, 4, 100, 1 / 10, 10, "2024-02-03 09:30", 1 / 10, 8 / 100⟩]
    State.init [] Inv_init (by decide)
  rw [hrun] at hrun1
  cases hrun1
  have htr1 := traverse_spec _ _ hinv1.global
  rw [htr] at htr1
  cases htr1
  have hl : G.length = 3 := by
    rw [hlen]
    decide
  rw [hl] at hix hsum hbsum
  exact ⟨oks, st, G, hrun, htr, hl, hix, hsum, hbsum, fun s hsm => (hs s hsm).1⟩

end Ledger

namespace Ledger

/-! ## The full store -/

/-- In a reachable state the array `all_transactions` has its `MAX_TRANSACTIONS` slots. -/
theorem Reach.store {st : State} (hr : Reach st) :
    st.all_transactions.length = MAX_TRANSACTIONS := by
  obtain ⟨G, hinv⟩ := hr.inv
  exact hinv.store

theorem run_adds_length : ∀ (ts : List Transaction) (st st1 : State) (oks : List Bool),
    run_adds st ts = some (oks, st1) → oks.length = ts.length := by
  intro ts
  induction ts with
  | nil =>
    intro st st1 oks h
    rw [run_adds] at h
    cases h
    rfl
  | cons t rest ih =>
    intro st st1 oks h
    rw [run_adds] at h
    dsimp only [bind, Option.bind] at h
    cases h1 : add_transaction st t with
    | none => rw [h1] at h; cases h
    | some r =>
      obtain ⟨ok, st2⟩ := r
      rw [h1] at h; dsimp only at h
      cases h2 : run_adds st2 rest with
      | none => rw [h2] at h; cases h
      | some r2 =>
        obtain ⟨oks2, st3⟩ := r2
        rw [h2] at h; dsimp only at h
        cases h
        rw [List.length_cons, List.length_cons, ih st2 _ oks2 h2]

/-- A sequence of calls with a call that has no defined result has no defined result. -/
theorem run_adds_stuck : ∀ (ts us : List Transaction) (st st1 : State) (oks : List Bool)
    (t : Transaction), run_adds st ts = some (oks, st1) → add_transaction st1 t = none →
    run_adds st (ts ++ t :: us) = none := by
  intro ts
  induction ts with
  | nil =>
    intro us st st1 oks t h hadd
    rw [run_adds] at h
    cases h
    rw [List.nil_append, run_adds]
    dsimp only [bind, Option.bind]
    rw [hadd]
  | cons t0 rest ih =>
    intro us st st1 oks t h hadd
    rw [run_adds] at h
    dsimp only [bind, Option.bind] at h
    rw [List.cons_append, run_adds]
    dsimp only [bind, Option.bind]
    cases h1 : add_transaction st t0 with
    | none => rfl
    | some r =>
      obtain ⟨ok, st2⟩ := r
      rw [h1] at h; dsimp only at h
      cases h2 : run_adds st2 rest with
      | none => rw [h2] at h; cases h
      | some r2 =>
        obtain ⟨oks2, st3⟩ := r2
        rw [h2] at h; dsimp only at h
        cases h
        dsimp only
        rw [ih us st2 _ oks2 t h2 hadd]

theorem recorded_bought (ts : List Transaction) (b : Int) :
    recorded (ts.map fun t => (t.transaction_id, t)) b = bought ts b := by
  unfold recorded bought
  rw [List.filter_map, List.length_map]
  rfl

theorem fill_ids (n : Nat) :
    (fill n).map Transaction.transaction_id = (List.range n).map fun (i : Nat) => (i : Int) := by
  unfold fill
  rw [List.map_map]
  rfl

theorem fill_nodup (n : Nat) : ((fill n).map Transaction.transaction_id).Nodup := by
  rw [fill_ids]
  exact (List.nodup_range n).map (fun a b h => Int.ofNat.inj h)

theorem fill_length (n : Nat) : (fill n).length = n := by
  unfold fill
  rw [List.length_map, List.length_range]

theorem fill_succ (n : Nat) :
    fill (n + 1) = fill n ++ [⟨(n : Int), ((n / 5 : Nat) : Int), 0, 0, 0, 0, "", 0, 0⟩] := by
  unfold fill
  rw [List.range_succ, List.map_append]
  rfl

theorem fill_id_lt (n : Nat) : ∀ u ∈ fill n, u.transaction_id < (n : Int) := by
  intro u hu
  obtain ⟨i, hi, rfl⟩ := List.mem_map.mp hu
  rw [List.mem_range] at hi
  show (i : Int) < (n : Int)
  omega

theorem nodup_bound (l : List Nat) (hnd : l.Nodup) (a k : Nat)
    (h : ∀ i ∈ l, a ≤ i ∧ i < a + k) : l.length ≤ k := by
  have hsub : l ⊆ List.range' a k := by
    intro i hi
    rw [List.mem_range'_1]
    exact h i hi
  have hle := (hnd.subperm hsub).length_le
  rw [List.length_range'] at hle
  exact hle

/-- No buyer has more than five transactions in `fill n`. -/
theorem fill_bought_le (n : Nat) (b : Int) : bought (fill n) b ≤ 5 := by
  unfold bought fill
  rw [List.filter_map, List.length_map]
  refine nodup_bound _ ((List.nodup_range n).filter _) (5 * b.toNat) 5 ?_
  intro i hi
  have h2 := (List.mem_filter.mp hi).2
  simp only [Function.comp_apply, decide_eq_true_eq] at h2
  omega

/-- After `MAX_TRANSACTIONS` transactions with pairwise distinct ids have been recorded from
the empty state, every one with the return value true, the store is full:
`transaction_index` is `MAX_TRANSACTIONS`, the number of slots of `all_transactions`.  A
further call with a new id passes the duplicate check and comes to the write
`all_transactions[transaction_index++] = t`, which is outside the array: the write, the call
and every sequence of calls through it have no defined result. -/
theorem full_store (ts : List Transaction) (hnd : (ts.map Transaction.transaction_id).Nodup)
    (hlen : ts.length = MAX_TRANSACTIONS) :
    ∃ oks st G, run_adds State.init ts = some (oks, st) ∧ Inv st G ∧ Reach st ∧
      oks.length = MAX_TRANSACTIONS ∧ (∀ ok ∈ oks, ok = true) ∧
      G.Perm (ts.map fun t => (t.transaction_id, t)) ∧
      st.transaction_index = MAX_TRANSACTIONS ∧
      st.all_transactions.length = MAX_TRANSACTIONS ∧
      ∀ t : Transaction, (∀ u ∈ ts, u.transaction_id ≠ t.transaction_id) →
        store_slot st.all_transactions st.transaction_index t = none ∧
        add_transaction st t = none ∧
        ∀ us : List Transaction, run_adds State.init (ts ++ t :: us) = none := by
  obtain ⟨oks, st, G, hrun, hinv, hreach, hoks, hperm⟩ := run_adds_all ts State.init []
    Inv_init Reach.init hnd (fun e he => by cases he)
    (by rw [List.length_nil, Nat.zero_add, hlen])
  rw [List.append_nil] at hperm
  have hidx : st.transaction_index = MAX_TRANSACTIONS := by
    rw [hinv.index, hperm.length_eq, List.length_map, hlen]
  refine ⟨oks, st, G, hrun, hinv, hreach, ?_, hoks, hperm, hidx, hinv.store, ?_⟩
  · rw [run_adds_length ts _ _ _ hrun, hlen]
  · intro t ht
    have hfresh : ∀ e ∈ G, e.2.transaction_id ≠ t.transaction_id := by
      intro e he
      obtain ⟨u, hu, rfl⟩ := List.mem_map.mp (hperm.mem_iff.mp he)
      exact ht u hu
    obtain ⟨hslot, hadd⟩ := add_transaction_overflow st G t hinv hfresh (by rw [hidx])
    exact ⟨hslot, hadd, fun us => run_adds_stuck ts us _ st oks t hrun hadd⟩

/-- The store after `fill 1000`: it is full, and no seller has a regular buyer. -/
theorem fill_store :
    ∃ oks st G, run_adds State.init (fill 1000) = some (oks, st) ∧ Inv st G ∧ Reach st ∧
      oks.length = 1000 ∧ (∀ ok ∈ oks, ok = true) ∧
      G.Perm ((fill 1000).map fun t => (t.transaction_id, t)) ∧
      st.transaction_index = 1000 ∧ st.all_transactions.length = 1000 ∧
      (∀ s ∈ st.seller_mem, regulars s = [] ∧ s.regular_buyer_count = 0) ∧
      ∀ t : Transaction, 1000 ≤ t.transaction_id →
        store_slot st.all_transactions st.transaction_index t = none ∧
        add_transaction st t = none ∧
        ∀ us : List Transaction, run_adds State.init (fill 1000 ++ t :: us) = none := by
  obtain ⟨oks, st, G, hrun, hinv, hreach, hlen, hoks, hperm, hidx, hstore, hfull⟩ :=
    full_store (fill 1000) (fill_nodup 1000) (fill_length 1000)
  refine ⟨oks, st, G, hrun, hinv, hreach, hlen, hoks, hperm, hidx, hstore, ?_, ?_⟩
  · intro s hs
    have hreg : regulars s = [] := by
      cases hr : regulars s with
      | nil => rfl
      | cons b rest =>
        have h5 := hinv.loyal s hs b (by rw [hr]; exact List.mem_cons_self _ _)
        rw [recorded_perm hperm, recorded_bought] at h5
        exact absurd (fill_bought_le 1000 b) (Nat.not_le.mpr h5)
    refine ⟨hreg, ?_⟩
    obtain ⟨_, hl, hc⟩ := hinv.seller_ok s hs
    have h0 : (regulars s).length = 0 := by rw [hreg]; rfl
    unfold regulars at h0
    rw [List.length_take, hl] at h0
    omega
  · intro t ht
    apply hfull t
    intro u hu heq
    have hlt := fill_id_lt 1000 u hu
    rw [heq] at hlt
    omega

theorem fill_two (n : Nat) :
    fill (n + 2) = fill n ++ (⟨(n : Int), ((n / 5 : Nat) : Int), 0, 0, 0, 0, "", 0, 0⟩ ::
      [⟨((n + 1 : Nat) : Int), (((n + 1) / 5 : Nat) : Int), 0, 0, 0, 0, "", 0, 0⟩]) := by
  rw [fill_succ (n + 1), fill_succ n, List.append_assoc]
  rfl

/-! ## Sequences of calls that go past the store -/

/-- C4 as stated fails: of the 1001 calls with the ids 0 to 1000 from the empty state, the
first 1000 return true; the last one carries the id 1000, which no earlier call carried, and
does not return true: the store is full, the write `all_transactions[1000]` is outside the
array (undefined behaviour in C), and the call has no defined result.  So the sequence of
these 1001 calls, and the sequence of the 1002 calls with the ids 0 to 1001, have no defined
list of return values. -/
theorem C4_counterexample :
    ∃ oks st, run_adds State.init (fill 1000) = some (oks, st) ∧
      oks.length = 1000 ∧ (∀ ok ∈ oks, ok = true) ∧
      (∀ u ∈ fill 1000, u.transaction_id ≠ 1000) ∧
      fill 1001 = fill 1000 ++ [⟨1000, 200, 0, 0, 0, 0, "", 0, 0⟩] ∧
      add_transaction st ⟨1000, 200, 0, 0, 0, 0, "", 0, 0⟩ = none ∧
      run_adds State.init (fill 1001) = none ∧
      run_adds State.init (fill 1002) = none := by
  obtain ⟨oks, st, G, hrun, _, _, hlen, hoks, _, _, _, _, hfull⟩ := fill_store
  obtain ⟨_, hadd, hseq⟩ := hfull ⟨1000, 200, 0, 0, 0, 0, "", 0, 0⟩ (le_refl _)
  refine ⟨oks, st, hrun, hlen, hoks, ?_, fill_succ 1000, hadd, ?_, ?_⟩
  · intro u hu heq
    have hlt := fill_id_lt 1000 u hu
    rw [heq] at hlt
    exact absurd hlt (by decide)
  · rw [fill_succ 1000]
    exact hseq []
  · rw [fill_two 1000]
    exact hseq _

/-- C5 as stated fails: the state after the 1000 calls with the ids 0 to 999 is reached by
`add_transaction` calls, the id 1000 is not in its global index, and `add_transaction` with a
transaction of id 1000 does not return true there: `transaction_index` is
`MAX_TRANSACTIONS`, the write `all_transactions[1000]` is outside the array (undefined
behaviour in C), and the call has no defined result. -/
theorem C5_counterexample :
    ∃ oks st G, run_adds State.init (fill 1000) = some (oks, st) ∧ Reach st ∧
      traverse st.global_transaction_tree = some G ∧
      (∀ e ∈ G, e.1 ≠ 1000 ∧ e.2.transaction_id ≠ 1000) ∧
      st.transaction_index = MAX_TRANSACTIONS ∧
      add_transaction st ⟨1000, 7, 3, 400, 1 / 10, 38, "", 1 / 10, 8 / 100⟩ = none := by
  obtain ⟨oks, st, G, hrun, hinv, hreach, _, _, hperm, hidx, _, _, hfull⟩ := fill_store
  obtain ⟨_, hadd, _⟩ :=
    hfull ⟨1000, 7, 3, 400, 1 / 10, 38, "", 1 / 10, 8 / 100⟩ (le_refl _)
  refine ⟨oks, st, G, hrun, hreach, traverse_spec _ _ hinv.global, ?_, hidx, hadd⟩
  intro e he
  have hid : e.2.transaction_id ≠ 1000 := by
    obtain ⟨u, hu, rfl⟩ := List.mem_map.mp (hperm.mem_iff.mp he)
    intro heq
    have hlt := fill_id_lt 1000 u hu
    rw [show u.transaction_id = 1000 from heq] at hlt
    exact absurd hlt (by decide)
  exact ⟨by rw [hinv.keyed e he]; exact hid, hid⟩

/-- C6 as stated fails: after the 1000 calls with the ids 0 to 999, five for each of the
buyers 0 to 199 and all with seller 0, buyer 199 has five recorded transactions and every
seller's regular-buyer set is empty, so it holds fewer than `MAX_BUYERS` ids.  The sixth
transaction of buyer 199, with the new id 1000 and seller 0, is not recorded and puts the
buyer into no set: the store is full, the write `all_transactions[1000]` is outside the array
(undefined behaviour in C), and the call has no defined result. -/
theorem C6_counterexample :
    ∃ oks st G, run_adds State.init (fill 1000) = some (oks, st) ∧
      traverse st.global_transaction_tree = some G ∧
      recorded G 199 = 5 ∧
      (∀ s ∈ st.seller_mem,
        s.regular_buyer_count = 0 ∧ s.regular_buyer_count < MAX_BUYERS) ∧
      (∀ e ∈ G, e.2.transaction_id ≠ 1000) ∧
      add_transaction st ⟨1000, 199, 0, 400, 1 / 10, 38, "", 1 / 10, 8 / 100⟩ = none := by
  obtain ⟨oks, st, G, hrun, hinv, _, _, _, hperm, _, _, hreg, hfull⟩ := fill_store
  obtain ⟨_, hadd, _⟩ :=
    hfull ⟨1000, 199, 0, 400, 1 / 10, 38, "", 1 / 10, 8 / 100⟩ (le_refl _)
  refine ⟨oks, st, G, hrun, traverse_spec _ _ hinv.global, ?_, ?_, ?_, hadd⟩
  · rw [recorded_perm hperm, recorded_bought]
    decide!
  · intro s hs
    rw [(hreg s hs).2]
    exact ⟨rfl, by decide⟩
  · intro e he
    obtain ⟨u, hu, rfl⟩ := List.mem_map.mp (hperm.mem_iff.mp he)
    intro heq
    have hlt := fill_id_lt 1000 u hu
    rw [show u.transaction_id = 1000 from heq] at hlt
    exact absurd hlt (by decide)

/-- C15 as stated fails: the 1001 transactions with the ids 0 to 1000 have pairwise distinct
ids, and recording them in this order with `add_transaction` does not record them all: the
first 1000 are recorded and fill the store, and the call for the last one writes outside the
array (undefined behaviour in C), so it, and with it the sequence, has no defined result, and
there is no state in which the two listings could emit the 1001 transactions.  The same holds
of the 1002 transactions with the ids 0 to 1001. -/
theorem C15_counterexample :
    ((fill 1001).map Transaction.transaction_id).Nodup ∧
    (fill 1001).length = 1001 ∧
    run_adds State.init (fill 1001) = none ∧
    ((fill 1002).map Transaction.transaction_id).Nodup ∧
    run_adds State.init (fill 1002) = none ∧
    ∃ oks st, run_adds State.init ((fill 1001).take 1000) = some (oks, st) ∧
      (∀ ok ∈ oks, ok = true) ∧ st.transaction_index = MAX_TRANSACTIONS ∧
      ∀ t ∈ (fill 1001).drop 1000, add_transaction st t = none := by
  obtain ⟨oks, st, G, hrun, _, _, _, hoks, _, hidx, _, _, hfull⟩ := fill_store
  obtain ⟨_, hadd, hseq⟩ := hfull ⟨1000, 200, 0, 0, 0, 0, "", 0, 0⟩ (le_refl _)
  have htake : (fill 1001).take 1000 = fill 1000 := by
    rw [fill_succ 1000, List.take_left' (fill_length 1000)]
  have hdrop : (fill 1001).drop 1000 = [⟨1000, 200, 0, 0, 0, 0, "", 0, 0⟩] := by
    rw [fill_succ 1000, List.drop_left' (fill_length 1000)]
    rfl
  refine ⟨fill_nodup 1001, fill_length 1001, ?_, fill_nodup 1002, ?_, oks, st, ?_, hoks, hidx,
    ?_⟩
  · rw [fill_succ 1000]
    exact hseq []
  · rw [fill_two 1000]
    exact hseq _
  · rw [htake]
    exact hrun
  · intro t ht
    rw [hdrop] at ht
    rw [List.mem_singleton.mp ht]
    exact hadd

/-- C26 as stated fails: after the sequence of the 1000 calls with the ids 0 to 999 the
global index has 1000 entries and `transaction_index` is 1000, the number of slots of the
store; the sequence with one more call, with the id 1000, has no defined result: the write
`all_transactions[1000]` of that call is outside the array (undefined behaviour in C), so no
state follows in which `transaction_index` and the counts could be compared with the global
index.  The same holds of the sequence of the 1002 calls with the ids 0 to 1001. -/
theorem C26_counterexample :
    ∃ oks st G, run_adds State.init (fill 1000) = some (oks, st) ∧
      traverse st.global_transaction_tree = some G ∧ G.length = 1000 ∧
      st.transaction_index = 1000 ∧ st.all_transactions.length = 1000 ∧
      (∀ e ∈ G, e.2.transaction_id ≠ 1000) ∧
      store_slot st.all_transactions st.transaction_index
        ⟨1000, 200, 0, 0, 0, 0, "", 0, 0⟩ = none ∧
      run_adds State.init (fill 1000 ++ [⟨1000, 200, 0, 0, 0, 0, "", 0, 0⟩]) = none ∧
      run_adds State.init (fill 1002) = none := by
  obtain ⟨oks, st, G, hrun, hinv, _, _, _, hperm, hidx, hstore, _, hfull⟩ := fill_store
  obtain ⟨hslot, _, hseq⟩ := hfull ⟨1000, 200, 0, 0, 0, 0, "", 0, 0⟩ (le_refl _)
  refine ⟨oks, st, G, hrun, traverse_spec _ _ hinv.global, ?_, hidx, hstore, ?_, hslot,
    hseq [], ?_⟩
  · rw [hperm.length_eq, List.length_map, fill_length]
  · intro e he
    obtain ⟨u, hu, rfl⟩ := List.mem_map.mp (hperm.mem_iff.mp he)
    intro heq
    have hlt := fill_id_lt 1000 u hu
    rw [show u.transaction_id = 1000 from heq] at hlt
    exact absurd hlt (by decide)
  · rw [fill_two 1000]
    exact hseq _

end Ledger

namespace Ledger

/-! ## The two split rules -/

theorem take_of_take {α : Type} {l m : List α} {k : Nat} (j : Nat) (h : l.take k = m)
    (hj : j ≤ k) : l.take j = m.take j := by
  rw [← h, List.take_take, Nat.min_eq_left hj]

/-- C21: let `x` be a node of the store with fewer than `ORDER - 1` keys whose slot
`index ≤ num_keys` points to the node `y`, a full leaf holding the entries `es` (five of
them).  Then `split_child(x, index)` returns; `y` is left holding exactly the first three
entries of `es`; the new node `z`, allocated at the end of the store, is a leaf holding
exactly the entries of `es` from place `ORDER / 2 = 3` on; `z.next` is `y`'s old `next` and
`y.next` is `z`; the key `k` of the entry at place 3, which is `z`'s first key, is put into
`x` at `index` and `z` into `x` as child `index + 1`, the keys of `x` from `index` on and its
children from `index + 1` on moving one place to the right and the earlier ones staying; `x`
has one key more; and no other node of the store changes. -/
theorem C21_leaf_split {V : Type} (h : Heap V) (x index y : Nat) (nx ny : node V)
    (es : List (Int × V))
    (hx : h[x]? = some nx) (hsx : nx.sized) (hnk : nx.num_keys < ORDER - 1)
    (hi : index ≤ nx.num_keys) (hy : nx.pointers[index]? = some (Ptr.child y))
    (hny : h[y]? = some ny) (hl : leaf_holds ny es) (hfull : ny.num_keys = ORDER - 1) :
    ∃ h1 nx1 ny1 nz k, split_child h x index = some h1 ∧ h1.length = h.length + 1 ∧
      h1[x]? = some nx1 ∧ h1[y]? = some ny1 ∧ h1[h.length]? = some nz ∧
      (∀ b, b ≠ x → b ≠ y → b ≠ h.length → h1[b]? = h[b]?) ∧
      es.length = ORDER - 1 ∧
      leaf_holds ny1 (es.take (ORDER / 2)) ∧ ny1.num_keys = ORDER / 2 ∧
      leaf_holds nz (es.drop (ORDER / 2)) ∧ nz.num_keys = ORDER - 1 - ORDER / 2 ∧
      nz.next = ny.next ∧ ny1.next = some h.length ∧
      (es.map Prod.fst)[ORDER / 2]? = some k ∧ nz.keys[0]? = some k ∧
      nx1.keys[index]? = some k ∧ nx1.pointers[index]? = some (Ptr.child y) ∧
      nx1.pointers[index + 1]? = some (Ptr.child h.length) ∧
      nx1.num_keys = nx.num_keys + 1 ∧ nx1.is_leaf = nx.is_leaf ∧
      nx1.keys.take (nx.num_keys + 1)
        = nx.keys.take index ++ k :: (nx.keys.take nx.num_keys).drop index ∧
      nx1.pointers.take (nx.num_keys + 2)
        = nx.pointers.take (index + 1) ++
            Ptr.child h.length :: (nx.pointers.take (nx.num_keys + 1)).drop (index + 1) := by
  have hxy : x ≠ y := by
    intro he
    rw [he, hny] at hx
    cases hx
    rw [hfull] at hnk
    exact Nat.lt_irrefl _ hnk
  obtain ⟨h1, nx1, nz, k3, hs, hlen, hx1, hy1, hz1, hfr, hxl, hxs, hxn, hk3, hxk, hxp, hzl, hzs,
    hzn, hznext, _, hzk, hzp⟩ := split_leaf_heap h x index y nx ny hx hsx hnk hi hy hny hl.2.1
      hfull hl.1 hxy
  have hes : es.length = ORDER - 1 := by rw [hl.entry_count, hfull]
  have hk5 : ny.keys.take 5 = es.map Prod.fst := by
    have := hl.2.2.2.1
    rw [hfull] at this
    exact this
  have hp5 : ny.pointers.take 5 = es.map (fun e => Ptr.val e.2) := by
    have := hl.2.2.2.2
    rw [hfull] at this
    exact this
  have hsxk : nx.keys.length = 5 := hsx.1
  have hsxp : nx.pointers.length = 7 := hsx.2
  have hnk5 : nx.num_keys < 5 := hnk
  refine ⟨h1, nx1, { ny with num_keys := 3, next := some h.length }, nz, k3, hs, hlen, hx1, hy1,
    hz1, hfr, hes, ?_, rfl, ?_, hzn, hznext, rfl, ?_, ?_, ?_, ?_, ?_, hxn, hxl, hxk, hxp⟩
  · refine ⟨hl.1, hl.2.1, (by show 3 ≤ ORDER - 1; decide), ?_, ?_⟩
    · show ny.keys.take 3 = (es.take 3).map Prod.fst
      rw [List.map_take, ← hk5, List.take_take]
      rfl
    · show ny.pointers.take 3 = (es.take 3).map (fun e => Ptr.val e.2)
      rw [List.map_take, ← hp5, List.take_take]
      rfl
  · refine ⟨hzl, hzs, by rw [hzn]; decide, ?_, ?_⟩
    · rw [hzn, hzk, hk5, List.map_drop]
      rfl
    · rw [hzn, hzp, hp5, List.map_drop]
      rfl
  · rw [← hk5, List.getElem?_take_of_lt (by decide)]
    exact hk3
  · have h0 : nz.keys[0]? = (nz.keys.take 2)[0]? := by
      rw [List.getElem?_take_of_lt (by decide)]
    rw [h0, hzk, List.getElem?_drop, List.getElem?_take_of_lt (by decide)]
    exact hk3
  · have h0 : nx1.keys[index]? = (nx1.keys.take (nx.num_keys + 1))[index]? := by
      rw [List.getElem?_take_of_lt (by omega)]
    rw [h0, hxk]
    exact getElem?_at _ _ _ _ (by rw [List.length_take, hsxk]; omega)
  · have h0 : nx1.pointers[index]? = (nx1.pointers.take (nx.num_keys + 2))[index]? := by
      rw [List.getElem?_take_of_lt (by omega)]
    rw [h0, hxp, List.getElem?_append_left (by rw [List.length_take, hsxp]; omega),
      List.getElem?_take_of_lt (by omega)]
    exact hy
  · have h0 : nx1.pointers[index + 1]? = (nx1.pointers.take (nx.num_keys + 2))[index + 1]? := by
      rw [List.getElem?_take_of_lt (by omega)]
    rw [h0, hxp]
    exact getElem?_at _ _ _ _ (by rw [List.length_take, hsxp]; omega)

end Ledger

namespace Ledger

/-- C21 on the store that `insert_transaction` has built when it splits a root leaf with the
keys 1..5: node 0 is the leaf, node 1 the new root with the leaf as child 0.  After
`split_child(1, 0)` the leaf holds the keys 1, 2, 3, the new node 2 holds 4, 5, the leaf's
`next` is node 2, and the root has the key 4 with node 2 as child 1. -/
theorem C21_leaf_split_witness :
    ∃ h1 nx1 ny1 nz,
      split_child
        ([⟨[Ptr.val (), Ptr.val (), Ptr.val (), Ptr.val (), Ptr.val (), Ptr.null, Ptr.null],
            [1, 2, 3, 4, 5], some 1, true, 5, none⟩,
          ⟨[Ptr.child 0, Ptr.null, Ptr.null, Ptr.null, Ptr.null, Ptr.null, Ptr.null],
            [0, 0, 0, 0, 0], none, false, 0, none⟩] : Heap Unit) 1 0 = some h1 ∧
      h1[1]? = some nx1 ∧ h1[0]? = some ny1 ∧ h1[2]? = some nz ∧
      leaf_holds ny1 [(1, ()), (2, ()), (3, ())] ∧ leaf_holds nz [(4, ()), (5, ())] ∧
      ny1.next = some 2 ∧ nz.next = none ∧
      nx1.keys[0]? = some 4 ∧ nx1.pointers[0]? = some (Ptr.child 0) ∧
      nx1.pointers[1]? = some (Ptr.child 2) ∧ nx1.num_keys = 1 := by
  obtain ⟨h1, nx1, ny1, nz, k, hs, _, hx1, hy1, hz1, _, _, hly, _, hlz, _, hzn, hyn, hk, _, hxk,
    hxp0, hxp1, hxn, _⟩ := C21_leaf_split
      ([⟨[Ptr.val (), Ptr.val (), Ptr.val (), Ptr.val (), Ptr.val (), Ptr.null, Ptr.null],
          [1, 2, 3, 4, 5], some 1, true, 5, none⟩,
        ⟨[Ptr.child 0, Ptr.null, Ptr.null, Ptr.null, Ptr.null, Ptr.null, Ptr.null],
          [0, 0, 0, 0, 0], none, false, 0, none⟩] : Heap Unit) 1 0 0
      ⟨[Ptr.child 0, Ptr.null, Ptr.null, Ptr.null, Ptr.null, Ptr.null, Ptr.null],
        [0, 0, 0, 0, 0], none, false, 0, none⟩
      ⟨[Ptr.val (), Ptr.val (), Ptr.val (), Ptr.val (), Ptr.val (), Ptr.null, Ptr.null],
        [1, 2, 3, 4, 5], some 1, true, 5, none⟩
      [(1, ()), (2, ()), (3, ()), (4, ()), (5, ())]
      rfl ⟨rfl, rfl⟩ (by decide) (Nat.le_refl 0) rfl rfl
      ⟨rfl, ⟨rfl, rfl⟩, (by decide), rfl, rfl⟩ rfl
  have hk4 : k = 4 := by
    have h0 : ([(1, ()), (2, ()), (3, ()), (4, ()), (5, ())].map
        (Prod.fst : Int × Unit → Int))[ORDER / 2]? = some 4 := rfl
    rw [h0] at hk
    cases hk
    rfl
  rw [hk4] at hxk
  exact ⟨h1, nx1, ny1, nz, hs, hx1, hy1, hz1, hly, hlz, hyn, hzn, hxk, hxp0, hxp1, hxn⟩

/-- C22: let `x` be a node of the store with fewer than `ORDER - 1` keys whose slot
`index ≤ num_keys` points to the node `y`, a full internal node with the keys `k0..k4` and
the children `c0..c5`.  Then `split_child(x, index)` returns; `y` is left with three keys,
`k0, k1, k2`, and the children `c0..c3`; the new node `z`, allocated at the end of the
store, is an internal node with the single key `k4` and the children `c4, c5`; the middle
key `k3` is put into `x` at `index` and `z` into `x` as child `index + 1`, the later keys
and children of `x` moving one place to the right; `k3` is not among the keys in use of `y`
or of `z` unless it is equal to one of the other four keys; the children of `y` followed by
those of `z` are `c0..c5`, none lost and none twice; and no other node of the store changes.
(The slots of `y` from `num_keys` on keep their old contents; they are not in use.) -/
theorem C22_internal_split {V : Type} (h : Heap V) (x index y : Nat) (nx ny : node V)
    (k0 k1 k2 k3 k4 : Int) (c0 c1 c2 c3 c4 c5 : Nat)
    (hx : h[x]? = some nx) (hsx : nx.sized) (hnk : nx.num_keys < ORDER - 1)
    (hi : index ≤ nx.num_keys) (hy : nx.pointers[index]? = some (Ptr.child y))
    (hny : h[y]? = some ny) (hsy : ny.sized) (hleaf : ny.is_leaf = false)
    (hfull : ny.num_keys = ORDER - 1)
    (hkeys : ny.keys.take ny.num_keys = [k0, k1, k2, k3, k4])
    (hptrs : ny.pointers.take (ny.num_keys + 1)
      = [Ptr.child c0, Ptr.child c1, Ptr.child c2, Ptr.child c3, Ptr.child c4, Ptr.child c5]) :
    ∃ h1 nx1 ny1 nz, split_child h x index = some h1 ∧ h1.length = h.length + 1 ∧
      h1[x]? = some nx1 ∧ h1[y]? = some ny1 ∧ h1[h.length]? = some nz ∧
      (∀ b, b ≠ x → b ≠ y → b ≠ h.length → h1[b]? = h[b]?) ∧
      ny1.is_leaf = false ∧ ny1.num_keys = 3 ∧
      ny1.keys.take ny1.num_keys = [k0, k1, k2] ∧
      ny1.pointers.take (ny1.num_keys + 1)
        = [Ptr.child c0, Ptr.child c1, Ptr.child c2, Ptr.child c3] ∧
      nz.is_leaf = false ∧ nz.num_keys = 1 ∧
      nz.keys.take nz.num_keys = [k4] ∧
      nz.pointers.take (nz.num_keys + 1) = [Ptr.child c4, Ptr.child c5] ∧
      nx1.keys[index]? = some k3 ∧ nx1.pointers[index]? = some (Ptr.child y) ∧
      nx1.pointers[index + 1]? = some (Ptr.child h.length) ∧
      nx1.num_keys = nx.num_keys + 1 ∧ nx1.is_leaf = nx.is_leaf ∧
      nx1.keys.take (nx.num_keys + 1)
        = nx.keys.take index ++ k3 :: (nx.keys.take nx.num_keys).drop index ∧
      nx1.pointers.take (nx.num_keys + 2)
        = nx.pointers.take (index + 1) ++
            Ptr.child h.length :: (nx.pointers.take (nx.num_keys + 1)).drop (index + 1) ∧
      (k3 ∉ [k0, k1, k2, k4] →
        k3 ∉ ny1.keys.take ny1.num_keys ∧ k3 ∉ nz.keys.take nz.num_keys) ∧
      ny1.pointers.take (ny1.num_keys + 1) ++ nz.pointers.take (nz.num_keys + 1)
        = ny.pointers.take (ny.num_keys + 1) := by
  have hxy : x ≠ y := by
    intro he
    rw [he, hny] at hx
    cases hx
    rw [hfull] at hnk
    exact Nat.lt_irrefl _ hnk
  obtain ⟨h1, nx1, nz, k, hs, hlen, hx1, hy1, hz1, hfr, hxl, hxs, hxn, hk, hxk, hxp, hzl, hzs,
    hzn, _, _, hzk, hzp⟩ := split_inner_heap h x index y nx ny hx hsx hnk hi hy hny hsy
      hfull hleaf hxy
  have hk5 : ny.keys.take 5 = [k0, k1, k2, k3, k4] := by
    rw [hfull] at hkeys
    exact hkeys
  have hp6 : ny.pointers.take 6
      = [Ptr.child c0, Ptr.child c1, Ptr.child c2, Ptr.child c3, Ptr.child c4, Ptr.child c5] := by
    rw [hfull] at hptrs
    exact hptrs
  have hsxk : nx.keys.length = 5 := hsx.1
  have hsxp : nx.pointers.length = 7 := hsx.2
  have hnk5 : nx.num_keys < 5 := hnk
  have hkk : k = k3 := by
    have h0 : ny.keys[3]? = (ny.keys.take 5)[3]? := by
      rw [List.getElem?_take_of_lt (by decide)]
    rw [h0, hk5] at hk
    cases hk
    rfl
  rw [hkk] at hxk
  have hyk : ny.keys.take 3 = [k0, k1, k2] := by
    rw [take_of_take 3 hk5 (by decide)]
    rfl
  have hyp : ny.pointers.take 4
      = [Ptr.child c0, Ptr.child c1, Ptr.child c2, Ptr.child c3] := by
    rw [take_of_take 4 hp6 (by decide)]
    rfl
  have hzk1 : nz.keys.take 1 = [k4] := by
    rw [hzk, hk5]
    rfl
  have hzp2 : nz.pointers.take 2 = [Ptr.child c4, Ptr.child c5] := by
    rw [hzp, hp6]
    rfl
  refine ⟨h1, nx1, { ny with num_keys := 3 }, nz, hs, hlen, hx1, hy1, hz1, hfr, hleaf, rfl, hyk,
    hyp, hzl, hzn, by rw [hzn]; exact hzk1, by rw [hzn]; exact hzp2, ?_, ?_, ?_, hxn, hxl, hxk,
    hxp, ?_, ?_⟩
  · have h0 : nx1.keys[index]? = (nx1.keys.take (nx.num_keys + 1))[index]? := by
      rw [List.getElem?_take_of_lt (by omega)]
    rw [h0, hxk]
    exact getElem?_at _ _ _ _ (by rw [List.length_take, hsxk]; omega)
  · have h0 : nx1.pointers[index]? = (nx1.pointers.take (nx.num_keys + 2))[index]? := by
      rw [List.getElem?_take_of_lt (by omega)]
    rw [h0, hxp, List.getElem?_append_left (by rw [List.length_take, hsxp]; omega),
      List.getElem?_take_of_lt (by omega)]
    exact hy
  · have h0 : nx1.pointers[index + 1]? = (nx1.pointers.take (nx.num_keys + 2))[index + 1]? := by
      rw [List.getElem?_take_of_lt (by omega)]
    rw [h0, hxp]
    exact getElem?_at _ _ _ _ (by rw [List.length_take, hsxp]; omega)
  · intro hne
    constructor
    · show k3 ∉ ny.keys.take 3
      rw [hyk]
      intro hm
      exact hne (by
        rcases List.mem_cons.mp hm with h0 | hm
        · rw [h0]; simp
        rcases List.mem_cons.mp hm with h0 | hm
        · rw [h0]; simp
        rcases List.mem_cons.mp hm with h0 | hm
        · rw [h0]; simp
        cases hm)
    · rw [hzn, hzk1]
      intro hm
      rw [List.mem_singleton] at hm
      exact hne (by rw [hm]; simp)
  · show ny.pointers.take 4 ++ nz.pointers.take (nz.num_keys + 1) = _
    rw [hzn, hyp, hzp2, hptrs]
    rfl

/-- C22 on a store with a full internal node 0 (keys 10, 20, 30, 40, 50, children 10..15)
and a node 1 without keys that has node 0 as child 0: after `split_child(1, 0)` node 0 has
the keys 10, 20, 30, the new node 2 has the key 50, node 1 has the key 40 with node 2 as
child 1, and 40 is no key in use of node 0 or node 2. -/
theorem C22_internal_split_witness :
    ∃ h1 nx1 ny1 nz,
      split_child
        ([⟨[Ptr.child 10, Ptr.child 11, Ptr.child 12, Ptr.child 13, Ptr.child 14,
              Ptr.child 15, Ptr.null], [10, 20, 30, 40, 50], some 1, false, 5, none⟩,
          ⟨[Ptr.child 0, Ptr.null, Ptr.null, Ptr.null, Ptr.null, Ptr.null, Ptr.null],
            [0, 0, 0, 0, 0], none, false, 0, none⟩] : Heap Unit) 1 0 = some h1 ∧
      h1[1]? = some nx1 ∧ h1[0]? = some ny1 ∧ h1[2]? = some nz ∧
      ny1.keys.take ny1.num_keys = [10, 20, 30] ∧ nz.keys.take nz.num_keys = [50] ∧
      nx1.keys[0]? = some 40 ∧ nx1.pointers[1]? = some (Ptr.child 2) ∧
      (40 : Int) ∉ ny1.keys.take ny1.num_keys ∧ (40 : Int) ∉ nz.keys.take nz.num_keys := by
  obtain ⟨h1, nx1, ny1, nz, hs, _, hx1, hy1, hz1, _, _, _, hyk, _, _, _, hzk, _, hxk, _, hxp1,
    _, _, _, _, hno, _⟩ := C22_internal_split
      ([⟨[Ptr.child 10, Ptr.child 11, Ptr.child 12, Ptr.child 13, Ptr.child 14,
            Ptr.child 15, Ptr.null], [10, 20, 30, 40, 50], some 1, false, 5, none⟩,
        ⟨[Ptr.child 0, Ptr.null, Ptr.null, Ptr.null, Ptr.null, Ptr.null, Ptr.null],
          [0, 0, 0, 0, 0], none, false, 0, none⟩] : Heap Unit) 1 0 0
      ⟨[Ptr.child 0, Ptr.null, Ptr.null, Ptr.null, Ptr.null, Ptr.null, Ptr.null],
        [0, 0, 0, 0, 0], none, false, 0, none⟩
      ⟨[Ptr.child 10, Ptr.child 11, Ptr.child 12, Ptr.child 13, Ptr.child 14,
          Ptr.child 15, Ptr.null], [10, 20, 30, 40, 50], some 1, false, 5, none⟩
      10 20 30 40 50 10 11 12 13 14 15
      rfl ⟨rfl, rfl⟩ (by decide) (Nat.le_refl 0) rfl rfl ⟨rfl, rfl⟩ rfl rfl rfl rfl
  obtain ⟨hn1, hn2⟩ := hno (by decide)
  exact ⟨h1, nx1, ny1, nz, hs, hx1, hy1, hz1, hyk, hzk, hxk, hxp1, hn1, hn2⟩

end Ledger

namespace Ledger

/-! ## Separators as bounds -/

theorem leaves_keys {V : Type} {h : Heap V} : ∀ (L : List (Nat × node V × List (Int × V))),
    leaves_hold h L →
    (L.map fun x => x.1).flatMap (keys_at h)
      = ((L.map fun x => x.2.2).flatten).map Prod.fst := by
  intro L
  induction L with
  | nil => intro _; rfl
  | cons x L ih =>
    intro hh
    obtain ⟨hx, hl, _⟩ := hh x (List.mem_cons_self _ _)
    rw [List.map_cons, List.flatMap_cons, List.map_cons, List.flatten_cons, List.map_append,
      ih (fun y hy => hh y (List.mem_cons_of_mem _ hy))]
    unfold keys_at
    rw [hx]
    dsimp only
    rw [hl.2.2.2.1]

/-- The keys in the leaves below a represented subtree are the keys of its entries. -/
theorem Rep.leaf_keys {V : Type} {h : Heap V} {d : Nat} {S : Sub V} (hr : Rep h d S) :
    leaf_keys h d S.addr = S.es.map Prod.fst := by
  obtain ⟨L, hh, he, ha, _⟩ := leaves_rep h d S hr
  unfold Ledger.leaf_keys
  rw [← ha, leaves_keys L hh, he]

/-- In a strictly ascending list of entries made of the entries of consecutive subtrees, a
subtree is strictly ascending and its keys are below those of every later subtree. -/
theorem strict_cross {V : Type} {A C : List (Sub V)} {c : Sub V}
    (h : ((((A ++ c :: C).map Sub.es).flatten).map Prod.fst).Sorted (fun a b => a < b)) :
    (c.es.map Prod.fst).Sorted (fun a b => a < b) ∧
      ∀ c1 ∈ C, ∀ x ∈ c.es, ∀ y ∈ c1.es, x.1 < y.1 := by
  unfold List.Sorted at h ⊢
  rw [List.pairwise_map, List.pairwise_flatten, List.pairwise_map, List.pairwise_append] at h
  obtain ⟨h1, _, h2, _⟩ := h
  rw [List.pairwise_cons] at h2
  refine ⟨?_, ?_⟩
  · rw [List.pairwise_map]
    exact h1 c.es (List.mem_map_of_mem _ (List.mem_append_right _ (List.mem_cons_self _ _)))
  · intro c1 hc1 x hx y hy
    exact h2.1 c1 hc1 x hx y hy

theorem strict_sub {V : Type} {subs : List (Sub V)} {c : Sub V} (hc : c ∈ subs)
    (h : (((subs.map Sub.es).flatten).map Prod.fst).Sorted (fun a b => a < b)) :
    (c.es.map Prod.fst).Sorted (fun a b => a < b) := by
  obtain ⟨A, C, rfl⟩ := List.append_of_mem hc
  exact (strict_cross h).1

theorem strict_ascending {V : Type} {es : List (Int × V)}
    (h : (es.map Prod.fst).Sorted (fun a b => a < b)) : ascending es :=
  List.Pairwise.imp (fun hab => le_of_lt hab) h

theorem headKey_mem {V : Type} {es : List (Int × V)} (hne : es ≠ []) :
    ∃ e ∈ es, e.1 = headKey es := by
  cases es with
  | nil => exact absurd rfl hne
  | cons e es => exact ⟨e, List.mem_cons_self _ _, rfl⟩

/-- In a represented tree with strictly ascending keys the separators bound the keys. -/
theorem Rep.sep_inv {V : Type} {h : Heap V} : ∀ {d : Nat} {S : Sub V}, Rep h d S →
    (S.es.map Prod.fst).Sorted (fun a b => a < b) → sep_inv h d S.addr := by
  intro d
  induction d with
  | zero => intro S _ _; exact True.intro
  | succ d ih =>
    intro S hr ha
    obtain ⟨n, subs, hn, hin, h1, _, hes, _, _, hk⟩ := hr
    refine ⟨n, hn, ?_⟩
    intro i hi
    have hlen := hin.child_count
    have hi2 : i < subs.length := by omega
    obtain ⟨A, c, C, hsplit, hA⟩ : ∃ A c C, subs = A ++ c :: C ∧ A.length = i :=
      ⟨subs.take i, subs[i], subs.drop (i + 1), by
        rw [← List.drop_eq_getElem_cons hi2, List.take_append_drop],
        by rw [List.length_take]; omega⟩
    have hc : c ∈ subs := by rw [hsplit]; simp
    rw [hes] at ha
    have hcross := strict_cross (hsplit ▸ ha)
    rw [hsplit] at hin
    refine ⟨c.addr, ?_, ?_, ih (hk c hc) hcross.1⟩
    · rw [← hA]
      exact hin.ptr
    · intro k hkm
      rw [(hk c hc).leaf_keys] at hkm
      obtain ⟨e, he, rfl⟩ := List.mem_map.mp hkm
      refine ⟨?_, ?_⟩
      · intro s hpos hs
        have hAne : A ≠ [] := by
          intro h0
          rw [h0] at hA
          simp at hA
          omega
        rw [← hA, hin.key_before hAne] at hs
        cases hs
        exact (strict_ascending hcross.1).head_le he
      · intro s hlt hs
        cases C with
        | nil =>
          rw [hsplit, List.length_append, List.length_cons, List.length_nil] at hlen
          omega
        | cons c2 C2 =>
          rw [← hA, hin.key] at hs
          cases hs
          have hc2 : c2 ∈ subs := by rw [hsplit]; simp
          obtain ⟨e2, he2, hke⟩ := headKey_mem (hk c2 hc2).es_ne
          unfold Sub.hk
          rw [← hke]
          exact hcross.2 c2 (List.mem_cons_self _ _) e he e2 he2

end Ledger

namespace Ledger

/-! ## The key-guided descent -/

theorem leaf_list_child {V : Type} {h : Heap V} {d a c : Nat} {n : node V} {i b : Nat}
    (hn : h[a]? = some n) (hi : i ≤ n.num_keys) (hp : n.pointers[i]? = some (Ptr.child c))
    (hb : b ∈ leaf_list h d c) : b ∈ leaf_list h (d + 1) a := by
  rw [leaf_list, hn]
  dsimp only
  rw [List.mem_flatten]
  refine ⟨leaf_list h d c, ?_, hb⟩
  rw [List.mem_map]
  refine ⟨Ptr.child c, ?_, rfl⟩
  have h1 : (n.pointers.take (n.num_keys + 1))[i]? = some (Ptr.child c) := by
    rw [List.getElem?_take_of_lt (by omega)]
    exact hp
  exact List.getElem?_mem h1

/-- In a represented tree with strictly ascending keys the descent with the key of an entry
ends in the leaf that holds the key. -/
theorem Rep.descent {V : Type} {h : Heap V} : ∀ {d : Nat} {S : Sub V}, Rep h d S →
    (S.es.map Prod.fst).Sorted (fun a b => a < b) → ∀ e ∈ S.es, ∀ fuel, d + 1 ≤ fuel →
    ∃ a n, key_descent h e.1 fuel S.addr = some a ∧ h[a]? = some n ∧ n.is_leaf = true ∧
      e.1 ∈ n.keys.take n.num_keys ∧ a ∈ leaf_list h d S.addr := by
  intro d
  induction d with
  | zero =>
    intro S hr _ e he fuel hf
    obtain ⟨n, hn, hl, _, _, _, _⟩ := hr
    obtain ⟨f, rfl⟩ : ∃ f, fuel = f + 1 := ⟨fuel - 1, by omega⟩
    refine ⟨S.addr, n, ?_, hn, hl.1, ?_, List.mem_singleton_self _⟩
    · rw [key_descent]
      dsimp only [bind, Option.bind]
      rw [hn]; dsimp only
      rw [if_pos hl.1]
    · rw [hl.2.2.2.1]
      exact List.mem_map_of_mem _ he
  | succ d ih =>
    intro S hr ha e he fuel hf
    obtain ⟨n, subs, hn, hin, h1, _, hes, _, _, hk⟩ := hr
    obtain ⟨f, rfl⟩ : ∃ f, fuel = f + 1 := ⟨fuel - 1, by omega⟩
    rw [hes] at he ha
    obtain ⟨c, hc, hec⟩ := mem_flatten_es he
    obtain ⟨A, C, hsplit⟩ := List.append_of_mem hc
    rw [hsplit] at hin ha
    have hcross := strict_cross ha
    have hlen := hin.child_count
    rw [List.length_append, List.length_cons] at hlen
    have hsz : n.keys.length = 5 := hin.2.1.1
    have hnk5 : n.num_keys ≤ 5 := hin.2.2.1
    obtain ⟨i, hd, hile, hgt, hle⟩ := descend_spec e.1 n.keys n.num_keys (by omega)
    have hiA : i = A.length := by
      rcases Nat.lt_trichotomy i A.length with hlt | heq | hgt2
      · exfalso
        have hAne : A ≠ [] := by
          intro h0
          rw [h0] at hlt
          simp at hlt
        have hkb := hin.key_before hAne
        have hm : c.hk ∈ (n.keys.take n.num_keys).drop i := by
          have h2 : ((n.keys.take n.num_keys).drop i)[A.length - 1 - i]? = some c.hk := by
            rw [List.getElem?_drop, List.getElem?_take_of_lt (by omega),
              show i + (A.length - 1 - i) = A.length - 1 by omega]
            exact hkb
          exact List.getElem?_mem h2
        have h3 := hgt _ hm
        have h4 := (strict_ascending hcross.1).head_le hec
        unfold Sub.hk at h3
        omega
      · exact heq
      · exfalso
        have hka := hin.keys_after
        have hex : ∃ k, n.keys[i - 1]? = some k :=
          ⟨n.keys[i - 1], List.getElem?_eq_getElem (by omega)⟩
        obtain ⟨k, hk1⟩ := hex
        have hm : k ∈ C.map Sub.hk := by
          rw [← hka]
          have h2 : ((n.keys.take n.num_keys).drop A.length)[i - 1 - A.length]? = some k := by
            rw [List.getElem?_drop, List.getElem?_take_of_lt (by omega),
              show A.length + (i - 1 - A.length) = i - 1 by omega]
            exact hk1
          exact List.getElem?_mem h2
        obtain ⟨c1, hc1, rfl⟩ := List.mem_map.mp hm
        have hc1s : c1 ∈ subs := by
          rw [hsplit]
          exact List.mem_append_right _ (List.mem_cons_of_mem _ hc1)
        obtain ⟨e2, he2, hke⟩ := headKey_mem (hk c1 hc1s).es_ne
        have h3 := hcross.2 c1 hc1 e hec e2 he2
        have h4 := hle c1.hk (by omega) hk1
        unfold Sub.hk at h4
        omega
    have hp := hin.ptr
    obtain ⟨a, n1, hdes, hn1, hleaf, hmem, hll⟩ := ih (hk c hc) hcross.1 e hec f (by omega)
    refine ⟨a, n1, ?_, hn1, hleaf, hmem,
      leaf_list_child hn (by rw [← hiA]; exact hile) hp hll⟩
    rw [key_descent]
    dsimp only [bind, Option.bind]
    rw [hn]; dsimp only
    rw [if_neg (by rw [hin.1]; decide)]
    rw [hd]; dsimp only
    rw [hiA, hp]
    exact hdes

end Ledger

namespace Ledger

/-- C24: every sequence of `insert_transaction` calls with pairwise distinct keys, started
on the empty index, runs through, and the tree it builds is empty (no call) or has a height
`d` and a root `r` such that the node invariant holds and: in every internal node, every
key in the leaves below the child in slot `i` is at least the separator `keys[i - 1]` (for
`i > 0`) and less than the separator `keys[i]` (for `i < num_keys`); and for every entry of
the traversal the descent from the root by the rule of `insert_non_full` (`descend`: the
child after the last separator that is not greater than the key) ends in a leaf of the tree
that has the key of the entry among its keys in use. -/
theorem C24_separators_bound (V : Type) (l : List (Int × V)) (hnd : (l.map Prod.fst).Nodup) :
    ∃ idx es, insert_all Index.empty l = some idx ∧ traverse idx = some es ∧ es.Perm l ∧
      ((l = [] ∧ idx.root = none) ∨
        ∃ d r, idx.root = some r ∧ node_inv idx.heap d r ∧ sep_inv idx.heap d r ∧
          ∀ e ∈ es, ∃ a n, key_descent idx.heap e.1 idx.heap.length r = some a ∧
            idx.heap[a]? = some n ∧ n.is_leaf = true ∧ e.1 ∈ n.keys.take n.num_keys ∧
            a ∈ leaf_list idx.heap d r) := by
  obtain ⟨idx, es, h1, hw, hp⟩ := insert_all_spec l Index.empty [] (WF_empty V)
  rw [List.append_nil] at hp
  refine ⟨idx, es, h1, traverse_spec _ _ hw, hp, ?_⟩
  have hstrict : (es.map Prod.fst).Sorted (fun a b => a < b) :=
    List.Sorted.lt_of_le hw.asc ((hp.map Prod.fst).nodup_iff.mpr hnd)
  obtain ⟨hp0, root⟩ := idx
  rcases hw with ⟨hroot, hes⟩ | ⟨d, S, hroot, hrep, hnxt, hes, hasc⟩
  · left
    rw [hes] at hp
    exact ⟨hp.symm.eq_nil, hroot⟩
  · right
    simp only at hroot hrep
    subst hroot
    subst hes
    refine ⟨d, S.addr, rfl, hrep.node_inv hasc, hrep.sep_inv hstrict, ?_⟩
    intro e he
    exact hrep.descent hstrict e he hp0.length hrep.depth_lt_store

/-- C24 for the keys 6, 5, 4, 3, 2, 1 inserted in this order. -/
theorem C24_separators_bound_witness :
    ∃ idx es, insert_all (Index.empty : Index Unit)
        [(6, ()), (5, ()), (4, ()), (3, ()), (2, ()), (1, ())] = some idx ∧
      traverse idx = some es ∧
      es.Perm [(6, ()), (5, ()), (4, ()), (3, ()), (2, ()), (1, ())] ∧
      ∃ d r, idx.root = some r ∧ node_inv idx.heap d r ∧ sep_inv idx.heap d r ∧
        ∀ e ∈ es, ∃ a n, key_descent idx.heap e.1 idx.heap.length r = some a ∧
          idx.heap[a]? = some n ∧ n.is_leaf = true ∧ e.1 ∈ n.keys.take n.num_keys ∧
          a ∈ leaf_list idx.heap d r := by
  obtain ⟨idx, es, h1, h2, h3, h4⟩ := C24_separators_bound Unit
    [(6, ()), (5, ()), (4, ()), (3, ()), (2, ()), (1, ())] (by decide)
  refine ⟨idx, es, h1, h2, h3, ?_⟩
  rcases h4 with ⟨h5, _⟩ | h5
  · cases h5
  · exact h5

end Ledger

namespace Ledger

/-! ## The logs of the loops -/

theorem copy_loop_log {V : Type} (yk : List Int) (yp : List (Ptr V)) :
    ∀ (cnt i j : Nat) (zk : List Int) (zp : List (Ptr V)) (L : List Access)
      (r : List Int × List (Ptr V) × Nat),
    copy_loop yk yp cnt i j zk zp = some r → j ≤ i →
    ∃ ext, copy_loop_t yk yp cnt i j zk zp L = some (r.1, r.2.1, r.2.2, L ++ ext) ∧
      ∀ a ∈ ext, ∃ m, m < i + cnt ∧ (a = Access.key m ∨ a = Access.ptr m) := by
  intro cnt
  induction cnt with
  | zero =>
    intro i j zk zp L r h _
    rw [copy_loop] at h
    cases h
    exact ⟨[], by rw [copy_loop_t, List.append_nil], fun a ha => by cases ha⟩
  | succ cnt ih =>
    intro i j zk zp L r h hji
    rw [copy_loop] at h
    rw [copy_loop_t]
    dsimp only [bind, Option.bind] at h ⊢
    cases h1 : yk[i]? with
    | none => rw [h1] at h; cases h
    | some k =>
      rw [h1] at h; dsimp only at h ⊢
      cases h2 : wr zk j k with
      | none => rw [h2] at h; cases h
      | some zk1 =>
        rw [h2] at h; dsimp only at h ⊢
        cases h3 : yp[i]? with
        | none => rw [h3] at h; cases h
        | some p =>
          rw [h3] at h; dsimp only at h ⊢
          cases h4 : wr zp j p with
          | none => rw [h4] at h; cases h
          | some zp1 =>
            rw [h4] at h; dsimp only at h ⊢
            obtain ⟨ext, he, hb⟩ := ih (i + 1) (j + 1) zk1 zp1
              (L ++ [Access.key i, Access.key j, Access.ptr i, Access.ptr j]) r h (by omega)
            refine ⟨[Access.key i, Access.key j, Access.ptr i, Access.ptr j] ++ ext, ?_, ?_⟩
            · rw [he, List.append_assoc]
            · intro a ha
              rcases List.mem_append.mp ha with h5 | h5
              · simp only [List.mem_cons, List.mem_singleton, List.not_mem_nil,
                  or_false] at h5
                rcases h5 with h5 | h5 | h5 | h5
                · exact ⟨i, by omega, Or.inl h5⟩
                · exact ⟨j, by omega, Or.inl h5⟩
                · exact ⟨i, by omega, Or.inr h5⟩
                · exact ⟨j, by omega, Or.inr h5⟩
              · obtain ⟨m, hm, hcase⟩ := hb a h5
                exact ⟨m, by omega, hcase⟩

theorem shift_right_log {α : Type} (mk : Nat → Access) :
    ∀ (cnt i : Nat) (a : List α) (L : List Access) (r : List α),
    shift_right cnt i a = some r →
    ∃ ext, shift_right_t mk cnt i a L = some (r, L ++ ext) ∧
      ∀ e ∈ ext, ∃ m, m ≤ i ∧ e = mk m := by
  intro cnt
  induction cnt with
  | zero =>
    intro i a L r h
    rw [shift_right] at h
    cases h
    exact ⟨[], by rw [shift_right_t, List.append_nil], fun e he => by cases he⟩
  | succ cnt ih =>
    intro i a L r h
    rw [shift_right] at h
    rw [shift_right_t]
    dsimp only [bind, Option.bind] at h ⊢
    cases h1 : a[i - 1]? with
    | none => rw [h1] at h; cases h
    | some v =>
      rw [h1] at h; dsimp only at h ⊢
      cases h2 : wr a i v with
      | none => rw [h2] at h; cases h
      | some a1 =>
        rw [h2] at h; dsimp only at h ⊢
        obtain ⟨ext, he, hb⟩ := ih (i - 1) a1 (L ++ [mk (i - 1), mk i]) r h
        refine ⟨[mk (i - 1), mk i] ++ ext, ?_, ?_⟩
        · rw [he, List.append_assoc]
        · intro e hem
          rcases List.mem_append.mp hem with h5 | h5
          · simp only [List.mem_cons, List.mem_singleton, List.not_mem_nil, or_false] at h5
            rcases h5 with h5 | h5
            · exact ⟨i - 1, by omega, h5⟩
            · exact ⟨i, Nat.le_refl _, h5⟩
          · obtain ⟨m, hm, hcase⟩ := hb e h5
            exact ⟨m, by omega, hcase⟩

theorem leaf_shift_log {V : Type} (key : Int) :
    ∀ (j : Nat) (ks : List Int) (ps : List (Ptr V)) (L : List Access)
      (r : Nat × List Int × List (Ptr V)),
    leaf_shift key j ks ps = some r →
    ∃ ext, leaf_shift_t key j ks ps L = some (r.1, r.2.1, r.2.2, L ++ ext) ∧
      ∀ a ∈ ext, ∃ m, m ≤ j ∧ (a = Access.key m ∨ a = Access.ptr m) := by
  intro j
  induction j with
  | zero =>
    intro ks ps L r h
    rw [leaf_shift] at h
    cases h
    exact ⟨[], by rw [leaf_shift_t, List.append_nil], fun a ha => by cases ha⟩
  | succ j ih =>
    intro ks ps L r h
    rw [leaf_shift] at h
    rw [leaf_shift_t]
    dsimp only [bind, Option.bind] at h ⊢
    cases h1 : ks[j]? with
    | none => rw [h1] at h; cases h
    | some kj =>
      rw [h1] at h; dsimp only at h ⊢
      by_cases hlt : key < kj
      · rw [if_pos hlt] at h ⊢
        cases h2 : wr ks (j + 1) kj with
        | none => rw [h2] at h; cases h
        | some ks1 =>
          rw [h2] at h; dsimp only at h ⊢
          cases h3 : ps[j]? with
          | none => rw [h3] at h; cases h
          | some pj =>
            rw [h3] at h; dsimp only at h ⊢
            cases h4 : wr ps (j + 1) pj with
            | none => rw [h4] at h; cases h
            | some ps1 =>
              rw [h4] at h; dsimp only at h ⊢
              obtain ⟨ext, he, hb⟩ := ih ks1 ps1
                (L ++ [Access.key j, Access.key (j + 1), Access.ptr j, Access.ptr (j + 1)]) r h
              refine ⟨[Access.key j, Access.key (j + 1), Access.ptr j, Access.ptr (j + 1)]
                ++ ext, ?_, ?_⟩
              · rw [he, List.append_assoc]
              · intro a ha
                rcases List.mem_append.mp ha with h5 | h5
                · simp only [List.mem_cons, List.mem_singleton, List.not_mem_nil,
                    or_false] at h5
                  rcases h5 with h5 | h5 | h5 | h5
                  · exact ⟨j, by omega, Or.inl h5⟩
                  · exact ⟨j + 1, by omega, Or.inl h5⟩
                  · exact ⟨j, by omega, Or.inr h5⟩
                  · exact ⟨j + 1, by omega, Or.inr h5⟩
                · obtain ⟨m, hm, hcase⟩ := hb a h5
                  exact ⟨m, by omega, hcase⟩
      · rw [if_neg hlt] at h ⊢
        cases h
        refine ⟨[Access.key j], rfl, ?_⟩
        intro a ha
        rw [List.mem_singleton] at ha
        exact ⟨j, by omega, Or.inl ha⟩

theorem descend_log (key : Int) :
    ∀ (j : Nat) (ks : List Int) (L : List Access) (i : Nat),
    descend key j ks = some i →
    ∃ ext, descend_t key j ks L = some (i, L ++ ext) ∧
      ∀ a ∈ ext, ∃ m, m < j ∧ a = Access.key m := by
  intro j
  induction j with
  | zero =>
    intro ks L i h
    rw [descend] at h
    cases h
    exact ⟨[], by rw [descend_t, List.append_nil], fun a ha => by cases ha⟩
  | succ j ih =>
    intro ks L i h
    rw [descend] at h
    rw [descend_t]
    dsimp only [bind, Option.bind] at h ⊢
    cases h1 : ks[j]? with
    | none => rw [h1] at h; cases h
    | some kj =>
      rw [h1] at h; dsimp only at h ⊢
      by_cases hlt : key < kj
      · rw [if_pos hlt] at h ⊢
        obtain ⟨ext, he, hb⟩ := ih ks (L ++ [Access.key j]) i h
        refine ⟨[Access.key j] ++ ext, ?_, ?_⟩
        · rw [he, List.append_assoc]
        · intro a ha
          rcases List.mem_append.mp ha with h5 | h5
          · rw [List.mem_singleton] at h5
            exact ⟨j, by omega, h5⟩
          · obtain ⟨m, hm, hcase⟩ := hb a h5
            exact ⟨m, by omega, hcase⟩
      · rw [if_neg hlt] at h ⊢
        cases h
        refine ⟨[Access.key j], rfl, ?_⟩
        intro a ha
        rw [List.mem_singleton] at ha
        exact ⟨j, by omega, ha⟩

end Ledger

namespace Ledger

/-! ## The log of `split_child` -/

theorem ok_of_key {m : Nat} (h : m < 5) : (Access.key m).ok = true := by
  unfold Access.ok
  exact decide_eq_true (by show m < ORDER - 1; exact h)

theorem ok_of_ptr {m : Nat} (h : m < 6) : (Access.ptr m).ok = true := by
  unfold Access.ok
  exact decide_eq_true (by show m < ORDER; exact h)

theorem calls_append (L1 L2 : List Access) : calls (L1 ++ L2) = calls L1 + calls L2 := by
  unfold calls
  rw [List.filter_append, List.length_append]

theorem calls_zero {L : List Access} (h : ∀ a ∈ L, a.is_enter = false) : calls L = 0 := by
  unfold calls
  rw [List.length_eq_zero, List.filter_eq_nil_iff]
  intro a ha
  rw [h a ha]
  decide

/-- A leaf split with the log: the logged function returns the same store, and its log
entries are within the bounds. -/
theorem split_leaf_log {V : Type} (h : Heap V) (x i y : Nat) (nx ny : node V) (L : List Access)
    (hx : h[x]? = some nx) (hsx : nx.sized) (hnk : nx.num_keys < ORDER - 1)
    (hi : i ≤ nx.num_keys) (hy : nx.pointers[i]? = some (Ptr.child y))
    (hny : h[y]? = some ny) (hsy : ny.sized) (hfull : ny.num_keys = ORDER - 1)
    (hleaf : ny.is_leaf = true) (h1 : Heap V) (hs : split_child h x i = some h1) :
    ∃ ext, split_child_t h x i L = some (h1, L ++ ext) ∧
      (∀ a ∈ ext, a.ok = true) ∧ (∀ a ∈ ext, a.is_enter = false) := by
  have hfull0 := hfull
  obtain ⟨hkx, hpx⟩ := hsx
  obtain ⟨hky, hpy⟩ := hsy
  simp only [ORDER, Nat.reduceAdd, Nat.reduceSub] at hkx hpx hky hpy hnk hfull
  have hxlt : x < h.length := lookup_lt hx
  have hylt : y < h.length := lookup_lt hny
  obtain ⟨zk1, zp1, j, hcopy, hzk1, hzp1, hzkt, hzpt, hz0⟩ :=
    copy_leaf_spec ny.keys (List.replicate 5 (0 : Int)) ny.pointers
      (List.replicate 7 (Ptr.null : Ptr V)) hky hpy (by simp) (by simp)
  have hk3 : ny.keys[3]? = some ny.keys[3] := by simp [List.getElem?_eq_getElem, hky]
  obtain ⟨xk0, xk1, hsk, hwk, hxk1, hxkt⟩ :=
    shift_keys_spec nx.keys hkx nx.num_keys i hnk hi ny.keys[3]
  obtain ⟨xp0, xp1, hsp, hwp, hxp1, hxpt⟩ :=
    shift_ptrs_spec nx.pointers hpx nx.num_keys i hnk hi (Ptr.child h.length)
  rw [hk3] at hz0
  have hcopy1 : copy_loop ny.keys ny.pointers (ORDER - 1 - ORDER / 2) (ORDER / 2) 0
      (List.replicate (ORDER - 1) 0) (List.replicate (ORDER + 1) Ptr.null)
      = some (zk1, zp1, j) := hcopy
  have hl1 : ∀ v : node V, (h.set y v).length = h.length := fun v => by simp
  obtain ⟨e1, hc1, hb1⟩ := copy_loop_log ny.keys ny.pointers _ _ _ _ _
    (L ++ [Access.ptr i, Access.split nx.num_keys (ORDER - 1) i]) _ hcopy1 (Nat.zero_le _)
  obtain ⟨e2, hc2, hb2⟩ := shift_right_log Access.ptr _ _ _
    (L ++ [Access.ptr i, Access.split nx.num_keys (ORDER - 1) i] ++ e1) _ hsp
  obtain ⟨e3, hc3, hb3⟩ := shift_right_log Access.key _ _ _
    (L ++ [Access.ptr i, Access.split nx.num_keys (ORDER - 1) i] ++ e1 ++ e2) _ hsk
  unfold split_child at hs
  rw [hx] at hs; dsimp only [bind, Option.bind] at hs
  rw [hy] at hs; dsimp only [asChild] at hs
  rw [hny] at hs; dsimp only [create_node] at hs
  rw [List.getElem?_concat_length] at hs; dsimp only at hs
  rw [if_pos hleaf, hfull0, hcopy1] at hs; dsimp only at hs
  rw [hsp] at hs; dsimp only at hs
  rw [hsk] at hs; dsimp only at hs
  rw [hz0] at hs; dsimp only at hs
  rw [hwk] at hs; dsimp only at hs
  rw [hwp] at hs; dsimp only at hs
  rw [wr_append_left _ _ _ _ hylt] at hs; dsimp only at hs
  rw [wr_append_last _ _ _ _ (hl1 _).symm] at hs; dsimp only at hs
  rw [wr_append_left _ _ _ _ (by rw [hl1]; exact hxlt)] at hs
  have hh := Option.some.inj hs
  refine ⟨[Access.ptr i, Access.split nx.num_keys (ORDER - 1) i] ++ (e1 ++ (e2 ++ (e3 ++
    [Access.key 0, Access.key i, Access.ptr (i + 1)]))), ?_, ?_, ?_⟩
  · unfold split_child_t
    rw [hx]; dsimp only [bind, Option.bind]
    rw [hy]; dsimp only [asChild]
    rw [hny]; dsimp only [create_node]
    rw [List.getElem?_concat_length]; dsimp only
    rw [if_pos hleaf, hfull0, hc1]; dsimp only
    rw [hc2]; dsimp only
    rw [hc3]; dsimp only
    rw [hz0]; dsimp only
    rw [hwk]; dsimp only
    rw [hwp]; dsimp only
    rw [wr_append_left _ _ _ _ hylt]; dsimp only
    rw [wr_append_last _ _ _ _ (hl1 _).symm]; dsimp only
    rw [wr_append_left _ _ _ _ (by rw [hl1]; exact hxlt), hh]
    simp only [List.append_assoc]
  · intro a ha
    rcases List.mem_append.mp ha with h5 | h5
    · rcases List.mem_cons.mp h5 with h6 | h6
      · rw [h6]; exact ok_of_ptr (by omega)
      · rw [List.mem_singleton] at h6
        rw [h6]
        unfold Access.ok
        exact decide_eq_true ⟨by show nx.num_keys < 5; exact hnk, rfl, hi⟩
    rcases List.mem_append.mp h5 with h6 | h6
    · obtain ⟨m, hm, hcase⟩ := hb1 a h6
      have hm5 : m < 5 := hm
      rcases hcase with h7 | h7
      · rw [h7]; exact ok_of_key hm5
      · rw [h7]; exact ok_of_ptr (by omega)
    rcases List.mem_append.mp h6 with h7 | h7
    · obtain ⟨m, hm, hcase⟩ := hb2 a h7
      rw [hcase]; exact ok_of_ptr (by omega)
    rcases List.mem_append.mp h7 with h8 | h8
    · obtain ⟨m, hm, hcase⟩ := hb3 a h8
      rw [hcase]; exact ok_of_key (by omega)
    · simp only [List.mem_cons, List.mem_singleton, List.not_mem_nil, or_false] at h8
      rcases h8 with h8 | h8 | h8
      · rw [h8]; exact ok_of_key (by omega)
      · rw [h8]; exact ok_of_key (by omega)
      · rw [h8]; exact ok_of_ptr (by omega)
  · intro a ha
    rcases List.mem_append.mp ha with h5 | h5
    · rcases List.mem_cons.mp h5 with h6 | h6
      · rw [h6]; rfl
      · rw [List.mem_singleton] at h6
        rw [h6]; rfl
    rcases List.mem_append.mp h5 with h6 | h6
    · obtain ⟨m, _, hcase⟩ := hb1 a h6
      rcases hcase with h7 | h7 <;> rw [h7] <;> rfl
    rcases List.mem_append.mp h6 with h7 | h7
    · obtain ⟨m, _, hcase⟩ := hb2 a h7
      rw [hcase]; rfl
    rcases List.mem_append.mp h7 with h8 | h8
    · obtain ⟨m, _, hcase⟩ := hb3 a h8
      rw [hcase]; rfl
    · simp only [List.mem_cons, List.mem_singleton, List.not_mem_nil, or_false] at h8
      rcases h8 with h8 | h8 | h8 <;> rw [h8] <;> rfl

end Ledger

namespace Ledger

theorem copy_loop_count {V : Type} (yk : List Int) (yp : List (Ptr V)) :
    ∀ (cnt i j : Nat) (zk : List Int) (zp : List (Ptr V)) (r : List Int × List (Ptr V) × Nat),
    copy_loop yk yp cnt i j zk zp = some r → r.2.2 = j + cnt := by
  intro cnt
  induction cnt with
  | zero =>
    intro i j zk zp r h
    rw [copy_loop] at h
    cases h
    rfl
  | succ cnt ih =>
    intro i j zk zp r h
    rw [copy_loop] at h
    dsimp only [bind, Option.bind] at h
    cases h1 : yk[i]? with
    | none => rw [h1] at h; cases h
    | some k =>
      rw [h1] at h; dsimp only at h
      cases h2 : wr zk j k with
      | none => rw [h2] at h; cases h
      | some zk1 =>
        rw [h2] at h; dsimp only at h
        cases h3 : yp[i]? with
        | none => rw [h3] at h; cases h
        | some p =>
          rw [h3] at h; dsimp only at h
          cases h4 : wr zp j p with
          | none => rw [h4] at h; cases h
          | some zp1 =>
            rw [h4] at h; dsimp only at h
            rw [ih (i + 1) (j + 1) zk1 zp1 r h]
            omega

/-- An internal split with the log. -/
theorem split_inner_log {V : Type} (h : Heap V) (x i y : Nat) (nx ny : node V) (L : List Access)
    (hx : h[x]? = some nx) (hsx : nx.sized) (hnk : nx.num_keys < ORDER - 1)
    (hi : i ≤ nx.num_keys) (hy : nx.pointers[i]? = some (Ptr.child y))
    (hny : h[y]? = some ny) (hsy : ny.sized) (hfull : ny.num_keys = ORDER - 1)
    (hleaf : ny.is_leaf = false) (h1 : Heap V) (hs : split_child h x i = some h1) :
    ∃ ext, split_child_t h x i L = some (h1, L ++ ext) ∧
      (∀ a ∈ ext, a.ok = true) ∧ (∀ a ∈ ext, a.is_enter = false) := by
  have hfull0 := hfull
  obtain ⟨hkx, hpx⟩ := hsx
  obtain ⟨hky, hpy⟩ := hsy
  simp only [ORDER, Nat.reduceAdd, Nat.reduceSub] at hkx hpx hky hpy hnk hfull
  have hxlt : x < h.length := lookup_lt hx
  have hylt : y < h.length := lookup_lt hny
  obtain ⟨zk1, zp0, j, zp1, plast, hcopy, hplast, hwz, hzk1, hzp1, hzkt, hzpt⟩ :=
    copy_inner_spec ny.keys (List.replicate 5 (0 : Int)) ny.pointers
      (List.replicate 7 (Ptr.null : Ptr V)) hky hpy (by simp) (by simp)
  have hj : j = 1 := by
    have := copy_loop_count _ _ _ _ _ _ _ _ hcopy
    exact this
  have hk3 : ny.keys[3]? = some ny.keys[3] := by simp [List.getElem?_eq_getElem, hky]
  obtain ⟨xk0, xk1, hsk, hwk, hxk1, hxkt⟩ :=
    shift_keys_spec nx.keys hkx nx.num_keys i hnk hi ny.keys[3]
  obtain ⟨xp0, xp1, hsp, hwp, hxp1, hxpt⟩ :=
    shift_ptrs_spec nx.pointers hpx nx.num_keys i hnk hi (Ptr.child h.length)
  have hcopy1 : copy_loop ny.keys ny.pointers (ORDER - 1 - (ORDER / 2 + 1)) (ORDER / 2 + 1) 0
      (List.replicate (ORDER - 1) 0) (List.replicate (ORDER + 1) Ptr.null)
      = some (zk1, zp0, j) := hcopy
  have hplast1 : ny.pointers[ORDER - 1]? = some plast := hplast
  have hk3a : ny.keys[ORDER / 2]? = some ny.keys[3] := hk3
  have hl1 : ∀ v : node V, (h.set y v).length = h.length := fun v => by simp
  have hnf : ¬ (ny.is_leaf = true) := by rw [hleaf]; exact Bool.false_ne_true
  obtain ⟨e1, hc1, hb1⟩ := copy_loop_log ny.keys ny.pointers _ _ _ _ _
    (L ++ [Access.ptr i, Access.split nx.num_keys (ORDER - 1) i]) _ hcopy1 (Nat.zero_le _)
  obtain ⟨e2, hc2, hb2⟩ := shift_right_log Access.ptr _ _ _
    (L ++ [Access.ptr i, Access.split nx.num_keys (ORDER - 1) i] ++ e1 ++
      [Access.ptr (ORDER - 1), Access.ptr j]) _ hsp
  obtain ⟨e3, hc3, hb3⟩ := shift_right_log Access.key _ _ _
    (L ++ [Access.ptr i, Access.split nx.num_keys (ORDER - 1) i] ++ e1 ++
      [Access.ptr (ORDER - 1), Access.ptr j] ++ e2) _ hsk
  unfold split_child at hs
  rw [hx] at hs; dsimp only [bind, Option.bind] at hs
  rw [hy] at hs; dsimp only [asChild] at hs
  rw [hny] at hs; dsimp only [create_node] at hs
  rw [List.getElem?_concat_length] at hs; dsimp only at hs
  rw [if_neg hnf, hfull0, hcopy1] at hs; dsimp only at hs
  rw [hplast1] at hs; dsimp only at hs
  rw [hwz] at hs; dsimp only at hs
  rw [hsp] at hs; dsimp only at hs
  rw [hsk] at hs; dsimp only at hs
  rw [hk3a] at hs; dsimp only at hs
  rw [hwk] at hs; dsimp only at hs
  rw [hwp] at hs; dsimp only at hs
  rw [wr_append_left _ _ _ _ hylt] at hs; dsimp only at hs
  rw [wr_append_last _ _ _ _ (hl1 _).symm] at hs; dsimp only at hs
  rw [wr_append_left _ _ _ _ (by rw [hl1]; exact hxlt)] at hs
  have hh := Option.some.inj hs
  refine ⟨[Access.ptr i, Access.split nx.num_keys (ORDER - 1) i] ++ (e1 ++
    ([Access.ptr (ORDER - 1), Access.ptr j] ++ (e2 ++ (e3 ++
      [Access.key (ORDER / 2), Access.key i, Access.ptr (i + 1)])))), ?_, ?_, ?_⟩
  · unfold split_child_t
    rw [hx]; dsimp only [bind, Option.bind]
    rw [hy]; dsimp only [asChild]
    rw [hny]; dsimp only [create_node]
    rw [List.getElem?_concat_length]; dsimp only
    rw [if_neg hnf, hfull0, hc1]; dsimp only
    rw [hplast1]; dsimp only
    rw [hwz]; dsimp only
    rw [hc2]; dsimp only
    rw [hc3]; dsimp only
    rw [hk3a]; dsimp only
    rw [hwk]; dsimp only
    rw [hwp]; dsimp only
    rw [wr_append_left _ _ _ _ hylt]; dsimp only
    rw [wr_append_last _ _ _ _ (hl1 _).symm]; dsimp only
    rw [wr_append_left _ _ _ _ (by rw [hl1]; exact hxlt), hh]
    simp only [List.append_assoc]
  · intro a ha
    rcases List.mem_append.mp ha with h5 | h5
    · rcases List.mem_cons.mp h5 with h6 | h6
      · rw [h6]; exact ok_of_ptr (by omega)
      · rw [List.mem_singleton] at h6
        rw [h6]
        unfold Access.ok
        exact decide_eq_true ⟨by show nx.num_keys < 5; exact hnk, rfl, hi⟩
    rcases List.mem_append.mp h5 with h6 | h6
    · obtain ⟨m, hm, hcase⟩ := hb1 a h6
      have hm5 : m < 5 := hm
      rcases hcase with h7 | h7
      · rw [h7]; exact ok_of_key hm5
      · rw [h7]; exact ok_of_ptr (by omega)
    rcases List.mem_append.mp h6 with h7 | h7
    · rcases List.mem_cons.mp h7 with h8 | h8
      · rw [h8]; exact ok_of_ptr (by decide)
      · rw [List.mem_singleton] at h8
        rw [h8, hj]; exact ok_of_ptr (by decide)
    rcases List.mem_append.mp h7 with h8 | h8
    · obtain ⟨m, hm, hcase⟩ := hb2 a h8
      rw [hcase]; exact ok_of_ptr (by omega)
    rcases List.mem_append.mp h8 with h9 | h9
    · obtain ⟨m, hm, hcase⟩ := hb3 a h9
      rw [hcase]; exact ok_of_key (by omega)
    · simp only [List.mem_cons, List.mem_singleton, List.not_mem_nil, or_false] at h9
      rcases h9 with h9 | h9 | h9
      · rw [h9]; exact ok_of_key (by decide)
      · rw [h9]; exact ok_of_key (by omega)
      · rw [h9]; exact ok_of_ptr (by omega)
  · intro a ha
    rcases List.mem_append.mp ha with h5 | h5
    · rcases List.mem_cons.mp h5 with h6 | h6
      · rw [h6]; rfl
      · rw [List.mem_singleton] at h6
        rw [h6]; rfl
    rcases List.mem_append.mp h5 with h6 | h6
    · obtain ⟨m, _, hcase⟩ := hb1 a h6
      rcases hcase with h7 | h7 <;> rw [h7] <;> rfl
    rcases List.mem_append.mp h6 with h7 | h7
    · rcases List.mem_cons.mp h7 with h8 | h8
      · rw [h8]; rfl
      · rw [List.mem_singleton] at h8
        rw [h8]; rfl
    rcases List.mem_append.mp h7 with h8 | h8
    · obtain ⟨m, _, hcase⟩ := hb2 a h8
      rw [hcase]; rfl
    rcases List.mem_append.mp h8 with h9 | h9
    · obtain ⟨m, _, hcase⟩ := hb3 a h9
      rw [hcase]; rfl
    · simp only [List.mem_cons, List.mem_singleton, List.not_mem_nil, or_false] at h9
      rcases h9 with h9 | h9 | h9 <;> rw [h9] <;> rfl

/-- The function `split_child` with the log, on a parent that is not full and a full child:
the logged function returns the same store, and its log entries are within the bounds. -/
theorem split_child_log {V : Type} (h : Heap V) (x i y : Nat) (nx ny : node V) (L : List Access)
    (hx : h[x]? = some nx) (hsx : nx.sized) (hnk : nx.num_keys < ORDER - 1)
    (hi : i ≤ nx.num_keys) (hy : nx.pointers[i]? = some (Ptr.child y))
    (hny : h[y]? = some ny) (hsy : ny.sized) (hfull : ny.num_keys = ORDER - 1)
    (h1 : Heap V) (hs : split_child h x i = some h1) :
    ∃ ext, split_child_t h x i L = some (h1, L ++ ext) ∧
      (∀ a ∈ ext, a.ok = true) ∧ calls ext = 0 := by
  cases hleaf : ny.is_leaf with
  | true =>
    obtain ⟨ext, h2, h3, h4⟩ := split_leaf_log h x i y nx ny L hx hsx hnk hi hy hny hsy hfull
      hleaf h1 hs
    exact ⟨ext, h2, h3, calls_zero h4⟩
  | false =>
    obtain ⟨ext, h2, h3, h4⟩ := split_inner_log h x i y nx ny L hx hsx hnk hi hy hny hsy hfull
      hleaf h1 hs
    exact ⟨ext, h2, h3, calls_zero h4⟩

end Ledger

namespace Ledger

/-! ## The log of `insert_non_full` -/

theorem leaf_shift_le {V : Type} (key : Int) :
    ∀ (j : Nat) (ks : List Int) (ps : List (Ptr V)) (r : Nat × List Int × List (Ptr V)),
    leaf_shift key j ks ps = some r → r.1 ≤ j := by
  intro j
  induction j with
  | zero =>
    intro ks ps r h
    rw [leaf_shift] at h
    cases h
    exact Nat.le_refl _
  | succ j ih =>
    intro ks ps r h
    rw [leaf_shift] at h
    dsimp only [bind, Option.bind] at h
    cases h1 : ks[j]? with
    | none => rw [h1] at h; cases h
    | some kj =>
      rw [h1] at h; dsimp only at h
      by_cases hlt : key < kj
      · rw [if_pos hlt] at h
        cases h2 : wr ks (j + 1) kj with
        | none => rw [h2] at h; cases h
        | some ks1 =>
          rw [h2] at h; dsimp only at h
          cases h3 : ps[j]? with
          | none => rw [h3] at h; cases h
          | some pj =>
            rw [h3] at h; dsimp only at h
            cases h4 : wr ps (j + 1) pj with
            | none => rw [h4] at h; cases h
            | some ps1 =>
              rw [h4] at h; dsimp only at h
              exact Nat.le_succ_of_le (ih ks1 ps1 r h)
      · rw [if_neg hlt] at h
        cases h
        exact Nat.le_refl _

theorem insert_inner_nosplit_t {V : Type} (f : Nat) (h : Heap V) (x i c : Nat) (n nc : node V)
    (key : Int) (t : V) (L L1 : List Access)
    (hn : h[x]? = some n) (hl : n.is_leaf = false)
    (hd : descend_t key n.num_keys n.keys (L ++ [Access.enter n.num_keys]) = some (i, L1))
    (hp : n.pointers[i]? = some (Ptr.child c)) (hc : h[c]? = some nc)
    (hnf : nc.num_keys ≠ ORDER - 1) :
    insert_non_full_t (f + 1) h x key t L
      = insert_non_full_t f h c key t (L1 ++ [Access.ptr i, Access.ptr i]) := by
  have hnl : ¬ (n.is_leaf = true) := by rw [hl]; exact Bool.false_ne_true
  rw [insert_non_full_t]
  rw [hn]; dsimp only [bind, Option.bind]
  rw [if_neg hnl, hd]; dsimp only
  rw [hp]; dsimp only [asChild]
  rw [hc]; dsimp only
  rw [if_neg hnf]

theorem insert_inner_split_t {V : Type} (f : Nat) (h h1 : Heap V) (x i c c1 : Nat)
    (n nc n1 : node V) (key ki : Int) (t : V) (L L1 L2 : List Access)
    (hn : h[x]? = some n) (hl : n.is_leaf = false)
    (hd : descend_t key n.num_keys n.keys (L ++ [Access.enter n.num_keys]) = some (i, L1))
    (hp : n.pointers[i]? = some (Ptr.child c)) (hc : h[c]? = some nc)
    (hfull : nc.num_keys = ORDER - 1)
    (hs : split_child_t h x i (L1 ++ [Access.ptr i]) = some (h1, L2))
    (hn1 : h1[x]? = some n1) (hki : n1.keys[i]? = some ki)
    (hp1 : n1.pointers[if key > ki then i + 1 else i]? = some (Ptr.child c1)) :
    insert_non_full_t (f + 1) h x key t L
      = insert_non_full_t f h1 c1 key t
          (L2 ++ [Access.key i, Access.ptr (if key > ki then i + 1 else i)]) := by
  have hnl : ¬ (n.is_leaf = true) := by rw [hl]; exact Bool.false_ne_true
  rw [insert_non_full_t]
  rw [hn]; dsimp only [bind, Option.bind]
  rw [if_neg hnl, hd]; dsimp only
  rw [hp]; dsimp only [asChild]
  rw [hc]; dsimp only
  rw [if_pos hfull, hs]; dsimp only
  rw [hn1]; dsimp only
  rw [hki]; dsimp only
  rw [hp1]; dsimp only [asChild]

/-- The leaf branch with the log. -/
theorem insert_leaf_log {V : Type} (f : Nat) (h : Heap V) (a : Nat) (n : node V)
    (es : List (Int × V)) (key : Int) (t : V) (L : List Access) (h1 : Heap V)
    (hn : h[a]? = some n) (hl : leaf_holds n es) (hlt : n.num_keys < ORDER - 1)
    (hins : insert_non_full (f + 1) h a key t = some h1) :
    ∃ ext, insert_non_full_t (f + 1) h a key t L = some (h1, L ++ ext) ∧
      (∀ e ∈ ext, e.ok = true) ∧ calls ext = 1 := by
  obtain ⟨j, ks, ps, ks1, ps1, hsh, hw1, hw2, _, _, _⟩ := leaf_insert key t n es hl hlt
  have hj : j ≤ n.num_keys := leaf_shift_le key _ _ _ _ hsh
  have hlt5 : n.num_keys < 5 := hlt
  obtain ⟨e1, hc1, hb1⟩ := leaf_shift_log key _ _ _ (L ++ [Access.enter n.num_keys]) _ hsh
  rw [insert_non_full] at hins
  rw [hn] at hins; dsimp only [bind, Option.bind] at hins
  rw [if_pos hl.1, hsh] at hins; dsimp only at hins
  rw [hw1] at hins; dsimp only at hins
  rw [hw2] at hins; dsimp only at hins
  refine ⟨[Access.enter n.num_keys] ++ (e1 ++ [Access.key j, Access.ptr j]), ?_, ?_, ?_⟩
  · rw [insert_non_full_t]
    rw [hn]; dsimp only [bind, Option.bind]
    rw [if_pos hl.1, hc1]; dsimp only
    rw [hw1]; dsimp only
    rw [hw2]; dsimp only
    rw [hins]; dsimp only
    simp only [List.append_assoc]
  · intro e he
    rcases List.mem_append.mp he with h5 | h5
    · rw [List.mem_singleton] at h5
      rw [h5]
      unfold Access.ok
      exact decide_eq_true hlt
    rcases List.mem_append.mp h5 with h6 | h6
    · obtain ⟨m, hm, hcase⟩ := hb1 e h6
      rcases hcase with h7 | h7
      · rw [h7]; exact ok_of_key (by omega)
      · rw [h7]; exact ok_of_ptr (by omega)
    · simp only [List.mem_cons, List.mem_singleton, List.not_mem_nil, or_false] at h6
      rcases h6 with h6 | h6
      · rw [h6]; exact ok_of_key (by omega)
      · rw [h6]; exact ok_of_ptr (by omega)
  · rw [calls_append, calls_append]
    have h0 : calls e1 = 0 := calls_zero (fun e he => by
      obtain ⟨m, _, hcase⟩ := hb1 e he
      rcases hcase with h7 | h7 <;> rw [h7] <;> rfl)
    rw [h0]
    rfl

end Ledger

namespace Ledger

theorem ok_append {L1 L2 : List Access} (h1 : ∀ a ∈ L1, a.ok = true)
    (h2 : ∀ a ∈ L2, a.ok = true) : ∀ a ∈ L1 ++ L2, a.ok = true := by
  intro a ha
  rcases List.mem_append.mp ha with h | h
  · exact h1 a h
  · exact h2 a h

/-- The function `insert_non_full` with the log, on a tree of height `d` whose root is not
full: the logged function returns the same store, its log entries are within the bounds,
and `insert_non_full` is entered `d + 1` times, once per level of the tree. -/
theorem insert_non_full_log (V : Type) : ∀ (d fuel : Nat) (h : Heap V) (S : Sub V) (key : Int)
    (t : V) (L : List Access) (h1 : Heap V), Rep h d S →
    (∀ n, h[S.addr]? = some n → n.num_keys < ORDER - 1) → d + 1 ≤ fuel →
    insert_non_full fuel h S.addr key t = some h1 →
    ∃ ext, insert_non_full_t fuel h S.addr key t L = some (h1, L ++ ext) ∧
      (∀ a ∈ ext, a.ok = true) ∧ calls ext = d + 1 := by
  intro d
  induction d with
  | zero =>
    intro fuel h S key t L h1 hr hnf hfuel hins
    obtain ⟨f, rfl⟩ : ∃ f, fuel = f + 1 := ⟨fuel - 1, by omega⟩
    obtain ⟨n, hn, hl, _, _, _, _⟩ := hr
    exact insert_leaf_log f h S.addr n S.es key t L h1 hn hl (hnf n hn) hins
  | succ d ih =>
    intro fuel h S key t L h1 hr hnf hfuel hins
    obtain ⟨f, rfl⟩ : ∃ f, fuel = f + 1 := ⟨fuel - 1, by omega⟩
    have hfuel1 : d + 1 ≤ f := by omega
    obtain ⟨n, subs, hn, hin, h1k, hseg, hes, hfp, hnd, hk⟩ := hr
    have hnk := hnf n hn
    have hnk5 : n.num_keys < 5 := hnk
    have hklen : n.num_keys ≤ n.keys.length := by
      rw [hin.2.1.1]; exact hin.2.2.1
    obtain ⟨i, hdesc, hile, _, _⟩ := descend_spec key n.keys n.num_keys hklen
    obtain ⟨A, s, C, hsubs, hAlen⟩ := split_at_index subs i (by rw [hin.child_count]; omega)
    subst hsubs
    subst hAlen
    obtain ⟨nc, hnc, hncs, _, hncle, _⟩ := (hk s (by simp)).root_node
    obtain ⟨e1, hd1, hb1⟩ := descend_log key _ _ (L ++ [Access.enter n.num_keys]) _ hdesc
    have hok0 : ∀ a ∈ [Access.enter n.num_keys] ++ e1, a.ok = true := by
      intro a ha
      rcases List.mem_append.mp ha with h5 | h5
      · rw [List.mem_singleton] at h5
        rw [h5]
        unfold Access.ok
        exact decide_eq_true hnk
      · obtain ⟨m, hm, hcase⟩ := hb1 a h5
        rw [hcase]; exact ok_of_key (by omega)
    have hcalls0 : calls ([Access.enter n.num_keys] ++ e1) = 1 := by
      have hz : calls e1 = 0 := calls_zero (fun a ha => by
        obtain ⟨m, _, hcase⟩ := hb1 a ha
        rw [hcase]; rfl)
      rw [calls_append, hz]
      rfl
    by_cases hfullc : nc.num_keys = ORDER - 1
    · obtain ⟨h2, n1, sy, sz, hsplit, hpost⟩ := split_rep d h S n A C s hn hin hnk hseg hfp hnd
        hk (fun nc1 h3 => by rw [hnc] at h3; cases h3; exact hfullc)
      obtain ⟨p1, p2, p3, p4, p5, p6, p7, p8, p9, p10, p11, p12⟩ := hpost
      have hki : n1.keys[A.length]? = some sz.hk := p3.key
      obtain ⟨e2, hs2, hb2, hc2⟩ := split_child_log h S.addr A.length s.addr n nc
        (L ++ [Access.enter n.num_keys] ++ e1 ++ [Access.ptr A.length]) hn hin.2.1 hnk hile
        hin.ptr hnc hncs hfullc h2 hsplit
      by_cases hgt2 : key > sz.hk
      · have p3a : inner_holds n1 ((A ++ [sy]) ++ sz :: C) := by
          rw [List.append_assoc]; exact p3
        have hptr : n1.pointers[A.length + 1]? = some (Ptr.child sz.addr) := by
          have := p3a.ptr
          simpa using this
        have hstep := insert_inner_split f h h2 S.addr A.length s.addr sz.addr n nc n1 key
          sz.hk t hn hin.1 hdesc hin.ptr hnc hfullc hsplit p2 hki
          (by rw [if_pos hgt2]; exact hptr)
        have hstept := insert_inner_split_t f h h2 S.addr A.length s.addr sz.addr n nc n1 key
          sz.hk t L _ _ hn hin.1 hd1 hin.ptr hnc hfullc hs2 p2 hki
          (by rw [if_pos hgt2]; exact hptr)
        rw [hstep] at hins
        obtain ⟨e3, hi3, hb3, hc3⟩ := ih f h2 sz key t
          (L ++ [Access.enter n.num_keys] ++ e1 ++ [Access.ptr A.length] ++ e2 ++
            [Access.key A.length, Access.ptr (if key > sz.hk then A.length + 1 else A.length)])
          h1 (p5 sz (by simp)) p12 hfuel1 hins
        refine ⟨([Access.enter n.num_keys] ++ e1) ++ ([Access.ptr A.length] ++ (e2 ++
          ([Access.key A.length,
            Access.ptr (if key > sz.hk then A.length + 1 else A.length)] ++ e3))), ?_, ?_, ?_⟩
        · rw [hstept, hi3]
          simp only [List.append_assoc]
        · refine ok_append hok0 (ok_append ?_ (ok_append hb2 (ok_append ?_ hb3)))
          · intro a ha
            rw [List.mem_singleton] at ha
            rw [ha]; exact ok_of_ptr (by omega)
          · intro a ha
            rcases List.mem_cons.mp ha with h5 | h5
            · rw [h5]; exact ok_of_key (by omega)
            · rw [List.mem_singleton] at h5
              rw [h5, if_pos hgt2]; exact ok_of_ptr (by omega)
        · have e5 : calls [Access.ptr A.length] = 0 := rfl
          have e6 : calls [Access.key A.length,
              Access.ptr (if key > sz.hk then A.length + 1 else A.length)] = 0 := rfl
          simp only [calls_append] at hcalls0 ⊢
          rw [hc2, hc3, e5, e6]
          omega
      · have hptr : n1.pointers[A.length]? = some (Ptr.child sy.addr) := p3.ptr
        have hstep := insert_inner_split f h h2 S.addr A.length s.addr sy.addr n nc n1 key
          sz.hk t hn hin.1 hdesc hin.ptr hnc hfullc hsplit p2 hki
          (by rw [if_neg hgt2]; exact hptr)
        have hstept := insert_inner_split_t f h h2 S.addr A.length s.addr sy.addr n nc n1 key
          sz.hk t L _ _ hn hin.1 hd1 hin.ptr hnc hfullc hs2 p2 hki
          (by rw [if_neg hgt2]; exact hptr)
        rw [hstep] at hins
        obtain ⟨e3, hi3, hb3, hc3⟩ := ih f h2 sy key t
          (L ++ [Access.enter n.num_keys] ++ e1 ++ [Access.ptr A.length] ++ e2 ++
            [Access.key A.length, Access.ptr (if key > sz.hk then A.length + 1 else A.length)])
          h1 (p5 sy (by simp)) p11 hfuel1 hins
        refine ⟨([Access.enter n.num_keys] ++ e1) ++ ([Access.ptr A.length] ++ (e2 ++
          ([Access.key A.length,
            Access.ptr (if key > sz.hk then A.length + 1 else A.length)] ++ e3))), ?_, ?_, ?_⟩
        · rw [hstept, hi3]
          simp only [List.append_assoc]
        · refine ok_append hok0 (ok_append ?_ (ok_append hb2 (ok_append ?_ hb3)))
          · intro a ha
            rw [List.mem_singleton] at ha
            rw [ha]; exact ok_of_ptr (by omega)
          · intro a ha
            rcases List.mem_cons.mp ha with h5 | h5
            · rw [h5]; exact ok_of_key (by omega)
            · rw [List.mem_singleton] at h5
              rw [h5, if_neg hgt2]; exact ok_of_ptr (by omega)
        · have e5 : calls [Access.ptr A.length] = 0 := rfl
          have e6 : calls [Access.key A.length,
              Access.ptr (if key > sz.hk then A.length + 1 else A.length)] = 0 := rfl
          simp only [calls_append] at hcalls0 ⊢
          rw [hc2, hc3, e5, e6]
          omega
    · have hstep := insert_inner_nosplit f h S.addr A.length s.addr n nc key t hn hin.1 hdesc
        hin.ptr hnc hfullc
      have hstept := insert_inner_nosplit_t f h S.addr A.length s.addr n nc key t L _ hn hin.1
        hd1 hin.ptr hnc hfullc
      rw [hstep] at hins
      obtain ⟨e3, hi3, hb3, hc3⟩ := ih f h s key t
        (L ++ [Access.enter n.num_keys] ++ e1 ++ [Access.ptr A.length, Access.ptr A.length])
        h1 (hk s (by simp))
        (fun nc1 h3 => by
          rw [hnc] at h3; cases h3
          omega) hfuel1 hins
      refine ⟨([Access.enter n.num_keys] ++ e1) ++
        ([Access.ptr A.length, Access.ptr A.length] ++ e3), ?_, ?_, ?_⟩
      · rw [hstept, hi3]
        simp only [List.append_assoc]
      · refine ok_append hok0 (ok_append ?_ hb3)
        intro a ha
        rcases List.mem_cons.mp ha with h5 | h5
        · rw [h5]; exact ok_of_ptr (by omega)
        · rw [List.mem_singleton] at h5
          rw [h5]; exact ok_of_ptr (by omega)
      · have e5 : calls [Access.ptr A.length, Access.ptr A.length] = 0 := rfl
        simp only [calls_append] at hcalls0 ⊢
        rw [hc3, e5]
        omega

end Ledger

namespace Ledger

/-- First insertion, with the log: one call of `insert_non_full`, on the new leaf. -/
theorem insert_transaction_empty_log {V : Type} (hp : Heap V) (key : Int) (t : V) :
    ∃ idx1 S1 log, insert_transaction ⟨hp, none⟩ key t = some idx1 ∧
      insert_transaction_t ⟨hp, none⟩ key t = some (idx1, log) ∧
      idx1.root = some S1.addr ∧ Rep idx1.heap 0 S1 ∧ ascending S1.es ∧
      (∀ a ∈ log, a.ok = true) ∧ calls log = 0 + 1 := by
  obtain ⟨n0, hn0⟩ : ∃ n0 : node V, n0 = ⟨List.replicate (ORDER + 1) Ptr.null,
      List.replicate (ORDER - 1) 0, none, true, 0, none⟩ := ⟨_, rfl⟩
  have hl0 : leaf_holds n0 [] := by
    rw [hn0]; exact ⟨rfl, ⟨by simp, by simp⟩, Nat.zero_le _, rfl, rfl⟩
  have hasc0 : ascending ([] : List (Int × V)) := by
    rw [ascending_iff]; exact List.Pairwise.nil
  have hlt0 : n0.num_keys < ORDER - 1 := by rw [hn0]; show 0 < ORDER - 1; decide
  obtain ⟨n1, es1, hins, hl1, hk1, hnx1, hpl⟩ := insert_leaf_store hp.length
    (hp ++ [n0]) hp.length n0 [] key t (List.getElem?_concat_length _ _) hl0 hlt0 hasc0
  obtain ⟨ext, hlog, hok, hc⟩ := insert_leaf_log hp.length (hp ++ [n0]) hp.length n0 [] key t
    [] _ (List.getElem?_concat_length _ _) hl0 hlt0 hins
  refine ⟨⟨(hp ++ [n0]).set hp.length n1, some hp.length⟩,
    ⟨hp.length, hp.length, none, [hp.length], es1⟩, [] ++ ext, ?_, ?_, rfl,
    ⟨n1, List.getElem?_set_self (by simp), hl1, by rw [hk1]; exact Nat.le_add_left _ _, rfl,
      by rw [hnx1, hn0], rfl⟩, hpl.asc_of hasc0, ?_, ?_⟩
  · unfold insert_transaction
    dsimp only [bind, Option.bind, create_node]
    rw [List.getElem?_concat_length]
    dsimp only
    rw [if_neg (by decide), List.length_append, List.length_singleton, ← hn0, hins]
  · unfold insert_transaction_t
    dsimp only [bind, Option.bind, create_node]
    rw [List.getElem?_concat_length]
    dsimp only
    rw [if_neg (by decide), List.length_append, List.length_singleton, ← hn0, hlog]
  · intro a ha; exact hok a (by simpa using ha)
  · rw [List.nil_append]; exact hc

/-- Insertion when the root is not full, with the log: `insert_non_full` is entered once per
level of the tree. -/
theorem insert_transaction_nonfull_log {V : Type} (hp : Heap V) (d : Nat) (S : Sub V)
    (key : Int) (t : V) (hr : Rep hp d S) (hasc : ascending S.es)
    (hnf : ∀ n, hp[S.addr]? = some n → n.num_keys ≠ ORDER - 1) :
    ∃ idx1 S1 log, insert_transaction ⟨hp, some S.addr⟩ key t = some idx1 ∧
      insert_transaction_t ⟨hp, some S.addr⟩ key t = some (idx1, log) ∧
      idx1.root = some S1.addr ∧ Rep idx1.heap d S1 ∧ ascending S1.es ∧
      (∀ a ∈ log, a.ok = true) ∧ calls log = d + 1 := by
  obtain ⟨nr, hnr, _, _, hle, _⟩ := hr.root_node
  have hne := hnf nr hnr
  have hnf1 : ∀ n, hp[S.addr]? = some n → n.num_keys < ORDER - 1 :=
    fun n hn => by rw [hnr] at hn; cases hn; omega
  obtain ⟨h1, S1, hins, hrep1, ⟨g1, g2, g3, _⟩, hpl⟩ := insert_non_full_spec V d hp.length hp S
    key t hr hasc hnf1 hr.depth_lt_store
  obtain ⟨ext, hlog, hok, hc⟩ := insert_non_full_log V d hp.length hp S key t [] h1 hr hnf1
    hr.depth_lt_store hins
  refine ⟨⟨h1, some S.addr⟩, S1, [] ++ ext, ?_, ?_, by rw [g1], hrep1, hpl.asc_of hasc, ?_, ?_⟩
  · unfold insert_transaction
    dsimp only [bind, Option.bind]
    rw [hnr]; dsimp only
    rw [if_neg hne, hins]
  · unfold insert_transaction_t
    dsimp only [bind, Option.bind]
    rw [hnr]; dsimp only
    rw [if_neg hne, hlog]
  · intro a ha; exact hok a (by simpa using ha)
  · rw [List.nil_append]; exact hc

/-- Insertion when the root is full, with the log: the split of the old root below the new
one is within the bounds, and `insert_non_full` is entered once per level of the tree under
the new root. -/
theorem insert_transaction_full_log {V : Type} (hp : Heap V) (d : Nat) (S : Sub V)
    (key : Int) (t : V) (hr : Rep hp d S) (hnxt : S.nxt = none) (hasc : ascending S.es)
    (nr : node V) (hnr : hp[S.addr]? = some nr) (hfull : nr.num_keys = ORDER - 1) :
    ∃ idx1 S1 log, insert_transaction ⟨hp, some S.addr⟩ key t = some idx1 ∧
      insert_transaction_t ⟨hp, some S.addr⟩ key t = some (idx1, log) ∧
      idx1.root = some S1.addr ∧ Rep idx1.heap (d + 1) S1 ∧ ascending S1.es ∧
      (∀ a ∈ log, a.ok = true) ∧ calls log = d + 1 + 1 := by
  have hlt := lookup_lt hnr
  obtain ⟨nr0, hnr0, hsr, _⟩ := hr.root_node
  rw [hnr] at hnr0
  cases hnr0
  have hl1 : (hp.set S.addr { nr with parent := some hp.length }).length = hp.length := by simp
  have hr3 : Rep (hp.set S.addr { nr with parent := some hp.length } ++
      [{ pointers := (List.replicate (ORDER + 1) Ptr.null).set 0 (Ptr.child S.addr),
         keys := List.replicate (ORDER - 1) 0, parent := none, is_leaf := false, num_keys := 0,
         next := none }]) d S := (hr.set_parent nr hnr _).append _
  have hx3 : (hp.set S.addr { nr with parent := some hp.length } ++
      [{ pointers := (List.replicate (ORDER + 1) Ptr.null).set 0 (Ptr.child S.addr),
         keys := List.replicate (ORDER - 1) 0, parent := none, is_leaf := false, num_keys := 0,
         next := none }])[hp.length]? = some
      { pointers := (List.replicate (ORDER + 1) Ptr.null).set 0 (Ptr.child S.addr),
        keys := List.replicate (ORDER - 1) 0, parent := none, is_leaf := false, num_keys := 0,
        next := none } := by
    exact getElem?_at _ [] _ _ hl1.symm
  have hy3 : (hp.set S.addr { nr with parent := some hp.length } ++
      [{ pointers := (List.replicate (ORDER + 1) Ptr.null).set 0 (Ptr.child S.addr),
         keys := List.replicate (ORDER - 1) 0, parent := none, is_leaf := false, num_keys := 0,
         next := none }])[S.addr]? = some { nr with parent := some hp.length } := by
    rw [List.getElem?_append_left (by rw [hl1]; exact hlt)]
    exact List.getElem?_set_self hlt
  have hfpS : ∀ b ∈ S.fp, b < hp.length := hr.fp_lt
  obtain ⟨h4, n1, sy, sz, hsplit, hpost⟩ := split_rep d _
    ⟨hp.length, S.first, none, hp.length :: (([] ++ S :: []).map Sub.fp).flatten, S.es⟩
    _ [] [] S hx3
    ⟨rfl, ⟨by simp, by simp⟩, Nat.zero_le _, rfl, rfl⟩ (by show 0 < ORDER - 1; decide)
    ⟨rfl, hnxt⟩ rfl
    (by
      show (hp.length :: (([] ++ S :: []).map Sub.fp).flatten).Nodup
      simp only [List.nil_append, List.map_cons, List.map_nil, List.flatten_cons,
        List.flatten_nil, List.append_nil, List.nodup_cons]
      exact ⟨fun hm => by have := hfpS _ hm; omega, hr.nodup⟩)
    (by intro c hc; simp at hc; rw [hc]; exact hr3)
    (by intro nc hnc; rw [hy3] at hnc; cases hnc; exact hfull)
  have hsplit1 : split_child (hp.set S.addr { nr with parent := some hp.length } ++
      [{ pointers := (List.replicate (ORDER + 1) Ptr.null).set 0 (Ptr.child S.addr),
         keys := List.replicate (ORDER - 1) 0, parent := none, is_leaf := false, num_keys := 0,
         next := none }]) hp.length 0 = some h4 := hsplit
  obtain ⟨e1, hs1, hok1, hc1⟩ := split_child_log _ hp.length 0 S.addr _ _ [Access.ptr 0] hx3
    ⟨by simp, by simp⟩ (by show 0 < ORDER - 1; decide) (Nat.zero_le _) rfl hy3 hsr hfull h4
    hsplit1
  obtain ⟨p1, p2, p3, p4, p5, p6, p7, p8, p9, p10, p11, p12⟩ := hpost
  have hk1 : n1.num_keys = 1 := by
    have := p3.child_count
    simp at this
    omega
  have hrep4 : Rep h4 (d + 1)
      ⟨hp.length, S.first, none, hp.length :: (([] ++ sy :: sz :: []).map Sub.fp).flatten,
        S.es⟩ := by
    refine ⟨n1, [] ++ sy :: sz :: [], p2, p3, by omega, p4, ?_, rfl, ?_, p5⟩
    · show S.es = (([] ++ sy :: sz :: []).map Sub.es).flatten
      simp [← p6]
    · show (hp.length :: (([] ++ sy :: sz :: []).map Sub.fp).flatten).Nodup
      simp only [List.nil_append, List.map_cons, List.map_nil, List.flatten_cons,
        List.flatten_nil, List.append_nil, List.nodup_cons]
      refine ⟨fun hm => ?_, p9⟩
      rcases p8 _ hm with h3 | h3
      · have := hfpS _ h3; omega
      · simp at h3
  have hnf4 : ∀ n, h4[hp.length]? = some n → n.num_keys < ORDER - 1 := fun n hn => by
    change h4[hp.length]? = some n1 at p2
    rw [p2] at hn; cases hn; rw [hk1]; decide
  obtain ⟨h5, S2, hins, hrep5, ⟨g1, g2, g3, _⟩, hpl⟩ := insert_non_full_spec V (d + 1) h4.length
    h4 _ key t hrep4 hasc hnf4 hrep4.depth_lt_store
  have hins1 : insert_non_full h4.length h4 hp.length key t = some h5 := hins
  obtain ⟨e2, hlog, hok2, hc2⟩ := insert_non_full_log V (d + 1) h4.length h4 _ key t
    ([Access.ptr 0] ++ e1) h5 hrep4 hnf4 hrep4.depth_lt_store hins1
  have hlog1 : insert_non_full_t h4.length h4 hp.length key t ([Access.ptr 0] ++ e1) =
    some (h5, [Access.ptr 0] ++ e1 ++ e2) := hlog
  refine ⟨⟨h5, some hp.length⟩, S2, [Access.ptr 0] ++ e1 ++ e2, ?_, ?_, by rw [g1], hrep5,
    hpl.asc_of hasc, ?_, ?_⟩
  · unfold insert_transaction
    dsimp only [bind, Option.bind, create_node]
    rw [hnr]; dsimp only
    rw [if_pos hfull, List.getElem?_concat_length]; dsimp only
    rw [wr_some _ _ _ (by simp [ORDER])]; dsimp only
    rw [wr_append_last _ _ _ _ rfl]; dsimp only
    rw [wr_append_left _ _ _ _ hlt]; dsimp only
    rw [hsplit1]; dsimp only
    rw [hins1]
  · unfold insert_transaction_t
    dsimp only [bind, Option.bind, create_node]
    rw [hnr]; dsimp only
    rw [if_pos hfull, List.getElem?_concat_length]; dsimp only
    rw [wr_some _ _ _ (by simp [ORDER])]; dsimp only
    rw [wr_append_last _ _ _ _ rfl]; dsimp only
    rw [wr_append_left _ _ _ _ hlt]; dsimp only
    rw [hs1]; dsimp only
    rw [hlog1]
  · refine ok_append (ok_append ?_ hok1) hok2
    intro a ha
    rw [List.mem_singleton] at ha
    rw [ha]; exact ok_of_ptr (by omega)
  · have e5 : calls [Access.ptr 0] = 0 := rfl
    simp only [calls_append]
    rw [e5, hc1, hc2]
    omega

/-- Insertion into a well-formed index, with the log. -/
theorem insert_transaction_log {V : Type} (idx : Index V) (es : List (Int × V)) (key : Int)
    (t : V) (hw : WF idx es) :
    ∃ idx1 d1 r1 log, insert_transaction idx key t = some idx1 ∧
      insert_transaction_t idx key t = some (idx1, log) ∧
      idx1.root = some r1 ∧ node_inv idx1.heap d1 r1 ∧
      (∀ a ∈ log, a.ok = true) ∧ calls log = d1 + 1 := by
  obtain ⟨hp, root⟩ := idx
  rcases hw with ⟨hroot, hes⟩ | ⟨d, S, hroot, hrep, hnxt, hes, hasc⟩
  · simp only at hroot
    subst hroot
    obtain ⟨idx1, S1, log, h1, h2, h3, h4, h5, h6, h7⟩ := insert_transaction_empty_log hp key t
    exact ⟨idx1, 0, S1.addr, log, h1, h2, h3, h4.node_inv h5, h6, h7⟩
  · simp only at hroot hrep
    subst hroot
    subst hes
    obtain ⟨nr, hnr, _⟩ := hrep.root_node
    by_cases hfull : nr.num_keys = ORDER - 1
    · obtain ⟨idx1, S1, log, h1, h2, h3, h4, h5, h6, h7⟩ :=
        insert_transaction_full_log hp d S key t hrep hnxt hasc nr hnr hfull
      exact ⟨idx1, d + 1, S1.addr, log, h1, h2, h3, h4.node_inv h5, h6, h7⟩
    · obtain ⟨idx1, S1, log, h1, h2, h3, h4, h5, h6, h7⟩ :=
        insert_transaction_nonfull_log hp d S key t hrep hasc
          (fun n hn => by rw [hnr] at hn; cases hn; exact hfull)
      exact ⟨idx1, d, S1.addr, log, h1, h2, h3, h4.node_inv h5, h6, h7⟩

end Ledger

namespace Ledger

/-- C25: insertion stays inside the node arrays and terminates.  For every index built from
the empty one by `insert_transaction` calls and every further call, the insertion functions
with the access log (`insert_transaction_t`: the same statements as `insert_transaction`,
each array access, each entry into `insert_non_full` and each call of `split_child` added to
a log) return the same index as `insert_transaction`, so no checked access failed and every
pointer that was followed held a node; every logged `keys[]` index is in `0..4`, every
logged `pointers[]` index in `0..5`; `insert_non_full` is only entered on a node with fewer
than `ORDER - 1` keys; `split_child` is only called with a parent with fewer than
`ORDER - 1` keys, a child with exactly `ORDER - 1` keys and an index `≤` the parent's
`num_keys`; and `insert_non_full` is entered `d1 + 1` times, once per level of the tree it
descends, which is the resulting tree, of depth `d1` from the root to the leaves. -/
theorem C25_insertion_in_bounds (V : Type) (l : List (Int × V)) (key : Int) (t : V) :
    ∃ idx idx1 log d1 r1, insert_all Index.empty l = some idx ∧
      insert_transaction idx key t = some idx1 ∧
      insert_transaction_t idx key t = some (idx1, log) ∧
      (∀ i, Access.key i ∈ log → i ≤ 4) ∧
      (∀ i, Access.ptr i ∈ log → i ≤ 5) ∧
      (∀ n, Access.enter n ∈ log → n < ORDER - 1) ∧
      (∀ p c i, Access.split p c i ∈ log → p < ORDER - 1 ∧ c = ORDER - 1 ∧ i ≤ p) ∧
      idx1.root = some r1 ∧ node_inv idx1.heap d1 r1 ∧ calls log = d1 + 1 := by
  obtain ⟨idx, es, h1, hw, _⟩ := insert_all_spec l Index.empty [] (WF_empty V)
  obtain ⟨idx1, d1, r1, log, h2, h3, h4, h5, h6, h7⟩ := insert_transaction_log idx es key t hw
  refine ⟨idx, idx1, log, d1, r1, h1, h2, h3, ?_, ?_, ?_, ?_, h4, h5, h7⟩
  · intro i hi
    have := h6 _ hi
    unfold Access.ok at this
    have h8 : i < ORDER - 1 := of_decide_eq_true this
    have h9 : ORDER - 1 = 5 := rfl
    omega
  · intro i hi
    have := h6 _ hi
    unfold Access.ok at this
    have h8 : i < ORDER := of_decide_eq_true this
    have h9 : ORDER = 6 := rfl
    omega
  · intro n hn
    have := h6 _ hn
    unfold Access.ok at this
    exact of_decide_eq_true this
  · intro p c i hs
    have := h6 _ hs
    unfold Access.ok at this
    exact of_decide_eq_true this

end Ledger

namespace Ledger

/-! ## Import -/

theorem Loaded_init : Loaded State.init [] :=
  { global := ⟨[], WF_empty _, List.Perm.refl _⟩
    distinct := List.nodup_nil
    index := rfl
    store := Inv_init.store
    sellers := Inv_init.sellers
    buyers := Inv_init.buyers
    seller_ok := fun s hs => by cases hs
    buyer_ok := fun b hb => by cases hb
    undiscounted := fun t ht => by cases ht }

/-- The price of a seller without regular buyers: the tiered price. -/
theorem calculate_price_plain (s : SellerKey) (e : ℚ) (b : Int)
    (h : s.regular_buyer_count = 0) : calculate_price s e b = some (tiered_price s e) := by
  unfold calculate_price
  rw [h]
  rfl

/-- The tiered price is the energy times the price per kWh that the import computes. -/
theorem tiered_price_per_kwh (s : SellerKey) (e : ℚ) :
    tiered_price s e = e * (if e ≤ ENERGY_THRESHOLD then s.rate_below_300
      else (ENERGY_THRESHOLD * s.rate_below_300 +
        (e - ENERGY_THRESHOLD) * s.rate_above_300) / e) := by
  unfold tiered_price
  by_cases h : e ≤ ENERGY_THRESHOLD
  · rw [if_pos h, if_pos h]
  · rw [if_neg h, if_neg h]
    have h0 : e ≠ 0 := by
      intro h1
      apply h
      rw [h1]
      show (0 : ℚ) ≤ 300
      norm_num
    rw [mul_div_cancel₀ _ h0]

/-- A transaction line that is skipped for its datetime. -/
theorem load_record_invalid (st : State) (r : ExportRow)
    (hv : validate_datetime (c_str r.datetime) = some false) : load_record st r = some (none, st) := by
  unfold load_record
  dsimp only [bind, Option.bind]
  rw [hv]
  rfl

/-- A transaction line that is skipped for its id. -/
theorem load_record_dup (st : State) (ts : List Transaction) (r : ExportRow)
    (hinv : Loaded st ts) (hv : validate_datetime (c_str r.datetime) = some true)
    (hdup : ∃ t ∈ ts, t.transaction_id = r.transaction_id) :
    load_record st r = some (none, st) := by
  obtain ⟨G, hwG, hperm⟩ := hinv.global
  obtain ⟨t, ht, hid⟩ := hdup
  have hh : has_id G r.transaction_id = true :=
    has_id_true ⟨(t.transaction_id, t), hperm.mem_iff.mpr (List.mem_map_of_mem _ ht), hid⟩
  unfold load_record
  dsimp only [bind, Option.bind]
  rw [hv]; dsimp only
  rw [if_neg (by decide), traverse_spec _ _ hwG]; dsimp only
  rw [hh, if_pos rfl]

/-- A transaction line with a valid datetime and a new id is loaded while the store has a free
slot: the record that is built has the fields of the line, and the state after it is again
the state of an import. -/
theorem load_record_fresh (st : State) (ts : List Transaction) (r : ExportRow)
    (hinv : Loaded st ts) (hv : validate_datetime (c_str r.datetime) = some true)
    (hfresh : ∀ t ∈ ts, t.transaction_id ≠ r.transaction_id)
    (hroom : ts.length < MAX_TRANSACTIONS) :
    ∃ t st1, load_record st r = some (some t, st1) ∧ Loaded st1 (ts ++ [t]) ∧
      line_fields t = r := by
  obtain ⟨G, hwG, hperm⟩ := hinv.global
  have htr := traverse_spec _ _ hwG
  have hh : has_id G r.transaction_id = false := by
    apply has_id_false
    intro e he
    obtain ⟨t, ht, hte⟩ := List.mem_map.mp (hperm.mem_iff.mp he)
    rw [← hte]
    exact hfresh t ht
  -- the seller
  obtain ⟨M2, T2, sa, sc, hgs, hd2, hsl2, hscid, hscok, hsfound, hsnew⟩ := seller_step
    st r.seller_id r.rate_below_300 r.rate_above_300 hinv.sellers
    (fun s hs => (hinv.seller_ok s hs).1)
  have hsc0 : sc.regular_buyer_count = 0 := by
    cases hs0 : st.seller_mem[sa]? with
    | some s0 =>
      obtain ⟨_, h2, _⟩ := hsfound s0 hs0
      rw [h2, (update_rates_fields s0 _ _).2.2.1]
      exact (hinv.seller_ok s0 (mem_of_lookup hs0)).2
    | none =>
      obtain ⟨h1, _⟩ := hsnew hs0
      rw [h1]
      rfl
  have hcp := calculate_price_plain sc r.energy_kwh r.buyer_id hsc0
  obtain ⟨t, ht⟩ : ∃ t : Transaction, t =
      ⟨r.transaction_id, r.buyer_id, r.seller_id, r.energy_kwh,
        (if r.energy_kwh ≤ ENERGY_THRESHOLD then sc.rate_below_300
          else (ENERGY_THRESHOLD * sc.rate_below_300 +
            (r.energy_kwh - ENERGY_THRESHOLD) * sc.rate_above_300) / r.energy_kwh),
        tiered_price sc r.energy_kwh, r.datetime, r.rate_below_300, r.rate_above_300⟩ :=
    ⟨_, rfl⟩
  have htid : t.transaction_id = r.transaction_id := by rw [ht]
  have hte : t.energy_kwh = r.energy_kwh := by rw [ht]
  have htb : t.buyer_id = r.buyer_id := by rw [ht]
  have hslot : store_slot st.all_transactions st.transaction_index t =
      some (st.all_transactions.set st.transaction_index (some t)) := by
    unfold store_slot
    exact wr_some _ _ _ (by rw [hinv.store, hinv.index]; exact hroom)
  obtain ⟨g, G1, hg, hwg, hplg⟩ :=
    insert_transaction_spec st.global_transaction_tree G r.transaction_id t hwG
  obtain ⟨tss, htss⟩ := hscok.1
  obtain ⟨stree, ts1, hst, hwst, _⟩ :=
    insert_transaction_spec sc.transaction_tree tss r.transaction_id t htss
  obtain ⟨s3, hs3⟩ : ∃ s3 : SellerKey, s3 =
      { sc with transaction_tree := stree, transaction_count := sc.transaction_count + 1 } :=
    ⟨_, rfl⟩
  have hs3ok : SellerOK s3 ∧ s3.regular_buyer_count = 0 := by
    rw [hs3]; exact ⟨⟨⟨ts1, hwst⟩, hscok.2.1, hscok.2.2⟩, hsc0⟩
  have hs3id : s3.seller_id = sc.seller_id := by rw [hs3]
  -- the buyer
  obtain ⟨B4, BT4, ba, bc, hgb, hdb, hslb, hbcid, hbcok, hbfound, hbnew⟩ := buyer_step
    ⟨T2, st.buyer_tree, g, st.all_transactions.set st.transaction_index (some t),
      st.transaction_index + 1, M2.set sa s3, st.buyer_mem⟩
    r.buyer_id hinv.buyers hinv.buyer_ok
  dsimp only at hgb hslb hbfound hbnew
  obtain ⟨tb, htb0⟩ := hbcok
  obtain ⟨btree, tb1, hbt, hwbt, _⟩ :=
    insert_transaction_spec bc.transaction_tree tb r.transaction_id t htb0
  obtain ⟨bf, hbf⟩ : ∃ bf : BuyerKey, bf =
      { bc with transaction_tree := btree,
                total_energy_purchased := bc.total_energy_purchased + r.energy_kwh,
                transaction_count := bc.transaction_count + 1 } :=
    ⟨_, rfl⟩
  have hbf_id : bf.buyer_id = bc.buyer_id := by rw [hbf]
  have hload : load_record st r = some (some t,
      ⟨T2, BT4, g, st.all_transactions.set st.transaction_index (some t),
        st.transaction_index + 1, M2.set sa s3, B4.set ba bf⟩) := by
    unfold load_record
    dsimp only [bind, Option.bind]
    rw [hv]; dsimp only
    rw [if_neg (by decide), htr]; dsimp only
    rw [hh, if_neg Bool.false_ne_true]
    rw [hgs]; dsimp only
    rw [hsl2.1]; dsimp only
    rw [hcp]; dsimp only
    rw [← ht, hslot]; dsimp only
    rw [hg]; dsimp only
    rw [hst]; dsimp only
    rw [← hs3, wr_some _ _ _ (lookup_lt hsl2.1)]; dsimp only
    rw [hgb]; dsimp only
    rw [hslb.1]; dsimp only
    rw [hbt]; dsimp only
    rw [← hbf, wr_some _ _ _ (lookup_lt hslb.1)]
  refine ⟨t, _, hload, ?_, by rw [ht]; rfl⟩
  refine
    { global := ⟨G1, hwg, ?_⟩
      distinct := ?_
      index := by
        show st.transaction_index + 1 = (ts ++ [t]).length
        rw [hinv.index, List.length_append, List.length_singleton]
      store := by
        show (st.all_transactions.set st.transaction_index (some t)).length = MAX_TRANSACTIONS
        rw [List.length_set, hinv.store]
      sellers := hd2.set hsl2.1 hs3id
      buyers := hdb.set hslb.1 hbf_id
      seller_ok := (hsl2.reset s3).all hinv.seller_ok hs3ok
      buyer_ok := (hslb.reset bf).all hinv.buyer_ok (by rw [hbf]; exact ⟨tb1, hwbt⟩)
      undiscounted := ?_ }
  · rw [List.map_append, List.map_singleton]
    refine List.Perm.trans ?_ (List.perm_append_singleton _ _).symm
    rw [htid]
    exact hplg.perm.trans (List.Perm.cons _ hperm)
  · rw [List.map_append, List.map_singleton,
      (List.perm_append_singleton _ _).nodup_iff, List.nodup_cons]
    refine ⟨?_, hinv.distinct⟩
    intro hm
    obtain ⟨t0, ht0, hid0⟩ := List.mem_map.mp hm
    exact hfresh t0 ht0 (by rw [hid0, htid])
  · intro t0 ht0
    rcases List.mem_append.mp ht0 with h1 | h1
    · exact hinv.undiscounted t0 h1
    · rw [List.mem_singleton] at h1
      rw [h1, ht]
      exact tiered_price_per_kwh sc r.energy_kwh

end Ledger

namespace Ledger

/-- Which lines are accepted depends only on which ids have been seen. -/
theorem accepted_rows_congr : ∀ (rows : List ExportRow) (s1 s2 : List Int),
    (∀ x, x ∈ s1 ↔ x ∈ s2) → accepted_rows s1 rows = accepted_rows s2 rows := by
  intro rows
  induction rows with
  | nil => intro s1 s2 _; rfl
  | cons r rest ih =>
    intro s1 s2 h
    rw [accepted_rows, accepted_rows]
    by_cases hc : validate_datetime (c_str r.datetime) = some true ∧ r.transaction_id ∉ s1
    · rw [if_pos hc, if_pos ⟨hc.1, fun h2 => hc.2 ((h _).mpr h2)⟩]
      rw [ih (r.transaction_id :: s1) (r.transaction_id :: s2) (fun x => by
        rw [List.mem_cons, List.mem_cons, h x])]
    · rw [if_neg hc, if_neg (fun h2 => hc ⟨h2.1, fun h3 => h2.2 ((h _).mp h3)⟩)]
      exact ih s1 s2 h

/-- The import of a list of transaction lines, while the store has a free slot for every
line that is accepted: it runs through and leaves the state of an import, and the records it
builds are, in order and field by field, the accepted lines, which are the lines with a
datetime that `validate_datetime` accepts and an id that is neither in the index nor the id
of an earlier accepted line. -/
theorem load_spec : ∀ (rows : List ExportRow) (st : State) (ts0 : List Transaction),
    Loaded st ts0 →
    ts0.length + (accepted_rows (ts0.map Transaction.transaction_id) rows).length
      ≤ MAX_TRANSACTIONS →
    ∃ ts st1, load_transactions_from_file st rows = some (ts, st1) ∧ Loaded st1 (ts0 ++ ts) ∧
      ts.map line_fields = accepted_rows (ts0.map Transaction.transaction_id) rows := by
  intro rows
  induction rows with
  | nil =>
    intro st ts0 hinv _
    exact ⟨[], st, rfl, by rw [List.append_nil]; exact hinv, rfl⟩
  | cons r rest ih =>
    intro st ts0 hinv hcap
    have hskip : load_record st r = some (none, st) →
        accepted_rows (ts0.map Transaction.transaction_id) (r :: rest) =
          accepted_rows (ts0.map Transaction.transaction_id) rest →
        ∃ ts st1, load_transactions_from_file st (r :: rest) = some (ts, st1) ∧
          Loaded st1 (ts0 ++ ts) ∧
          ts.map line_fields = accepted_rows (ts0.map Transaction.transaction_id) (r :: rest) := by
      intro hl hacc
      rw [hacc] at hcap ⊢
      obtain ⟨ts, st1, hrun, hinv1, hrows⟩ := ih st ts0 hinv hcap
      refine ⟨ts, st1, ?_, hinv1, hrows⟩
      rw [load_transactions_from_file]
      dsimp only [bind, Option.bind]
      rw [hl]; dsimp only
      rw [hrun]
      rfl
    obtain ⟨v, hv⟩ := validate_total (c_str r.datetime)
    cases v with
    | false =>
      refine hskip (load_record_invalid st r hv) ?_
      rw [accepted_rows, if_neg]
      intro h
      rw [hv] at h
      cases h.1
    | true =>
      by_cases hdup : r.transaction_id ∈ ts0.map Transaction.transaction_id
      · obtain ⟨t, ht, hid⟩ := List.mem_map.mp hdup
        refine hskip (load_record_dup st ts0 r hinv hv ⟨t, ht, hid⟩) ?_
        rw [accepted_rows, if_neg]
        intro h
        exact h.2 hdup
      · have hfresh : ∀ t ∈ ts0, t.transaction_id ≠ r.transaction_id :=
          fun t ht hid => hdup (List.mem_map.mpr ⟨t, ht, hid⟩)
        have hacc : accepted_rows (ts0.map Transaction.transaction_id) (r :: rest) =
            r :: accepted_rows (r.transaction_id :: ts0.map Transaction.transaction_id) rest := by
          rw [accepted_rows, if_pos ⟨hv, hdup⟩]
        rw [hacc, List.length_cons] at hcap
        obtain ⟨t, st1, hl, hinv1, hrow⟩ := load_record_fresh st ts0 r hinv hv hfresh
          (by omega)
        have htid : t.transaction_id = r.transaction_id := by rw [← hrow]; rfl
        have hcongr : accepted_rows ((ts0 ++ [t]).map Transaction.transaction_id) rest =
            accepted_rows (r.transaction_id :: ts0.map Transaction.transaction_id) rest := by
          apply accepted_rows_congr
          intro x
          rw [List.map_append, List.map_singleton, List.mem_append, List.mem_singleton,
            List.mem_cons, htid, or_comm]
        obtain ⟨ts, st2, hrun, hinv2, hrows⟩ := ih st1 (ts0 ++ [t]) hinv1 (by
          rw [hcongr, List.length_append, List.length_singleton]
          omega)
        refine ⟨t :: ts, st2, ?_, ?_, ?_⟩
        · rw [load_transactions_from_file]
          dsimp only [bind, Option.bind]
          rw [hl]; dsimp only
          rw [hrun]
          rfl
        · rw [List.append_assoc] at hinv2
          exact hinv2
        · rw [hacc, List.map_cons, hrow, hrows, hcongr]

end Ledger

namespace Ledger

/-! ## The loyalty rule over a sequence of calls -/

/-- One recorded transaction keeps the loyalty rule: every buyer with more than five
recorded transactions is in a regular-buyer set, or a seller of one of its transactions has a
full set. -/
theorem add_step_loyal {st st1 : State} {t : Transaction} {G G1 : List (Int × Transaction)}
    {sa : Nat} {sc sf : SellerKey} {ba : Nat} {bc bf : BuyerKey}
    (hinv : Inv st G) (hadd : add_transaction st t = some (true, st1))
    (hp : AddPost st st1 t G G1 sa sc sf ba bc bf)
    (hq : ∀ b, 5 < recorded G b → (∃ s ∈ st.seller_mem, b ∈ regulars s) ∨
      (∃ s ∈ st.seller_mem, s.regular_buyer_count = MAX_BUYERS ∧
        ∃ e ∈ G, e.2.buyer_id = b ∧ e.2.seller_id = s.seller_id)) :
    ∀ b, 5 < recorded G1 b → (∃ s ∈ st1.seller_mem, b ∈ regulars s) ∨
      (∃ s ∈ st1.seller_mem, s.regular_buyer_count = MAX_BUYERS ∧
        ∃ e ∈ G1, e.2.buyer_id = b ∧ e.2.seller_id = s.seller_id) := by
  intro b hb
  have hkept := add_call_kept hadd
  have hsub : ∀ e ∈ G, e ∈ G1 := fun e he =>
    hp.global_placed.perm.mem_iff.mpr (List.mem_cons_of_mem _ he)
  by_cases hold : 5 < recorded G b
  · rcases hq b hold with ⟨s, hs, hin⟩ | ⟨s, hs, hfull, e, he, heb, hes⟩
    · obtain ⟨a, ha⟩ := List.getElem?_of_mem hs
      obtain ⟨s1, hs1, _, hpre⟩ := hkept a s ha
      exact Or.inl ⟨s1, mem_of_lookup hs1, hpre.subset hin⟩
    · obtain ⟨a, ha⟩ := List.getElem?_of_mem hs
      obtain ⟨s1, hs1, hid, hpre⟩ := hkept a s ha
      have hok1 := hp.inv.seller_ok s1 (mem_of_lookup hs1)
      have hlen := hpre.length_le
      rw [regulars_length (hinv.seller_ok s hs), regulars_length hok1, hfull] at hlen
      exact Or.inr ⟨s1, mem_of_lookup hs1, Nat.le_antisymm hok1.2.2 hlen, e, hsub e he, heb,
        by rw [hes, hid]⟩
  · have hrec := recorded_placed hp.global_placed b
    have htb : t.buyer_id = b := by
      by_contra hne
      rw [if_neg hne] at hrec
      omega
    rw [if_pos htb] at hrec
    have hcount : 5 < bf.transaction_count := by
      rw [hp.count_after hinv, htb]
      omega
    have hsf := mem_of_lookup hp.s_slot.1
    have hreg := hp.s_regulars
    by_cases hin : t.buyer_id ∈ regulars sc
    · rw [if_neg (by tauto)] at hreg
      exact Or.inl ⟨sf, hsf, by rw [hreg, ← htb]; exact hin⟩
    · by_cases hroom : sc.regular_buyer_count < MAX_BUYERS
      · rw [if_pos ⟨hcount, hin, hroom⟩] at hreg
        exact Or.inl ⟨sf, hsf, by
          rw [hreg, ← htb]
          exact List.mem_append_right _ (List.mem_singleton_self _)⟩
      · rw [if_neg (by tauto)] at hreg
        have hfull : sf.regular_buyer_count = MAX_BUYERS := by
          rcases hp.seller_before with ⟨s0, hs0, _, hr0, hc0, _⟩ | ⟨_, _, _, hc0, _⟩
          · have hok0 := hinv.seller_ok s0 (mem_of_lookup hs0)
            rw [← regulars_length (hp.inv.seller_ok sf hsf), hreg, hr0, regulars_length hok0]
            rw [hc0] at hroom
            exact Nat.le_antisymm hok0.2.2 (Nat.le_of_not_lt hroom)
          · rw [hc0] at hroom
            exact absurd (by decide) hroom
        exact Or.inr ⟨sf, hsf, hfull, (t.transaction_id, t),
          hp.global_placed.perm.mem_iff.mpr (List.mem_cons_self _ _), htb, hp.s_id.symm⟩

/-- A sequence of `add_transaction` calls that returns keeps the loyalty rule, and every
seller entry afterwards is an old one or has the seller id of one of the transactions. -/
theorem run_adds_loyal : ∀ (ts : List Transaction) (st : State) (G : List (Int × Transaction))
    (oks : List Bool) (st1 : State),
    Inv st G →
    (∀ b, 5 < recorded G b → (∃ s ∈ st.seller_mem, b ∈ regulars s) ∨
      (∃ s ∈ st.seller_mem, s.regular_buyer_count = MAX_BUYERS ∧
        ∃ e ∈ G, e.2.buyer_id = b ∧ e.2.seller_id = s.seller_id)) →
    run_adds st ts = some (oks, st1) →
    ∃ G1, Inv st1 G1 ∧
      (∀ b, 5 < recorded G1 b → (∃ s ∈ st1.seller_mem, b ∈ regulars s) ∨
        (∃ s ∈ st1.seller_mem, s.regular_buyer_count = MAX_BUYERS ∧
          ∃ e ∈ G1, e.2.buyer_id = b ∧ e.2.seller_id = s.seller_id)) ∧
      (∀ s ∈ st1.seller_mem, (∃ s0 ∈ st.seller_mem, s0.seller_id = s.seller_id) ∨
        s.seller_id ∈ ts.map Transaction.seller_id) := by
  intro ts
  induction ts with
  | nil =>
    intro st G oks st1 hinv hq hrun
    rw [run_adds] at hrun
    cases hrun
    exact ⟨G, hinv, hq, fun s hs => Or.inl ⟨s, hs, rfl⟩⟩
  | cons t rest ih =>
    intro st G oks st3 hinv hq hrun
    rw [run_adds] at hrun
    dsimp only [bind, Option.bind] at hrun
    cases h1 : add_transaction st t with
    | none => rw [h1] at hrun; cases hrun
    | some r =>
      obtain ⟨ok, st1⟩ := r
      rw [h1] at hrun; dsimp only at hrun
      cases h2 : run_adds st1 rest with
      | none => rw [h2] at hrun; cases hrun
      | some r2 =>
        obtain ⟨oks2, st2⟩ := r2
        rw [h2] at hrun; dsimp only at hrun
        cases hrun
        rcases fresh_or_dup G t.transaction_id with h | h
        · have hroom : st.transaction_index < MAX_TRANSACTIONS := by
            by_contra hfull
            rw [(add_transaction_overflow st G t hinv h (Nat.le_of_not_lt hfull)).2] at h1
            cases h1
          obtain ⟨st4, G1, sa, sc, sf, ba, bc, bf, hadd, hp⟩ :=
            add_transaction_fresh st G t hinv h hroom
          rw [h1] at hadd
          cases hadd
          obtain ⟨G2, hinv2, hq2, hs2⟩ := ih st1 G1 oks2 _ hp.inv
            (add_step_loyal hinv h1 hp hq) h2
          refine ⟨G2, hinv2, hq2, ?_⟩
          intro s hs
          rw [List.map_cons]
          rcases hs2 s hs with ⟨s1, hs1, hid⟩ | hm
          · obtain ⟨i, hi⟩ := List.getElem?_of_mem hs1
            by_cases hia : i = sa
            · rw [hia, hp.s_slot.1] at hi
              cases hi
              exact Or.inr (by rw [← hid, hp.s_id]; exact List.mem_cons_self _ _)
            · rw [hp.s_slot.2 i hia] at hi
              exact Or.inl ⟨s1, mem_of_lookup hi, hid⟩
          · exact Or.inr (List.mem_cons_of_mem _ hm)
        · rw [add_transaction_dup st G t hinv h] at h1
          cases h1
          obtain ⟨G2, hinv2, hq2, hs2⟩ := ih st G oks2 _ hinv hq h2
          refine ⟨G2, hinv2, hq2, ?_⟩
          intro s hs
          rw [List.map_cons]
          rcases hs2 s hs with h1 | hm
          · exact Or.inl h1
          · exact Or.inr (List.mem_cons_of_mem _ hm)

end Ledger

namespace Ledger

/-! ## Import against `add_transaction` -/

theorem bought_rows (ts : List Transaction) (b : Int) :
    bought ts b = ((ts.map line_fields).filter fun r => r.buyer_id = b).length := by
  unfold bought
  rw [List.filter_map, List.length_map]
  rfl

/-- Each of the buyers 0 to 100 has six lines in `cap_rows`. -/
theorem cap_rows_bought :
    ∀ k ∈ List.range 101, (cap_rows.filter fun r => r.buyer_id = (k : Int)).length = 6 := by
  decide!

theorem cap_rows_valid :
    ∀ r ∈ cap_rows, validate_datetime (c_str r.datetime) = some true := by
  intro r hr
  obtain ⟨i, _, hi⟩ := List.mem_map.mp hr
  rw [← hi]
  show validate_datetime (c_str "2024-01-01 00:00") = some true
  decide

theorem cap_rows_length : cap_rows.length = 606 := by
  unfold cap_rows
  rw [List.length_map, List.length_range]

/-- Lines with valid datetimes and pairwise distinct new ids are all accepted. -/
theorem accepted_rows_all : ∀ (rows : List ExportRow) (seen : List Int),
    (∀ r ∈ rows, validate_datetime (c_str r.datetime) = some true) →
    (rows.map ExportRow.transaction_id).Nodup →
    (∀ r ∈ rows, r.transaction_id ∉ seen) → accepted_rows seen rows = rows := by
  intro rows
  induction rows with
  | nil => intro seen _ _ _; rfl
  | cons r rest ih =>
    intro seen hv hnd hnew
    rw [List.map_cons, List.nodup_cons] at hnd
    rw [accepted_rows, if_pos ⟨hv r (List.mem_cons_self _ _), hnew r (List.mem_cons_self _ _)⟩,
      ih (r.transaction_id :: seen) (fun r1 h1 => hv r1 (List.mem_cons_of_mem _ h1)) hnd.2]
    intro r1 h1 hm
    rcases List.mem_cons.mp hm with h2 | h2
    · exact hnd.1 (by rw [← h2]; exact List.mem_map_of_mem _ h1)
    · exact hnew r1 (List.mem_cons_of_mem _ h1) h2


theorem cap_rows_seller : ∀ r ∈ cap_rows, r.seller_id = 1 := by
  intro r hr
  obtain ⟨i, _, hi⟩ := List.mem_map.mp hr
  rw [← hi]

theorem cap_rows_ids : (cap_rows.map ExportRow.transaction_id).Nodup := by
  unfold cap_rows
  rw [List.map_map]
  exact (List.nodup_range 606).map (fun a b h => Int.ofNat.inj h)

/-- A store whose records all have the same id, the ids being distinct, has at most one
record. -/
theorem single_record {R : Type} (idf : R → Int) (x : Int) :
    ∀ (M : List R), (M.map idf).Nodup → (∀ r ∈ M, idf r = x) → M = [] ∨ ∃ r, M = [r] := by
  intro M hnd hall
  cases M with
  | nil => exact Or.inl rfl
  | cons a rest =>
    cases rest with
    | nil => exact Or.inr ⟨a, rfl⟩
    | cons b rest1 =>
      rw [List.map_cons, List.nodup_cons] at hnd
      exfalso
      apply hnd.1
      rw [hall a (List.mem_cons_self _ _), ← hall b (List.mem_cons_of_mem _ (List.mem_cons_self _ _))]
      exact List.mem_map_of_mem _ (List.mem_cons_self _ _)

theorem cap_rows_accepted : accepted_rows [] cap_rows = cap_rows :=
  accepted_rows_all cap_rows [] cap_rows_valid cap_rows_ids (fun _ _ h => by cases h)

end Ledger

namespace Ledger

/-- C28, counterexample: the 606 transaction lines `cap_rows` (ids 0 to 605, seller 1, six
lines for each of the buyers 0 to 100) are all imported, and when the imported records are
recorded in the same order with `add_transaction`, some buyer has more than five recorded
transactions and is in no regular-buyer set: the set of seller 1 holds at most `MAX_BUYERS`
ids, and 101 buyers have six transactions each. -/
theorem C28_counterexample :
    ∃ ts st oks st1 G1 b, load_transactions_from_file State.init cap_rows = some (ts, st) ∧
      ts.map line_fields = cap_rows ∧
      run_adds State.init ts = some (oks, st1) ∧
      traverse st1.global_transaction_tree = some G1 ∧
      5 < recorded G1 b ∧ ∀ s ∈ st1.seller_mem, b ∉ regulars s := by
  obtain ⟨ts, st, hload, hinv, hrows⟩ := load_spec cap_rows State.init [] Loaded_init
    (by
      rw [List.length_nil, List.map_nil, Nat.zero_add, cap_rows_accepted, cap_rows_length]
      show 606 ≤ 1000
      omega)
  rw [List.nil_append] at hinv
  have hrows : ts.map line_fields = cap_rows := hrows.trans cap_rows_accepted
  have hlen : ts.length = 606 := by
    rw [← List.length_map ts line_fields, hrows, cap_rows_length]
  obtain ⟨oks, st1, G1, hrun, hinv1, _, _, hperm⟩ := run_adds_all ts State.init [] Inv_init
    Reach.init hinv.distinct (fun e he => by cases he)
    (by
      rw [List.length_nil, Nat.zero_add, hlen]
      show 606 ≤ 1000
      omega)
  rw [List.append_nil] at hperm
  obtain ⟨G2, hinv2, _, hsel⟩ := run_adds_loyal ts State.init [] oks st1 Inv_init
    (fun b hb => by
      have h0 : recorded ([] : List (Int × Transaction)) b = 0 := rfl
      rw [h0] at hb
      exact absurd hb (by decide)) hrun
  have hrec : ∀ k ∈ List.range 101, 5 < recorded G1 (k : Int) := by
    intro k hk
    rw [recorded_perm hperm, recorded_bought, bought_rows, hrows, cap_rows_bought k hk]
    decide
  have hone : ∀ s ∈ st1.seller_mem, s.seller_id = 1 := by
    intro s hs
    rcases hsel s hs with ⟨s0, hs0, _⟩ | hm
    · cases hs0
    · obtain ⟨t, ht, hid⟩ := List.mem_map.mp hm
      rw [← hid]
      exact cap_rows_seller (line_fields t) (by rw [← hrows]; exact List.mem_map_of_mem _ ht)
  refine ⟨ts, st, oks, st1, G1, ?_⟩
  by_contra hno
  have hin : ∀ k ∈ List.range 101, ∃ s ∈ st1.seller_mem, (k : Int) ∈ regulars s := by
    intro k hk
    by_contra h1
    apply hno
    refine ⟨(k : Int), hload, hrows, hrun, traverse_spec _ _ hinv1.global, hrec k hk, ?_⟩
    intro s hs hm
    exact h1 ⟨s, hs, hm⟩
  obtain ⟨_, _, _, _, hnds⟩ := hinv1.sellers
  rcases single_record SellerKey.seller_id 1 st1.seller_mem hnds hone with h0 | ⟨s, hs⟩
  · obtain ⟨s, hs, _⟩ := hin 0 (by decide)
    rw [h0] at hs
    cases hs
  · have hsm : s ∈ st1.seller_mem := by rw [hs]; exact List.mem_singleton_self _
    have hsub : (List.range 101).map (fun (k : Nat) => (k : Int)) ⊆ regulars s := by
      intro x hx
      obtain ⟨k, hk, hkx⟩ := List.mem_map.mp hx
      obtain ⟨s1, hs1, hm⟩ := hin k hk
      rw [hs, List.mem_singleton] at hs1
      rw [← hkx, ← hs1]
      exact hm
    have hnd : ((List.range 101).map (fun (k : Nat) => (k : Int))).Nodup :=
      (List.nodup_range 101).map (fun a b h => Int.ofNat.inj h)
    have hle := (List.subperm_of_subset hnd hsub).length_le
    have hok := hinv1.seller_ok s hsm
    rw [List.length_map, List.length_range, regulars_length hok] at hle
    have hcap := hok.2.2
    have hmax : MAX_BUYERS = 100 := rfl
    omega

/-- C28, amended: the import does not apply the loyalty rule.  For every list of parsed
transaction lines (with or without valid datetimes, any ids, no `# Sellers` line) of which
at most `MAX_TRANSACTIONS` are accepted, so that the store has a slot for every record,
loaded into the empty state: the import runs through; the records `ts` that it builds are, in
order and field by field, the accepted lines (those with a datetime that `validate_datetime`
accepts and an id that no earlier accepted line has); afterwards the global index holds
these records, every seller's regular-buyer set is empty and its count is 0, however many
transactions a buyer has, and the total price of every imported record is its energy times
its price per kWh, without the factor 0.95.  Recording the same records in the same order
with `add_transaction` records them all, and afterwards every buyer with more than five
transactions is in a regular-buyer set, unless a seller of one of its transactions has a full
set (`MAX_BUYERS` ids).  Amounts are exact rationals. -/
theorem C28_import_skips_loyalty (rows : List ExportRow)
    (hcap : (accepted_rows [] rows).length ≤ MAX_TRANSACTIONS) :
    ∃ ts st G, load_transactions_from_file State.init rows = some (ts, st) ∧
      ts.map line_fields = accepted_rows [] rows ∧
      traverse st.global_transaction_tree = some G ∧
      G.Perm (ts.map fun t => (t.transaction_id, t)) ∧
      (∀ s ∈ st.seller_mem, regulars s = [] ∧ s.regular_buyer_count = 0) ∧
      (∀ t ∈ ts, t.total_price = t.energy_kwh * t.price_per_kwh) ∧
      ∃ oks st1 G1, run_adds State.init ts = some (oks, st1) ∧
        traverse st1.global_transaction_tree = some G1 ∧ G1.Perm G ∧
        (∀ ok ∈ oks, ok = true) ∧
        ∀ b, 5 < recorded G1 b →
          (∃ s ∈ st1.seller_mem, b ∈ regulars s) ∨
          (∃ s ∈ st1.seller_mem, s.regular_buyer_count = MAX_BUYERS ∧
            ∃ e ∈ G1, e.2.buyer_id = b ∧ e.2.seller_id = s.seller_id) := by
  obtain ⟨ts, st, hload, hinv, hrows⟩ := load_spec rows State.init [] Loaded_init
    (by
      rw [List.length_nil, List.map_nil, Nat.zero_add]
      exact hcap)
  rw [List.nil_append] at hinv
  have hrows1 : ts.map line_fields = accepted_rows [] rows := hrows
  have hlen : ts.length ≤ MAX_TRANSACTIONS := by
    rw [← List.length_map ts line_fields, hrows1]
    exact hcap
  obtain ⟨G, hwG, hpermG⟩ := hinv.global
  obtain ⟨oks, st1, G1, hrun, hinv1, _, hoks, hperm⟩ := run_adds_all ts State.init [] Inv_init
    Reach.init hinv.distinct (fun e he => by cases he)
    (by rw [List.length_nil, Nat.zero_add]; exact hlen)
  rw [List.append_nil] at hperm
  obtain ⟨G2, hinv2, hq, _⟩ := run_adds_loyal ts State.init [] oks st1 Inv_init
    (fun b hb => by
      have h0 : recorded ([] : List (Int × Transaction)) b = 0 := rfl
      rw [h0] at hb
      exact absurd hb (by decide)) hrun
  have hG : G2 = G1 := by
    have h1 := traverse_spec _ _ hinv1.global
    rw [traverse_spec _ _ hinv2.global] at h1
    exact Option.some.inj h1
  rw [hG] at hq
  refine ⟨ts, st, G, hload, hrows1, traverse_spec _ _ hwG, hpermG, ?_, hinv.undiscounted,
    oks, st1, G1, hrun, traverse_spec _ _ hinv1.global, hperm.trans hpermG.symm, hoks, hq⟩
  intro s hs
  have h0 := (hinv.seller_ok s hs).2
  refine ⟨?_, h0⟩
  unfold regulars
  rw [h0]
  rfl

/-- C28 for the file `six_rows`: the six lines with the ids 1 to 6 are imported and the two
others skipped; after the import the set of seller 3 is empty and every record has the total
price 38, the tiered price of 400 kWh; after the same six records have been recorded with
`add_transaction`, buyer 7 is in the set of seller 3. -/
theorem C28_import_skips_loyalty_witness :
    ∃ ts st oks st1, load_transactions_from_file State.init six_rows = some (ts, st) ∧
      ts.map line_fields =
        [⟨1, 7, 3, 400, 1 / 10, 8 / 100, "2024-01-01 10:00"⟩,
          ⟨2, 7, 3, 400, 1 / 10, 8 / 100, "2024-01-02 10:00"⟩,
          ⟨3, 7, 3, 400, 1 / 10, 8 / 100, "2024-01-03 10:00"⟩,
          ⟨4, 7, 3, 400, 1 / 10, 8 / 100, "2024-01-04 10:00"⟩,
          ⟨5, 7, 3, 400, 1 / 10, 8 / 100, "2024-01-05 10:00"⟩,
          ⟨6, 7, 3, 400, 1 / 10, 8 / 100, "2024-01-06 10:00"⟩] ∧
      (∀ s ∈ st.seller_mem, regulars s = [] ∧ s.regular_buyer_count = 0) ∧
      st.seller_mem.map SellerKey.seller_id = [3] ∧
      ts.map Transaction.total_price = [38, 38, 38, 38, 38, 38] ∧
      run_adds State.init ts = some (oks, st1) ∧ (∀ ok ∈ oks, ok = true) ∧
      st1.seller_mem.map (fun s => (s.seller_id, regulars s)) = [(3, [7])] := by
  have key : (load_transactions_from_file State.init six_rows).bind
      (fun r => (run_adds State.init r.1).map fun r1 =>
        (r.2.seller_mem.map SellerKey.seller_id, r.1.map Transaction.total_price,
          r1.2.seller_mem.map fun s => (s.seller_id, regulars s))) =
      some ([3], [38, 38, 38, 38, 38, 38], [(3, [7])]) := by
    decide!
  have hacc : accepted_rows [] six_rows =
      [⟨1, 7, 3, 400, 1 / 10, 8 / 100, "2024-01-01 10:00"⟩,
        ⟨2, 7, 3, 400, 1 / 10, 8 / 100, "2024-01-02 10:00"⟩,
        ⟨3, 7, 3, 400, 1 / 10, 8 / 100, "2024-01-03 10:00"⟩,
        ⟨4, 7, 3, 400, 1 / 10, 8 / 100, "2024-01-04 10:00"⟩,
        ⟨5, 7, 3, 400, 1 / 10, 8 / 100, "2024-01-05 10:00"⟩,
        ⟨6, 7, 3, 400, 1 / 10, 8 / 100, "2024-01-06 10:00"⟩] := by
    decide!
  obtain ⟨ts, st, G, hload, hrows, _, _, hreg, _, oks, st1, G1, hrun, _, _, hoks, _⟩ :=
    C28_import_skips_loyalty six_rows (by rw [hacc]; decide)
  rw [hload] at key
  simp only [Option.some_bind, hrun, Option.map_some', Option.some.injEq,
    Prod.mk.injEq] at key
  obtain ⟨k1, k2, k3⟩ := key
  exact ⟨ts, st, oks, st1, hload, hrows.trans hacc, hreg, k1, k2, hrun, hoks, k3⟩

end Ledger
